import Mathlib

/-!
# Agate phonon modes: a shallow embedding of `src/phonons/phononmode.cpp`

The class `PhononMode` is embedded as a record of its data members and every
member function as a function on that record.  Conventions of the embedding:

* `double` is an arbitrary linearly ordered field `R` (exact arithmetic), and
  `std::complex<double>` is the pair type `Cx R`.
* Everything the translation unit uses but does not define (`sqrt`, the physical
  constants of `base/phys.hpp`, the periodic table, `geometry::mat3dind`,
  `geometry::det`, Eigen's self-adjoint eigen-solver) is a field of `Env`.
* The dataset class `Ddb` is a record of the accessors the code calls.
* A C++ exception is a value of `Exception`; a member function that can throw
  returns `Except Exception _`.
* `unsigned` products that can wrap in a run that reaches them are reduced modulo
  `2 ^ 32` (`u32`): these are the `9 N²` of the record-count check, the buffer size
  and the buffer indices of `lin_res`, and the two buffer offsets of
  `computeAllEigen`.  The index products `3 N`, `3 i + d` are exact: a `3 N × 3 N`
  complex matrix with `3 N ≥ 2 ^ 32` cannot be allocated.
* A caller buffer (`double *`, `complex *`) is an `Option` of a function on the
  indices, `none` being `nullptr`; a function that writes to caller buffers returns
  them, also when it throws (`AllEigenResult`).
* Storage that C++ leaves uninitialised keeps whatever the model had there
  (a fresh object has zeros).
* An Eigen assignment of a coefficient-wise expression builds no temporary: the
  symmetrisation of `computeEigen` is the in-place loop `symmetrize`.  The
  self-adjoint eigen-solver reads the lower triangle of its argument only
  (`selfadjointLower`).
* A division by zero, which IEEE arithmetic answers with an infinity or a NaN, has
  the value 0 of the field.  Step 2 of `lin_res` also has a watched twin,
  `tauLoopChecked`, which is `none` when one of its divisors is zero; no other value
  stated below depends on a division by zero.
-/

set_option linter.unusedSectionVars false
set_option linter.unusedVariables false

namespace Agate

/-! ## Complex numbers over an exact field -/

/-- Pair of real and imaginary part, the model of `std::complex<double>`. -/
structure Cx (R : Type) where
  re : R
  im : R
deriving DecidableEq

namespace Cx

variable {R : Type}

theorem ext_iff' {z w : Cx R} : z = w ↔ z.re = w.re ∧ z.im = w.im := by
  cases z; cases w; simp

instance [Zero R] : Zero (Cx R) := ⟨⟨0, 0⟩⟩
instance [Zero R] [One R] : One (Cx R) := ⟨⟨1, 0⟩⟩
instance [Add R] : Add (Cx R) := ⟨fun z w => ⟨z.re + w.re, z.im + w.im⟩⟩
instance [Neg R] : Neg (Cx R) := ⟨fun z => ⟨-z.re, -z.im⟩⟩
instance [Add R] [Sub R] [Mul R] : Mul (Cx R) :=
  ⟨fun z w => ⟨z.re * w.re - z.im * w.im, z.re * w.im + z.im * w.re⟩⟩

@[simp] theorem zero_re [Zero R] : (0 : Cx R).re = 0 := rfl
@[simp] theorem zero_im [Zero R] : (0 : Cx R).im = 0 := rfl
@[simp] theorem one_re [Zero R] [One R] : (1 : Cx R).re = 1 := rfl
@[simp] theorem one_im [Zero R] [One R] : (1 : Cx R).im = 0 := rfl
@[simp] theorem add_re [Add R] (z w : Cx R) : (z + w).re = z.re + w.re := rfl
@[simp] theorem add_im [Add R] (z w : Cx R) : (z + w).im = z.im + w.im := rfl
@[simp] theorem neg_re [Neg R] (z : Cx R) : (-z).re = -z.re := rfl
@[simp] theorem neg_im [Neg R] (z : Cx R) : (-z).im = -z.im := rfl
@[simp] theorem mul_re [Add R] [Sub R] [Mul R] (z w : Cx R) :
    (z * w).re = z.re * w.re - z.im * w.im := rfl
@[simp] theorem mul_im [Add R] [Sub R] [Mul R] (z w : Cx R) :
    (z * w).im = z.re * w.im + z.im * w.re := rfl

instance instCommRing [CommRing R] : CommRing (Cx R) :=
  CommRing.ofMinimalAxioms
    (by intro a b c; apply ext_iff'.2; constructor <;> simp <;> ring)
    (by intro a; apply ext_iff'.2; constructor <;> simp)
    (by intro a; apply ext_iff'.2; constructor <;> simp)
    (by intro a b c; apply ext_iff'.2; constructor <;> simp <;> ring)
    (by intro a b; apply ext_iff'.2; constructor <;> simp <;> ring)
    (by intro a; apply ext_iff'.2; constructor <;> simp)
    (by intro a b c; apply ext_iff'.2; constructor <;> simp <;> ring)

@[simp] theorem sub_re [CommRing R] (z w : Cx R) : (z - w).re = z.re - w.re := by
  rw [sub_eq_add_neg, add_re, neg_re, ← sub_eq_add_neg]

@[simp] theorem sub_im [CommRing R] (z w : Cx R) : (z - w).im = z.im - w.im := by
  rw [sub_eq_add_neg, add_im, neg_im, ← sub_eq_add_neg]

/-- Complex conjugate, `std::conj`. -/
def conj [Neg R] (z : Cx R) : Cx R := ⟨z.re, -z.im⟩

/-- A complex number times a `double`, `operator*(complex, double)`. -/
def scale [Mul R] (z : Cx R) (r : R) : Cx R := ⟨z.re * r, z.im * r⟩

/-- A complex number divided by a `double`, `operator/(complex, double)`. -/
def divReal [Div R] (z : Cx R) (r : R) : Cx R := ⟨z.re / r, z.im / r⟩

/-- A `double` seen as a complex number. -/
def ofReal [Zero R] (r : R) : Cx R := ⟨r, 0⟩

/-- Squared modulus, `std::norm`. -/
def normSq [Add R] [Mul R] (z : Cx R) : R := z.re * z.re + z.im * z.im

end Cx

/-! ## Containers, collaborators and the object state -/

/-- Wrap-around of an `unsigned` (32 bit) value. -/
def u32 (x : Nat) : Nat := x % 2 ^ 32

/-- Dense matrix with run-time dimensions (`Eigen::Matrix<_, Dynamic, Dynamic>`):
the dimensions and the coefficient at every (row, column). -/
structure Mat (α : Type) where
  rows : Nat
  cols : Nat
  data : Nat → Nat → α

/-- Coefficient read `M(r, c)`. -/
def Mat.get {α : Type} (M : Mat α) (r c : Nat) : α := M.data r c

/-- Coefficient write `M(r, c) = v`. -/
def Mat.set {α : Type} (M : Mat α) (r c : Nat) (v : α) : Mat α :=
  { M with data := fun i j => if i = r ∧ j = c then v else M.data i j }

/-- Model of `M.resize(r, c)`: new dimensions, coefficients left as they are. -/
def Mat.resize {α : Type} (M : Mat α) (r c : Nat) : Mat α :=
  { M with rows := r, cols := c }

/-- Matrix of the given dimensions with every coefficient equal to `v`. -/
def Mat.fill {α : Type} (r c : Nat) (v : α) : Mat α :=
  { rows := r, cols := c, data := fun _ _ => v }

/-- Model of `M.any()` for a mask: some coefficient inside the dimensions is set. -/
def Mat.any (M : Mat Bool) : Bool :=
  (List.range M.rows).any fun r => (List.range M.cols).any fun c => M.data r c

/-- Vector with run-time length (`std::vector`, `Eigen::VectorXd`). -/
structure Vec (α : Type) where
  size : Nat
  data : Nat → α

/-- Element read `v[i]`. -/
def Vec.get {α : Type} (v : Vec α) (i : Nat) : α := v.data i

/-- Element write `v[i] = x`. -/
def Vec.set {α : Type} (v : Vec α) (i : Nat) (x : α) : Vec α :=
  { v with data := fun j => if j = i then x else v.data j }

/-- Model of `v.resize(n)`: new length, elements left as they are. -/
def Vec.resize {α : Type} (v : Vec α) (n : Nat) : Vec α :=
  { v with size := n }

/-- Model of `std::vector::resize(n)`: the elements below the old length are kept,
the new ones are value-initialised (zero). -/
def Vec.resizeZero {α : Type} [Zero α] (v : Vec α) (n : Nat) : Vec α :=
  { size := n, data := fun i => if i < v.size then v.data i else 0 }

/-- Vector of length `n` with every element equal to `x`. -/
def Vec.fill {α : Type} (n : Nat) (x : α) : Vec α :=
  { size := n, data := fun _ => x }

/-- Model of `geometry::vec3d`, three doubles. -/
structure Vec3 (R : Type) where
  x : R
  y : R
  z : R
deriving DecidableEq

/-- Element read `v[k]` of a `vec3d`. -/
def Vec3.get {R : Type} (v : Vec3 R) (k : Nat) : R :=
  if k = 0 then v.x else if k = 1 then v.y else v.z

/-- Texts of the exceptions this translation unit raises or appends. -/
inductive Msg where
  /-- "You must initialize the number of atom (natom) before setting the dynamical matrix" -/
  | natomNotInitialized
  /-- "Size mismatche in ddb: expected at least E elements and got G" -/
  | sizeMismatch (expected got : Nat)
  /-- "Missing some data in the DDB" -/
  | missingData
  /-- "ASR Can not been applied since it has not been calculated" -/
  | asrNotComputed
  /-- "NEGATIVE PHONON FREQUENCY FOUND: ..." -/
  | negativeFrequency
  /-- "Abording" -/
  | abording
  /-- "Can not calculate dynamical matrix for gamma q-pt -> Abording." -/
  | noGammaMatrix
  /-- Any text raised by the dataset collaborator. -/
  | collaborator (code : Nat)
deriving DecidableEq, Repr

/-- Something thrown: an Agate `Exception` with its stack of texts (oldest first),
or the `std::out_of_range` of `std::vector::at`. -/
inductive Exception where
  | agate (trace : List Msg)
  | stdOutOfRange
deriving DecidableEq, Repr

/-- Model of `catch (Exception& e) { e.ADD(m, ERRDIV); throw e; }`: an Agate exception
gets the text appended, anything else passes through the handler untouched. -/
def Exception.ADD (e : Exception) (m : Msg) : Exception :=
  match e with
  | .agate t => .agate (t ++ [m])
  | .stdOutOfRange => .stdOutOfRange

/-- Model of `EXCEPTION(m, ERRDIV)`: a fresh Agate exception. -/
def EXCEPTION (m : Msg) : Exception := .agate [m]

/-- One record `Ddb::d2der`: the four indices `first[0..3]`
(dir1, atom1, dir2, atom2) and the complex value `second`. -/
structure D2der (R : Type) where
  first : Nat × Nat × Nat × Nat
  second : Cx R

/-- The accessors of the dataset class `Ddb` that this translation unit calls. -/
structure Ddb (R : Type) where
  natom : Nat
  gprim : Nat → R
  rprim : Nat → R
  isNormalized : Bool
  znucl : List Nat
  typat : List Nat
  getDdb : Vec3 R → Except Exception (List (D2der R))
  getZeff : Nat → Except Exception (Nat → R)
  getQpts : List (Vec3 R)

/-- What the translation unit uses and does not define: `sqrt` of `<cmath>`, the
constants of `base/phys.hpp`, `MendeTable.mass`, `geometry::mat3dind`, and
`Eigen::SelfAdjointEigenSolver` (dimension and matrix to eigenvalues and matrix of
eigenvector columns). -/
structure Env (R : Type) where
  sqrt : R → R
  amu_emass : R
  A2b : R
  Ha2THz : R
  fac : R
  mass : Nat → R
  mat3dind : Nat → Nat → Nat
  solver : Nat → (Nat → Nat → Cx R) → (Nat → R) × (Nat → Nat → Cx R)

/-- The data members of `PhononMode`. -/
structure PhononMode (R : Type) where
  _natom : Nat
  _hasASR : Bool
  _qpt : Vec3 R
  _d2cart : Mat (Cx R)
  _eigenVec : Mat (Cx R)
  _eigenDisp : Mat (Cx R)
  _frequencies : Vec R
  _gprim : Nat → Nat → R
  _rprim : Nat → Nat → R
  _asr : Mat (Cx R)
  _zeff : Vec (Nat → R)
  _mass : Vec R

/-- Run `body 0`, ..., `body (n-1)` in order: `for (i = 0; i < n; ++i)`. -/
def forRange {σ : Type} (n : Nat) (body : Nat → σ → σ) (s : σ) : σ :=
  (List.range n).foldl (fun acc i => body i acc) s

/-- Run `body a`, ..., `body (n-1)` in order: `for (i = a; i < n; ++i)`. -/
def forFrom {σ : Type} (a n : Nat) (body : Nat → σ → σ) (s : σ) : σ :=
  (List.range' a (n - a)).foldl (fun acc i => body i acc) s

/-- A `for (i = 0; i < n; ++i)` loop whose body can throw: the first exception
leaves the loop. -/
def forRangeE {σ : Type} (n : Nat) (body : Nat → σ → Except Exception σ) (s : σ) :
    Except Exception σ :=
  (List.range n).foldlM (fun acc i => body i acc) s

/-! ## Construction, resizing and assembly of the cartesian matrix -/

section Model

variable {R : Type} [LinearOrderedField R]

/-- Constructor `PhononMode::PhononMode()`. -/
def PhononMode.new0 : PhononMode R :=
  { _natom := 0
    _hasASR := false
    _qpt := ⟨0, 0, 0⟩
    _d2cart := Mat.fill 0 0 0
    _eigenVec := Mat.fill 0 0 0
    _eigenDisp := Mat.fill 0 0 0
    _frequencies := Vec.fill 0 0
    _gprim := fun _ _ => 0
    _rprim := fun _ _ => 0
    _asr := Mat.fill 0 0 0
    _zeff := Vec.fill 0 0
    _mass := Vec.fill 0 0 }

/-- Constructor `PhononMode::PhononMode(unsigned natom)`. -/
def PhononMode.new (natom : Nat) : PhononMode R :=
  { _natom := natom
    _hasASR := false
    _qpt := ⟨0, 0, 0⟩
    _d2cart := Mat.fill (3 * natom) (3 * natom) 0
    _eigenVec := Mat.fill (3 * natom) (3 * natom) 0
    _eigenDisp := Mat.fill (3 * natom) (3 * natom) 0
    _frequencies := Vec.fill 0 0
    _gprim := fun _ _ => 0
    _rprim := fun _ _ => 0
    _asr := Mat.fill 0 0 0
    _zeff := Vec.fill 0 0
    _mass := Vec.fill natom 0 }

/-- Member `PhononMode::resize(const unsigned natom)`. -/
def PhononMode.resize (s : PhononMode R) (natom : Nat) : PhononMode R :=
  { s with
    _natom := natom
    _d2cart := s._d2cart.resize (3 * natom) (3 * natom)
    _eigenVec := s._eigenVec.resize (3 * natom) (3 * natom)
    _eigenDisp := s._eigenDisp.resize (3 * natom) (3 * natom)
    _frequencies := s._frequencies.resize (3 * natom)
    _zeff := s._zeff.resizeZero natom
    _mass := s._mass.resizeZero natom }

/-- Component `k` of `_gprim * (v0, v1, v2)`: a real 3x3 matrix times a complex
3-vector. -/
def gmul (G : Nat → Nat → R) (v0 v1 v2 : Cx R) (k : Nat) : Cx R :=
  v0.scale (G k 0) + v1.scale (G k 1) + v2.scale (G k 2)

/-- Body of the record loop of `computeForceCst`: a record whose indices are in
range is stored at (atom2*3+dir2, atom1*3+dir1) and clears the mask there; any
other record is skipped. -/
def ingest (natom : Nat) (acc : Mat (Cx R) × Mat Bool) (elt : D2der R) :
    Mat (Cx R) × Mat Bool :=
  let idir1 := elt.first.1
  let ipert1 := elt.first.2.1
  let idir2 := elt.first.2.2.1
  let ipert2 := elt.first.2.2.2
  if ¬ (idir1 < 3 ∧ idir2 < 3 ∧ ipert1 < natom ∧ ipert2 < natom) then acc
  else (acc.1.set (ipert2 * 3 + idir2) (ipert1 * 3 + idir1) elt.second,
        acc.2.set (ipert2 * 3 + idir2) (ipert1 * 3 + idir1) false)

/-- Innermost body of the first basis-change loop: the three entries
(row, col0), (row, col0+1), (row, col0+2) are replaced by `_gprim` times them. -/
def lineStep (G : Nat → Nat → R) (row col0 : Nat) (M : Mat (Cx R)) : Mat (Cx R) :=
  let d0 := M.get row col0
  let d1 := M.get row (col0 + 1)
  let d2 := M.get row (col0 + 2)
  ((M.set row col0 (gmul G d0 d1 d2 0)).set row (col0 + 1) (gmul G d0 d1 d2 1)).set
    row (col0 + 2) (gmul G d0 d1 d2 2)

/-- Innermost body of the second basis-change loop: the three entries
(row0, col), (row0+1, col), (row0+2, col) are replaced by `_gprim` times them. -/
def columnStep (G : Nat → Nat → R) (row0 col : Nat) (M : Mat (Cx R)) : Mat (Cx R) :=
  let d0 := M.get row0 col
  let d1 := M.get (row0 + 1) col
  let d2 := M.get (row0 + 2) col
  ((M.set row0 col (gmul G d0 d1 d2 0)).set (row0 + 1) col (gmul G d0 d1 d2 1)).set
    (row0 + 2) col (gmul G d0 d1 d2 2)

/-- First loop nest of the basis change ("lines"). -/
def basisLines (G : Nat → Nat → R) (natom : Nat) (M : Mat (Cx R)) : Mat (Cx R) :=
  forRange natom (fun ipert2 =>
    forRange 3 (fun idir2 =>
      forRange natom (fun ipert1 => lineStep G (ipert2 * 3 + idir2) (ipert1 * 3)))) M

/-- Second loop nest of the basis change ("columns"). -/
def basisColumns (G : Nat → Nat → R) (natom : Nat) (M : Mat (Cx R)) : Mat (Cx R) :=
  forRange natom (fun ipert2 =>
    forRange natom (fun ipert1 =>
      forRange 3 (fun idir1 => columnStep G (ipert2 * 3) (ipert1 * 3 + idir1)))) M

/-- One statement `_d2cart(r, c) -= _asr(r, k)` of `applyASR`. -/
def subAt (asr : Mat (Cx R)) (r c k : Nat) (M : Mat (Cx R)) : Mat (Cx R) :=
  M.set r c (M.get r c - asr.get r k)

/-- Loop body of `applyASR` for one atom. -/
def applyASRStep (asr : Mat (Cx R)) (ipert1 : Nat) (M : Mat (Cx R)) : Mat (Cx R) :=
  let iblock1 := ipert1 * 3
  let M := subAt asr iblock1 iblock1 0 M
  let M := subAt asr iblock1 (iblock1 + 1) 1 M
  let M := subAt asr iblock1 (iblock1 + 2) 2 M
  let M := subAt asr (iblock1 + 1) (iblock1 + 0) 0 M
  let M := subAt asr (iblock1 + 1) (iblock1 + 1) 1 M
  let M := subAt asr (iblock1 + 1) (iblock1 + 2) 2 M
  let M := subAt asr (iblock1 + 2) (iblock1 + 0) 0 M
  let M := subAt asr (iblock1 + 2) (iblock1 + 1) 1 M
  subAt asr (iblock1 + 2) (iblock1 + 2) 2 M

/-- Member `PhononMode::applyASR()`. -/
def PhononMode.applyASR (s : PhononMode R) : Except Exception (PhononMode R) :=
  if ¬ s._hasASR then .error (EXCEPTION .asrNotComputed)
  else .ok { s with _d2cart := forRange s._natom (applyASRStep s._asr) s._d2cart }

/-- Member `PhononMode::computeForceCst(const std::vector<Ddb::d2der>& ddb)`. -/
def PhononMode.computeForceCst (s : PhononMode R) (ddb : List (D2der R)) :
    Except Exception (PhononMode R) :=
  if s._natom = 0 then .error (EXCEPTION .natomNotInitialized)
  else if u32 (s._natom * s._natom * 9) > ddb.length then
    .error (EXCEPTION (.sizeMismatch (u32 (s._natom * s._natom * 9)) ddb.length))
  else
    let check : Mat Bool := Mat.fill (3 * s._natom) (3 * s._natom) true
    let acc := ddb.foldl (ingest s._natom) (s._d2cart, check)
    if acc.2.any then .error (EXCEPTION .missingData)
    else
      let M := basisColumns s._gprim s._natom (basisLines s._gprim s._natom acc.1)
      let s1 := { s with _d2cart := M }
      if s1._hasASR then s1.applyASR else .ok s1

/-- The expression `ddb.znucl().at(ddb.typat().at(iatom)-1)`: atom types start at 1, a
type 0 gives the index -1, which `at` rejects like any other index out of range. -/
def znuclOf (ddb : Ddb R) (iatom : Nat) : Except Exception Nat :=
  match ddb.typat[iatom]? with
  | none => .error .stdOutOfRange
  | some t =>
    if t = 0 then .error .stdOutOfRange
    else
      match ddb.znucl[t - 1]? with
      | none => .error .stdOutOfRange
      | some z => .ok z

/-- Body of the mass loop of `computeForceCst(qpt, ddb)`. -/
def massStep (env : Env R) (ddb : Ddb R) (isNormalized : Bool) (iatom : Nat)
    (s : PhononMode R) : Except Exception (PhononMode R) :=
  if isNormalized then .ok { s with _mass := s._mass.set iatom 1 }
  else
    match znuclOf ddb iatom with
    | .error e => .error e
    | .ok z => .ok { s with _mass := s._mass.set iatom (env.mass z * env.amu_emass) }

/-- Member `PhononMode::computeForceCst(const geometry::vec3d& qpt, const Ddb& ddb)`. -/
def PhononMode.computeForceCstAt (env : Env R) (s : PhononMode R) (qpt : Vec3 R)
    (ddb : Ddb R) : Except Exception (PhononMode R) :=
  let s1 := s.resize ddb.natom
  let s2 := { s1 with _gprim := fun r c => ddb.gprim (3 * r + c), _qpt := qpt }
  let isNormalized := ddb.isNormalized
  match forRangeE s2._natom (massStep env ddb isNormalized) s2 with
  | .error e => .error e
  | .ok s3 =>
    match ddb.getDdb qpt with
    | .error e => .error (e.ADD .abording)
    | .ok recs =>
      match s3.computeForceCst recs with
      | .error e => .error (e.ADD .abording)
      | .ok s4 => .ok s4

/-- One statement `_asr(r, k) += phononGamma._d2cart(r, c)` of `computeASR`. -/
def addAt (D : Mat (Cx R)) (r k c : Nat) (A : Mat (Cx R)) : Mat (Cx R) :=
  A.set r k (A.get r k + D.get r c)

/-- Innermost loop body of `computeASR` for one ordered pair of atoms. -/
def computeASRStep (D : Mat (Cx R)) (ipert1 ipert2 : Nat) (A : Mat (Cx R)) : Mat (Cx R) :=
  let iblock1 := ipert1 * 3
  let iblock2 := ipert2 * 3
  let A := addAt D iblock1 0 iblock2 A
  let A := addAt D iblock1 1 (iblock2 + 1) A
  let A := addAt D iblock1 2 (iblock2 + 2) A
  let A := addAt D (iblock1 + 1) 0 (iblock2 + 0) A
  let A := addAt D (iblock1 + 1) 1 (iblock2 + 1) A
  let A := addAt D (iblock1 + 1) 2 (iblock2 + 2) A
  let A := addAt D (iblock1 + 2) 0 (iblock2 + 0) A
  let A := addAt D (iblock1 + 2) 1 (iblock2 + 1) A
  addAt D (iblock1 + 2) 2 (iblock2 + 2) A

/-- Member `PhononMode::computeASR(const Ddb& ddb)`. -/
def PhononMode.computeASR (env : Env R) (s : PhononMode R) (ddb : Ddb R) :
    Except Exception (PhononMode R) :=
  let s1 := s.resize ddb.natom
  let phononGamma : PhononMode R := PhononMode.new0
  match phononGamma.computeForceCstAt env ⟨0, 0, 0⟩ ddb with
  | .error e => .error (e.ADD .noGammaMatrix)
  | .ok phononGamma =>
    let asr0 : Mat (Cx R) := Mat.fill (3 * s1._natom) 3 0
    let asr := forRange s1._natom (fun ipert1 =>
      forRange s1._natom (fun ipert2 => computeASRStep phononGamma._d2cart ipert1 ipert2)) asr0
    .ok { s1 with _asr := asr, _hasASR := true }

/-! ## Diagonalisation -/

/-- Body of an inner loop of the dynamical-matrix build, for the row `iblock1*3+k` and
the column block `iblock2`: three entries of `_d2cart` times
`1/sqrt(mass1*_mass[iblock2])`. -/
def dynStep (env : Env R) (s : PhononMode R) (iblock1 k iblock2 : Nat) (dynMat : Mat (Cx R)) :
    Mat (Cx R) :=
  let mass1 := s._mass.get iblock1
  let invsqrtM1M2 := 1 / env.sqrt (mass1 * s._mass.get iblock2)
  let dynMat := dynMat.set (iblock1 * 3 + k) (iblock2 * 3)
    ((s._d2cart.get (iblock1 * 3 + k) (iblock2 * 3)).scale invsqrtM1M2)
  let dynMat := dynMat.set (iblock1 * 3 + k) (iblock2 * 3 + 1)
    ((s._d2cart.get (iblock1 * 3 + k) (iblock2 * 3 + 1)).scale invsqrtM1M2)
  dynMat.set (iblock1 * 3 + k) (iblock2 * 3 + 2)
    ((s._d2cart.get (iblock1 * 3 + k) (iblock2 * 3 + 2)).scale invsqrtM1M2)

/-- One of the three inner loops of the dynamical-matrix build (row `iblock1*3+k`). -/
def dynRow (env : Env R) (s : PhononMode R) (iblock1 k : Nat) (dynMat : Mat (Cx R)) :
    Mat (Cx R) :=
  forRange s._natom (dynStep env s iblock1 k) dynMat

/-- The mass-weighted matrix built by the first loop nest of `computeEigen`. -/
def buildDynMat (env : Env R) (s : PhononMode R) : Mat (Cx R) :=
  forRange s._natom (fun iblock1 dynMat =>
    dynRow env s iblock1 2 (dynRow env s iblock1 1 (dynRow env s iblock1 0 dynMat)))
    (Mat.fill (3 * s._natom) (3 * s._natom) 0)

/-- One coefficient of the assignment `dynMat = (dynMat + dynMat.adjoint())*0.5`:
`dynMat(i, j)` becomes half the sum of `dynMat(i, j)` and the conjugate of
`dynMat(j, i)`, both read from the matrix as it is at that moment. -/
def symStep (i j : Nat) (M : Mat (Cx R)) : Mat (Cx R) :=
  M.set i j ((M.get i j + (M.get j i).conj).scale (1 / 2))

/-- The statement `dynMat = (dynMat + dynMat.adjoint())*0.5`.  The right-hand side is
a coefficient-wise expression and the statement has no `.eval()`, so Eigen builds no
temporary: it assigns in place, in the storage order of `dynMat` (column after column,
the rows inside a column), and the coefficient `(j, i)` read for `(i, j)` is already
overwritten when `i < j`. -/
def symmetrize (dynMat : Mat (Cx R)) : Mat (Cx R) :=
  forRange dynMat.cols (fun j M => forRange dynMat.rows (fun i M => symStep i j M) M) dynMat

/-- What `Eigen::SelfAdjointEigenSolver` reads of the matrix it is given: only the
lower triangular part is referenced, and the part above the diagonal is taken to be its
conjugate transpose. -/
def selfadjointLower (M : Mat (Cx R)) : Mat (Cx R) :=
  { M with data := fun i j => if j ≤ i then M.data i j else (M.data j i).conj }

/-- The matrix the eigen-solver of `computeEigen` decomposes: the lower triangle of the
local `dynMat`, which is `symmetrize (buildDynMat env s)` when the solver is
constructed. -/
def solverInput (env : Env R) (s : PhononMode R) : Mat (Cx R) :=
  selfadjointLower (symmetrize (buildDynMat env s))

/-- The frequency stored for an eigenvalue:
`( v < 0 ) ? -std::sqrt(-v) : std::sqrt(v)`. -/
def signedSqrt (env : Env R) (v : R) : R :=
  if v < 0 then -env.sqrt (-v) else env.sqrt v

/-- Loop body of the frequency loop of `computeEigen`: three entries at a time. -/
def freqStep (env : Env R) (eigenvalues : Nat → R) (imode : Nat) (f : Vec R) : Vec R :=
  let freq0 := eigenvalues (imode * 3)
  let freq1 := eigenvalues (imode * 3 + 1)
  let freq2 := eigenvalues (imode * 3 + 2)
  let f := f.set (imode * 3) (signedSqrt env freq0)
  let f := f.set (imode * 3 + 1) (signedSqrt env freq1)
  f.set (imode * 3 + 2) (signedSqrt env freq2)

/-- Eigen's `squaredNorm()` of column `imode` of a matrix with `n` rows. -/
def colSquaredNorm (n : Nat) (V : Mat (Cx R)) (imode : Nat) : R :=
  forRange n (fun i acc => acc + (V.get i imode).normSq) 0

/-- Eigen's `col(imode).normalized()`: the column over its norm, or the column
itself when its squared norm is not positive. -/
def normalizedCol (env : Env R) (n : Nat) (V : Mat (Cx R)) (imode : Nat) (i : Nat) : Cx R :=
  let z := colSquaredNorm n V imode
  if z > 0 then (V.get i imode).divReal (env.sqrt z) else V.get i imode

/-- Innermost body of the eigen-displacement loop nest: one component of the
normalised eigenvector times `1/sqrt(_mass[iatom/3])`. -/
def eigenDispStep (env : Env R) (s : PhononMode R) (imode iatom : Nat) (E : Mat (Cx R)) :
    Mat (Cx R) :=
  let mode := normalizedCol env (3 * s._natom) s._eigenVec imode
  let factor := 1 / env.sqrt (s._mass.get (iatom / 3))
  E.set imode iatom ((mode iatom).scale factor)

/-- The eigen-displacement loop nest of `computeEigen`: row `imode` is the
normalised eigenvector, each component times `1/sqrt(_mass[iatom/3])`. -/
def eigenDispLoop (env : Env R) (s : PhononMode R) (E : Mat (Cx R)) : Mat (Cx R) :=
  forRange (3 * s._natom) (fun imode =>
    forRange (3 * s._natom) (fun iatom => eigenDispStep env s imode iatom)) E

/-- The threshold `1e-7` of the cleanup. -/
def noiseEps : R := 1 / 10 ^ 7

/-- One part of a cleaned coefficient: `abs(x) > 1e-7 ? x : 0`. -/
def snap (x : R) : R := if |x| > noiseEps then x else 0

/-- Body of the cleanup loop for one coefficient. -/
def cleanStep (imode iatom : Nat) (E : Mat (Cx R)) : Mat (Cx R) :=
  let tmp := E.get imode iatom
  E.set imode iatom ⟨snap tmp.re, snap tmp.im⟩

/-- The cleanup loop nest of `computeEigen` ("Force all coeff smaller than 1e-7 to
be 0") on a matrix of dimension `n`. -/
def cleanup (n : Nat) (E : Mat (Cx R)) : Mat (Cx R) :=
  forRange n (fun imode E => forRange n (fun iatom E => cleanStep imode iatom E) E) E

/-- The part of `computeEigen` that changes the object: build and symmetrise the
mass-weighted matrix, solve, store frequencies and eigen-displacements. -/
def PhononMode.computeEigenState (env : Env R) (s : PhononMode R) : PhononMode R :=
  let dynMat := solverInput env s
  let sol := env.solver (3 * s._natom) dynMat.data
  let eigenvalues := sol.1
  let s1 := { s with _eigenVec := { rows := 3 * s._natom, cols := 3 * s._natom, data := sol.2 } }
  let s2 := { s1 with _frequencies := forRange s1._natom (freqStep env eigenvalues) s1._frequencies }
  let s3 := { s2 with _eigenDisp := eigenDispLoop env s2 s2._eigenDisp }
  { s3 with _eigenDisp := cleanup (3 * s3._natom) s3._eigenDisp }

/-- The matrix `solver.eigenvectors()` that `computeEigen` stores in `_eigenVec`. -/
def PhononMode.solvedEigenVec (env : Env R) (s : PhononMode R) : Mat (Cx R) :=
  { rows := 3 * s._natom, cols := 3 * s._natom,
    data := (env.solver (3 * s._natom) (solverInput env s).data).2 }

/-- The matrix `_eigenDisp` of `computeEigen` when the eigen-displacement loop nest is
done and the cleanup loop has not started. -/
def PhononMode.eigenDispBeforeCleanup (env : Env R) (s : PhononMode R) : Mat (Cx R) :=
  let dynMat := solverInput env s
  let sol := env.solver (3 * s._natom) dynMat.data
  let eigenvalues := sol.1
  let s1 := { s with _eigenVec := { rows := 3 * s._natom, cols := 3 * s._natom, data := sol.2 } }
  let s2 := { s1 with _frequencies := forRange s1._natom (freqStep env eigenvalues) s1._frequencies }
  eigenDispLoop env s2 s2._eigenDisp

/-- The copy `mfreq = _frequencies` into the caller's buffer (`3*_natom` doubles from
the pointer). -/
def copyFreq (s : PhononMode R) (freq : Nat → R) : Nat → R :=
  fun i => if i < 3 * s._natom then s._frequencies.get i else freq i

/-- The copy `mdisp = _eigenDisp` into the caller's buffer, a row-major
`3*_natom` by `3*_natom` map from the pointer. -/
def copyMode (s : PhononMode R) (mode : Nat → Cx R) : Nat → Cx R :=
  fun k =>
    if k < 3 * s._natom * (3 * s._natom) then
      s._eigenDisp.get (k / (3 * s._natom)) (k % (3 * s._natom))
    else mode k

/-- Member `PhononMode::computeEigen(double *freq, complex *mode)`; a null pointer is
`none`, a buffer is the memory seen from the pointer. -/
def PhononMode.computeEigen (env : Env R) (s : PhononMode R) (freq : Option (Nat → R))
    (mode : Option (Nat → Cx R)) :
    PhononMode R × Option (Nat → R) × Option (Nat → Cx R) :=
  let s1 := s.computeEigenState env
  (s1, freq.map (copyFreq s1), mode.map (copyMode s1))

/-! ## Bulk diagonalisation over the q-point list -/

/-- The memory seen from the pointer `&buf[off]`. -/
def ptrAt {α : Type} (buf : Nat → α) (off : Nat) : Nat → α := fun i => buf (off + i)

/-- The memory seen from `buf` once the memory seen from `&buf[off]` has become
`view`. -/
def writeBack {α : Type} (buf : Nat → α) (off : Nat) (view : Nat → α) : Nat → α :=
  fun j => if off ≤ j then view (j - off) else buf j

/-- How a call of `computeAllEigen` ends: the object when it returns or the exception
it throws, and the two caller buffers as they are at that moment (`none` for a null
pointer). -/
structure AllEigenResult (R : Type) where
  outcome : Except Exception (PhononMode R)
  freq : Option (Nat → R)
  modes : Option (Nat → Cx R)

/-- The end of the `try` block of `computeAllEigen` for the q-point number `iqpt`, once
the assembly has succeeded: the two pointers `qfreq` and `qmode` (`qmode` is set only
under `freq != nullptr`), the call of `computeEigen`, and the caller buffers after it.
The offsets are `unsigned` products. -/
def allEigenSolve (env : Env R) (s : PhononMode R) (iqpt : Nat) (freq : Option (Nat → R))
    (modes : Option (Nat → Cx R)) : PhononMode R × Option (Nat → R) × Option (Nat → Cx R) :=
  let offF := u32 (iqpt * 3 * s._natom)
  let offM := u32 (iqpt * 3 * s._natom * 3 * s._natom)
  let qfreq : Option (Nat → R) := freq.map fun f => ptrAt f offF
  let qmode : Option (Nat → Cx R) :=
    match freq with
    | none => none
    | some _ => modes.map fun m => ptrAt m offM
  let out := s.computeEigen env qfreq qmode
  (out.1,
   (match freq, out.2.1 with
    | some f, some v => some (writeBack f offF v)
    | _, _ => freq),
   (match modes, out.2.2 with
    | some m, some v => some (writeBack m offM v)
    | _, _ => modes))

/-- The loop of `computeAllEigen` over the q-points that are left, `iqpt` being the
number of the first of them; an exception of the `try` block gets the text "Abording"
and leaves the loop. -/
def allEigenLoop (env : Env R) (ddb : Ddb R) :
    List (Vec3 R) → PhononMode R → Nat → Option (Nat → R) → Option (Nat → Cx R) →
      AllEigenResult R
  | [], s, _, freq, modes => { outcome := .ok s, freq := freq, modes := modes }
  | qpt :: rest, s, iqpt, freq, modes =>
    let s1 := { s with _qpt := qpt }
    match ddb.getDdb qpt with
    | .error e => { outcome := .error (e.ADD .abording), freq := freq, modes := modes }
    | .ok recs =>
      match s1.computeForceCst recs with
      | .error e => { outcome := .error (e.ADD .abording), freq := freq, modes := modes }
      | .ok s2 =>
        let out := allEigenSolve env s2 iqpt freq modes
        allEigenLoop env ddb rest out.1 (iqpt + 1) out.2.1 out.2.2

/-- The head of `computeAllEigen`, before the loop over the q-points: the atom count,
the resizes, `_gprim` and the mass loop. -/
def PhononMode.allEigenInit (env : Env R) (s : PhononMode R) (ddb : Ddb R) :
    Except Exception (PhononMode R) :=
  let s1 := { s with _natom := ddb.natom }
  let s2 := { s1 with
    _d2cart := s1._d2cart.resize (3 * s1._natom) (3 * s1._natom)
    _eigenVec := s1._eigenVec.resize (3 * s1._natom) (3 * s1._natom)
    _eigenDisp := s1._eigenDisp.resize (3 * s1._natom) (3 * s1._natom)
    _frequencies := s1._frequencies.resize (3 * s1._natom)
    _mass := s1._mass.resizeZero s1._natom }
  let s3 := { s2 with _gprim := fun r c => ddb.gprim (3 * r + c) }
  forRangeE s3._natom (massStep env ddb ddb.isNormalized) s3

/-- Member `PhononMode::computeAllEigen(const Ddb& ddb, double *freq, complex *modes)`. -/
def PhononMode.computeAllEigen (env : Env R) (s : PhononMode R) (ddb : Ddb R)
    (freq : Option (Nat → R)) (modes : Option (Nat → Cx R)) : AllEigenResult R :=
  match s.allEigenInit env ddb with
  | .error e => { outcome := .error e, freq := freq, modes := modes }
  | .ok s4 => allEigenLoop env ddb ddb.getQpts s4 0 freq modes

/-! ## Linear response to a static electric field -/

/-- Body of the Born-charge loop of `lin_res`: `_zeff[iatom] = ddb.getZeff(iatom)`. -/
def zeffStep (ddb : Ddb R) (iatom : Nat) (s : PhononMode R) :
    Except Exception (PhononMode R) :=
  match ddb.getZeff iatom with
  | .error e => .error e
  | .ok z => .ok { s with _zeff := s._zeff.set iatom z }

/-- Body of the unit-conversion loop of `lin_res`: the frequency is converted to THz
and a converted value below -1 throws. -/
def thzStep (env : Env R) (m : Nat) (freq_gamma : Vec R) : Except Exception (Vec R) :=
  let freq_gamma := freq_gamma.set m (env.Ha2THz * freq_gamma.get m)
  if freq_gamma.get m < -1 then .error (EXCEPTION .negativeFrequency)
  else .ok freq_gamma

/-- Body of the mass loop of `lin_res`. -/
def linMassStep (env : Env R) (ddb : Ddb R) (iatom : Nat) (s : PhononMode R) :
    Except Exception (PhononMode R) :=
  match znuclOf ddb iatom with
  | .error e => .error e
  | .ok z => .ok { s with _mass := s._mass.set iatom (env.mass z) }

/-- Innermost body of step 1 of `lin_res`: one term added to the polarity of mode `m`
along `alpha`. -/
def polStep (env : Env R) (natom : Nat) (zeff : Vec (Nat → R)) (disp_gamma : Vec (Cx R))
    (m alpha i gamma : Nat) (pol : Vec R) : Vec R :=
  pol.set (m * 3 + alpha)
    (pol.get (m * 3 + alpha)
      + (zeff.get i) (env.mat3dind (alpha + 1) (gamma + 1))
        * (disp_gamma.get (u32 (m * 3 * natom + 3 * i + gamma))).re)

/-- Step 1 of `lin_res`: the polarity of every mode from the fourth on. -/
def polLoop (env : Env R) (natom : Nat) (zeff : Vec (Nat → R)) (disp_gamma : Vec (Cx R))
    (nfreq : Nat) (pol : Vec R) : Vec R :=
  forFrom 3 nfreq (fun m =>
    forRange 3 (fun alpha =>
      forRange natom (fun i =>
        forRange 3 (fun gamma => polStep env natom zeff disp_gamma m alpha i gamma)))) pol

/-- The polarity of mode `m` along `alpha` as the code accumulates it: the Born
charges contracted with the real parts of the eigen-displacement of the mode. -/
def polTerm (env : Env R) (natom : Nat) (zeff : Vec (Nat → R)) (disp_gamma : Vec (Cx R))
    (m alpha : Nat) : R :=
  ∑ i in Finset.range natom, ∑ gamma in Finset.range 3,
    (zeff.get i) (env.mat3dind (alpha + 1) (gamma + 1))
      * (disp_gamma.get (u32 (m * 3 * natom + 3 * i + gamma))).re

/-- Innermost body of step 2 of `lin_res` (three statements). -/
def tauStep (env : Env R) (natom : Nat) (pol : Vec R) (disp_gamma : Vec (Cx R))
    (freq_gamma : Vec R) (m i E_al : Nat) (tau : Vec R) : Vec R :=
  let tau := tau.set (9 * i + 3 * E_al + 0)
    (tau.get (9 * i + 3 * E_al + 0)
      + env.fac * pol.get (3 * m + E_al) * (disp_gamma.get (u32 (m * 3 * natom + 3 * i + 0))).re
        / (10 ^ 5 * freq_gamma.get m * freq_gamma.get m))
  let tau := tau.set (9 * i + 3 * E_al + 1)
    (tau.get (9 * i + 3 * E_al + 1)
      + env.fac * pol.get (3 * m + E_al) * (disp_gamma.get (u32 (m * 3 * natom + 3 * i + 1))).re
        / (10 ^ 5 * freq_gamma.get m * freq_gamma.get m))
  tau.set (9 * i + 3 * E_al + 2)
    (tau.get (9 * i + 3 * E_al + 2)
      + env.fac * pol.get (3 * m + E_al) * (disp_gamma.get (u32 (m * 3 * natom + 3 * i + 2))).re
        / (10 ^ 5 * freq_gamma.get m * freq_gamma.get m))

/-- Step 2 of `lin_res`: the displacement matrix `tau` under an electric field. -/
def tauLoop (env : Env R) (natom : Nat) (pol : Vec R) (disp_gamma : Vec (Cx R))
    (freq_gamma : Vec R) (tau : Vec R) : Vec R :=
  forRange freq_gamma.size (fun m =>
    forRange natom (fun i =>
      forRange 3 (fun E_al => tauStep env natom pol disp_gamma freq_gamma m i E_al))) tau

/-- The term that mode `m` adds to the response of atom `i` along `d` to a field along
`a`, as the code computes it. -/
def tauTerm (env : Env R) (natom : Nat) (pol : Vec R) (disp_gamma : Vec (Cx R))
    (freq_gamma : Vec R) (m i a d : Nat) : R :=
  env.fac * pol.get (3 * m + a) * (disp_gamma.get (u32 (m * 3 * natom + 3 * i + d))).re
    / (10 ^ 5 * freq_gamma.get m * freq_gamma.get m)

/-- Body of step 3 of `lin_res` for one atom (three statements). -/
def dispStep (env : Env R) (E_vec : Vec3 R) (E_Amp : R) (tau : Vec R) (i : Nat)
    (disp_E : Vec R) : Vec R :=
  let disp_E := disp_E.set (3 * i + 0)
    (env.A2b * (E_Amp * E_vec.get 0 * tau.get (9 * i + 0)
      + E_Amp * E_vec.get 1 * tau.get (9 * i + 3) + E_Amp * E_vec.get 2 * tau.get (9 * i + 6)))
  let disp_E := disp_E.set (3 * i + 1)
    (env.A2b * (E_Amp * E_vec.get 0 * tau.get (9 * i + 1)
      + E_Amp * E_vec.get 1 * tau.get (9 * i + 4) + E_Amp * E_vec.get 2 * tau.get (9 * i + 7)))
  disp_E.set (3 * i + 2)
    (env.A2b * (E_Amp * E_vec.get 0 * tau.get (9 * i + 2)
      + E_Amp * E_vec.get 1 * tau.get (9 * i + 6) + E_Amp * E_vec.get 2 * tau.get (9 * i + 8)))

/-- Step 3 of `lin_res`: the real-space displacement from `tau` and the field. -/
def dispLoop (env : Env R) (natom : Nat) (E_vec : Vec3 R) (E_Amp : R) (tau : Vec R) : Vec R :=
  forRange natom (dispStep env E_vec E_Amp tau) (Vec.fill (3 * natom) 0)

/-- What `lin_res` has in hand once the gamma-point solve is done: the object, the
frequency buffer and the eigen-displacement buffer. -/
structure GammaData (R : Type) where
  self : PhononMode R
  freq_gamma : Vec R
  disp_gamma : Vec (Cx R)

/-- First part of `lin_res` (up to the call of `computeEigen`): the Born charges and
the gamma-point solve on a local object with the ASR correction. -/
def PhononMode.lin_res_solve (env : Env R) (s : PhononMode R) (ddb : Ddb R) :
    Except Exception (GammaData R) :=
  let s1 := { s with _natom := ddb.natom }
  let s2 := { s1 with _zeff := s1._zeff.resizeZero s1._natom }
  match forRangeE s2._natom (zeffStep ddb) s2 with
  | .error e => .error e
  | .ok s3 =>
    let s4 := { s3 with _rprim := fun r c => ddb.rprim (3 * r + c) }
    let gamma : PhononMode R := PhononMode.new s4._natom
    match gamma.computeASR env ddb with
    | .error e => .error e
    | .ok gamma =>
      match gamma.computeForceCstAt env ⟨0, 0, 0⟩ ddb with
      | .error e => .error e
      | .ok gamma =>
        let freq_gamma : Vec R := Vec.fill (3 * s4._natom) 0
        let disp_gamma : Vec (Cx R) := Vec.fill (u32 (3 * s4._natom * 3 * s4._natom)) 0
        let out := gamma.computeEigen env (some freq_gamma.data) (some disp_gamma.data)
        .ok { self := s4
              freq_gamma := { freq_gamma with data := out.2.1.getD freq_gamma.data }
              disp_gamma := { disp_gamma with data := out.2.2.getD disp_gamma.data } }

/-- The unit-conversion loop of `lin_res` with its stability test. -/
def convertFreq (env : Env R) (freq_gamma : Vec R) : Except Exception (Vec R) :=
  forRangeE freq_gamma.size (thzStep env) freq_gamma

/-- The loop of `lin_res` that rescales the eigen-displacements by
`sqrt(amu_emass)`. -/
def scaleDisp (env : Env R) (disp_gamma : Vec (Cx R)) : Vec (Cx R) :=
  forRange disp_gamma.size
    (fun i d => d.set i ((d.get i).scale (env.sqrt env.amu_emass))) disp_gamma

/-- Steps 1 and 2 of `lin_res`: the vector `tau` computed from the rescaled
eigen-displacements, the Born charges and the converted frequencies. -/
def linResTau (env : Env R) (natom : Nat) (zeff : Vec (Nat → R)) (g : GammaData R) : Vec R :=
  let disp_gamma := scaleDisp env g.disp_gamma
  let pol := polLoop env natom zeff disp_gamma g.freq_gamma.size
    (Vec.fill (3 * g.freq_gamma.size) 0)
  tauLoop env natom pol disp_gamma g.freq_gamma (Vec.fill (9 * natom) 0)

/-- A `for (i = 0; i < n; ++i)` loop whose body may leave the numbers: the state is
lost (`none`) from the first such step on. -/
def forRangeO {σ : Type} (n : Nat) (body : Nat → σ → Option σ) (s : σ) : Option σ :=
  (List.range n).foldlM (fun acc i => body i acc) s

/-- Innermost body of step 2 of `lin_res` with its divisions watched: the three
quotients share the divisor `1e05*freq_gamma[m]*freq_gamma[m]`, and with a zero divisor
they are NaN or infinite, so that the entries they are added to are numbers no more
(`none`). -/
def tauStepChecked (env : Env R) (natom : Nat) (pol : Vec R) (disp_gamma : Vec (Cx R))
    (freq_gamma : Vec R) (m i E_al : Nat) (tau : Vec R) : Option (Vec R) :=
  if 10 ^ 5 * freq_gamma.get m * freq_gamma.get m = 0 then none
  else some (tauStep env natom pol disp_gamma freq_gamma m i E_al tau)

/-- Step 2 of `lin_res` with its divisions watched. -/
def tauLoopChecked (env : Env R) (natom : Nat) (pol : Vec R) (disp_gamma : Vec (Cx R))
    (freq_gamma : Vec R) (tau : Vec R) : Option (Vec R) :=
  forRangeO freq_gamma.size (fun m =>
    forRangeO natom (fun i =>
      forRangeO 3 (fun E_al => tauStepChecked env natom pol disp_gamma freq_gamma m i E_al))) tau

/-- Steps 1 and 2 of `lin_res` with the divisions of step 2 watched. -/
def linResTauChecked (env : Env R) (natom : Nat) (zeff : Vec (Nat → R)) (g : GammaData R) :
    Option (Vec R) :=
  let disp_gamma := scaleDisp env g.disp_gamma
  let pol := polLoop env natom zeff disp_gamma g.freq_gamma.size
    (Vec.fill (3 * g.freq_gamma.size) 0)
  tauLoopChecked env natom pol disp_gamma g.freq_gamma (Vec.fill (9 * natom) 0)

/-- Last part of `lin_res` (from the mass loop to the return): masses, rescaled
eigen-displacements, polarities, `tau` and the displacement. -/
def PhononMode.lin_res_field (env : Env R) (g : GammaData R) (E_vec : Vec3 R) (E_Amp : R)
    (ddb : Ddb R) : Except Exception (Vec R × PhononMode R) :=
  let s5 := { g.self with _mass := g.self._mass.resizeZero g.self._natom }
  match forRangeE s5._natom (linMassStep env ddb) s5 with
  | .error e => .error e
  | .ok s6 =>
    let tau := linResTau env s6._natom s6._zeff g
    let disp_E := dispLoop env s6._natom E_vec E_Amp tau
    .ok (disp_E, s6)

/-- Member `PhononMode::lin_res(E_vec, E_Amp, ddb)`: the returned vector and the
object after the call.  The cell volume and the dielectric tensor, which the
function computes into locals and never reads, are left out. -/
def PhononMode.lin_res (env : Env R) (s : PhononMode R) (E_vec : Vec3 R) (E_Amp : R)
    (ddb : Ddb R) : Except Exception (Vec R × PhononMode R) :=
  match s.lin_res_solve env ddb with
  | .error e => .error e
  | .ok g =>
    match convertFreq env g.freq_gamma with
    | .error e => .error e
    | .ok freq_gamma =>
      PhononMode.lin_res_field env { g with freq_gamma := freq_gamma } E_vec E_Amp ddb

/-- The `i`-th eigenvalue the solver returns inside `computeEigen`. -/
def PhononMode.eigenvalue (env : Env R) (s : PhononMode R) (i : Nat) : R :=
  (env.solver (3 * s._natom) (solverInput env s).data).1 i

end Model

/-! ## Concrete data used to evaluate the model -/

/-- The spec's error class SizeMismatch: the two texts raised by the size checks at
the head of `computeForceCst`, with nothing appended. -/
def Exception.isSizeMismatch (e : Exception) : Bool :=
  match e with
  | .agate [.natomNotInitialized] => true
  | .agate [.sizeMismatch _ _] => true
  | _ => false

/-- A rational environment: `sqrt` is the rational square root (exact on squares of
rationals), every constant and every atomic mass is 1, `mat3dind` is the row-major
index of a 1-based pair, and the solver answers with the diagonal of the matrix and the
identity as eigenvectors (the decomposition of a diagonal matrix whose diagonal is
non-decreasing). -/
def exEnv : Env ℚ :=
  { sqrt := Rat.sqrt
    amu_emass := 1
    A2b := 1
    Ha2THz := 1
    fac := 1
    mass := fun _ => 1
    mat3dind := fun i j => (i - 1) * 3 + (j - 1)
    solver := fun _ M => (fun i => (M i i).re, fun i j => if i = j then 1 else 0) }

/-- A one-atom object of unit mass whose cartesian matrix is four times the
identity and whose reciprocal basis is the identity. -/
def exState : PhononMode ℚ :=
  { (PhononMode.new 1 : PhononMode ℚ) with
    _d2cart := { rows := 3, cols := 3, data := fun i j => if i = j then ⟨4, 0⟩ else 0 }
    _gprim := fun r c => if r = c then 1 else 0
    _frequencies := Vec.fill 3 0
    _mass := Vec.fill 1 1 }

/-- The vector `c * v`, component by component. -/
def Vec.scaleBy {R : Type} [Mul R] (c : R) (v : Vec R) : Vec R :=
  { v with data := fun i => c * v.data i }

/-- The nine records of a one-atom dataset: value 4 on the three cells with equal
directions, 0 on the six others. -/
def exRecords : List (D2der ℚ) :=
  (List.range 9).map fun k => ⟨(k % 3, 0, k / 3, 0), if k % 3 = k / 3 then ⟨4, 0⟩ else 0⟩

/-- A one-atom dataset in normalised units: identity lattice bases, identity Born
charge, the records `exRecords` at every q-point. -/
def exDdb : Ddb ℚ :=
  { natom := 1
    gprim := fun k => if k % 4 = 0 then 1 else 0
    rprim := fun k => if k % 4 = 0 then 1 else 0
    isNormalized := true
    znucl := [1]
    typat := [1]
    getDdb := fun _ => .ok exRecords
    getZeff := fun _ => .ok (fun k => if k % 4 = 0 then 1 else 0)
    getQpts := [⟨0, 0, 0⟩] }

/-- The record set without the record(s) of one cell (dir1, atom1, dir2, atom2). -/
def removeCell {R : Type} (cell : Nat × Nat × Nat × Nat) (ddb : List (D2der R)) :
    List (D2der R) :=
  ddb.filter fun elt => decide (elt.first ≠ cell)

/-- The value of the last record of a cell in a record set, if there is one. -/
def lastRecord {R : Type} (cell : Nat × Nat × Nat × Nat) (ddb : List (D2der R)) :
    Option (Cx R) :=
  ddb.foldl (fun v elt => if elt.first = cell then some elt.second else v) none

/-- Entry (r, c) after the first basis change: `_gprim` applied to the three entries
of row `r` in the column block of `c`. -/
def lineVal {R : Type} [LinearOrderedField R] (G : Nat → Nat → R) (M : Mat (Cx R))
    (r c : Nat) : Cx R :=
  gmul G (M.get r (c / 3 * 3)) (M.get r (c / 3 * 3 + 1)) (M.get r (c / 3 * 3 + 2)) (c % 3)

/-- Entry (r, c) after the second basis change: `_gprim` applied to the three entries
of column `c` in the row block of `r`. -/
def columnVal {R : Type} [LinearOrderedField R] (G : Nat → Nat → R) (M : Mat (Cx R))
    (r c : Nat) : Cx R :=
  gmul G (M.get (r / 3 * 3) c) (M.get (r / 3 * 3 + 1) c) (M.get (r / 3 * 3 + 2) c) (r % 3)

/-- Entry (i, j) of a square matrix after the in-place assignment
`A = (A + A.adjoint())*0.5`: the Hermitian average on and below the diagonal; above the
diagonal the average of `A(i, j)` with the conjugate of the already averaged
`A(j, i)`, that is `3/4 A(i, j) + 1/4 conj A(j, i)`. -/
def symVal {R : Type} [LinearOrderedField R] (A : Mat (Cx R)) (i j : Nat) : Cx R :=
  if i < j then
    (A.get i j + ((A.get j i + (A.get i j).conj).scale (1 / 2)).conj).scale (1 / 2)
  else (A.get i j + (A.get j i).conj).scale (1 / 2)

/-- Nine records of a one-atom dataset whose only non-zero value, 4, is at
`(dir1, atom1, dir2, atom2) = (1, 0, 0, 0)`. -/
def skewRecords : List (D2der ℚ) :=
  (List.range 9).map fun k => ⟨(k % 3, 0, k / 3, 0), if k % 3 = 1 ∧ k / 3 = 0 then ⟨4, 0⟩ else 0⟩

/-- A one-atom object of unit mass whose cartesian matrix is not Hermitian: its only
non-zero entry is `D(0, 1) = 4`. -/
def skewState : PhononMode ℚ :=
  { exState with
    _d2cart := { rows := 3, cols := 3, data := fun i j => if i = 0 ∧ j = 1 then ⟨4, 0⟩ else 0 } }

/-- Entry (r, c) of the cartesian matrix of a record set for the basis matrix `G`:
the rank-4 tensor of the last records contracted with `G` on both direction indices. -/
def cartesianEntry {R : Type} [LinearOrderedField R] (G : Nat → Nat → R)
    (ddb : List (D2der R)) (r c : Nat) : Cx R :=
  ∑ c' in Finset.range 3, ∑ d in Finset.range 3,
    Cx.ofReal (G (r % 3) c') * Cx.ofReal (G (c % 3) d)
      * (lastRecord (d, c / 3, c', r / 3) ddb).getD 0

/-- What `Eigen::SelfAdjointEigenSolver` returns for an `n` by `n` matrix `H`, in
exact arithmetic: the eigenvalues in increasing order, the columns of `vecs` being
eigenvectors of `H` for them, orthonormal. -/
def IsEigenDecomposition {R : Type} [LinearOrderedField R] (n : Nat) (H : Nat → Nat → Cx R)
    (vals : Nat → R) (vecs : Nat → Nat → Cx R) : Prop :=
  (∀ k l, k ≤ l → l < n → vals k ≤ vals l)
    ∧ (∀ k i, k < n → i < n →
        ∑ j in Finset.range n, H i j * vecs j k = Cx.ofReal (vals k) * vecs i k)
    ∧ (∀ k l, k < n → l < n →
        ∑ i in Finset.range n, (vecs i k).conj * vecs i l = if k = l then 1 else 0)

/-- Two objects agree on what an assembly and a solve read besides the records: the
atom count, `_gprim`, the ASR flag and data, and the masses of the atoms. -/
def SameBase {R : Type} (a b : PhononMode R) : Prop :=
  a._natom = b._natom ∧ a._gprim = b._gprim ∧ a._hasASR = b._hasASR ∧ a._asr = b._asr
    ∧ ∀ i, i < a._natom → a._mass.get i = b._mass.get i

/-- The object after `computeASR(exDdb)` on a fresh object. -/
def exCorrection : PhononMode ℚ :=
  match (PhononMode.new0 : PhononMode ℚ).computeASR exEnv exDdb with
  | .ok t => t
  | .error _ => PhononMode.new0

/-- The object after the gamma-point assembly that follows `computeASR(exDdb)`. -/
def exGamma : PhononMode ℚ :=
  match exCorrection.computeForceCstAt exEnv ⟨0, 0, 0⟩ exDdb with
  | .ok t => t
  | .error _ => PhononMode.new0

/-- A rational environment for a two-atom cell: the rational square root, unit
constants, atomic masses 9 (nuclear charge 1) and 16 (any other), and a solver that
answers with the eigenvalues (-25, -25, -25, 0, 0, 0) and the orthonormal vectors
`(4/5 e_k, -3/5 e_k)` and `(3/5 e_k, 4/5 e_k)`. -/
def cexEnv : Env ℚ :=
  { sqrt := Rat.sqrt
    amu_emass := 1
    A2b := 1
    Ha2THz := 1
    fac := 1
    mass := fun z => if z = 1 then 9 else 16
    mat3dind := fun i j => (i - 1) * 3 + (j - 1)
    solver := fun _ _ =>
      (fun k => if k < 3 then -25 else 0,
       fun j k =>
        if k < 3 then
          (if j = k then ⟨4 / 5, 0⟩ else if j = k + 3 then ⟨-3 / 5, 0⟩ else 0)
        else
          (if j + 3 = k then ⟨3 / 5, 0⟩ else if j = k then ⟨4 / 5, 0⟩ else 0)) }

/-- The thirty-six records of a two-atom dataset, one per cell: 144 on the cells that
couple equal directions of different atoms, 0 elsewhere. -/
def cexRecords : List (D2der ℚ) :=
  (List.range 36).map fun n =>
    ⟨(n % 3, n / 3 % 2, n / 6 % 3, n / 18),
      if n % 3 = n / 6 % 3 then (if n / 3 % 2 = n / 18 then 0 else ⟨144, 0⟩) else 0⟩

/-- A two-atom dataset in physical units: identity lattice bases, atoms of nuclear
charge 1 and 2, the records `cexRecords` at every q-point. -/
def cexDdb : Ddb ℚ :=
  { natom := 2
    gprim := fun k => if k % 4 = 0 then 1 else 0
    rprim := fun k => if k % 4 = 0 then 1 else 0
    isNormalized := false
    znucl := [1, 2]
    typat := [1, 2]
    getDdb := fun _ => .ok cexRecords
    getZeff := fun _ => .ok (fun k => if k % 4 = 0 then 1 else 0)
    getQpts := [⟨0, 0, 0⟩] }

/-- The object after `computeASR(cexDdb)` on a fresh object. -/
def cexCorrection : PhononMode ℚ :=
  match (PhononMode.new0 : PhononMode ℚ).computeASR cexEnv cexDdb with
  | .ok t => t
  | .error _ => PhononMode.new0

/-- The object after the gamma-point assembly that follows `computeASR(cexDdb)`. -/
def cexGamma : PhononMode ℚ :=
  match cexCorrection.computeForceCstAt cexEnv ⟨0, 0, 0⟩ cexDdb with
  | .ok t => t
  | .error _ => PhononMode.new0

/-- The one-atom dataset `exDdb` with a second q-point, (1,0,0), for which the dataset
has no records: `getDdb` throws. -/
def twoQDdb : Ddb ℚ :=
  { exDdb with
    getQpts := [⟨0, 0, 0⟩, ⟨1, 0, 0⟩]
    getDdb := fun q =>
      if q = ⟨0, 0, 0⟩ then .ok exRecords else .error (EXCEPTION (.collaborator 0)) }

/-- A fresh object when `computeAllEigen(exDdb, ..)` enters its loop. -/
def exBulkStart : PhononMode ℚ :=
  match (PhononMode.new0 : PhononMode ℚ).allEigenInit exEnv exDdb with
  | .ok t => t
  | .error _ => PhononMode.new0

/-- The object of `computeAllEigen(exDdb, ..)` after the assembly of the first
q-point. -/
def exBulkFirst : PhononMode ℚ :=
  match ({ exBulkStart with _qpt := ⟨0, 0, 0⟩ } : PhononMode ℚ).computeForceCst exRecords with
  | .ok t => t
  | .error _ => PhononMode.new0

/-- A buffer of frequencies filled with zeros. -/
def zeroFreq : Nat → ℚ := fun _ => 0

/-- A buffer of eigen-displacements filled with zeros. -/
def zeroModes : Nat → Cx ℚ := fun _ => 0

/-- The records of a dataset of 21846 atoms, one per cell, in the order of the cells:
4 on the cells with equal directions and equal atoms, 0 on the others. -/
def wideRecords : List (D2der ℚ) :=
  (List.range (9 * 21846 * 21846)).map fun k =>
    ⟨(k % 3, k / 3 % 21846, k / 65538 % 3, k / 196614),
      if k % 3 = k / 65538 % 3 ∧ k / 3 % 21846 = k / 196614 then ⟨4, 0⟩ else 0⟩

/-- A dataset of 21846 atoms in normalised units with two q-points; 21846 is the
smallest atom count for which `9 N²` is not below `2^32`. -/
def wideDdb : Ddb ℚ :=
  { natom := 21846
    gprim := fun k => if k % 4 = 0 then 1 else 0
    rprim := fun k => if k % 4 = 0 then 1 else 0
    isNormalized := true
    znucl := [1]
    typat := List.replicate 21846 1
    getDdb := fun _ => .ok wideRecords
    getZeff := fun _ => .ok (fun k => if k % 4 = 0 then 1 else 0)
    getQpts := [⟨0, 0, 0⟩, ⟨1 / 2, 0, 0⟩] }

/-- The one-atom dataset `exDdb` with two q-points, both with the records
`exRecords`. -/
def pairDdb : Ddb ℚ :=
  { exDdb with getQpts := [⟨0, 0, 0⟩, ⟨1 / 2, 0, 0⟩] }

/-- The local `freq_gamma` of `lin_res(exDdb)` after the conversion to THz: three
zeros. -/
def exFreq : Vec ℚ := Vec.fill 3 0

/-- A one-atom object as `exState` but with mass 4: matrix four times the identity,
identity basis. -/
def heavyState : PhononMode ℚ := { exState with _mass := Vec.fill 1 4 }

/-- A rational environment for the two-atom cell of `stableDdb`: the rational square
root, unit constants, atomic masses 9 (nuclear charge 1) and 16 (any other), and a
solver that answers with the orthonormal eigenvectors `(3/5 e_k, 4/5 e_k)` and
`(4/5 e_k, -3/5 e_k)` of the matrix of `stableDdb`, whose eigenvalues are 0 and 25;
the eigenvalue 0 of the three translations is returned as `10^-20`, a rounding residue
such as a floating-point solver leaves (with a frequency that is exactly zero, step 2 of
`lin_res` divides zero by zero). -/
def stableEnv : Env ℚ :=
  { sqrt := Rat.sqrt
    amu_emass := 1
    A2b := 1
    Ha2THz := 1
    fac := 1
    mass := fun z => if z = 1 then 9 else 16
    mat3dind := fun i j => (i - 1) * 3 + (j - 1)
    solver := fun _ _ =>
      (fun k => if k < 3 then 1 / 10 ^ 20 else 25,
       fun j k =>
        if k < 3 then
          (if j = k then ⟨3 / 5, 0⟩ else if j = k + 3 then ⟨4 / 5, 0⟩ else 0)
        else
          (if j + 3 = k then ⟨4 / 5, 0⟩ else if j = k then ⟨-3 / 5, 0⟩ else 0)) }

/-- The thirty-six records of a stable two-atom dataset, one per cell: -144 on the
cells that couple equal directions of different atoms, 0 elsewhere. -/
def stableRecords : List (D2der ℚ) :=
  (List.range 36).map fun n =>
    ⟨(n % 3, n / 3 % 2, n / 6 % 3, n / 18),
      if n % 3 = n / 6 % 3 then (if n / 3 % 2 = n / 18 then 0 else ⟨-144, 0⟩) else 0⟩

/-- A stable two-atom dataset in physical units: identity lattice bases, atoms of
nuclear charge 1 and 2, the records `stableRecords` at every q-point, and a Born
charge whose only non-zero entry is the y-z entry (index `mat3dind(2,3)`) of atom 0. -/
def stableDdb : Ddb ℚ :=
  { natom := 2
    gprim := fun k => if k % 4 = 0 then 1 else 0
    rprim := fun k => if k % 4 = 0 then 1 else 0
    isNormalized := false
    znucl := [1, 2]
    typat := [1, 2]
    getDdb := fun _ => .ok stableRecords
    getZeff := fun iatom => .ok (fun k => if iatom = 0 ∧ k = 5 then 1 else 0)
    getQpts := [⟨0, 0, 0⟩] }

/-- The local object `gamma` of `lin_res(stableDdb)` after `computeASR`. -/
def stableCorrection : PhononMode ℚ :=
  match (PhononMode.new 2 : PhononMode ℚ).computeASR stableEnv stableDdb with
  | .ok t => t
  | .error _ => PhononMode.new0

/-- The local object `gamma` of `lin_res(stableDdb)` after the gamma-point assembly. -/
def stableGamma : PhononMode ℚ :=
  match stableCorrection.computeForceCstAt stableEnv ⟨0, 0, 0⟩ stableDdb with
  | .ok t => t
  | .error _ => PhononMode.new0

/-- What `lin_res(stableDdb)` has in hand after the gamma-point solve. -/
def stableSolve : GammaData ℚ :=
  match (PhononMode.new0 : PhononMode ℚ).lin_res_solve stableEnv stableDdb with
  | .ok g => g
  | .error _ => { self := PhononMode.new0, freq_gamma := Vec.fill 0 0, disp_gamma := Vec.fill 0 0 }

/-- The local `freq_gamma` of `lin_res(stableDdb)` after the conversion to THz: every
entry times `Ha2THz`. -/
def stableFreq : Vec ℚ :=
  { stableSolve.freq_gamma with
    data := fun m =>
      if m < stableSolve.freq_gamma.size then stableEnv.Ha2THz * stableSolve.freq_gamma.get m
      else stableSolve.freq_gamma.get m }

/-- The local `tau` of `lin_res(stableDdb)` when the displacement loop starts. -/
def stableTau : Vec ℚ :=
  linResTau stableEnv stableDdb.natom stableSolve.self._zeff
    { stableSolve with freq_gamma := stableFreq }

/-! ## Basic facts about loops and containers -/

section Basics

variable {α σ : Type}

theorem forRange_zero (body : Nat → σ → σ) (s : σ) : forRange 0 body s = s := rfl

theorem forRange_succ (n : Nat) (body : Nat → σ → σ) (s : σ) :
    forRange (n + 1) body s = body n (forRange n body s) := by
  simp [forRange, List.range_succ, List.foldl_append]

theorem forRange_mat_dims {α : Type} (n : Nat) (body : Nat → Mat α → Mat α)
    (hb : ∀ i M, (body i M).rows = M.rows ∧ (body i M).cols = M.cols) (M : Mat α) :
    (forRange n body M).rows = M.rows ∧ (forRange n body M).cols = M.cols := by
  induction n with
  | zero => exact ⟨rfl, rfl⟩
  | succ k ih =>
    rw [forRange_succ]
    exact ⟨(hb k _).1.trans ih.1, (hb k _).2.trans ih.2⟩

theorem forRange_three (body : Nat → σ → σ) (s : σ) :
    forRange 3 body s = body 2 (body 1 (body 0 s)) := by
  simp [forRange, List.range_succ, List.foldl_append]

theorem forRangeE_zero (body : Nat → σ → Except Exception σ) (s : σ) :
    forRangeE 0 body s = .ok s := rfl

theorem forRangeE_succ (n : Nat) (body : Nat → σ → Except Exception σ) (s : σ) :
    forRangeE (n + 1) body s =
      (match forRangeE n body s with
       | .error e => .error e
       | .ok t => body n t) := by
  simp only [forRangeE, List.range_succ, List.foldlM_append]
  cases h : List.foldlM (fun acc i => body i acc) s (List.range n) with
  | error e => rfl
  | ok t =>
    simp only [List.foldlM, bind, Except.bind, pure, Except.pure]
    cases body n t <;> rfl

@[simp] theorem mat_get_set (M : Mat α) (r c i j : Nat) (v : α) :
    (M.set r c v).get i j = if i = r ∧ j = c then v else M.get i j := rfl

@[simp] theorem mat_rows_set (M : Mat α) (r c : Nat) (v : α) : (M.set r c v).rows = M.rows := rfl

@[simp] theorem mat_cols_set (M : Mat α) (r c : Nat) (v : α) : (M.set r c v).cols = M.cols := rfl

@[simp] theorem vec_get_set (v : Vec α) (i j : Nat) (x : α) :
    (v.set i x).get j = if j = i then x else v.get j := rfl

@[simp] theorem vec_size_set (v : Vec α) (i : Nat) (x : α) : (v.set i x).size = v.size := rfl

@[simp] theorem vec_get_fill (n i : Nat) (x : α) : (Vec.fill n x).get i = x := rfl

@[simp] theorem mat_get_fill (r c i j : Nat) (x : α) : (Mat.fill r c x).get i j = x := rfl

end Basics

/-! ## The field contraction of `lin_res` (step 3) -/

section FieldContraction

variable {R : Type} [LinearOrderedField R]

/-- After the displacement loop, the three entries of atom `i`: the first two contract
`tau` along the field axis, the third takes `tau[9i+6]` for the second field axis. -/
theorem dispLoop_get (env : Env R) (E_vec : Vec3 R) (E_Amp : R) (tau : Vec R) (natom i : Nat)
    (hi : i < natom) :
    (dispLoop env natom E_vec E_Amp tau).get (3 * i + 0)
        = env.A2b * (E_Amp * E_vec.get 0 * tau.get (9 * i + 0)
          + E_Amp * E_vec.get 1 * tau.get (9 * i + 3) + E_Amp * E_vec.get 2 * tau.get (9 * i + 6))
    ∧ (dispLoop env natom E_vec E_Amp tau).get (3 * i + 1)
        = env.A2b * (E_Amp * E_vec.get 0 * tau.get (9 * i + 1)
          + E_Amp * E_vec.get 1 * tau.get (9 * i + 4) + E_Amp * E_vec.get 2 * tau.get (9 * i + 7))
    ∧ (dispLoop env natom E_vec E_Amp tau).get (3 * i + 2)
        = env.A2b * (E_Amp * E_vec.get 0 * tau.get (9 * i + 2)
          + E_Amp * E_vec.get 1 * tau.get (9 * i + 6) + E_Amp * E_vec.get 2 * tau.get (9 * i + 8)) := by
  unfold dispLoop
  generalize Vec.fill (3 * natom) (0 : R) = v0
  induction natom with
  | zero => omega
  | succ n ih =>
    rw [forRange_succ]
    by_cases h : i = n
    · subst h
      simp [dispStep]
    · have hlt : i < n := by omega
      obtain ⟨h0, h1, h2⟩ := ih hlt
      have e1 : ∀ a b : Nat, a < 3 → b < 3 → 3 * i + a ≠ 3 * n + b := by omega
      refine ⟨?_, ?_, ?_⟩
      · simp only [dispStep, vec_get_set]
        rw [if_neg (e1 0 2 (by omega) (by omega)), if_neg (e1 0 1 (by omega) (by omega)),
          if_neg (e1 0 0 (by omega) (by omega))]
        exact h0
      · simp only [dispStep, vec_get_set]
        rw [if_neg (e1 1 2 (by omega) (by omega)), if_neg (e1 1 1 (by omega) (by omega)),
          if_neg (e1 1 0 (by omega) (by omega))]
        exact h1
      · simp only [dispStep, vec_get_set]
        rw [if_neg (e1 2 2 (by omega) (by omega)), if_neg (e1 2 1 (by omega) (by omega)),
          if_neg (e1 2 0 (by omega) (by omega))]
        exact h2

theorem dispStep_scaleBy (env : Env R) (E_vec : Vec3 R) (E_Amp c : R) (tau : Vec R) (i : Nat)
    (v : Vec R) :
    dispStep env E_vec (c * E_Amp) tau i (v.scaleBy c)
      = (dispStep env E_vec E_Amp tau i v).scaleBy c := by
  cases v with
  | mk n d =>
    simp only [dispStep, Vec.set, Vec.scaleBy, Vec.get, Vec.mk.injEq, true_and]
    funext j
    by_cases h2 : j = 3 * i + 2
    · simp only [h2, if_true]; ring
    · by_cases h1 : j = 3 * i + 1
      · simp only [h1, if_true, if_neg h2]
        rw [if_neg (by omega), if_neg (by omega)]
        ring
      · by_cases h0 : j = 3 * i + 0
        · simp only [h0, if_true]
          rw [if_neg (by omega), if_neg (by omega), if_neg (by omega), if_neg (by omega)]
          ring
        · simp only [if_neg h2, if_neg h1, if_neg h0]

theorem dispLoop_scaleBy_from (env : Env R) (n : Nat) (E_vec : Vec3 R) (E_Amp c : R)
    (tau : Vec R) (v0 : Vec R) :
    forRange n (dispStep env E_vec (c * E_Amp) tau) (v0.scaleBy c)
      = (forRange n (dispStep env E_vec E_Amp tau) v0).scaleBy c := by
  induction n with
  | zero => simp [forRange_zero]
  | succ k ih =>
    rw [forRange_succ, forRange_succ, ih, dispStep_scaleBy]

theorem dispLoop_scaleBy (env : Env R) (natom : Nat) (E_vec : Vec3 R) (E_Amp c : R)
    (tau : Vec R) :
    dispLoop env natom E_vec (c * E_Amp) tau = (dispLoop env natom E_vec E_Amp tau).scaleBy c := by
  have h0 : (Vec.fill (3 * natom) (0 : R)) = (Vec.fill (3 * natom) (0 : R)).scaleBy c := by
    simp [Vec.fill, Vec.scaleBy]
  unfold dispLoop
  rw [← dispLoop_scaleBy_from, ← h0]

theorem lin_res_field_scale (env : Env R) (g : GammaData R) (E_vec : Vec3 R) (E_Amp c : R)
    (ddb : Ddb R) :
    PhononMode.lin_res_field env g E_vec (c * E_Amp) ddb
      = (PhononMode.lin_res_field env g E_vec E_Amp ddb).map (fun p => (p.1.scaleBy c, p.2)) := by
  simp only [PhononMode.lin_res_field]
  generalize forRangeE g.self._natom (linMassStep env ddb) _ = r
  cases r with
  | error e => rfl
  | ok s6 => simp only [Except.map, dispLoop_scaleBy]

theorem lin_res_field_error_iff (env : Env R) (g : GammaData R) (E_vec : Vec3 R)
    (E_Amp E_Amp' : R) (ddb : Ddb R) (e : Exception) :
    PhononMode.lin_res_field env g E_vec E_Amp ddb = .error e
      ↔ PhononMode.lin_res_field env g E_vec E_Amp' ddb = .error e := by
  simp only [PhononMode.lin_res_field]
  generalize forRangeE g.self._natom (linMassStep env ddb) _ = r
  cases r with
  | error e' => simp
  | ok s6 => simp

/-- C9: electric-field linearity.  For every object, dataset, field direction,
amplitude `A` and factor `c`, `lin_res(E_vec, c*A, ddb)` fails with the same exception
as `lin_res(E_vec, A, ddb)` or returns `c` times its vector component by component
(the object after the call being the same); and for any two amplitudes the call fails
with a given exception for one exactly when it does for the other. -/
theorem lin_res_linear_in_amplitude (env : Env R) (s : PhononMode R) (E_vec : Vec3 R)
    (E_Amp c : R) (ddb : Ddb R) :
    s.lin_res env E_vec (c * E_Amp) ddb
        = (s.lin_res env E_vec E_Amp ddb).map (fun p => (p.1.scaleBy c, p.2))
      ∧ ∀ (E_Amp' : R) (e : Exception),
          s.lin_res env E_vec E_Amp ddb = .error e ↔ s.lin_res env E_vec E_Amp' ddb = .error e := by
  unfold PhononMode.lin_res
  generalize s.lin_res_solve env ddb = r
  cases r with
  | error e => exact ⟨rfl, fun _ _ => Iff.rfl⟩
  | ok g =>
    simp only []
    generalize convertFreq env g.freq_gamma = r'
    cases r' with
    | error e => exact ⟨rfl, fun _ _ => Iff.rfl⟩
    | ok f =>
      exact ⟨lin_res_field_scale env _ E_vec E_Amp c ddb,
        fun A' e => lin_res_field_error_iff env _ E_vec E_Amp A' ddb e⟩

end FieldContraction

/-! ## The stability guard of `lin_res` -/

section Guard

variable {R : Type} [LinearOrderedField R]

/-- The frequency vector with its first `n` entries converted to THz. -/
theorem thzLoop_spec (env : Env R) (f : Vec R) (n : Nat) :
    ((∃ m, m < n ∧ env.Ha2THz * f.get m < -1) →
        forRangeE n (thzStep env) f = .error (EXCEPTION .negativeFrequency))
      ∧ ((∀ m, m < n → ¬ env.Ha2THz * f.get m < -1) →
        forRangeE n (thzStep env) f
          = .ok { f with data := fun m => if m < n then env.Ha2THz * f.get m else f.get m }) := by
  induction n with
  | zero =>
    constructor
    · rintro ⟨m, hm, _⟩
      omega
    · intro _
      simp only [forRangeE_zero, Nat.not_lt_zero, if_false]
      rfl
  | succ k ih =>
    obtain ⟨ihbad, ihgood⟩ := ih
    by_cases hbad : ∃ m, m < k ∧ env.Ha2THz * f.get m < -1
    · constructor
      · intro _
        rw [forRangeE_succ, ihbad hbad]
      · intro hall
        obtain ⟨m, hm, hlt⟩ := hbad
        exact absurd hlt (hall m (by omega))
    · have hgood : ∀ m, m < k → ¬ env.Ha2THz * f.get m < -1 := by
        intro m hm hlt
        exact hbad ⟨m, hm, hlt⟩
      have hstep : forRangeE (k + 1) (thzStep env) f
          = thzStep env k
              { f with data := fun m => if m < k then env.Ha2THz * f.get m else f.get m } := by
        rw [forRangeE_succ, ihgood hgood]
      have hk : ({ f with data := fun m => if m < k then env.Ha2THz * f.get m else f.get m } :
          Vec R).get k = f.get k := by
        simp [Vec.get]
      constructor
      · rintro ⟨m, hm, hlt⟩
        have hmk : m = k := by
          by_contra hne
          exact hgood m (by omega) hlt
        subst hmk
        rw [hstep]
        simp only [thzStep, vec_get_set, if_true, hk]
        rw [if_pos hlt]
      · intro hall
        rw [hstep]
        simp only [thzStep, vec_get_set, if_true, hk]
        rw [if_neg (hall k (by omega))]
        simp only [Vec.set, Vec.get, Except.ok.injEq, Vec.mk.injEq, true_and]
        funext j
        by_cases hj : j = k
        · subst hj
          simp
        · by_cases hjk : j < k
          · have : j < k + 1 := by omega
            simp [hj, hjk, this]
          · have : ¬ j < k + 1 := by omega
            simp [hj, hjk, this]

theorem convertFreq_error_iff (env : Env R) (f : Vec R) :
    convertFreq env f = .error (EXCEPTION .negativeFrequency)
      ↔ ∃ m, m < f.size ∧ env.Ha2THz * f.get m < -1 := by
  obtain ⟨hbad, hgood⟩ := thzLoop_spec env f f.size
  constructor
  · intro h
    by_contra hno
    have hall : ∀ m, m < f.size → ¬ env.Ha2THz * f.get m < -1 := by
      intro m hm hlt
      exact hno ⟨m, hm, hlt⟩
    unfold convertFreq at h
    rw [hgood hall] at h
    cases h
  · intro h
    exact hbad h

theorem massLoop_error (env : Env R) (ddb : Ddb R) (n : Nat) (s : PhononMode R) (e : Exception)
    (h : forRangeE n (linMassStep env ddb) s = .error e) : e = .stdOutOfRange := by
  induction n with
  | zero => simp [forRangeE_zero] at h
  | succ k ih =>
    rw [forRangeE_succ] at h
    cases hk : forRangeE k (linMassStep env ddb) s with
    | error e' =>
      rw [hk] at h
      simp only [Except.error.injEq] at h
      subst h
      exact ih hk
    | ok t =>
      rw [hk] at h
      simp only [linMassStep, znuclOf] at h
      split at h
      · rename_i heq
        split at heq
        · simp only [Except.error.injEq] at heq h
          rw [← h, ← heq]
        · split at heq
          · simp only [Except.error.injEq] at heq h
            rw [← h, ← heq]
          · split at heq
            · simp only [Except.error.injEq] at heq h
              rw [← h, ← heq]
            · cases heq
      · cases h

theorem lin_res_field_error (env : Env R) (g : GammaData R) (E_vec : Vec3 R) (E_Amp : R)
    (ddb : Ddb R) (e : Exception) (h : PhononMode.lin_res_field env g E_vec E_Amp ddb = .error e) :
    e = .stdOutOfRange := by
  simp only [PhononMode.lin_res_field] at h
  split at h
  · rename_i heq
    simp only [Except.error.injEq] at h
    subst h
    exact massLoop_error env ddb _ _ _ heq
  · cases h

theorem zeffLoop_natom (ddb : Ddb R) (n : Nat) (s t : PhononMode R)
    (h : forRangeE n (zeffStep ddb) s = .ok t) : t._natom = s._natom := by
  induction n generalizing t with
  | zero =>
    simp only [forRangeE_zero, Except.ok.injEq] at h
    rw [← h]
  | succ k ih =>
    rw [forRangeE_succ] at h
    cases hk : forRangeE k (zeffStep ddb) s with
    | error e =>
      rw [hk] at h
      cases h
    | ok u =>
      rw [hk] at h
      simp only [zeffStep] at h
      split at h
      · cases h
      · simp only [Except.ok.injEq] at h
        rw [← h]
        exact ih u hk

theorem lin_res_solve_size (env : Env R) (s : PhononMode R) (ddb : Ddb R) (g : GammaData R)
    (h : s.lin_res_solve env ddb = .ok g) : g.freq_gamma.size = 3 * ddb.natom := by
  simp only [PhononMode.lin_res_solve] at h
  split at h
  · cases h
  · rename_i s3 hz
    have hn := zeffLoop_natom ddb _ _ _ hz
    split at h
    · cases h
    · split at h
      · cases h
      · simp only [Except.ok.injEq] at h
        rw [← h]
        simp only [Vec.fill]
        rw [hn]

/-- C7: unstable-structure guard.  Whenever the gamma-point solve inside `lin_res`
succeeds, with gamma frequencies `f_0 .. f_(3N-1)`, `lin_res` fails with the
"NEGATIVE PHONON FREQUENCY FOUND" exception if and only if some `Ha2THz * f_m` is
below -1; when some is, the call returns no value; when every `Ha2THz * f_m` is at
least -1, the call does not raise that exception. -/
theorem lin_res_unstable_guard (env : Env R) (s : PhononMode R) (E_vec : Vec3 R) (E_Amp : R)
    (ddb : Ddb R) (g : GammaData R) (hsolve : s.lin_res_solve env ddb = .ok g) :
    g.freq_gamma.size = 3 * ddb.natom
      ∧ (s.lin_res env E_vec E_Amp ddb = .error (EXCEPTION .negativeFrequency)
          ↔ ∃ m, m < 3 * ddb.natom ∧ env.Ha2THz * g.freq_gamma.get m < -1)
      ∧ ((∃ m, m < 3 * ddb.natom ∧ env.Ha2THz * g.freq_gamma.get m < -1) →
          ∀ r, s.lin_res env E_vec E_Amp ddb ≠ .ok r)
      ∧ ((∀ m, m < 3 * ddb.natom → -1 ≤ env.Ha2THz * g.freq_gamma.get m) →
          s.lin_res env E_vec E_Amp ddb ≠ .error (EXCEPTION .negativeFrequency)) := by
  have hsize := lin_res_solve_size env s ddb g hsolve
  have hiff : s.lin_res env E_vec E_Amp ddb = .error (EXCEPTION .negativeFrequency)
      ↔ ∃ m, m < 3 * ddb.natom ∧ env.Ha2THz * g.freq_gamma.get m < -1 := by
    rw [← hsize, ← convertFreq_error_iff]
    simp only [PhononMode.lin_res, hsolve]
    cases hc : convertFreq env g.freq_gamma with
    | error e => simp
    | ok f =>
      simp only []
      constructor
      · intro h
        have := lin_res_field_error env _ E_vec E_Amp ddb _ h
        cases this
      · intro h
        cases h
  refine ⟨hsize, hiff, ?_, ?_⟩
  · intro hbad r hr
    rw [hiff.2 hbad] at hr
    cases hr
  · intro hall h
    obtain ⟨m, hm, hlt⟩ := hiff.1 h
    exact absurd hlt (not_lt.2 (hall m hm))

/-- Witness of C7: the one-atom dataset `exDdb` with a unit field along z; the
gamma-point solve succeeds on it. -/
theorem lin_res_unstable_guard_witness :
    ∃ g, (PhononMode.new0 : PhononMode ℚ).lin_res_solve exEnv exDdb = .ok g
      ∧ (g.freq_gamma.size = 3 * exDdb.natom
        ∧ ((PhononMode.new0 : PhononMode ℚ).lin_res exEnv ⟨0, 0, 1⟩ 1 exDdb
              = .error (EXCEPTION .negativeFrequency)
            ↔ ∃ m, m < 3 * exDdb.natom ∧ exEnv.Ha2THz * g.freq_gamma.get m < -1)
        ∧ ((∃ m, m < 3 * exDdb.natom ∧ exEnv.Ha2THz * g.freq_gamma.get m < -1) →
            ∀ r, (PhononMode.new0 : PhononMode ℚ).lin_res exEnv ⟨0, 0, 1⟩ 1 exDdb ≠ .ok r)
        ∧ ((∀ m, m < 3 * exDdb.natom → -1 ≤ exEnv.Ha2THz * g.freq_gamma.get m) →
            (PhononMode.new0 : PhononMode ℚ).lin_res exEnv ⟨0, 0, 1⟩ 1 exDdb
              ≠ .error (EXCEPTION .negativeFrequency))) :=
  ⟨_, rfl, lin_res_unstable_guard exEnv PhononMode.new0 ⟨0, 0, 1⟩ 1 exDdb _ rfl⟩

end Guard

/-! ## The checks of `computeForceCst` -/

section Checks

variable {R : Type} [LinearOrderedField R]

theorem u32_of_lt (x : Nat) (h : x < 2 ^ 32) : u32 x = x := Nat.mod_eq_of_lt h

theorem applyASR_error (s : PhononMode R) (e : Exception) (h : s.applyASR = .error e) :
    e = EXCEPTION .asrNotComputed ∧ s._hasASR = false := by
  simp only [PhononMode.applyASR] at h
  split at h
  · rename_i hh
    simp only [Except.error.injEq] at h
    exact ⟨h.symm, by simpa using hh⟩
  · cases h

/-- Past its two size checks, `computeForceCst` never raises a size exception. -/
theorem computeForceCst_error_cases (s : PhononMode R) (ddb : List (D2der R)) (e : Exception)
    (h : s.computeForceCst ddb = .error e) :
    (s._natom = 0 ∧ e = EXCEPTION .natomNotInitialized)
      ∨ (s._natom ≠ 0 ∧ u32 (s._natom * s._natom * 9) > ddb.length
          ∧ e = EXCEPTION (.sizeMismatch (u32 (s._natom * s._natom * 9)) ddb.length))
      ∨ (s._natom ≠ 0 ∧ ¬ u32 (s._natom * s._natom * 9) > ddb.length
          ∧ e = EXCEPTION .missingData) := by
  simp only [PhononMode.computeForceCst] at h
  split at h
  · rename_i h0
    simp only [Except.error.injEq] at h
    exact Or.inl ⟨h0, h.symm⟩
  · rename_i h0
    split at h
    · rename_i h1
      simp only [Except.error.injEq] at h
      exact Or.inr (Or.inl ⟨h0, h1, h.symm⟩)
    · rename_i h1
      split at h
      · simp only [Except.error.injEq] at h
        exact Or.inr (Or.inr ⟨h0, h1, h.symm⟩)
      · split at h
        · rename_i hasr
          have := (applyASR_error _ e h).2
          simp only [] at this hasr
          rw [this] at hasr
          cases hasr
        · cases h

/-- C6: size checks of `computeForceCst(records)`.  For an atom count `N` with
`9*N^2 < 2^32`: the call fails with a SizeMismatch exception exactly when `N = 0` or
the number of records is smaller than `9*N^2`; when `N > 0` and there are too few
records the exception text carries the expected count `9*N^2` and the actual count;
when `N > 0` and there are at least `9*N^2` records no exception raised is a
SizeMismatch. -/
theorem computeForceCst_size_check (s : PhononMode R) (ddb : List (D2der R))
    (hN : s._natom * s._natom * 9 < 2 ^ 32) :
    ((∃ e, s.computeForceCst ddb = .error e ∧ e.isSizeMismatch = true)
        ↔ (s._natom = 0 ∨ ddb.length < 9 * s._natom ^ 2))
      ∧ (s._natom ≠ 0 → ddb.length < 9 * s._natom ^ 2 →
          s.computeForceCst ddb = .error (EXCEPTION (.sizeMismatch (9 * s._natom ^ 2) ddb.length)))
      ∧ (0 < s._natom → 9 * s._natom ^ 2 ≤ ddb.length →
          ∀ e, s.computeForceCst ddb = .error e → e.isSizeMismatch = false) := by
  have hu : u32 (s._natom * s._natom * 9) = 9 * s._natom ^ 2 := by
    rw [u32_of_lt _ hN]
    ring
  have hfew : s._natom ≠ 0 → ddb.length < 9 * s._natom ^ 2 →
      s.computeForceCst ddb = .error (EXCEPTION (.sizeMismatch (9 * s._natom ^ 2) ddb.length)) := by
    intro h0 hlt
    simp only [PhononMode.computeForceCst, if_neg h0, hu]
    rw [if_pos hlt]
  have hzero : s._natom = 0 →
      s.computeForceCst ddb = .error (EXCEPTION .natomNotInitialized) := by
    intro h0
    simp only [PhononMode.computeForceCst, if_pos h0]
  refine ⟨⟨?_, ?_⟩, hfew, ?_⟩
  · rintro ⟨e, he, hsm⟩
    rcases computeForceCst_error_cases s ddb e he with ⟨h0, _⟩ | ⟨_, h1, _⟩ | ⟨_, _, h2⟩
    · exact Or.inl h0
    · rw [hu] at h1
      exact Or.inr h1
    · rw [h2] at hsm
      cases hsm
  · rintro (h0 | hlt)
    · exact ⟨_, hzero h0, rfl⟩
    · by_cases h0 : s._natom = 0
      · exact ⟨_, hzero h0, rfl⟩
      · exact ⟨_, hfew h0 hlt, rfl⟩
  · intro hpos hge e he
    rcases computeForceCst_error_cases s ddb e he with ⟨h0, _⟩ | ⟨_, h1, _⟩ | ⟨_, _, h2⟩
    · omega
    · rw [hu] at h1
      omega
    · rw [h2]
      rfl

/-- Witness of C6: the one-atom object `exState` with the nine records `exRecords`. -/
theorem computeForceCst_size_check_witness :
    exState._natom * exState._natom * 9 < 2 ^ 32
      ∧ (((∃ e, exState.computeForceCst exRecords = .error e ∧ e.isSizeMismatch = true)
          ↔ (exState._natom = 0 ∨ exRecords.length < 9 * exState._natom ^ 2))
        ∧ (exState._natom ≠ 0 → exRecords.length < 9 * exState._natom ^ 2 →
            exState.computeForceCst exRecords
              = .error (EXCEPTION (.sizeMismatch (9 * exState._natom ^ 2) exRecords.length)))
        ∧ (0 < exState._natom → 9 * exState._natom ^ 2 ≤ exRecords.length →
            ∀ e, exState.computeForceCst exRecords = .error e → e.isSizeMismatch = false)) :=
  ⟨by decide, computeForceCst_size_check exState exRecords (by decide)⟩

theorem ingest_dims (natom : Nat) (acc : Mat (Cx R) × Mat Bool) (elt : D2der R) :
    (ingest natom acc elt).2.rows = acc.2.rows ∧ (ingest natom acc elt).2.cols = acc.2.cols := by
  unfold ingest
  simp only []
  split
  · exact ⟨rfl, rfl⟩
  · exact ⟨rfl, rfl⟩

theorem ingestFold_dims (natom : Nat) (ddb : List (D2der R)) (acc : Mat (Cx R) × Mat Bool) :
    (ddb.foldl (ingest natom) acc).2.rows = acc.2.rows
      ∧ (ddb.foldl (ingest natom) acc).2.cols = acc.2.cols := by
  induction ddb generalizing acc with
  | nil => exact ⟨rfl, rfl⟩
  | cons elt rest ih =>
    simp only [List.foldl_cons]
    obtain ⟨h1, h2⟩ := ih (ingest natom acc elt)
    obtain ⟨h3, h4⟩ := ingest_dims natom acc elt
    exact ⟨h1.trans h3, h2.trans h4⟩

/-- A record of another cell leaves the mask of a required cell as it is. -/
theorem ingest_check_other (natom : Nat) (acc : Mat (Cx R) × Mat Bool) (elt : D2der R)
    (d1 a1 d2 a2 : Nat) (hd1 : d1 < 3) (hd2 : d2 < 3) (hne : elt.first ≠ (d1, a1, d2, a2)) :
    (ingest natom acc elt).2.get (a2 * 3 + d2) (a1 * 3 + d1)
      = acc.2.get (a2 * 3 + d2) (a1 * 3 + d1) := by
  unfold ingest
  simp only []
  split
  · rfl
  · rename_i hin
    simp only [not_not] at hin
    obtain ⟨h1, h2, h3, h4⟩ := hin
    rw [mat_get_set, if_neg]
    rintro ⟨hr, hc⟩
    apply hne
    have e1 : elt.first.1 = d1 := by omega
    have e2 : elt.first.2.1 = a1 := by omega
    have e3 : elt.first.2.2.1 = d2 := by omega
    have e4 : elt.first.2.2.2 = a2 := by omega
    rw [← e1, ← e2, ← e3, ← e4]

theorem ingestFold_check_keep (natom : Nat) (ddb : List (D2der R))
    (acc : Mat (Cx R) × Mat Bool) (d1 a1 d2 a2 : Nat) (hd1 : d1 < 3) (hd2 : d2 < 3)
    (hne : ∀ elt, elt ∈ ddb → elt.first ≠ (d1, a1, d2, a2)) :
    (ddb.foldl (ingest natom) acc).2.get (a2 * 3 + d2) (a1 * 3 + d1)
      = acc.2.get (a2 * 3 + d2) (a1 * 3 + d1) := by
  induction ddb generalizing acc with
  | nil => rfl
  | cons elt rest ih =>
    simp only [List.foldl_cons]
    rw [ih (ingest natom acc elt) (fun e he => hne e (List.mem_cons_of_mem _ he)),
      ingest_check_other natom acc elt d1 a1 d2 a2 hd1 hd2 (hne elt (List.mem_cons_self _ _))]

theorem mat_any_of_get (M : Mat Bool) (r c : Nat) (hr : r < M.rows) (hc : c < M.cols)
    (h : M.get r c = true) : M.any = true := by
  unfold Mat.any
  rw [List.any_eq_true]
  refine ⟨r, List.mem_range.2 hr, ?_⟩
  rw [List.any_eq_true]
  exact ⟨c, List.mem_range.2 hc, h⟩

theorem removeCell_ne (cell : Nat × Nat × Nat × Nat) (ddb : List (D2der R)) (elt : D2der R)
    (h : elt ∈ removeCell cell ddb) : elt.first ≠ cell := by
  unfold removeCell at h
  rw [List.mem_filter] at h
  simpa using h.2

/-- C2 (amended): for every object with atom count `N > 0` and every record set,
removing the record(s) of any one required cell (dir1, atom1, dir2, atom2) with
`dir < 3` and `atom < N` makes `computeForceCst` fail: with the "Size mismatche"
exception when fewer than `9*N^2` (modulo `2^32`) records are left, and with "Missing
some data in the DDB" otherwise.  It never succeeds with that cell defaulted. -/
theorem computeForceCst_removed_cell (s : PhononMode R) (ddb : List (D2der R))
    (d1 a1 d2 a2 : Nat) (hN : 0 < s._natom) (hd1 : d1 < 3) (hd2 : d2 < 3)
    (ha1 : a1 < s._natom) (ha2 : a2 < s._natom) :
    s.computeForceCst (removeCell (d1, a1, d2, a2) ddb)
      = if u32 (s._natom * s._natom * 9) > (removeCell (d1, a1, d2, a2) ddb).length then
          .error (EXCEPTION (.sizeMismatch (u32 (s._natom * s._natom * 9))
            (removeCell (d1, a1, d2, a2) ddb).length))
        else .error (EXCEPTION .missingData) := by
  have h0 : s._natom ≠ 0 := by omega
  simp only [PhononMode.computeForceCst, if_neg h0]
  split
  · rfl
  · have hkeep := ingestFold_check_keep s._natom (removeCell (d1, a1, d2, a2) ddb)
      (s._d2cart, (Mat.fill (3 * s._natom) (3 * s._natom) true : Mat Bool)) d1 a1 d2 a2 hd1 hd2
      (fun e he => removeCell_ne _ ddb e he)
    obtain ⟨hr, hc⟩ := ingestFold_dims s._natom (removeCell (d1, a1, d2, a2) ddb)
      (s._d2cart, (Mat.fill (3 * s._natom) (3 * s._natom) true : Mat Bool))
    have hany := mat_any_of_get _ (a2 * 3 + d2) (a1 * 3 + d1)
      (by rw [hr]; show a2 * 3 + d2 < 3 * s._natom; omega)
      (by rw [hc]; show a1 * 3 + d1 < 3 * s._natom; omega)
      (by rw [hkeep]; rfl)
    rw [if_pos hany]

/-- Witness of C2 (amended): the one-atom object `exState`, every record given twice,
cell (0,0,0,0) removed (sixteen records are left, the "Missing some data" branch). -/
theorem computeForceCst_removed_cell_witness :
    exState.computeForceCst (removeCell (0, 0, 0, 0) (exRecords ++ exRecords))
      = if u32 (exState._natom * exState._natom * 9)
            > (removeCell (0, 0, 0, 0) (exRecords ++ exRecords)).length then
          .error (EXCEPTION (.sizeMismatch (u32 (exState._natom * exState._natom * 9))
            (removeCell (0, 0, 0, 0) (exRecords ++ exRecords)).length))
        else .error (EXCEPTION .missingData) :=
  computeForceCst_removed_cell exState (exRecords ++ exRecords) 0 0 0 0
    (by decide) (by decide) (by decide) (by decide) (by decide)

/-- C2 (counterexample): one atom, nine records, one per cell.  The full set
assembles; with the record of cell (0,0,0,0) removed, eight records are left and the
call fails with "Size mismatche in ddb: expected at least 9 elements and got 8", not
with "Missing some data in the DDB". -/
theorem computeForceCst_removed_cell_size_error :
    0 < exState._natom
      ∧ (∃ t, exState.computeForceCst exRecords = .ok t)
      ∧ exState.computeForceCst (removeCell (0, 0, 0, 0) exRecords)
          = .error (EXCEPTION (.sizeMismatch 9 8))
      ∧ exState.computeForceCst (removeCell (0, 0, 0, 0) exRecords)
          ≠ .error (EXCEPTION .missingData) := by
  have h8 : exState.computeForceCst (removeCell (0, 0, 0, 0) exRecords)
      = .error (EXCEPTION (.sizeMismatch 9 8)) := rfl
  refine ⟨by decide, ⟨_, rfl⟩, h8, ?_⟩
  rw [h8]
  intro h
  cases h

end Checks

/-! ## The basis change of `computeForceCst` -/

section BasisChange

variable {R : Type} [LinearOrderedField R]

theorem lineStep_get (G : Nat → Nat → R) (row col0 : Nat) (M : Mat (Cx R)) (r c : Nat) :
    (lineStep G row col0 M).get r c
      = if r = row ∧ col0 ≤ c ∧ c < col0 + 3 then
          gmul G (M.get row col0) (M.get row (col0 + 1)) (M.get row (col0 + 2)) (c - col0)
        else M.get r c := by
  simp only [lineStep, mat_get_set]
  by_cases hr : r = row
  · by_cases h2 : c = col0 + 2
    · rw [if_pos ⟨hr, h2⟩, if_pos ⟨hr, by omega, by omega⟩]
      have : c - col0 = 2 := by omega
      rw [this]
    · rw [if_neg (by tauto)]
      by_cases h1 : c = col0 + 1
      · rw [if_pos ⟨hr, h1⟩, if_pos ⟨hr, by omega, by omega⟩]
        have : c - col0 = 1 := by omega
        rw [this]
      · rw [if_neg (by tauto)]
        by_cases h0 : c = col0
        · rw [if_pos ⟨hr, h0⟩, if_pos ⟨hr, by omega, by omega⟩]
          have : c - col0 = 0 := by omega
          rw [this]
        · rw [if_neg (by tauto), if_neg (by omega)]
  · rw [if_neg (by tauto), if_neg (by tauto), if_neg (by tauto), if_neg (by tauto)]

theorem columnStep_get (G : Nat → Nat → R) (row0 col : Nat) (M : Mat (Cx R)) (r c : Nat) :
    (columnStep G row0 col M).get r c
      = if c = col ∧ row0 ≤ r ∧ r < row0 + 3 then
          gmul G (M.get row0 col) (M.get (row0 + 1) col) (M.get (row0 + 2) col) (r - row0)
        else M.get r c := by
  simp only [columnStep, mat_get_set]
  by_cases hc : c = col
  · by_cases h2 : r = row0 + 2
    · rw [if_pos ⟨h2, hc⟩, if_pos ⟨hc, by omega, by omega⟩]
      have : r - row0 = 2 := by omega
      rw [this]
    · rw [if_neg (by tauto)]
      by_cases h1 : r = row0 + 1
      · rw [if_pos ⟨h1, hc⟩, if_pos ⟨hc, by omega, by omega⟩]
        have : r - row0 = 1 := by omega
        rw [this]
      · rw [if_neg (by tauto)]
        by_cases h0 : r = row0
        · rw [if_pos ⟨h0, hc⟩, if_pos ⟨hc, by omega, by omega⟩]
          have : r - row0 = 0 := by omega
          rw [this]
        · rw [if_neg (by tauto), if_neg (by omega)]
  · rw [if_neg (by tauto), if_neg (by tauto), if_neg (by tauto), if_neg (by tauto)]

/-- The innermost loop of the first basis change, on one row. -/
theorem lineLoop_get (G : Nat → Nat → R) (row n : Nat) (M : Mat (Cx R)) (r c : Nat) :
    (forRange n (fun ipert1 => lineStep G row (ipert1 * 3)) M).get r c
      = if r = row ∧ c < 3 * n then
          gmul G (M.get r (c / 3 * 3)) (M.get r (c / 3 * 3 + 1)) (M.get r (c / 3 * 3 + 2)) (c % 3)
        else M.get r c := by
  revert r c
  induction n with
  | zero => intro r c; simp [forRange_zero]
  | succ m ih =>
    intro r c
    rw [forRange_succ, lineStep_get, ih, ih, ih, ih]
    rw [if_neg (by omega : ¬ (row = row ∧ m * 3 < 3 * m)),
      if_neg (by omega : ¬ (row = row ∧ m * 3 + 1 < 3 * m)),
      if_neg (by omega : ¬ (row = row ∧ m * 3 + 2 < 3 * m))]
    by_cases hr : r = row
    · by_cases hc : m * 3 ≤ c ∧ c < m * 3 + 3
      · rw [if_pos ⟨hr, hc⟩, if_pos ⟨hr, by omega⟩]
        have h3 : c / 3 * 3 = m * 3 := by omega
        have h4 : c - m * 3 = c % 3 := by omega
        rw [h3, h4, hr]
      · rw [if_neg (by tauto)]
        by_cases hlt : c < 3 * m
        · rw [if_pos ⟨hr, hlt⟩, if_pos ⟨hr, by omega⟩]
        · rw [if_neg (by tauto), if_neg (by omega)]
    · rw [if_neg (by tauto), if_neg (by tauto), if_neg (by tauto)]

/-- The innermost loop of the second basis change, on one column block. -/
theorem columnLoop_get (G : Nat → Nat → R) (row0 col0 n : Nat) (M : Mat (Cx R)) (r c : Nat) :
    (forRange n (fun idir1 => columnStep G row0 (col0 + idir1)) M).get r c
      = if (col0 ≤ c ∧ c < col0 + n) ∧ row0 ≤ r ∧ r < row0 + 3 then
          gmul G (M.get row0 c) (M.get (row0 + 1) c) (M.get (row0 + 2) c) (r - row0)
        else M.get r c := by
  revert r c
  induction n with
  | zero =>
    intro r c
    rw [forRange_zero, if_neg (by omega)]
  | succ m ih =>
    intro r c
    rw [forRange_succ, columnStep_get, ih, ih, ih, ih]
    rw [if_neg (by omega : ¬ ((col0 ≤ col0 + m ∧ col0 + m < col0 + m) ∧ row0 ≤ row0 ∧ row0 < row0 + 3)),
      if_neg (by omega : ¬ ((col0 ≤ col0 + m ∧ col0 + m < col0 + m)
        ∧ row0 ≤ row0 + 1 ∧ row0 + 1 < row0 + 3)),
      if_neg (by omega : ¬ ((col0 ≤ col0 + m ∧ col0 + m < col0 + m)
        ∧ row0 ≤ row0 + 2 ∧ row0 + 2 < row0 + 3))]
    by_cases hr : row0 ≤ r ∧ r < row0 + 3
    · by_cases hc : c = col0 + m
      · rw [if_pos ⟨hc, hr⟩, if_pos ⟨by omega, hr⟩, hc]
      · rw [if_neg (by tauto)]
        by_cases hlt : col0 ≤ c ∧ c < col0 + m
        · rw [if_pos ⟨hlt, hr⟩, if_pos ⟨by omega, hr⟩]
        · rw [if_neg (by tauto), if_neg (by omega)]
    · rw [if_neg (by tauto), if_neg (by tauto), if_neg (by tauto)]

theorem lineBlock_get (G : Nat → Nat → R) (ipert2 n k : Nat) (M : Mat (Cx R)) (r c : Nat) :
    (forRange k (fun idir2 =>
        forRange n (fun ipert1 => lineStep G (ipert2 * 3 + idir2) (ipert1 * 3))) M).get r c
      = if (ipert2 * 3 ≤ r ∧ r < ipert2 * 3 + k) ∧ c < 3 * n then lineVal G M r c
        else M.get r c := by
  revert r c
  induction k with
  | zero =>
    intro r c
    rw [forRange_zero, if_neg (by omega)]
  | succ m ih =>
    intro r c
    rw [forRange_succ, lineLoop_get]
    by_cases hr : r = ipert2 * 3 + m
    · by_cases hc : c < 3 * n
      · rw [if_pos ⟨hr, hc⟩, if_pos ⟨by omega, hc⟩, ih, ih, ih]
        rw [if_neg (by omega), if_neg (by omega), if_neg (by omega)]
        rfl
      · rw [if_neg (by tauto), if_neg (by tauto), ih, if_neg (by tauto)]
    · rw [if_neg (by tauto), ih]
      by_cases hlt : (ipert2 * 3 ≤ r ∧ r < ipert2 * 3 + m) ∧ c < 3 * n
      · rw [if_pos hlt, if_pos ⟨by omega, hlt.2⟩]
      · rw [if_neg hlt, if_neg]
        rintro ⟨h1, h2⟩
        exact hlt ⟨by omega, h2⟩

theorem basisLinesLoop_get (G : Nat → Nat → R) (n m : Nat) (M : Mat (Cx R)) (r c : Nat) :
    (forRange m (fun ipert2 =>
        forRange 3 (fun idir2 =>
          forRange n (fun ipert1 => lineStep G (ipert2 * 3 + idir2) (ipert1 * 3)))) M).get r c
      = if r < 3 * m ∧ c < 3 * n then lineVal G M r c else M.get r c := by
  revert r c
  induction m with
  | zero =>
    intro r c
    rw [forRange_zero, if_neg (by omega)]
  | succ k ih =>
    intro r c
    rw [forRange_succ, lineBlock_get]
    by_cases hr : k * 3 ≤ r ∧ r < k * 3 + 3
    · by_cases hc : c < 3 * n
      · rw [if_pos ⟨hr, hc⟩, if_pos ⟨by omega, hc⟩]
        unfold lineVal
        rw [ih, ih, ih, if_neg (by omega), if_neg (by omega), if_neg (by omega)]
      · rw [if_neg (by tauto), if_neg (by tauto), ih, if_neg (by tauto)]
    · rw [if_neg (by tauto), ih]
      by_cases hlt : r < 3 * k ∧ c < 3 * n
      · rw [if_pos hlt, if_pos ⟨by omega, hlt.2⟩]
      · rw [if_neg hlt, if_neg]
        rintro ⟨h1, h2⟩
        exact hlt ⟨by omega, h2⟩

/-- Closed form of the first basis change. -/
theorem basisLines_get (G : Nat → Nat → R) (natom : Nat) (M : Mat (Cx R)) (r c : Nat) :
    (basisLines G natom M).get r c
      = if r < 3 * natom ∧ c < 3 * natom then lineVal G M r c else M.get r c :=
  basisLinesLoop_get G natom natom M r c

theorem columnBlock_get (G : Nat → Nat → R) (ipert2 k : Nat) (M : Mat (Cx R)) (r c : Nat) :
    (forRange k (fun ipert1 =>
        forRange 3 (fun idir1 => columnStep G (ipert2 * 3) (ipert1 * 3 + idir1))) M).get r c
      = if (ipert2 * 3 ≤ r ∧ r < ipert2 * 3 + 3) ∧ c < 3 * k then columnVal G M r c
        else M.get r c := by
  revert r c
  induction k with
  | zero =>
    intro r c
    rw [forRange_zero, if_neg (by omega)]
  | succ m ih =>
    intro r c
    rw [forRange_succ, columnLoop_get]
    by_cases hr : ipert2 * 3 ≤ r ∧ r < ipert2 * 3 + 3
    · by_cases hc : m * 3 ≤ c ∧ c < m * 3 + 3
      · rw [if_pos ⟨hc, hr⟩, if_pos ⟨hr, by omega⟩, ih, ih, ih]
        rw [if_neg (by omega), if_neg (by omega), if_neg (by omega)]
        unfold columnVal
        have h3 : r / 3 * 3 = ipert2 * 3 := by omega
        have h4 : r - ipert2 * 3 = r % 3 := by omega
        rw [h3, h4]
      · rw [if_neg (by tauto), ih]
        by_cases hlt : c < 3 * m
        · rw [if_pos ⟨hr, hlt⟩, if_pos ⟨hr, by omega⟩]
        · rw [if_neg (by tauto), if_neg (by omega)]
    · rw [if_neg (by tauto), if_neg (by tauto), ih, if_neg (by tauto)]

theorem basisColumnsLoop_get (G : Nat → Nat → R) (n m : Nat) (M : Mat (Cx R)) (r c : Nat) :
    (forRange m (fun ipert2 =>
        forRange n (fun ipert1 =>
          forRange 3 (fun idir1 => columnStep G (ipert2 * 3) (ipert1 * 3 + idir1)))) M).get r c
      = if r < 3 * m ∧ c < 3 * n then columnVal G M r c else M.get r c := by
  revert r c
  induction m with
  | zero =>
    intro r c
    rw [forRange_zero, if_neg (by omega)]
  | succ k ih =>
    intro r c
    rw [forRange_succ, columnBlock_get]
    by_cases hr : k * 3 ≤ r ∧ r < k * 3 + 3
    · by_cases hc : c < 3 * n
      · rw [if_pos ⟨hr, hc⟩, if_pos ⟨by omega, hc⟩]
        unfold columnVal
        rw [ih, ih, ih, if_neg (by omega), if_neg (by omega), if_neg (by omega)]
      · rw [if_neg (by tauto), if_neg (by tauto), ih, if_neg (by tauto)]
    · rw [if_neg (by tauto), ih]
      by_cases hlt : r < 3 * k ∧ c < 3 * n
      · rw [if_pos hlt, if_pos ⟨by omega, hlt.2⟩]
      · rw [if_neg hlt, if_neg]
        rintro ⟨h1, h2⟩
        exact hlt ⟨by omega, h2⟩

/-- Closed form of the second basis change. -/
theorem basisColumns_get (G : Nat → Nat → R) (natom : Nat) (M : Mat (Cx R)) (r c : Nat) :
    (basisColumns G natom M).get r c
      = if r < 3 * natom ∧ c < 3 * natom then columnVal G M r c else M.get r c :=
  basisColumnsLoop_get G natom natom M r c

theorem ingest_value_other (natom : Nat) (acc : Mat (Cx R) × Mat Bool) (elt : D2der R)
    (d1 a1 d2 a2 : Nat) (hd1 : d1 < 3) (hd2 : d2 < 3) (hne : elt.first ≠ (d1, a1, d2, a2)) :
    (ingest natom acc elt).1.get (a2 * 3 + d2) (a1 * 3 + d1)
      = acc.1.get (a2 * 3 + d2) (a1 * 3 + d1) := by
  unfold ingest
  simp only []
  split
  · rfl
  · rename_i hin
    simp only [not_not] at hin
    obtain ⟨h1, h2, h3, h4⟩ := hin
    rw [mat_get_set, if_neg]
    rintro ⟨hr, hc⟩
    apply hne
    have e1 : elt.first.1 = d1 := by omega
    have e2 : elt.first.2.1 = a1 := by omega
    have e3 : elt.first.2.2.1 = d2 := by omega
    have e4 : elt.first.2.2.2 = a2 := by omega
    rw [← e1, ← e2, ← e3, ← e4]

theorem ingest_value_hit (natom : Nat) (acc : Mat (Cx R) × Mat Bool) (elt : D2der R)
    (d1 a1 d2 a2 : Nat) (hd1 : d1 < 3) (hd2 : d2 < 3) (ha1 : a1 < natom) (ha2 : a2 < natom)
    (heq : elt.first = (d1, a1, d2, a2)) :
    (ingest natom acc elt).1.get (a2 * 3 + d2) (a1 * 3 + d1) = elt.second := by
  unfold ingest
  simp only [heq]
  rw [if_neg (by simp only [not_not]; exact ⟨hd1, hd2, ha1, ha2⟩), mat_get_set, if_pos ⟨rfl, rfl⟩]

/-- After the record loop, a required cell holds the value of its last record (or what
the matrix held before, when it has no record). -/
theorem ingestFold_value (natom : Nat) (ddb : List (D2der R)) (acc : Mat (Cx R) × Mat Bool)
    (d1 a1 d2 a2 : Nat) (hd1 : d1 < 3) (hd2 : d2 < 3) (ha1 : a1 < natom) (ha2 : a2 < natom) :
    (ddb.foldl (ingest natom) acc).1.get (a2 * 3 + d2) (a1 * 3 + d1)
      = ddb.foldl (fun v elt => if elt.first = (d1, a1, d2, a2) then elt.second else v)
          (acc.1.get (a2 * 3 + d2) (a1 * 3 + d1)) := by
  induction ddb generalizing acc with
  | nil => rfl
  | cons elt rest ih =>
    simp only [List.foldl_cons]
    rw [ih (ingest natom acc elt)]
    by_cases heq : elt.first = (d1, a1, d2, a2)
    · rw [ingest_value_hit natom acc elt d1 a1 d2 a2 hd1 hd2 ha1 ha2 heq, if_pos heq]
    · rw [ingest_value_other natom acc elt d1 a1 d2 a2 hd1 hd2 heq, if_neg heq]

theorem lastRecord_fold (cell : Nat × Nat × Nat × Nat) (ddb : List (D2der R))
    (o : Option (Cx R)) (v : Cx R) :
    (ddb.foldl (fun w elt => if elt.first = cell then some elt.second else w) o).getD v
      = ddb.foldl (fun w elt => if elt.first = cell then elt.second else w) (o.getD v) := by
  induction ddb generalizing o with
  | nil => rfl
  | cons elt rest ih =>
    simp only [List.foldl_cons]
    rw [ih]
    by_cases heq : elt.first = cell
    · simp [heq]
    · simp [heq]

theorem lastRecord_fold_none (cell : Nat × Nat × Nat × Nat) (ddb : List (D2der R))
    (o : Option (Cx R))
    (h : ddb.foldl (fun w elt => if elt.first = cell then some elt.second else w) o = none) :
    ∀ elt, elt ∈ ddb → elt.first ≠ cell := by
  induction ddb generalizing o with
  | nil =>
    intro elt he
    cases he
  | cons e rest ih =>
    simp only [List.foldl_cons] at h
    intro elt he
    rcases List.mem_cons.1 he with rfl | hmem
    · intro heq
      rw [if_pos heq] at h
      have hsome : ∀ (l : List (D2der R)) (x : Cx R),
          l.foldl (fun w e' => if e'.first = cell then some e'.second else w) (some x) ≠ none := by
        intro l
        induction l with
        | nil => intro x hx; cases hx
        | cons e' l' ihl =>
          intro x
          simp only [List.foldl_cons]
          by_cases h' : e'.first = cell
          · rw [if_pos h']
            exact ihl _
          · rw [if_neg h']
            exact ihl _
      exact hsome _ _ h
    · exact ih _ h elt hmem

theorem mat_get_of_any_false (M : Mat Bool) (h : M.any = false) (r c : Nat) (hr : r < M.rows)
    (hc : c < M.cols) : M.get r c = false := by
  cases hg : M.get r c with
  | false => rfl
  | true =>
    rw [mat_any_of_get M r c hr hc hg] at h
    cases h

/-- When the record loop clears the whole mask, every required cell has a record. -/
theorem lastRecord_isSome_of_complete (natom : Nat) (ddb : List (D2der R)) (M : Mat (Cx R))
    (h : (ddb.foldl (ingest natom)
      (M, (Mat.fill (3 * natom) (3 * natom) true : Mat Bool))).2.any = false)
    (d1 a1 d2 a2 : Nat) (hd1 : d1 < 3) (hd2 : d2 < 3) (ha1 : a1 < natom) (ha2 : a2 < natom) :
    (lastRecord (d1, a1, d2, a2) ddb).isSome = true := by
  cases hl : lastRecord (d1, a1, d2, a2) ddb with
  | some v => rfl
  | none =>
    exfalso
    have hne := lastRecord_fold_none (d1, a1, d2, a2) ddb none hl
    have hkeep := ingestFold_check_keep natom ddb
      (M, (Mat.fill (3 * natom) (3 * natom) true : Mat Bool)) d1 a1 d2 a2 hd1 hd2 hne
    obtain ⟨hr, hc⟩ := ingestFold_dims natom ddb
      (M, (Mat.fill (3 * natom) (3 * natom) true : Mat Bool))
    have hf := mat_get_of_any_false _ h (a2 * 3 + d2) (a1 * 3 + d1)
      (by rw [hr]; show a2 * 3 + d2 < 3 * natom; omega)
      (by rw [hc]; show a1 * 3 + d1 < 3 * natom; omega)
    rw [hkeep] at hf
    cases hf

/-- What a successful `computeForceCst` on an object without ASR returns: the object
with the twice-transformed record matrix, and the mask cleared by the record loop. -/
theorem computeForceCst_ok_noASR (s t : PhononMode R) (ddb : List (D2der R))
    (hasr : s._hasASR = false) (h : s.computeForceCst ddb = .ok t) :
    (ddb.foldl (ingest s._natom)
        (s._d2cart, (Mat.fill (3 * s._natom) (3 * s._natom) true : Mat Bool))).2.any = false
      ∧ t = { s with _d2cart := basisColumns s._gprim s._natom (basisLines s._gprim s._natom
          (ddb.foldl (ingest s._natom)
            (s._d2cart, (Mat.fill (3 * s._natom) (3 * s._natom) true : Mat Bool))).1) } := by
  simp only [PhononMode.computeForceCst] at h
  split at h
  · cases h
  · split at h
    · cases h
    · split at h
      · cases h
      · rename_i hany
        simp only [hasr, Bool.false_eq_true, if_false, Except.ok.injEq] at h
        refine ⟨by simpa using hany, ?_⟩
        rw [← h, hasr]

/-- The matrix after the record loop, at a required cell, when the loop cleared the
whole mask: the value of the last record of the cell. -/
theorem ingestFold_value_complete (natom : Nat) (ddb : List (D2der R)) (M : Mat (Cx R))
    (h : (ddb.foldl (ingest natom)
      (M, (Mat.fill (3 * natom) (3 * natom) true : Mat Bool))).2.any = false)
    (d1 a1 d2 a2 : Nat) (hd1 : d1 < 3) (hd2 : d2 < 3) (ha1 : a1 < natom) (ha2 : a2 < natom) :
    (ddb.foldl (ingest natom)
        (M, (Mat.fill (3 * natom) (3 * natom) true : Mat Bool))).1.get (a2 * 3 + d2) (a1 * 3 + d1)
      = (lastRecord (d1, a1, d2, a2) ddb).getD 0 := by
  rw [ingestFold_value natom ddb _ d1 a1 d2 a2 hd1 hd2 ha1 ha2]
  have hs := lastRecord_isSome_of_complete natom ddb M h d1 a1 d2 a2 hd1 hd2 ha1 ha2
  have hf := lastRecord_fold (d1, a1, d2, a2) ddb none (M.get (a2 * 3 + d2) (a1 * 3 + d1))
  simp only [Option.getD_none] at hf
  rw [← hf]
  unfold lastRecord at hs ⊢
  cases hl : ddb.foldl
      (fun w elt => if elt.first = (d1, a1, d2, a2) then some elt.second else w) none with
  | none =>
    rw [hl] at hs
    cases hs
  | some v => rfl

theorem gmul_gmul (G : Nat → Nat → R) (a b : Nat) (r : Nat → Nat → Cx R) :
    gmul G (gmul G (r 0 0) (r 0 1) (r 0 2) b) (gmul G (r 1 0) (r 1 1) (r 1 2) b)
        (gmul G (r 2 0) (r 2 1) (r 2 2) b) a
      = ∑ c in Finset.range 3, ∑ d in Finset.range 3,
          Cx.ofReal (G a c) * Cx.ofReal (G b d) * r c d := by
  simp only [Finset.sum_range_succ, Finset.sum_range_zero, gmul]
  apply Cx.ext_iff'.2
  constructor
  · simp [Cx.scale, Cx.ofReal]
    ring
  · simp [Cx.scale, Cx.ofReal]
    ring

/-- Closed form of the matrix after the record loop and the two basis changes, when
the record loop cleared the whole mask. -/
theorem assembled_get (G : Nat → Nat → R) (natom : Nat) (ddb : List (D2der R)) (M : Mat (Cx R))
    (hany : (ddb.foldl (ingest natom)
      (M, (Mat.fill (3 * natom) (3 * natom) true : Mat Bool))).2.any = false)
    (p1 p2 a b : Nat) (hp1 : p1 < natom) (hp2 : p2 < natom) (ha : a < 3) (hb : b < 3) :
    (basisColumns G natom (basisLines G natom (ddb.foldl (ingest natom)
        (M, (Mat.fill (3 * natom) (3 * natom) true : Mat Bool))).1)).get (3 * p2 + a) (3 * p1 + b)
      = ∑ c in Finset.range 3, ∑ d in Finset.range 3,
          Cx.ofReal (G a c) * Cx.ofReal (G b d) * (lastRecord (d, p1, c, p2) ddb).getD 0 := by
  have hA : ∀ j k, j < 3 → k < 3 →
      (ddb.foldl (ingest natom)
        (M, (Mat.fill (3 * natom) (3 * natom) true : Mat Bool))).1.get
          (p2 * 3 + j) (p1 * 3 + k) = (lastRecord (k, p1, j, p2) ddb).getD 0 :=
    fun j k hj hk => ingestFold_value_complete natom ddb M hany k p1 j p2 hk hj hp1 hp2
  rw [basisColumns_get, if_pos ⟨by omega, by omega⟩]
  unfold columnVal
  have e1 : (3 * p2 + a) / 3 * 3 = p2 * 3 + 0 := by omega
  have e2 : (3 * p2 + a) % 3 = a := by omega
  have e3 : (3 * p1 + b) / 3 * 3 = p1 * 3 + 0 := by omega
  have e4 : (3 * p1 + b) % 3 = b := by omega
  rw [e1, e2, basisLines_get, basisLines_get, basisLines_get, if_pos ⟨by omega, by omega⟩,
    if_pos ⟨by omega, by omega⟩, if_pos ⟨by omega, by omega⟩]
  unfold lineVal
  rw [e3, e4]
  simp only [Nat.add_assoc, Nat.zero_add]
  have h00 := hA 0 0 (by omega) (by omega)
  have h01 := hA 0 1 (by omega) (by omega)
  have h02 := hA 0 2 (by omega) (by omega)
  have h10 := hA 1 0 (by omega) (by omega)
  have h11 := hA 1 1 (by omega) (by omega)
  have h12 := hA 1 2 (by omega) (by omega)
  have h20 := hA 2 0 (by omega) (by omega)
  have h21 := hA 2 1 (by omega) (by omega)
  have h22 := hA 2 2 (by omega) (by omega)
  rw [h00, h01, h02, h10, h11, h12, h20, h21, h22]
  exact gmul_gmul G a b (fun c d => (lastRecord (d, p1, c, p2) ddb).getD 0)

/-- C5: basis change.  For every successful `computeForceCst(records)` on an object
without ASR, every required cell has a record, and every entry of every 3x3 block of
the result is `d2cart(3*p2+a, 3*p1+b) = sum over c, d in {0,1,2} of
G(a,c) * G(b,d) * r(d, p1, c, p2)`, with `G` the matrix `_gprim` of the object and
`r(dir1, atom1, dir2, atom2)` the value of the last record of the cell: the transform
is contracted against both direction indices. -/
theorem computeForceCst_basis_change (s t : PhononMode R) (ddb : List (D2der R))
    (hasr : s._hasASR = false) (h : s.computeForceCst ddb = .ok t)
    (p1 p2 a b : Nat) (hp1 : p1 < s._natom) (hp2 : p2 < s._natom) (ha : a < 3) (hb : b < 3) :
    (∀ c d, c < 3 → d < 3 → (lastRecord (d, p1, c, p2) ddb).isSome = true)
      ∧ t._d2cart.get (3 * p2 + a) (3 * p1 + b)
        = ∑ c in Finset.range 3, ∑ d in Finset.range 3,
            Cx.ofReal (s._gprim a c) * Cx.ofReal (s._gprim b d)
              * (lastRecord (d, p1, c, p2) ddb).getD 0 := by
  obtain ⟨hany, ht⟩ := computeForceCst_ok_noASR s t ddb hasr h
  constructor
  · intro c d hc hd
    exact lastRecord_isSome_of_complete s._natom ddb s._d2cart hany d p1 c p2 hd hc hp1 hp2
  · rw [ht]
    exact assembled_get s._gprim s._natom ddb s._d2cart hany p1 p2 a b hp1 hp2 ha hb

/-- Witness of C5: the one-atom object `exState` with the nine records `exRecords`,
entry (0, 0). -/
theorem computeForceCst_basis_change_witness :
    ∃ t, exState.computeForceCst exRecords = .ok t
      ∧ ((∀ c d, c < 3 → d < 3 → (lastRecord (d, 0, c, 0) exRecords).isSome = true)
        ∧ t._d2cart.get (3 * 0 + 0) (3 * 0 + 0)
          = ∑ c in Finset.range 3, ∑ d in Finset.range 3,
              Cx.ofReal (exState._gprim 0 c) * Cx.ofReal (exState._gprim 0 d)
                * (lastRecord (d, 0, c, 0) exRecords).getD 0) :=
  ⟨_, rfl, computeForceCst_basis_change exState _ exRecords rfl rfl 0 0 0 0
    (by decide) (by decide) (by decide) (by decide)⟩

end BasisChange

/-! ## The acoustic sum rule -/

section ASR

variable {R : Type} [LinearOrderedField R]

theorem computeASRStep_get (D : Mat (Cx R)) (ipert1 ipert2 : Nat) (A : Mat (Cx R)) (r k : Nat) :
    (computeASRStep D ipert1 ipert2 A).get r k
      = if (ipert1 * 3 ≤ r ∧ r < ipert1 * 3 + 3) ∧ k < 3 then
          A.get r k + D.get r (ipert2 * 3 + k)
        else A.get r k := by
  by_cases h : (ipert1 * 3 ≤ r ∧ r < ipert1 * 3 + 3) ∧ k < 3
  · rw [if_pos h]
    obtain ⟨⟨h1, h2⟩, h3⟩ := h
    obtain ⟨x, hx, rfl⟩ : ∃ x, x < 3 ∧ r = ipert1 * 3 + x := ⟨r - ipert1 * 3, by omega, by omega⟩
    interval_cases x <;> interval_cases k <;>
      simp [computeASRStep, addAt, mat_get_set]
  · rw [if_neg h]
    simp only [computeASRStep, addAt, mat_get_set]
    repeat rw [if_neg (by omega)]

theorem applyASRStep_get (asr : Mat (Cx R)) (ipert1 : Nat) (M : Mat (Cx R)) (r c : Nat) :
    (applyASRStep asr ipert1 M).get r c
      = if (ipert1 * 3 ≤ r ∧ r < ipert1 * 3 + 3) ∧ (ipert1 * 3 ≤ c ∧ c < ipert1 * 3 + 3) then
          M.get r c - asr.get r (c - ipert1 * 3)
        else M.get r c := by
  by_cases h : (ipert1 * 3 ≤ r ∧ r < ipert1 * 3 + 3) ∧ (ipert1 * 3 ≤ c ∧ c < ipert1 * 3 + 3)
  · rw [if_pos h]
    obtain ⟨⟨h1, h2⟩, h3, h4⟩ := h
    obtain ⟨x, hx, rfl⟩ : ∃ x, x < 3 ∧ r = ipert1 * 3 + x := ⟨r - ipert1 * 3, by omega, by omega⟩
    obtain ⟨y, hy, rfl⟩ : ∃ y, y < 3 ∧ c = ipert1 * 3 + y := ⟨c - ipert1 * 3, by omega, by omega⟩
    interval_cases x <;> interval_cases y <;>
      simp [applyASRStep, subAt, mat_get_set]
  · rw [if_neg h]
    simp only [applyASRStep, subAt, mat_get_set]
    repeat rw [if_neg (by omega)]


theorem asrInner_get (D : Mat (Cx R)) (ipert1 m : Nat) (A : Mat (Cx R)) (r k : Nat) :
    (forRange m (fun ipert2 => computeASRStep D ipert1 ipert2) A).get r k
      = if (ipert1 * 3 ≤ r ∧ r < ipert1 * 3 + 3) ∧ k < 3 then
          A.get r k + ∑ j in Finset.range m, D.get r (j * 3 + k)
        else A.get r k := by
  induction m with
  | zero =>
    rw [forRange_zero, Finset.sum_range_zero, add_zero, ite_self]
  | succ n ih =>
    rw [forRange_succ, computeASRStep_get, ih]
    by_cases h : (ipert1 * 3 ≤ r ∧ r < ipert1 * 3 + 3) ∧ k < 3
    · rw [if_pos h, if_pos h, if_pos h, Finset.sum_range_succ, add_assoc]
    · rw [if_neg h, if_neg h, if_neg h]

theorem asrOuter_get (D : Mat (Cx R)) (N n : Nat) (A : Mat (Cx R)) (r k : Nat) :
    (forRange n (fun ipert1 =>
        forRange N (fun ipert2 => computeASRStep D ipert1 ipert2)) A).get r k
      = if r < 3 * n ∧ k < 3 then A.get r k + ∑ j in Finset.range N, D.get r (j * 3 + k)
        else A.get r k := by
  induction n with
  | zero =>
    rw [forRange_zero, if_neg (by omega)]
  | succ m ih =>
    rw [forRange_succ, asrInner_get, ih]
    by_cases h : (m * 3 ≤ r ∧ r < m * 3 + 3) ∧ k < 3
    · rw [if_pos h, if_neg (by omega), if_pos ⟨by omega, h.2⟩]
    · rw [if_neg h]
      by_cases hlt : r < 3 * m ∧ k < 3
      · rw [if_pos hlt, if_pos ⟨by omega, hlt.2⟩]
      · rw [if_neg hlt, if_neg]
        rintro ⟨h1, h2⟩
        exact hlt ⟨by omega, h2⟩

theorem applyLoop_get (asr : Mat (Cx R)) (n : Nat) (M : Mat (Cx R)) (r c : Nat) :
    (forRange n (applyASRStep asr) M).get r c
      = if r < 3 * n ∧ r / 3 = c / 3 then M.get r c - asr.get r (c % 3) else M.get r c := by
  induction n with
  | zero =>
    rw [forRange_zero, if_neg (by omega)]
  | succ m ih =>
    rw [forRange_succ, applyASRStep_get, ih]
    by_cases h : (m * 3 ≤ r ∧ r < m * 3 + 3) ∧ (m * 3 ≤ c ∧ c < m * 3 + 3)
    · rw [if_pos h, if_neg (by omega), if_pos ⟨by omega, by omega⟩]
      have : c - m * 3 = c % 3 := by omega
      rw [this]
    · rw [if_neg h]
      by_cases hlt : r < 3 * m ∧ r / 3 = c / 3
      · rw [if_pos hlt, if_pos ⟨by omega, hlt.2⟩]
      · rw [if_neg hlt, if_neg]
        rintro ⟨h1, h2⟩
        by_cases h3 : r < 3 * m
        · exact hlt ⟨h3, h2⟩
        · exact h ⟨⟨by omega, by omega⟩, by omega, by omega⟩

/-- The mask after the record loop does not depend on the matrix the loop started
from. -/
theorem ingestFold_mask_indep (natom : Nat) (ddb : List (D2der R)) (M M' : Mat (Cx R))
    (C : Mat Bool) :
    (ddb.foldl (ingest natom) (M, C)).2 = (ddb.foldl (ingest natom) (M', C)).2 := by
  induction ddb generalizing M M' C with
  | nil => rfl
  | cons elt rest ih =>
    simp only [List.foldl_cons]
    unfold ingest
    simp only []
    split
    · exact ih M M' C
    · exact ih _ _ _

/-- What a successful `computeForceCst` passed and what it returns. -/
theorem computeForceCst_ok_cases (s t : PhononMode R) (ddb : List (D2der R))
    (h : s.computeForceCst ddb = .ok t) :
    s._natom ≠ 0 ∧ ¬ u32 (s._natom * s._natom * 9) > ddb.length
      ∧ (ddb.foldl (ingest s._natom)
          (s._d2cart, (Mat.fill (3 * s._natom) (3 * s._natom) true : Mat Bool))).2.any = false
      ∧ t._d2cart =
          (if s._hasASR = true then
            forRange s._natom (applyASRStep s._asr)
              (basisColumns s._gprim s._natom (basisLines s._gprim s._natom
                (ddb.foldl (ingest s._natom)
                  (s._d2cart, (Mat.fill (3 * s._natom) (3 * s._natom) true : Mat Bool))).1))
          else
            basisColumns s._gprim s._natom (basisLines s._gprim s._natom
              (ddb.foldl (ingest s._natom)
                (s._d2cart, (Mat.fill (3 * s._natom) (3 * s._natom) true : Mat Bool))).1))
      ∧ t._natom = s._natom ∧ t._hasASR = s._hasASR ∧ t._gprim = s._gprim
      ∧ t._asr = s._asr ∧ t._mass = s._mass := by
  simp only [PhononMode.computeForceCst] at h
  split at h
  · cases h
  · rename_i h0
    split at h
    · cases h
    · rename_i h1
      split at h
      · cases h
      · rename_i hany
        refine ⟨h0, h1, by simpa using hany, ?_⟩
        cases hasr : s._hasASR with
        | false =>
          simp only [hasr, Bool.false_eq_true, if_false, Except.ok.injEq] at h
          rw [← h]
          exact ⟨rfl, rfl, rfl, rfl, rfl, rfl⟩
        | true =>
          simp only [hasr, if_true, PhononMode.applyASR, not_true_eq_false, if_false,
            Except.ok.injEq] at h
          rw [← h]
          exact ⟨rfl, rfl, rfl, rfl, rfl, rfl⟩

/-- A call of `computeForceCst` that passes the three checks succeeds. -/
theorem computeForceCst_of_checks (s : PhononMode R) (ddb : List (D2der R))
    (h0 : s._natom ≠ 0) (h1 : ¬ u32 (s._natom * s._natom * 9) > ddb.length)
    (hany : (ddb.foldl (ingest s._natom)
      (s._d2cart, (Mat.fill (3 * s._natom) (3 * s._natom) true : Mat Bool))).2.any = false) :
    ∃ t, s.computeForceCst ddb = .ok t := by
  simp only [PhononMode.computeForceCst, if_neg h0, if_neg h1, hany, Bool.false_eq_true,
    if_false]
  cases hasr : s._hasASR with
  | false => exact ⟨_, rfl⟩
  | true =>
    simp only [if_true, PhononMode.applyASR, hasr, not_true_eq_false, if_false]
    exact ⟨_, rfl⟩

/-- The mass loop of `computeForceCst(qpt, ddb)` writes `_mass` only. -/
theorem massLoop_fields (env : Env R) (ddb : Ddb R) (b : Bool) (n : Nat) (s t : PhononMode R)
    (h : forRangeE n (massStep env ddb b) s = .ok t) :
    t._natom = s._natom ∧ t._hasASR = s._hasASR ∧ t._d2cart = s._d2cart
      ∧ t._gprim = s._gprim ∧ t._asr = s._asr := by
  induction n generalizing t with
  | zero =>
    simp only [forRangeE_zero, Except.ok.injEq] at h
    rw [← h]
    exact ⟨rfl, rfl, rfl, rfl, rfl⟩
  | succ k ih =>
    rw [forRangeE_succ] at h
    cases hk : forRangeE k (massStep env ddb b) s with
    | error e =>
      rw [hk] at h
      cases h
    | ok u =>
      rw [hk] at h
      have hu := ih u hk
      simp only [massStep] at h
      split at h
      · simp only [Except.ok.injEq] at h
        rw [← h]
        exact hu
      · split at h
        · cases h
        · simp only [Except.ok.injEq] at h
          rw [← h]
          exact hu

/-- Whether the mass loop succeeds depends on the dataset only. -/
theorem massLoop_ok_indep (env : Env R) (ddb : Ddb R) (b : Bool) (n : Nat)
    (s s' t : PhononMode R) (h : forRangeE n (massStep env ddb b) s = .ok t) :
    ∃ t', forRangeE n (massStep env ddb b) s' = .ok t' := by
  induction n generalizing t with
  | zero => exact ⟨s', rfl⟩
  | succ k ih =>
    rw [forRangeE_succ] at h
    cases hk : forRangeE k (massStep env ddb b) s with
    | error e =>
      rw [hk] at h
      cases h
    | ok u =>
      rw [hk] at h
      obtain ⟨u', hu'⟩ := ih u hk
      rw [forRangeE_succ, hu']
      simp only [massStep] at h ⊢
      split at h
      · rename_i hb
        rw [if_pos hb]
        exact ⟨_, rfl⟩
      · rename_i hb
        rw [if_neg hb]
        cases hz : znuclOf ddb k with
        | error e =>
          rw [hz] at h
          cases h
        | ok z => exact ⟨_, rfl⟩

/-- The steps of a successful `computeForceCst(qpt, ddb)`. -/
theorem computeForceCstAt_ok_cases (env : Env R) (s t : PhononMode R) (qpt : Vec3 R)
    (ddb : Ddb R) (h : s.computeForceCstAt env qpt ddb = .ok t) :
    ∃ s3 recs,
      forRangeE ddb.natom (massStep env ddb ddb.isNormalized)
          { s.resize ddb.natom with _gprim := fun r c => ddb.gprim (3 * r + c), _qpt := qpt }
        = .ok s3
      ∧ ddb.getDdb qpt = .ok recs ∧ s3.computeForceCst recs = .ok t := by
  simp only [PhononMode.computeForceCstAt] at h
  split at h
  · cases h
  · rename_i s3 hm
    split at h
    · cases h
    · rename_i recs hr
      split at h
      · cases h
      · rename_i s4 hc
        simp only [Except.ok.injEq] at h
        refine ⟨s3, recs, ?_, hr, ?_⟩
        · exact hm
        · rw [hc, h]

/-- A `computeForceCst(qpt, ddb)` whose three steps succeed returns what the last one
returns. -/
theorem computeForceCstAt_of_steps (env : Env R) (s s3 t : PhononMode R) (qpt : Vec3 R)
    (ddb : Ddb R) (recs : List (D2der R))
    (hm : forRangeE ddb.natom (massStep env ddb ddb.isNormalized)
      { s.resize ddb.natom with _gprim := fun r c => ddb.gprim (3 * r + c), _qpt := qpt }
        = .ok s3)
    (hr : ddb.getDdb qpt = .ok recs) (hc : s3.computeForceCst recs = .ok t) :
    s.computeForceCstAt env qpt ddb = .ok t := by
  simp only [PhononMode.computeForceCstAt]
  have hm' : forRangeE (s.resize ddb.natom)._natom (massStep env ddb ddb.isNormalized)
      { s.resize ddb.natom with _gprim := fun r c => ddb.gprim (3 * r + c), _qpt := qpt }
        = .ok s3 := hm
  rw [hm']
  simp only [hr, hc]

/-- What a successful `computeASR` did: the gamma-point assembly on a fresh object
succeeded, and the object holds the block row sums of that matrix. -/
theorem computeASR_ok_cases (env : Env R) (s s' : PhononMode R) (ddb : Ddb R)
    (h : s.computeASR env ddb = .ok s') :
    ∃ pg, (PhononMode.new0 : PhononMode R).computeForceCstAt env ⟨0, 0, 0⟩ ddb = .ok pg
      ∧ s' = { s.resize ddb.natom with
          _asr := forRange ddb.natom (fun ipert1 =>
            forRange ddb.natom (fun ipert2 => computeASRStep pg._d2cart ipert1 ipert2))
              (Mat.fill (3 * ddb.natom) 3 0)
          _hasASR := true } := by
  simp only [PhononMode.computeASR] at h
  split at h
  · cases h
  · rename_i pg hpg
    simp only [Except.ok.injEq] at h
    exact ⟨pg, hpg, h.symm⟩

/-- Inside the dimensions, the assembled matrix does not depend on what the matrix
held before the call. -/
theorem assembled_indep (G : Nat → Nat → R) (natom : Nat) (ddb : List (D2der R))
    (M M' : Mat (Cx R))
    (hany : (ddb.foldl (ingest natom)
      (M, (Mat.fill (3 * natom) (3 * natom) true : Mat Bool))).2.any = false)
    (r c : Nat) (hr : r < 3 * natom) (hc : c < 3 * natom) :
    (basisColumns G natom (basisLines G natom (ddb.foldl (ingest natom)
        (M, (Mat.fill (3 * natom) (3 * natom) true : Mat Bool))).1)).get r c
      = (basisColumns G natom (basisLines G natom (ddb.foldl (ingest natom)
        (M', (Mat.fill (3 * natom) (3 * natom) true : Mat Bool))).1)).get r c := by
  have hany' : (ddb.foldl (ingest natom)
      (M', (Mat.fill (3 * natom) (3 * natom) true : Mat Bool))).2.any = false := by
    rw [ingestFold_mask_indep natom ddb M' M]
    exact hany
  have h1 := assembled_get G natom ddb M hany (c / 3) (r / 3) (r % 3) (c % 3)
    (by omega) (by omega) (by omega) (by omega)
  have h2 := assembled_get G natom ddb M' hany' (c / 3) (r / 3) (r % 3) (c % 3)
    (by omega) (by omega) (by omega) (by omega)
  have er : 3 * (r / 3) + r % 3 = r := by omega
  have ec : 3 * (c / 3) + c % 3 = c := by omega
  rw [er, ec] at h1 h2
  rw [h1, h2]

/-- Inside the dimensions, the assembled matrix is the cartesian matrix of the
record set. -/
theorem assembled_eq_cartesianEntry (G : Nat → Nat → R) (natom : Nat) (ddb : List (D2der R))
    (M : Mat (Cx R))
    (hany : (ddb.foldl (ingest natom)
      (M, (Mat.fill (3 * natom) (3 * natom) true : Mat Bool))).2.any = false)
    (r c : Nat) (hr : r < 3 * natom) (hc : c < 3 * natom) :
    (basisColumns G natom (basisLines G natom (ddb.foldl (ingest natom)
        (M, (Mat.fill (3 * natom) (3 * natom) true : Mat Bool))).1)).get r c
      = cartesianEntry G ddb r c := by
  have h1 := assembled_get G natom ddb M hany (c / 3) (r / 3) (r % 3) (c % 3)
    (by omega) (by omega) (by omega) (by omega)
  have er : 3 * (r / 3) + r % 3 = r := by omega
  have ec : 3 * (c / 3) + c % 3 = c := by omega
  rw [er, ec] at h1
  rw [h1]
  rfl

/-- After a successful `computeASR(ddb)`, the gamma-point assembly on the same object
succeeds, and inside the dimensions the matrix it leaves is the cartesian matrix of
the gamma-point records minus, on the diagonal blocks, its block row sums. -/
theorem computeASR_then_assemble (env : Env R) (s s' : PhononMode R) (ddb : Ddb R)
    (h : s.computeASR env ddb = .ok s') :
    ∃ t recs, s'.computeForceCstAt env ⟨0, 0, 0⟩ ddb = .ok t
      ∧ ddb.getDdb ⟨0, 0, 0⟩ = .ok recs ∧ t._natom = ddb.natom ∧ ddb.natom ≠ 0
      ∧ ∀ r c, r < 3 * ddb.natom → c < 3 * ddb.natom →
          t._d2cart.get r c
            = cartesianEntry (fun i j => ddb.gprim (3 * i + j)) recs r c
              - (if r / 3 = c / 3 then
                  ∑ j in Finset.range ddb.natom,
                    cartesianEntry (fun i j => ddb.gprim (3 * i + j)) recs r (j * 3 + c % 3)
                 else 0) := by
  obtain ⟨pg, hpg, hs'⟩ := computeASR_ok_cases env s s' ddb h
  obtain ⟨s3, recs, hm, hrec, hc⟩ := computeForceCstAt_ok_cases env _ pg _ ddb hpg
  obtain ⟨hn3, hasr3, -, hg3, -⟩ := massLoop_fields env ddb _ _ _ _ hm
  obtain ⟨h0, hsz, hany, hd, -, -, -, -, -⟩ := computeForceCst_ok_cases s3 pg recs hc
  have hn3' : s3._natom = ddb.natom := hn3
  have hasr3' : s3._hasASR = false := hasr3
  have hg3' : s3._gprim = fun r c => ddb.gprim (3 * r + c) := hg3
  rw [hasr3', hn3', hg3'] at hd
  simp only [Bool.false_eq_true, if_false] at hd
  rw [hn3'] at h0 hsz hany
  -- the second assembly, on the object that holds the correction
  obtain ⟨u3, hmu⟩ := massLoop_ok_indep env ddb ddb.isNormalized ddb.natom _
    ({ s'.resize ddb.natom with _gprim := fun r c => ddb.gprim (3 * r + c), _qpt := ⟨0, 0, 0⟩ })
    s3 hm
  obtain ⟨hnu, hasru, -, hgu, hau⟩ := massLoop_fields env ddb _ _ _ _ hmu
  have hnu' : u3._natom = ddb.natom := hnu
  have hasru' : u3._hasASR = true := by
    rw [hasru, hs']
    rfl
  have hgu' : u3._gprim = fun r c => ddb.gprim (3 * r + c) := hgu
  have hau' : u3._asr = forRange ddb.natom (fun ipert1 =>
      forRange ddb.natom (fun ipert2 => computeASRStep pg._d2cart ipert1 ipert2))
        (Mat.fill (3 * ddb.natom) 3 0) := by
    rw [hau, hs']
    rfl
  have hanyu : (recs.foldl (ingest u3._natom)
      (u3._d2cart, (Mat.fill (3 * u3._natom) (3 * u3._natom) true : Mat Bool))).2.any = false := by
    rw [hnu', ingestFold_mask_indep ddb.natom recs u3._d2cart s3._d2cart]
    exact hany
  obtain ⟨t, ht⟩ := computeForceCst_of_checks u3 recs (by rw [hnu']; exact h0)
    (by rw [hnu']; exact hsz) hanyu
  obtain ⟨-, -, -, htd, htn, -, -, -, -⟩ := computeForceCst_ok_cases u3 t recs ht
  rw [hasru', hnu', hgu', hau'] at htd
  simp only [if_true] at htd
  rw [hnu'] at hanyu
  refine ⟨t, recs, computeForceCstAt_of_steps env s' u3 t _ ddb recs hmu hrec ht, hrec,
    htn.trans hnu', h0, ?_⟩
  intro r c hr hcc
  have hpgv : ∀ c', c' < 3 * ddb.natom →
      pg._d2cart.get r c' = cartesianEntry (fun i j => ddb.gprim (3 * i + j)) recs r c' := by
    intro c' hc'
    rw [hd]
    exact assembled_eq_cartesianEntry _ ddb.natom recs s3._d2cart hany r c' hr hc'
  rw [htd, applyLoop_get, asrOuter_get, if_pos (And.intro hr (by omega : c % 3 < 3)),
    mat_get_fill, zero_add,
    assembled_eq_cartesianEntry _ ddb.natom recs u3._d2cart hanyu r c hr hcc]
  have hsum : ∑ j in Finset.range ddb.natom, pg._d2cart.get r (j * 3 + c % 3)
      = ∑ j in Finset.range ddb.natom,
          cartesianEntry (fun i j => ddb.gprim (3 * i + j)) recs r (j * 3 + c % 3) := by
    apply Finset.sum_congr rfl
    intro j hj
    have hj' : j < ddb.natom := Finset.mem_range.1 hj
    exact hpgv _ (by omega)
  rw [hsum]
  by_cases hrc : r / 3 = c / 3
  · rw [if_pos hrc, if_pos (And.intro hr hrc)]
  · rw [if_neg hrc, if_neg (fun hh : r < 3 * ddb.natom ∧ r / 3 = c / 3 => hrc hh.2), sub_zero]

/-- The rows of the ASR-corrected gamma-point matrix sum to zero block column by
block column. -/
theorem corrected_row_sum (N : Nat) (U : Nat → Nat → Cx R) (D : Nat → Nat → Cx R)
    (hD : ∀ r c, r < 3 * N → c < 3 * N →
      D r c = U r c - (if r / 3 = c / 3 then ∑ j in Finset.range N, U r (j * 3 + c % 3) else 0))
    (r b : Nat) (hr : r < 3 * N) (hb : b < 3) :
    ∑ j in Finset.range N, D r (3 * j + b) = 0 := by
  have hterm : ∀ j, j ∈ Finset.range N →
      D r (3 * j + b)
        = U r (j * 3 + b) - (if j = r / 3 then ∑ i in Finset.range N, U r (i * 3 + b) else 0) := by
    intro j hj
    have hj' : j < N := Finset.mem_range.1 hj
    have e0 : (3 * j + b) / 3 = j := by omega
    have e2 : (3 * j + b) % 3 = b := by omega
    have e1 : 3 * j + b = j * 3 + b := by omega
    rw [hD r (3 * j + b) hr (by omega), e0, e2, e1]
    by_cases hjr : j = r / 3
    · rw [if_pos hjr, if_pos hjr.symm]
    · rw [if_neg hjr, if_neg (fun hh : r / 3 = j => hjr hh.symm)]
  rw [Finset.sum_congr rfl hterm, Finset.sum_sub_distrib, Finset.sum_ite_eq',
    if_pos (Finset.mem_range.2 (by omega)), sub_self]

/-- C3: translational invariance after ASR.  For every dataset on which
`computeASR(ddb)` succeeds, the gamma-point assembly `computeForceCst({0,0,0}, ddb)`
then made on the same object succeeds, and the matrix it leaves satisfies, for every
row `r < 3N` and every direction `b < 3`, `sum over atoms j of d2cart(r, 3j+b) = 0`
(exact arithmetic). -/
theorem computeASR_translational_invariance (env : Env R) (s s' : PhononMode R) (ddb : Ddb R)
    (h : s.computeASR env ddb = .ok s') :
    ∃ s'', s'.computeForceCstAt env ⟨0, 0, 0⟩ ddb = .ok s''
      ∧ ∀ r b, r < 3 * ddb.natom → b < 3 →
          ∑ j in Finset.range ddb.natom, s''._d2cart.get r (3 * j + b) = 0 := by
  obtain ⟨t, recs, ht, -, -, -, hD⟩ := computeASR_then_assemble env s s' ddb h
  exact ⟨t, ht, fun r b hr hb =>
    corrected_row_sum ddb.natom (cartesianEntry (fun i j => ddb.gprim (3 * i + j)) recs)
      (fun r c => t._d2cart.get r c) hD r b hr hb⟩

/-- Witness of C3: the one-atom dataset `exDdb`, on a fresh object. -/
theorem computeASR_translational_invariance_witness :
    ∃ s', (PhononMode.new0 : PhononMode ℚ).computeASR exEnv exDdb = .ok s'
      ∧ ∃ s'', s'.computeForceCstAt exEnv ⟨0, 0, 0⟩ exDdb = .ok s''
        ∧ ∀ r b, r < 3 * exDdb.natom → b < 3 →
            ∑ j in Finset.range exDdb.natom, s''._d2cart.get r (3 * j + b) = 0 :=
  ⟨_, rfl, computeASR_translational_invariance exEnv PhononMode.new0 _ exDdb rfl⟩

end ASR

/-! ## Frequencies and noise cleanup of `computeEigen` -/

section Eigen

variable {R : Type} [LinearOrderedField R]

theorem freqLoop_get (env : Env R) (ev : Nat → R) (f0 : Vec R) (natom i : Nat) :
    (forRange natom (freqStep env ev) f0).get i
      = if i < 3 * natom then signedSqrt env (ev i) else f0.get i := by
  induction natom with
  | zero => simp [forRange_zero]
  | succ n ih =>
    rw [forRange_succ]
    simp only [freqStep, vec_get_set, ih]
    by_cases h2 : i = n * 3 + 2
    · subst h2
      rw [if_pos rfl, if_pos (by omega)]
    · rw [if_neg h2]
      by_cases h1 : i = n * 3 + 1
      · subst h1
        rw [if_pos rfl, if_pos (by omega)]
      · rw [if_neg h1]
        by_cases h0 : i = n * 3
        · subst h0
          rw [if_pos rfl, if_pos (by omega)]
        · rw [if_neg h0]
          by_cases hlt : i < 3 * n
          · rw [if_pos hlt, if_pos (by omega)]
          · rw [if_neg hlt, if_neg (by omega)]

theorem snap_snap (x : R) : snap (snap x) = snap x := by
  unfold snap
  by_cases h : |x| > noiseEps
  · simp [h]
  · simp [h]

theorem cleanStep_get (imode iatom : Nat) (E : Mat (Cx R)) (r c : Nat) :
    (cleanStep imode iatom E).get r c
      = if r = imode ∧ c = iatom then
          ⟨snap (E.get imode iatom).re, snap (E.get imode iatom).im⟩
        else E.get r c := rfl

theorem cleanRow_get (imode n : Nat) (E : Mat (Cx R)) (r c : Nat) :
    (forRange n (fun iatom E => cleanStep imode iatom E) E).get r c
      = if r = imode ∧ c < n then ⟨snap (E.get r c).re, snap (E.get r c).im⟩ else E.get r c := by
  revert r c
  induction n with
  | zero => intro r c; simp [forRange_zero]
  | succ k ih =>
    intro r c
    rw [forRange_succ, cleanStep_get, ih, ih]
    by_cases hr : r = imode
    · subst hr
      by_cases hc : c = k
      · subst hc
        simp
      · by_cases hlt : c < k
        · have : c < k + 1 := by omega
          simp [hc, hlt, this]
        · have : ¬ c < k + 1 := by omega
          simp [hc, hlt, this]
    · simp [hr]

theorem cleanRow_dims (imode n : Nat) (E : Mat (Cx R)) :
    (forRange n (fun iatom E => cleanStep imode iatom E) E).rows = E.rows
      ∧ (forRange n (fun iatom E => cleanStep imode iatom E) E).cols = E.cols := by
  induction n with
  | zero => simp [forRange_zero]
  | succ k ih =>
    rw [forRange_succ]
    exact ih

theorem cleanup_loop_get (m n : Nat) (E : Mat (Cx R)) (r c : Nat) :
    (forRange m (fun imode E => forRange n (fun iatom E => cleanStep imode iatom E) E) E).get r c
      = if r < m ∧ c < n then ⟨snap (E.get r c).re, snap (E.get r c).im⟩ else E.get r c := by
  induction m with
  | zero => simp [forRange_zero]
  | succ k ih =>
    rw [forRange_succ, cleanRow_get, ih]
    by_cases hr : r = k
    · subst hr
      by_cases hc : c < n
      · simp [hc]
      · simp [hc]
    · by_cases hlt : r < k
      · have : r < k + 1 := by omega
        simp [hr, hlt, this]
      · have : ¬ r < k + 1 := by omega
        simp [hr, hlt, this]

theorem cleanup_loop_dims (m n : Nat) (E : Mat (Cx R)) :
    (forRange m (fun imode E => forRange n (fun iatom E => cleanStep imode iatom E) E) E).rows
        = E.rows
      ∧ (forRange m (fun imode E => forRange n (fun iatom E => cleanStep imode iatom E) E) E).cols
        = E.cols := by
  induction m with
  | zero => simp [forRange_zero]
  | succ k ih =>
    rw [forRange_succ]
    obtain ⟨h1, h2⟩ := cleanRow_dims k n
      (forRange k (fun imode E => forRange n (fun iatom E => cleanStep imode iatom E) E) E)
    exact ⟨h1.trans ih.1, h2.trans ih.2⟩

theorem cleanup_get (n : Nat) (E : Mat (Cx R)) (r c : Nat) :
    (cleanup n E).get r c
      = if r < n ∧ c < n then ⟨snap (E.get r c).re, snap (E.get r c).im⟩ else E.get r c :=
  cleanup_loop_get n n E r c

theorem mat_ext_get {α : Type} (A B : Mat α) (hr : A.rows = B.rows) (hc : A.cols = B.cols)
    (h : ∀ r c, A.get r c = B.get r c) : A = B := by
  cases A with
  | mk ar ac ad =>
    cases B with
    | mk br bc bd =>
      simp only [Mat.mk.injEq]
      refine ⟨hr, hc, ?_⟩
      funext r c
      exact h r c

/-- The mass-weighted entry `(r, c)`: `_d2cart(r, c)` times
`1/sqrt(_mass[r/3] * _mass[c/3])`. -/
theorem dynStep_get (env : Env R) (s : PhononMode R) (iblock1 k iblock2 : Nat)
    (dynMat : Mat (Cx R)) (r c : Nat) :
    (dynStep env s iblock1 k iblock2 dynMat).get r c
      = if r = iblock1 * 3 + k ∧ c / 3 = iblock2 then
          (s._d2cart.get r c).scale (1 / env.sqrt (s._mass.get iblock1 * s._mass.get iblock2))
        else dynMat.get r c := by
  simp only [dynStep, mat_get_set]
  by_cases hr : r = iblock1 * 3 + k
  · subst hr
    by_cases h2 : c = iblock2 * 3 + 2
    · subst h2
      rw [if_pos ⟨rfl, rfl⟩, if_pos ⟨rfl, by omega⟩]
    · by_cases h1 : c = iblock2 * 3 + 1
      · subst h1
        rw [if_neg (by omega), if_pos ⟨rfl, rfl⟩, if_pos ⟨rfl, by omega⟩]
      · by_cases h0 : c = iblock2 * 3
        · subst h0
          rw [if_neg (by omega), if_neg (by omega), if_pos ⟨rfl, rfl⟩, if_pos ⟨rfl, by omega⟩]
        · rw [if_neg (by omega), if_neg (by omega), if_neg (by omega), if_neg (by omega)]
  · rw [if_neg (by omega), if_neg (by omega), if_neg (by omega), if_neg (by omega)]

theorem dynStep_dims (env : Env R) (s : PhononMode R) (iblock1 k iblock2 : Nat)
    (dynMat : Mat (Cx R)) :
    (dynStep env s iblock1 k iblock2 dynMat).rows = dynMat.rows
      ∧ (dynStep env s iblock1 k iblock2 dynMat).cols = dynMat.cols := ⟨rfl, rfl⟩

theorem dynRowLoop_get (env : Env R) (s : PhononMode R) (iblock1 k n : Nat)
    (dynMat : Mat (Cx R)) (r c : Nat) :
    (forRange n (dynStep env s iblock1 k) dynMat).get r c
      = if r = iblock1 * 3 + k ∧ c < 3 * n then
          (s._d2cart.get r c).scale (1 / env.sqrt (s._mass.get iblock1 * s._mass.get (c / 3)))
        else dynMat.get r c := by
  induction n with
  | zero => simp [forRange_zero]
  | succ m ih =>
    rw [forRange_succ, dynStep_get, ih]
    by_cases hr : r = iblock1 * 3 + k
    · by_cases hc : c / 3 = m
      · rw [if_pos ⟨hr, hc⟩, if_pos ⟨hr, by omega⟩, hc]
      · rw [if_neg (by tauto)]
        by_cases hlt : c < 3 * m
        · rw [if_pos ⟨hr, hlt⟩, if_pos ⟨hr, by omega⟩]
        · rw [if_neg (by tauto), if_neg (by omega)]
    · rw [if_neg (by tauto), if_neg (by tauto), if_neg (by tauto)]

theorem dynRowLoop_dims (env : Env R) (s : PhononMode R) (iblock1 k n : Nat)
    (dynMat : Mat (Cx R)) :
    (forRange n (dynStep env s iblock1 k) dynMat).rows = dynMat.rows
      ∧ (forRange n (dynStep env s iblock1 k) dynMat).cols = dynMat.cols := by
  induction n with
  | zero => simp [forRange_zero]
  | succ m ih =>
    rw [forRange_succ]
    exact ih

theorem dynRow_get (env : Env R) (s : PhononMode R) (iblock1 k : Nat)
    (dynMat : Mat (Cx R)) (r c : Nat) :
    (dynRow env s iblock1 k dynMat).get r c
      = if r = iblock1 * 3 + k ∧ c < 3 * s._natom then
          (s._d2cart.get r c).scale (1 / env.sqrt (s._mass.get iblock1 * s._mass.get (c / 3)))
        else dynMat.get r c :=
  dynRowLoop_get env s iblock1 k s._natom dynMat r c

theorem buildLoop_get (env : Env R) (s : PhononMode R) (n : Nat) (M0 : Mat (Cx R)) (r c : Nat) :
    (forRange n (fun iblock1 dynMat =>
        dynRow env s iblock1 2 (dynRow env s iblock1 1 (dynRow env s iblock1 0 dynMat))) M0).get r c
      = if r < 3 * n ∧ c < 3 * s._natom then
          (s._d2cart.get r c).scale (1 / env.sqrt (s._mass.get (r / 3) * s._mass.get (c / 3)))
        else M0.get r c := by
  induction n with
  | zero => simp [forRange_zero]
  | succ m ih =>
    rw [forRange_succ, dynRow_get, dynRow_get, dynRow_get, ih]
    by_cases hc : c < 3 * s._natom
    · by_cases h2 : r = m * 3 + 2
      · rw [if_pos ⟨h2, hc⟩, if_pos ⟨by omega, hc⟩]
        have : r / 3 = m := by omega
        rw [this]
      · rw [if_neg (by tauto)]
        by_cases h1 : r = m * 3 + 1
        · rw [if_pos ⟨h1, hc⟩, if_pos ⟨by omega, hc⟩]
          have : r / 3 = m := by omega
          rw [this]
        · rw [if_neg (by tauto)]
          by_cases h0 : r = m * 3 + 0
          · rw [if_pos ⟨h0, hc⟩, if_pos ⟨by omega, hc⟩]
            have : r / 3 = m := by omega
            rw [this]
          · rw [if_neg (by tauto)]
            by_cases hlt : r < 3 * m
            · rw [if_pos ⟨hlt, hc⟩, if_pos ⟨by omega, hc⟩]
            · rw [if_neg (by tauto), if_neg (by omega)]
    · rw [if_neg (by tauto), if_neg (by tauto), if_neg (by tauto), if_neg (by tauto),
        if_neg (by tauto)]

/-- Closed form of the matrix built by the first loop nest of `computeEigen`. -/
theorem buildDynMat_get (env : Env R) (s : PhononMode R) (r c : Nat) :
    (buildDynMat env s).get r c
      = if r < 3 * s._natom ∧ c < 3 * s._natom then
          (s._d2cart.get r c).scale (1 / env.sqrt (s._mass.get (r / 3) * s._mass.get (c / 3)))
        else 0 := by
  unfold buildDynMat
  rw [buildLoop_get]
  rfl

theorem symStep_get (a b : Nat) (M : Mat (Cx R)) (i j : Nat) :
    (symStep a b M).get i j
      = if i = a ∧ j = b then (M.get a b + (M.get b a).conj).scale (1 / 2) else M.get i j := by
  unfold symStep
  rw [mat_get_set]

theorem symCol_get (n J : Nat) (hJ : J < n) (A M : Mat (Cx R))
    (hM : ∀ i j, M.get i j = if j < J ∧ i < n then symVal A i j else A.get i j)
    (I : Nat) (hI : I ≤ n) (i j : Nat) :
    (forRange I (fun i M => symStep i J M) M).get i j
      = if (j < J ∧ i < n) ∨ (j = J ∧ i < I) then symVal A i j else A.get i j := by
  induction I generalizing i j with
  | zero =>
    rw [forRange_zero, hM]
    by_cases h : j < J ∧ i < n
    · rw [if_pos h, if_pos (Or.inl h)]
    · rw [if_neg h, if_neg]
      rintro (h1 | h1)
      · exact h h1
      · omega
  | succ k ih =>
    rw [forRange_succ, symStep_get]
    by_cases hij : i = k ∧ j = J
    · obtain ⟨rfl, rfl⟩ := hij
      rw [if_pos ⟨rfl, rfl⟩, if_pos (Or.inr ⟨rfl, by omega⟩), ih (by omega) i j,
        ih (by omega) j i, if_neg (by omega)]
      unfold symVal
      by_cases hlt : i < j
      · rw [if_pos (Or.inl ⟨hlt, hJ⟩), if_pos hlt, if_neg (by omega)]
      · rw [if_neg (by omega), if_neg hlt]
    · rw [if_neg hij, ih (by omega) i j]
      by_cases h : (j < J ∧ i < n) ∨ (j = J ∧ i < k)
      · rw [if_pos h, if_pos]
        rcases h with h | h
        · exact Or.inl h
        · exact Or.inr ⟨h.1, by omega⟩
      · rw [if_neg h, if_neg]
        rintro (h1 | h1)
        · exact h (Or.inl h1)
        · apply h
          right
          refine ⟨h1.1, ?_⟩
          have : i ≠ k := fun e => hij ⟨e, h1.1⟩
          omega

theorem symLoop_get (n : Nat) (A : Mat (Cx R)) (K : Nat) (hK : K ≤ n) (i j : Nat) :
    (forRange K (fun j M => forRange n (fun i M => symStep i j M) M) A).get i j
      = if j < K ∧ i < n then symVal A i j else A.get i j := by
  induction K generalizing i j with
  | zero =>
    rw [forRange_zero, if_neg (by omega)]
  | succ k ih =>
    rw [forRange_succ, symCol_get n k (by omega) A _ (fun i j => ih (by omega) i j) n (le_refl n)]
    by_cases h : j < k + 1 ∧ i < n
    · rw [if_pos h, if_pos]
      by_cases h2 : j < k
      · exact Or.inl ⟨h2, h.2⟩
      · exact Or.inr ⟨by omega, h.2⟩
    · rw [if_neg h, if_neg]
      rintro (h1 | h1)
      · exact h ⟨by omega, h1.2⟩
      · exact h ⟨by omega, h1.2⟩

/-- Closed form of the in-place symmetrisation of a square matrix. -/
theorem symmetrize_get (M : Mat (Cx R)) (h : M.cols = M.rows) (i j : Nat) :
    (symmetrize M).get i j
      = if i < M.rows ∧ j < M.rows then symVal M i j else M.get i j := by
  unfold symmetrize
  rw [h, symLoop_get M.rows M M.rows (le_refl _) i j]
  by_cases h1 : i < M.rows ∧ j < M.rows
  · rw [if_pos h1, if_pos ⟨h1.2, h1.1⟩]
  · rw [if_neg h1, if_neg (fun hh => h1 ⟨hh.2, hh.1⟩)]

theorem buildDynMat_dims (env : Env R) (s : PhononMode R) :
    (buildDynMat env s).rows = 3 * s._natom ∧ (buildDynMat env s).cols = 3 * s._natom := by
  unfold buildDynMat
  have hgen : ∀ n (M0 : Mat (Cx R)),
      (forRange n (fun iblock1 dynMat =>
        dynRow env s iblock1 2 (dynRow env s iblock1 1 (dynRow env s iblock1 0 dynMat))) M0).rows
          = M0.rows
        ∧ (forRange n (fun iblock1 dynMat =>
        dynRow env s iblock1 2 (dynRow env s iblock1 1 (dynRow env s iblock1 0 dynMat))) M0).cols
          = M0.cols := by
    intro n M0
    induction n with
    | zero => exact ⟨rfl, rfl⟩
    | succ k ih =>
      rw [forRange_succ]
      unfold dynRow
      have h2 := dynRowLoop_dims env s k 2 s._natom
        (forRange s._natom (dynStep env s k 1) (forRange s._natom (dynStep env s k 0)
          (forRange k (fun iblock1 dynMat =>
            dynRow env s iblock1 2 (dynRow env s iblock1 1 (dynRow env s iblock1 0 dynMat))) M0)))
      have h1 := dynRowLoop_dims env s k 1 s._natom
        (forRange s._natom (dynStep env s k 0)
          (forRange k (fun iblock1 dynMat =>
            dynRow env s iblock1 2 (dynRow env s iblock1 1 (dynRow env s iblock1 0 dynMat))) M0))
      have h0 := dynRowLoop_dims env s k 0 s._natom
          (forRange k (fun iblock1 dynMat =>
            dynRow env s iblock1 2 (dynRow env s iblock1 1 (dynRow env s iblock1 0 dynMat))) M0)
      unfold dynRow at ih
      exact ⟨h2.1.trans (h1.1.trans (h0.1.trans ih.1)), h2.2.trans (h1.2.trans (h0.2.trans ih.2))⟩
  exact hgen s._natom _

/-- Closed form of the matrix the solver decomposes: the Hermitian average of the
mass-weighted matrix. -/
theorem solverInput_get (env : Env R) (s : PhononMode R) (r c : Nat) :
    (solverInput env s).data r c
      = ((buildDynMat env s).get r c + ((buildDynMat env s).get c r).conj).scale (1 / 2) := by
  show (selfadjointLower (symmetrize (buildDynMat env s))).data r c = _
  obtain ⟨hr, hc⟩ := buildDynMat_dims env s
  have hsq : (buildDynMat env s).cols = (buildDynMat env s).rows := hc.trans hr.symm
  have hg : ∀ i j, (symmetrize (buildDynMat env s)).data i j
      = if i < 3 * s._natom ∧ j < 3 * s._natom then symVal (buildDynMat env s) i j
        else (buildDynMat env s).get i j := by
    intro i j
    have := symmetrize_get (buildDynMat env s) hsq i j
    rw [hr] at this
    exact this
  have hview : (selfadjointLower (symmetrize (buildDynMat env s))).data r c
      = if c ≤ r then (symmetrize (buildDynMat env s)).data r c
        else ((symmetrize (buildDynMat env s)).data c r).conj := rfl
  rw [hview]
  by_cases hin : r < 3 * s._natom ∧ c < 3 * s._natom
  · have hin' : c < 3 * s._natom ∧ r < 3 * s._natom := ⟨hin.2, hin.1⟩
    by_cases hcr : c ≤ r
    · rw [if_pos hcr, hg r c, if_pos hin]
      unfold symVal
      rw [if_neg (by omega)]
    · rw [if_neg hcr, hg c r, if_pos hin']
      unfold symVal
      rw [if_neg (by omega)]
      apply Cx.ext_iff'.2
      constructor
      · simp [Cx.scale, Cx.conj]
        ring
      · simp [Cx.scale, Cx.conj]
        ring
  · have hin' : ¬ (c < 3 * s._natom ∧ r < 3 * s._natom) := fun hh => hin ⟨hh.2, hh.1⟩
    have h0 : (buildDynMat env s).get r c = 0 := by
      rw [buildDynMat_get, if_neg hin]
    have h0' : (buildDynMat env s).get c r = 0 := by
      rw [buildDynMat_get, if_neg hin']
    by_cases hcr : c ≤ r
    · rw [if_pos hcr, hg r c, if_neg hin, h0, h0']
      apply Cx.ext_iff'.2
      constructor <;> simp [Cx.scale, Cx.conj]
    · rw [if_neg hcr, hg c r, if_neg hin', h0, h0']
      apply Cx.ext_iff'.2
      constructor <;> simp [Cx.scale, Cx.conj]

theorem signedSqrt_neg (env : Env R) (v : R) (h : v < 0) :
    signedSqrt env v = -env.sqrt (-v) := by
  simp [signedSqrt, h]

theorem signedSqrt_nonneg (env : Env R) (v : R) (h : 0 ≤ v) :
    signedSqrt env v = env.sqrt v := by
  simp [signedSqrt, not_lt.2 h]

/-- The sign and square of the stored frequency, for a `sqrt` that is exact at `|v|`. -/
theorem signedSqrt_spec (env : Env R) (v : R) (hs0 : 0 ≤ env.sqrt |v|)
    (hs : env.sqrt |v| * env.sqrt |v| = |v|) :
    (v = 0 → signedSqrt env v = 0) ∧ (0 < v ↔ 0 < signedSqrt env v)
      ∧ (v < 0 ↔ signedSqrt env v < 0) ∧ signedSqrt env v * |signedSqrt env v| = v := by
  rcases lt_trichotomy v 0 with h | h | h
  · have hv : |v| = -v := abs_of_neg h
    rw [hv] at hs0 hs
    have hne : env.sqrt (-v) ≠ 0 := by
      intro h0
      rw [h0] at hs
      have hv0 : -v = 0 := by rw [← hs]; ring
      linarith
    have hpos : 0 < env.sqrt (-v) := lt_of_le_of_ne hs0 (Ne.symm hne)
    rw [signedSqrt_neg env v h]
    refine ⟨fun h0 => absurd h0 (ne_of_lt h), ?_, ?_, ?_⟩
    · constructor
      · intro h1; exact absurd h1 (not_lt.2 (le_of_lt h))
      · intro h1; linarith
    · constructor
      · intro _; linarith
      · intro _; exact h
    · rw [abs_neg, abs_of_nonneg hs0]
      linarith
  · subst h
    have hz : env.sqrt 0 = 0 := by
      simp only [abs_zero] at hs
      exact mul_self_eq_zero.1 hs
    rw [signedSqrt_nonneg env 0 le_rfl, hz]
    simp
  · have hv : |v| = v := abs_of_pos h
    rw [hv] at hs0 hs
    have hne : env.sqrt v ≠ 0 := by
      intro h0
      rw [h0] at hs
      have hv0 : v = 0 := by rw [← hs]; ring
      linarith
    have hpos : 0 < env.sqrt v := lt_of_le_of_ne hs0 (Ne.symm hne)
    rw [signedSqrt_nonneg env v (le_of_lt h)]
    refine ⟨fun h0 => absurd h0.symm (ne_of_lt h), ?_, ?_, ?_⟩
    · constructor
      · intro _; exact hpos
      · intro _; exact h
    · constructor
      · intro h1; exact absurd h1 (not_lt.2 (le_of_lt h))
      · intro h1; linarith
    · rw [abs_of_nonneg hs0]
      exact hs

theorem computeEigen_frequencies_get (env : Env R) (s : PhononMode R)
    (freq : Option (Nat → R)) (mode : Option (Nat → Cx R)) (i : Nat) (hi : i < 3 * s._natom) :
    (s.computeEigen env freq mode).1._frequencies.get i = signedSqrt env (s.eigenvalue env i) := by
  simp only [PhononMode.computeEigen, PhononMode.computeEigenState, PhononMode.eigenvalue]
  rw [freqLoop_get, if_pos hi]

/-- C8: frequency convention of `computeEigen`.  For every mode index `i < 3N`, with
`v` the `i`-th eigenvalue returned by the solver, the stored frequency `f` is
`-sqrt(-v)` when `v < 0` and `sqrt(v)` when `v >= 0`; and when `sqrt` is exact at `|v|`
(non-negative with square `|v|`), `v = 0` gives `f = 0`, `f` has the sign of `v`, and
`f * |f| = v`. -/
theorem computeEigen_frequency_convention (env : Env R) (s : PhononMode R)
    (freq : Option (Nat → R)) (mode : Option (Nat → Cx R)) (i : Nat) (hi : i < 3 * s._natom)
    (hs0 : 0 ≤ env.sqrt |s.eigenvalue env i|)
    (hs : env.sqrt |s.eigenvalue env i| * env.sqrt |s.eigenvalue env i| = |s.eigenvalue env i|) :
    (s.eigenvalue env i < 0 →
        (s.computeEigen env freq mode).1._frequencies.get i = -env.sqrt (-s.eigenvalue env i))
      ∧ (0 ≤ s.eigenvalue env i →
        (s.computeEigen env freq mode).1._frequencies.get i = env.sqrt (s.eigenvalue env i))
      ∧ (s.eigenvalue env i = 0 → (s.computeEigen env freq mode).1._frequencies.get i = 0)
      ∧ (0 < s.eigenvalue env i ↔ 0 < (s.computeEigen env freq mode).1._frequencies.get i)
      ∧ (s.eigenvalue env i < 0 ↔ (s.computeEigen env freq mode).1._frequencies.get i < 0)
      ∧ (s.computeEigen env freq mode).1._frequencies.get i
          * |(s.computeEigen env freq mode).1._frequencies.get i| = s.eigenvalue env i := by
  rw [computeEigen_frequencies_get env s freq mode i hi]
  obtain ⟨h0, hp, hn, hsq⟩ := signedSqrt_spec env (s.eigenvalue env i) hs0 hs
  exact ⟨signedSqrt_neg env _, signedSqrt_nonneg env _, h0, hp, hn, hsq⟩

theorem exEnv_sqrt_one : exEnv.sqrt (1 * 1) = 1 := by
  show Rat.sqrt (1 * 1) = 1
  rw [Rat.sqrt_eq]
  norm_num

theorem exState_eigenvalue_zero : exState.eigenvalue exEnv 0 = 4 := by
  have hs : exEnv.solver = fun _ M => (fun i => (M i i).re, fun i j => if i = j then 1 else 0) :=
    rfl
  simp only [PhononMode.eigenvalue, hs, solverInput_get, buildDynMat_get]
  have hn : exState._natom = 1 := rfl
  have hm : exState._mass.get (0 / 3) = 1 := rfl
  have hd : exState._d2cart.get 0 0 = ⟨4, 0⟩ := rfl
  rw [hn, if_pos (by decide), hm, hd, exEnv_sqrt_one]
  simp [Cx.scale, Cx.conj]
  norm_num

theorem exEnv_sqrt_four : exEnv.sqrt |exState.eigenvalue exEnv 0| = 2 := by
  have h4 : |exState.eigenvalue exEnv 0| = (2 : ℚ) * 2 := by
    rw [exState_eigenvalue_zero]
    norm_num
  rw [h4]
  show Rat.sqrt (2 * 2) = 2
  rw [Rat.sqrt_eq]
  norm_num

/-- Witness of C8: the one-atom object whose matrix is four times the identity, mode
0, with the rational square root (eigenvalue 4, frequency 2). -/
theorem computeEigen_frequency_convention_witness :
    (0 < 3 * exState._natom)
      ∧ ((exState.eigenvalue exEnv 0 < 0 →
          (exState.computeEigen exEnv none none).1._frequencies.get 0
            = -exEnv.sqrt (-exState.eigenvalue exEnv 0))
        ∧ (0 ≤ exState.eigenvalue exEnv 0 →
          (exState.computeEigen exEnv none none).1._frequencies.get 0
            = exEnv.sqrt (exState.eigenvalue exEnv 0))
        ∧ (exState.eigenvalue exEnv 0 = 0 →
          (exState.computeEigen exEnv none none).1._frequencies.get 0 = 0)
        ∧ (0 < exState.eigenvalue exEnv 0 ↔
          0 < (exState.computeEigen exEnv none none).1._frequencies.get 0)
        ∧ (exState.eigenvalue exEnv 0 < 0 ↔
          (exState.computeEigen exEnv none none).1._frequencies.get 0 < 0)
        ∧ (exState.computeEigen exEnv none none).1._frequencies.get 0
            * |(exState.computeEigen exEnv none none).1._frequencies.get 0|
          = exState.eigenvalue exEnv 0) :=
  ⟨by decide,
    computeEigen_frequency_convention exEnv exState none none 0 (by decide)
      (by rw [exEnv_sqrt_four]; norm_num)
      (by
        rw [exEnv_sqrt_four, exState_eigenvalue_zero]
        norm_num)⟩

/-- C10: noise-filter idempotence.  The cleanup loop nest of `computeEigen` (each real
part and each imaginary part kept when its magnitude exceeds 1e-7, replaced by 0
otherwise) applied twice to any complex matrix, for any dimension, gives the same
matrix as applied once. -/
theorem cleanup_idempotent (n : Nat) (E : Mat (Cx R)) :
    cleanup n (cleanup n E) = cleanup n E := by
  apply mat_ext_get
  · exact (cleanup_loop_dims n n (cleanup n E)).1
  · exact (cleanup_loop_dims n n (cleanup n E)).2
  · intro r c
    rw [cleanup_get n (cleanup n E), cleanup_get n E]
    by_cases h : r < n ∧ c < n
    · simp [h, snap_snap]
    · simp [h]

end Eigen

/-! ## Spectrum after the acoustic sum rule -/

section Spectrum

variable {R : Type} [LinearOrderedField R]

theorem Cx.normSq_eq_zero (z : Cx R) (h : z.normSq = 0) : z = 0 := by
  unfold Cx.normSq at h
  obtain ⟨h1, h2⟩ := mul_self_add_mul_self_eq_zero.1 h
  exact Cx.ext_iff'.2 ⟨h1, h2⟩

theorem Cx.normSq_nonneg (z : Cx R) : 0 ≤ z.normSq := by
  unfold Cx.normSq
  exact add_nonneg (mul_self_nonneg _) (mul_self_nonneg _)

theorem Cx.normSq_mul (z w : Cx R) : (z * w).normSq = z.normSq * w.normSq := by
  simp only [Cx.normSq, Cx.mul_re, Cx.mul_im]
  ring

instance Cx.instStarRing : StarRing (Cx R) where
  star := Cx.conj
  star_involutive := by
    intro z
    apply Cx.ext_iff'.2
    simp [Cx.conj]
  star_mul := by
    intro z w
    apply Cx.ext_iff'.2
    constructor
    · simp [Cx.conj]
      ring
    · simp [Cx.conj]
      ring
  star_add := by
    intro z w
    apply Cx.ext_iff'.2
    constructor
    · simp [Cx.conj]
    · simp [Cx.conj]
      ring

instance Cx.instNontrivial : Nontrivial (Cx R) :=
  ⟨⟨0, 1, fun h => zero_ne_one (congrArg Cx.re h)⟩⟩

instance Cx.instNoZeroDivisors : NoZeroDivisors (Cx R) where
  eq_zero_or_eq_zero_of_mul_eq_zero := by
    intro a b h
    have hn : a.normSq * b.normSq = 0 := by
      rw [← Cx.normSq_mul, h]
      simp [Cx.normSq]
    rcases mul_eq_zero.1 hn with h1 | h1
    · exact Or.inl (Cx.normSq_eq_zero a h1)
    · exact Or.inr (Cx.normSq_eq_zero b h1)

instance Cx.instIsDomain : IsDomain (Cx R) := NoZeroDivisors.to_isDomain _

theorem Cx.star_def (z : Cx R) : star z = z.conj := rfl

theorem Cx.re_sum {ι : Type} (s : Finset ι) (f : ι → Cx R) :
    (∑ i in s, f i).re = ∑ i in s, (f i).re := by
  classical
  induction s using Finset.induction_on with
  | empty => simp
  | insert hi ih => rw [Finset.sum_insert hi, Finset.sum_insert hi, Cx.add_re, ih]

open Matrix in
/-- For a unitary eigen-decomposition with non-negative eigenvalues, a vector on which
the quadratic form vanishes has no component along an eigenvector of non-zero
eigenvalue. -/
theorem coeff_zero_of_quadratic_zero {n : Nat} (H V : Matrix (Fin n) (Fin n) (Cx R))
    (lam : Fin n → R)
    (hA : H * V = V * Matrix.diagonal (fun k => Cx.ofReal (lam k)))
    (hB : Vᴴ * V = 1) (hpos : ∀ k, 0 ≤ lam k) (t : Fin n → Cx R)
    (hq : star t ⬝ᵥ (H *ᵥ t) = 0) (k : Fin n) (hk : lam k ≠ 0) : (Vᴴ *ᵥ t) k = 0 := by
  have hB' : V * Vᴴ = 1 := Matrix.mul_eq_one_comm.1 hB
  have hH : H = V * Matrix.diagonal (fun k => Cx.ofReal (lam k)) * Vᴴ := by
    rw [← hA, Matrix.mul_assoc, hB', Matrix.mul_one]
  have hst : star t ᵥ* V = star (Vᴴ *ᵥ t) := by
    rw [Matrix.star_mulVec, Matrix.conjTranspose_conjTranspose]
  have hq2 : star (Vᴴ *ᵥ t) ⬝ᵥ (Matrix.diagonal (fun k => Cx.ofReal (lam k)) *ᵥ (Vᴴ *ᵥ t)) = 0 := by
    rw [← hst, ← Matrix.dotProduct_mulVec, Matrix.mulVec_mulVec, Matrix.mulVec_mulVec, ← hH]
    exact hq
  have hre : ∑ j : Fin n, lam j * ((Vᴴ *ᵥ t) j).normSq = 0 := by
    have := congrArg Cx.re hq2
    rw [Matrix.dotProduct, Cx.re_sum] at this
    rw [← this.trans Cx.zero_re]
    apply Finset.sum_congr rfl
    intro j _
    rw [Matrix.mulVec_diagonal]
    simp only [Pi.star_apply, Cx.star_def, Cx.conj, Cx.ofReal, Cx.mul_re, Cx.mul_im, Cx.normSq]
    ring
  have hall := (Finset.sum_eq_zero_iff_of_nonneg
    (fun j _ => mul_nonneg (hpos j) (Cx.normSq_nonneg _))).1 hre k (Finset.mem_univ k)
  rcases mul_eq_zero.1 hall with h0 | h0
  · exact absurd h0 hk
  · exact Cx.normSq_eq_zero _ h0

open Matrix in
/-- With a unitary eigen-decomposition whose eigenvalues are non-negative and sorted,
three independent vectors on whose span the quadratic form vanishes force the three
lowest eigenvalues to be 0. -/
theorem low_eigenvalues_zero {n : Nat} (hn : 3 ≤ n) (H V : Matrix (Fin n) (Fin n) (Cx R))
    (lam : Fin n → R)
    (hA : H * V = V * Matrix.diagonal (fun k => Cx.ofReal (lam k)))
    (hB : Vᴴ * V = 1) (hpos : ∀ k, 0 ≤ lam k)
    (hsorted : ∀ k l : Fin n, k.val ≤ l.val → lam k ≤ lam l)
    (T : Fin 3 → Fin n → Cx R)
    (hT : ∀ a : Fin 3 → Cx R,
      star (a 0 • T 0 + a 1 • T 1 + a 2 • T 2) ⬝ᵥ (H *ᵥ (a 0 • T 0 + a 1 • T 1 + a 2 • T 2)) = 0)
    (hindep : ∀ a : Fin 3 → Cx R, a 0 • T 0 + a 1 • T 1 + a 2 • T 2 = 0 → a = 0)
    (k : Fin n) (hk : k.val < 3) : lam k = 0 := by
  by_contra hne
  have hkpos : 0 < lam k := lt_of_le_of_ne (hpos k) (Ne.symm hne)
  have h2 : ∀ l : Fin n, 2 ≤ l.val → lam l ≠ 0 := by
    intro l hl
    have : lam k ≤ lam l := hsorted k l (by omega)
    exact ne_of_gt (lt_of_lt_of_le hkpos this)
  have hB' : V * Vᴴ = 1 := Matrix.mul_eq_one_comm.1 hB
  let M : Matrix (Fin 3) (Fin 3) (Cx R) :=
    fun i b => if h : i.val < 2 then (Vᴴ *ᵥ T b) ⟨i.val, by omega⟩ else 0
  have hdet : M.det = 0 := by
    apply Matrix.det_eq_zero_of_row_eq_zero 2
    intro j
    simp [M]
  obtain ⟨a, ha, hMa⟩ := Matrix.exists_mulVec_eq_zero_iff.2 hdet
  have hzero : Vᴴ *ᵥ (a 0 • T 0 + a 1 • T 1 + a 2 • T 2) = 0 := by
    funext l
    by_cases hl : 2 ≤ l.val
    · exact coeff_zero_of_quadratic_zero H V lam hA hB hpos _ (hT a) l (h2 l hl)
    · have hrow := congrFun hMa ⟨l.val, by omega⟩
      have hl2 : l.val < 2 := by omega
      simp only [Matrix.mulVec, Matrix.dotProduct, Fin.sum_univ_three, M, hl2, dite_true,
        Pi.zero_apply, Fin.eta] at hrow
      simp only [Matrix.mulVec_add, Matrix.mulVec_smul, Pi.add_apply, Pi.smul_apply,
        smul_eq_mul, Pi.zero_apply]
      rw [← hrow]
      simp only [Matrix.mulVec, Matrix.dotProduct]
      ring
  have ht : a 0 • T 0 + a 1 • T 1 + a 2 • T 2 = 0 := by
    have h1 := congrArg (fun x => V *ᵥ x) hzero
    simp only [Matrix.mulVec_mulVec, hB', Matrix.one_mulVec, Matrix.mulVec_zero] at h1
    exact h1
  exact ha (hindep a ht)


theorem Cx.scale_eq (z : Cx R) (r : R) : z.scale r = Cx.ofReal r * z := by
  apply Cx.ext_iff'.2
  constructor
  · simp [Cx.scale, Cx.ofReal]
    ring
  · simp [Cx.scale, Cx.ofReal]
    ring

theorem Cx.ofReal_mul (x y : R) : (Cx.ofReal (x * y) : Cx R) = Cx.ofReal x * Cx.ofReal y := by
  apply Cx.ext_iff'.2
  constructor
  · simp [Cx.ofReal]
  · simp [Cx.ofReal]

theorem Cx.ofReal_ne_zero (x : R) (h : x ≠ 0) : (Cx.ofReal x : Cx R) ≠ 0 := by
  intro h0
  exact h (congrArg Cx.re h0)

/-- A sum over the components of one direction is a sum over the atoms. -/
theorem sum_range_mod_three (N b : Nat) (hb : b < 3) (f : Nat → Cx R) :
    ∑ j in Finset.range (3 * N), (if j % 3 = b then f j else 0)
      = ∑ p in Finset.range N, f (3 * p + b) := by
  induction N with
  | zero => simp
  | succ n ih =>
    have e : 3 * (n + 1) = 3 * n + 1 + 1 + 1 := by ring
    rw [e, Finset.sum_range_succ, Finset.sum_range_succ, Finset.sum_range_succ, ih,
      Finset.sum_range_succ]
    have m0 : (3 * n) % 3 = 0 := by omega
    have m1 : (3 * n + 1) % 3 = 1 := by omega
    have m2 : (3 * n + 1 + 1) % 3 = 2 := by omega
    rw [m0, m1, m2]
    interval_cases b
    · simp
    · simp
    · simp [add_assoc]

/-- The mass-weighted matrix annihilates the three mass-weighted translations when
the rows of the cartesian matrix sum to zero. -/
theorem buildDynMat_translation (env : Env R) (t : PhononMode R)
    (hrow : ∀ r b, r < 3 * t._natom → b < 3 →
      ∑ j in Finset.range t._natom, t._d2cart.get r (3 * j + b) = 0)
    (w : Nat → R) (hw0 : ∀ i, i < t._natom → w i ≠ 0)
    (hw : ∀ i j, i < t._natom → j < t._natom →
      env.sqrt (t._mass.get i * t._mass.get j) = w i * w j)
    (i b : Nat) (hi : i < 3 * t._natom) (hb : b < 3) :
    ∑ j in Finset.range (3 * t._natom),
        (buildDynMat env t).get i j * (if j % 3 = b then Cx.ofReal (w (j / 3)) else 0) = 0 := by
  have h1 : ∀ j, j ∈ Finset.range (3 * t._natom) →
      (buildDynMat env t).get i j * (if j % 3 = b then Cx.ofReal (w (j / 3)) else 0)
        = (if j % 3 = b then
            (if j < 3 * t._natom then
              t._d2cart.get i j * Cx.ofReal (1 / w (i / 3)) else 0)
           else 0) := by
    intro j hj
    have hj' : j < 3 * t._natom := Finset.mem_range.1 hj
    by_cases hjb : j % 3 = b
    · rw [if_pos hjb, if_pos hjb, if_pos hj', buildDynMat_get, if_pos ⟨hi, hj'⟩,
        hw (i / 3) (j / 3) (by omega) (by omega), Cx.scale_eq, mul_comm (Cx.ofReal _) _,
        mul_assoc, ← Cx.ofReal_mul]
      have hwj : w (j / 3) ≠ 0 := hw0 _ (by omega)
      have hwi : w (i / 3) ≠ 0 := hw0 _ (by omega)
      have : 1 / (w (i / 3) * w (j / 3)) * w (j / 3) = 1 / w (i / 3) := by
        field_simp
        ring
      rw [this]
    · rw [if_neg hjb, if_neg hjb, mul_zero]
  rw [Finset.sum_congr rfl h1, sum_range_mod_three _ b hb]
  have h2 : ∀ p, p ∈ Finset.range t._natom →
      (if 3 * p + b < 3 * t._natom then
          t._d2cart.get i (3 * p + b) * Cx.ofReal (1 / w (i / 3)) else 0)
        = t._d2cart.get i (3 * p + b) * Cx.ofReal (1 / w (i / 3)) := by
    intro p hp
    have hp' : p < t._natom := Finset.mem_range.1 hp
    rw [if_pos (by omega)]
  rw [Finset.sum_congr rfl h2, ← Finset.sum_mul, hrow i b hi hb, zero_mul]

open Matrix in
/-- When the rows of the cartesian matrix sum to zero block column by block column and
the symmetrised mass-weighted matrix has no negative eigenvalue, the three lowest
eigenvalues the solver returns are 0. -/
theorem lowest_eigenvalues_zero_of_row_sums (env : Env R) (t : PhononMode R)
    (hN0 : t._natom ≠ 0)
    (hrow : ∀ r b, r < 3 * t._natom → b < 3 →
      ∑ j in Finset.range t._natom, t._d2cart.get r (3 * j + b) = 0)
    (w : Nat → R) (hw0 : ∀ i, i < t._natom → w i ≠ 0)
    (hw : ∀ i j, i < t._natom → j < t._natom →
      env.sqrt (t._mass.get i * t._mass.get j) = w i * w j)
    (hdec : IsEigenDecomposition (3 * t._natom) (solverInput env t).data
      (env.solver (3 * t._natom) (solverInput env t).data).1
      (env.solver (3 * t._natom) (solverInput env t).data).2)
    (hpos : ∀ k, k < 3 * t._natom → 0 ≤ t.eigenvalue env k)
    (k : Nat) (hk : k < 3) : t.eigenvalue env k = 0 := by
  have hn : 3 ≤ 3 * t._natom := by omega
  let Hm : Matrix (Fin (3 * t._natom)) (Fin (3 * t._natom)) (Cx R) :=
    fun i j => (solverInput env t).data i j
  let dynM : Matrix (Fin (3 * t._natom)) (Fin (3 * t._natom)) (Cx R) :=
    fun i j => (buildDynMat env t).get i j
  let V : Matrix (Fin (3 * t._natom)) (Fin (3 * t._natom)) (Cx R) :=
    fun i k => (env.solver (3 * t._natom) (solverInput env t).data).2 i k
  let lam : Fin (3 * t._natom) → R :=
    fun k => (env.solver (3 * t._natom) (solverInput env t).data).1 k
  let T : Fin 3 → Fin (3 * t._natom) → Cx R :=
    fun b j => if j.val % 3 = b.val then Cx.ofReal (w (j.val / 3)) else 0
  obtain ⟨hsort, heig, horth⟩ := hdec
  have hA : Hm * V = V * Matrix.diagonal (fun k => Cx.ofReal (lam k)) := by
    ext i k
    rw [Matrix.mul_apply, Matrix.mul_diagonal]
    have h1 := heig k i k.isLt i.isLt
    rw [Finset.sum_range] at h1
    exact h1.trans (mul_comm _ _)
  have hB : Vᴴ * V = 1 := by
    ext k l
    rw [Matrix.mul_apply, Matrix.one_apply]
    have h1 := horth k l k.isLt l.isLt
    rw [Finset.sum_range] at h1
    by_cases hkl : k = l
    · rw [if_pos hkl]
      rw [if_pos (congrArg Fin.val hkl)] at h1
      exact h1
    · rw [if_neg hkl]
      rw [if_neg (fun h => hkl (Fin.ext h))] at h1
      exact h1
  have hHm : Hm = (Cx.ofReal (1 / 2 : R) : Cx R) • (dynM + dynMᴴ) := by
    ext i j
    simp only [Hm, dynM, Matrix.smul_apply, Matrix.add_apply, Matrix.conjTranspose_apply,
      smul_eq_mul, solverInput_get, Cx.scale_eq]
    rfl
  have hdynT : ∀ b, dynM *ᵥ T b = 0 := by
    intro b
    funext i
    have h1 := buildDynMat_translation env t hrow w hw0 hw i b i.isLt b.isLt
    rw [Finset.sum_range] at h1
    exact h1
  have hquad : ∀ x : Fin (3 * t._natom) → Cx R, dynM *ᵥ x = 0 → star x ⬝ᵥ (Hm *ᵥ x) = 0 := by
    intro x hx
    have h1 : star x ᵥ* dynMᴴ = star (dynM *ᵥ x) := (Matrix.star_mulVec dynM x).symm
    rw [hHm, Matrix.smul_mulVec_assoc, Matrix.add_mulVec, hx, zero_add, Matrix.dotProduct_smul,
      Matrix.dotProduct_mulVec, h1, hx]
    simp
  have hT : ∀ a : Fin 3 → Cx R,
      star (a 0 • T 0 + a 1 • T 1 + a 2 • T 2)
        ⬝ᵥ (Hm *ᵥ (a 0 • T 0 + a 1 • T 1 + a 2 • T 2)) = 0 := by
    intro a
    apply hquad
    simp only [Matrix.mulVec_add, Matrix.mulVec_smul, hdynT, smul_zero, add_zero]
  have hindep : ∀ a : Fin 3 → Cx R, a 0 • T 0 + a 1 • T 1 + a 2 • T 2 = 0 → a = 0 := by
    intro a ha
    have hw00 : (Cx.ofReal (w 0) : Cx R) ≠ 0 := Cx.ofReal_ne_zero _ (hw0 0 (by omega))
    have e0 := congrFun ha ⟨0, by omega⟩
    have e1 := congrFun ha ⟨1, by omega⟩
    have e2 := congrFun ha ⟨2, by omega⟩
    simp [T] at e0 e1 e2
    funext b
    fin_cases b
    · exact e0.resolve_right hw00
    · exact e1.resolve_right hw00
    · exact e2.resolve_right hw00
  exact low_eigenvalues_zero hn Hm V lam hA hB (fun k => hpos k k.isLt)
    (fun k l hkl => hsort k l hkl l.isLt) T hT hindep ⟨k, by omega⟩ hk

/-- C4 (amended): for any dataset on which `computeASR` succeeds, let the
ASR-corrected gamma-point assembly give the object `s''` (atom count `N`).  If the
masses are positive with `sqrt` exact on their products (`sqrt(m_i*m_j) = w_i*w_j`,
`w_i ≠ 0`), `sqrt(0) = 0`, the solver output is an exact eigen-decomposition of the
mass-weighted, symmetrised matrix, and that matrix has no negative eigenvalue, then
entries 0, 1, 2 of the frequency vector stored by `computeEigen` are 0. -/
theorem asr_lowest_frequencies_zero (env : Env R) (s s' s'' : PhononMode R) (ddb : Ddb R)
    (freq : Option (Nat → R)) (mode : Option (Nat → Cx R))
    (h1 : s.computeASR env ddb = .ok s')
    (h2 : s'.computeForceCstAt env ⟨0, 0, 0⟩ ddb = .ok s'')
    (w : Nat → R) (hw0 : ∀ i, i < s''._natom → w i ≠ 0)
    (hw : ∀ i j, i < s''._natom → j < s''._natom →
      env.sqrt (s''._mass.get i * s''._mass.get j) = w i * w j)
    (hsqrt0 : env.sqrt 0 = 0)
    (hdec : IsEigenDecomposition (3 * s''._natom) (solverInput env s'').data
      (env.solver (3 * s''._natom) (solverInput env s'').data).1
      (env.solver (3 * s''._natom) (solverInput env s'').data).2)
    (hpos : ∀ k, k < 3 * s''._natom → 0 ≤ s''.eigenvalue env k) :
    s''._natom = ddb.natom
      ∧ ∀ k, k < 3 → (s''.computeEigen env freq mode).1._frequencies.get k = 0 := by
  obtain ⟨t, recs, ht, -, htn, hN0, hD⟩ := computeASR_then_assemble env s s' ddb h1
  have hts : t = s'' := by
    rw [ht] at h2
    exact Except.ok.inj h2
  subst hts
  refine ⟨htn, ?_⟩
  intro k hk
  have hN0' : t._natom ≠ 0 := by rw [htn]; exact hN0
  have hrow : ∀ r b, r < 3 * t._natom → b < 3 →
      ∑ j in Finset.range t._natom, t._d2cart.get r (3 * j + b) = 0 := by
    rw [htn]
    intro r b hr hb
    exact corrected_row_sum ddb.natom (cartesianEntry (fun i j => ddb.gprim (3 * i + j)) recs)
      (fun r c => t._d2cart.get r c) hD r b hr hb
  have hzero := lowest_eigenvalues_zero_of_row_sums env t hN0' hrow w hw0 hw hdec hpos k hk
  rw [computeEigen_frequencies_get env t freq mode k (by omega), hzero,
    signedSqrt_nonneg env 0 le_rfl, hsqrt0]

theorem exCorrection_ok :
    (PhononMode.new0 : PhononMode ℚ).computeASR exEnv exDdb = .ok exCorrection := rfl

theorem exGamma_ok : exCorrection.computeForceCstAt exEnv ⟨0, 0, 0⟩ exDdb = .ok exGamma := rfl

theorem exGamma_natom : exGamma._natom = 1 := rfl

theorem exGamma_mass : exGamma._mass.get 0 = 1 := rfl

theorem exEnv_sqrt_zero : exEnv.sqrt 0 = 0 := by
  show Rat.sqrt 0 = 0
  have h : (0 : ℚ) = 0 * 0 := by norm_num
  rw [h, Rat.sqrt_eq]
  simp

/-- With one atom the corrected gamma-point matrix vanishes. -/
theorem exGamma_d2cart (r c : Nat) (hr : r < 3) (hc : c < 3) : exGamma._d2cart.get r c = 0 := by
  obtain ⟨t, recs, ht, -, -, -, hD⟩ :=
    computeASR_then_assemble exEnv PhononMode.new0 exCorrection exDdb exCorrection_ok
  have hts : t = exGamma := by
    rw [exGamma_ok] at ht
    exact (Except.ok.inj ht).symm
  subst hts
  have h1 := corrected_row_sum exDdb.natom
    (cartesianEntry (fun i j => exDdb.gprim (3 * i + j)) recs)
    (fun r c => exGamma._d2cart.get r c) hD r c (by show r < 3 * 1; omega) hc
  have hn : exDdb.natom = 1 := rfl
  rw [hn, Finset.sum_range_one] at h1
  have e : 3 * 0 + c = c := by omega
  simp only [e] at h1
  exact h1

theorem exGamma_solverInput (i j : Nat) (hi : i < 3) (hj : j < 3) :
    (solverInput exEnv exGamma).data i j = 0 := by
  rw [solverInput_get, buildDynMat_get, buildDynMat_get, exGamma_natom,
    if_pos ⟨by omega, by omega⟩, if_pos ⟨by omega, by omega⟩, exGamma_d2cart i j hi hj,
    exGamma_d2cart j i hj hi]
  apply Cx.ext_iff'.2
  constructor
  · simp [Cx.scale, Cx.conj]
  · simp [Cx.scale, Cx.conj]

theorem exGamma_decomposition :
    IsEigenDecomposition (3 * exGamma._natom) (solverInput exEnv exGamma).data
      (exEnv.solver (3 * exGamma._natom) (solverInput exEnv exGamma).data).1
      (exEnv.solver (3 * exGamma._natom) (solverInput exEnv exGamma).data).2 := by
  have hs : exEnv.solver = fun _ M => (fun i => (M i i).re, fun i j => if i = j then 1 else 0) :=
    rfl
  rw [exGamma_natom, hs]
  refine ⟨?_, ?_, ?_⟩
  · intro k l hkl hl
    simp only []
    rw [exGamma_solverInput k k (by omega) (by omega), exGamma_solverInput l l hl hl]
  · intro k i hk hi
    simp only []
    rw [exGamma_solverInput k k hk hk]
    have h0 : ∀ j, j ∈ Finset.range (3 * 1) →
        (solverInput exEnv exGamma).data i j * (if j = k then (1 : Cx ℚ) else 0) = 0 := by
      intro j hj
      rw [exGamma_solverInput i j hi (Finset.mem_range.1 hj), zero_mul]
    rw [Finset.sum_congr rfl h0, Finset.sum_const_zero]
    have hz : (Cx.ofReal ((0 : Cx ℚ).re) : Cx ℚ) = 0 := rfl
    rw [hz, zero_mul]
  · intro k l hk hl
    simp only []
    have hk' : k < 3 := hk
    have hl' : l < 3 := hl
    interval_cases k <;> interval_cases l <;>
      simp [Finset.sum_range_succ, Cx.conj, Cx.ext_iff']

/-- Witness of C4 (amended): the one-atom dataset `exDdb` in normalised units, whose
corrected matrix is 0, with the solver's answer "eigenvalues 0, eigenvectors the
identity". -/
theorem asr_lowest_frequencies_zero_witness :
    exGamma._natom = exDdb.natom
      ∧ ∀ k, k < 3 → (exGamma.computeEigen exEnv none none).1._frequencies.get k = 0 :=
  asr_lowest_frequencies_zero exEnv PhononMode.new0 exCorrection exGamma exDdb none none
    exCorrection_ok exGamma_ok (fun _ => 1) (fun _ _ => one_ne_zero)
    (by
      intro i j hi hj
      have hi' : i < 1 := hi
      have hj' : j < 1 := hj
      have hi0 : i = 0 := by omega
      have hj0 : j = 0 := by omega
      rw [hi0, hj0, exGamma_mass, exEnv_sqrt_one]
      norm_num)
    exEnv_sqrt_zero exGamma_decomposition
    (by
      intro k hk
      have hk' : k < 3 := hk
      have hs : exEnv.solver
          = fun _ M => (fun i => (M i i).re, fun i j => if i = j then 1 else 0) := rfl
      unfold PhononMode.eigenvalue
      rw [hs]
      simp only []
      rw [exGamma_solverInput k k hk' hk']
      exact le_rfl)

theorem cexCorrection_ok :
    (PhononMode.new0 : PhononMode ℚ).computeASR cexEnv cexDdb = .ok cexCorrection := rfl

theorem cexGamma_ok :
    cexCorrection.computeForceCstAt cexEnv ⟨0, 0, 0⟩ cexDdb = .ok cexGamma := rfl

theorem cexGamma_natom : cexGamma._natom = 2 := rfl

theorem cexGamma_mass_zero : cexGamma._mass.get 0 = 9 := by
  have h : cexGamma._mass.get 0 = 9 * 1 := rfl
  rw [h]
  norm_num

theorem cexGamma_mass_one : cexGamma._mass.get 1 = 16 := by
  have h : cexGamma._mass.get 1 = 16 * 1 := rfl
  rw [h]
  norm_num

theorem cexRecords_last (d1 a1 d2 a2 : Nat) (h1 : d1 < 3) (h2 : a1 < 2) (h3 : d2 < 3)
    (h4 : a2 < 2) :
    lastRecord (d1, a1, d2, a2) cexRecords
      = some (if d1 = d2 then (if a1 = a2 then 0 else ⟨144, 0⟩) else 0) := by
  interval_cases d1 <;> interval_cases a1 <;> interval_cases d2 <;> interval_cases a2 <;> rfl

theorem Cx.ofReal_one : (Cx.ofReal (1 : R) : Cx R) = 1 := rfl

theorem Cx.ofReal_zero : (Cx.ofReal (0 : R) : Cx R) = 0 := rfl

/-- With the identity as basis matrix, the cartesian matrix of the records
`cexRecords` is the matrix of the records. -/
theorem cex_cartesianEntry (r c : Nat) (hr : r < 6) (hc : c < 6) :
    cartesianEntry (fun i j => cexDdb.gprim (3 * i + j)) cexRecords r c
      = (if c % 3 = r % 3 then (if c / 3 = r / 3 then 0 else ⟨144, 0⟩) else 0) := by
  have hg : ∀ i j, cexDdb.gprim (3 * i + j) = if (3 * i + j) % 4 = 0 then 1 else 0 :=
    fun _ _ => rfl
  have hl : ∀ c' d, c' < 3 → d < 3 →
      (lastRecord (d, c / 3, c', r / 3) cexRecords).getD 0
        = (if d = c' then (if c / 3 = r / 3 then 0 else ⟨144, 0⟩) else 0) := by
    intro c' d hc' hd
    rw [cexRecords_last d (c / 3) c' (r / 3) hd (by omega) hc' (by omega)]
    rfl
  unfold cartesianEntry
  simp only [Finset.sum_range_succ, Finset.sum_range_zero, zero_add, hg,
    hl 0 0 (by omega) (by omega), hl 0 1 (by omega) (by omega), hl 0 2 (by omega) (by omega),
    hl 1 0 (by omega) (by omega), hl 1 1 (by omega) (by omega), hl 1 2 (by omega) (by omega),
    hl 2 0 (by omega) (by omega), hl 2 1 (by omega) (by omega), hl 2 2 (by omega) (by omega)]
  have hr3 : r % 3 < 3 := by omega
  have hc3 : c % 3 < 3 := by omega
  generalize r % 3 = a at hr3 ⊢
  generalize c % 3 = b at hc3 ⊢
  interval_cases a <;> interval_cases b <;>
    simp [Cx.ofReal_one, Cx.ofReal_zero]

/-- The corrected gamma-point matrix of the two-atom dataset: -144 on the diagonal,
144 between equal directions of the two atoms, 0 elsewhere. -/
theorem cexGamma_d2cart (r c : Nat) (hr : r < 6) (hc : c < 6) :
    cexGamma._d2cart.get r c
      = (if c % 3 = r % 3 then (if c / 3 = r / 3 then ⟨-144, 0⟩ else ⟨144, 0⟩) else 0) := by
  obtain ⟨t, recs, ht, hrec, -, -, hD⟩ :=
    computeASR_then_assemble cexEnv PhononMode.new0 cexCorrection cexDdb cexCorrection_ok
  have hts : t = cexGamma := by
    rw [cexGamma_ok] at ht
    exact (Except.ok.inj ht).symm
  have hrs : recs = cexRecords := by
    have h1 : cexDdb.getDdb ⟨0, 0, 0⟩ = .ok cexRecords := rfl
    rw [h1] at hrec
    exact (Except.ok.inj hrec).symm
  subst hts
  subst hrs
  have hn : cexDdb.natom = 2 := rfl
  rw [hD r c (by rw [hn]; omega) (by rw [hn]; omega), hn, Finset.sum_range_succ,
    Finset.sum_range_one, cex_cartesianEntry r c hr hc,
    cex_cartesianEntry r (0 * 3 + c % 3) hr (by omega),
    cex_cartesianEntry r (1 * 3 + c % 3) hr (by omega)]
  have e1 : (0 * 3 + c % 3) % 3 = c % 3 := by omega
  have e2 : (1 * 3 + c % 3) % 3 = c % 3 := by omega
  have e3 : (0 * 3 + c % 3) / 3 = 0 := by omega
  have e4 : (1 * 3 + c % 3) / 3 = 1 := by omega
  rw [e1, e2, e3, e4]
  have hr2 : r / 3 < 2 := by omega
  have hc2 : c / 3 < 2 := by omega
  generalize r / 3 = p at hr2 ⊢
  generalize c / 3 = q at hc2 ⊢
  by_cases hm : c % 3 = r % 3
  · simp only [hm, if_true]
    interval_cases p <;> interval_cases q <;> simp [Cx.ext_iff']
  · simp only [hm, if_false]
    interval_cases p <;> interval_cases q <;> simp

theorem cex_sqrt (p q : Nat) (hp : p < 2) (hq : q < 2) :
    cexEnv.sqrt (cexGamma._mass.get p * cexGamma._mass.get q)
      = (if p = 0 then 3 else 4) * (if q = 0 then 3 else 4) := by
  have h99 : Rat.sqrt (9 * 9) = 9 := by rw [Rat.sqrt_eq]; norm_num
  have h916 : Rat.sqrt (9 * 16) = 12 := by
    have e : (9 : ℚ) * 16 = 12 * 12 := by norm_num
    rw [e, Rat.sqrt_eq]; norm_num
  have h169 : Rat.sqrt (16 * 9) = 12 := by
    have e : (16 : ℚ) * 9 = 12 * 12 := by norm_num
    rw [e, Rat.sqrt_eq]; norm_num
  have h1616 : Rat.sqrt (16 * 16) = 16 := by rw [Rat.sqrt_eq]; norm_num
  show Rat.sqrt _ = _
  interval_cases p <;> interval_cases q
  · rw [cexGamma_mass_zero, h99]; norm_num
  · rw [cexGamma_mass_zero, cexGamma_mass_one, h916]; norm_num
  · rw [cexGamma_mass_zero, cexGamma_mass_one, h169]; norm_num
  · rw [cexGamma_mass_one, h1616]; norm_num

/-- The mass-weighted, symmetrised matrix of the two-atom dataset: blocks
`-16 I, 12 I; 12 I, -9 I`. -/
theorem cexGamma_solverInput (i j : Nat) (hi : i < 6) (hj : j < 6) :
    (solverInput cexEnv cexGamma).data i j
      = (if j % 3 = i % 3 then
          (if i / 3 = 0 then (if j / 3 = 0 then ⟨-16, 0⟩ else ⟨12, 0⟩)
           else (if j / 3 = 0 then ⟨12, 0⟩ else ⟨-9, 0⟩))
         else 0) := by
  rw [solverInput_get, buildDynMat_get, buildDynMat_get, cexGamma_natom,
    if_pos ⟨by omega, by omega⟩, if_pos ⟨by omega, by omega⟩, cexGamma_d2cart i j hi hj,
    cexGamma_d2cart j i hj hi, cex_sqrt (i / 3) (j / 3) (by omega) (by omega),
    cex_sqrt (j / 3) (i / 3) (by omega) (by omega)]
  have hp : i / 3 < 2 := by omega
  have hq : j / 3 < 2 := by omega
  generalize i / 3 = p at hp ⊢
  generalize j / 3 = q at hq ⊢
  by_cases hm : j % 3 = i % 3
  · simp only [hm, if_true]
    interval_cases p <;> interval_cases q <;>
      simp [Cx.scale, Cx.conj, Cx.ext_iff'] <;> norm_num
  · have hm' : ¬ i % 3 = j % 3 := fun h => hm h.symm
    simp only [hm, hm', if_false]
    apply Cx.ext_iff'.2
    constructor
    · simp [Cx.scale, Cx.conj]
    · simp [Cx.scale, Cx.conj]

set_option maxHeartbeats 1600000 in
theorem cexGamma_decomposition :
    IsEigenDecomposition (3 * cexGamma._natom) (solverInput cexEnv cexGamma).data
      (cexEnv.solver (3 * cexGamma._natom) (solverInput cexEnv cexGamma).data).1
      (cexEnv.solver (3 * cexGamma._natom) (solverInput cexEnv cexGamma).data).2 := by
  have hs : cexEnv.solver = fun _ _ =>
      (fun k => if k < 3 then -25 else 0,
       fun j k =>
        if k < 3 then
          (if j = k then ⟨4 / 5, 0⟩ else if j = k + 3 then ⟨-3 / 5, 0⟩ else 0)
        else
          (if j + 3 = k then ⟨3 / 5, 0⟩ else if j = k then ⟨4 / 5, 0⟩ else 0)) := rfl
  rw [cexGamma_natom, hs]
  refine ⟨?_, ?_, ?_⟩
  · intro k l hkl hl
    simp only []
    by_cases h1 : k < 3
    · by_cases h2 : l < 3
      · rw [if_pos h1, if_pos h2]
      · rw [if_pos h1, if_neg h2]
        norm_num
    · rw [if_neg h1, if_neg (by omega)]
  · intro k i hk hi
    have hk' : k < 6 := hk
    have hi' : i < 6 := hi
    simp only []
    have hsum : ∀ (v : Nat → Cx ℚ),
        ∑ j in Finset.range (3 * 2), (solverInput cexEnv cexGamma).data i j * v j
          = ∑ j in Finset.range (3 * 2),
              (if j % 3 = i % 3 then
                (if i / 3 = 0 then (if j / 3 = 0 then (⟨-16, 0⟩ : Cx ℚ) else ⟨12, 0⟩)
                 else (if j / 3 = 0 then ⟨12, 0⟩ else ⟨-9, 0⟩))
               else 0) * v j := by
      intro v
      apply Finset.sum_congr rfl
      intro j hj
      rw [cexGamma_solverInput i j hi' (Finset.mem_range.1 hj)]
    rw [hsum]
    interval_cases k <;> interval_cases i <;>
      simp [Finset.sum_range_succ, Cx.ext_iff', Cx.ofReal] <;> norm_num
  · intro k l hk hl
    have hk' : k < 6 := hk
    have hl' : l < 6 := hl
    simp only []
    interval_cases k <;> interval_cases l <;>
      simp [Finset.sum_range_succ, Cx.conj, Cx.ext_iff'] <;> norm_num

theorem cexGamma_frequency_zero :
    (cexGamma.computeEigen cexEnv none none).1._frequencies.get 0 = -5 := by
  have hev : cexGamma.eigenvalue cexEnv 0 = -25 := rfl
  have h25 : Rat.sqrt (5 * 5) = 5 := by rw [Rat.sqrt_eq]; norm_num
  rw [computeEigen_frequencies_get cexEnv cexGamma none none 0 (by rw [cexGamma_natom]; omega),
    hev, signedSqrt_neg cexEnv (-25) (by norm_num)]
  show -Rat.sqrt (- -25) = -5
  have e : (- -25 : ℚ) = 5 * 5 := by norm_num
  rw [e, h25]

/-- C4 (counterexample): a two-atom dataset (masses 9 and 16, force constants 144
between equal directions of the two atoms).  `computeASR` and the corrected
gamma-point assembly succeed; the mass-weighted, symmetrised matrix has the exact
eigen-decomposition with eigenvalues (-25, -25, -25, 0, 0, 0); and entry 0 of the
frequency vector stored by `computeEigen` is -5, not 0. -/
theorem asr_lowest_frequency_negative :
    (PhononMode.new0 : PhononMode ℚ).computeASR cexEnv cexDdb = .ok cexCorrection
      ∧ cexCorrection.computeForceCstAt cexEnv ⟨0, 0, 0⟩ cexDdb = .ok cexGamma
      ∧ IsEigenDecomposition (3 * cexGamma._natom) (solverInput cexEnv cexGamma).data
          (cexEnv.solver (3 * cexGamma._natom) (solverInput cexEnv cexGamma).data).1
          (cexEnv.solver (3 * cexGamma._natom) (solverInput cexEnv cexGamma).data).2
      ∧ (cexGamma.computeEigen cexEnv none none).1._frequencies.get 0 = -5
      ∧ (cexGamma.computeEigen cexEnv none none).1._frequencies.get 0 ≠ 0 := by
  refine ⟨cexCorrection_ok, cexGamma_ok, cexGamma_decomposition, cexGamma_frequency_zero, ?_⟩
  rw [cexGamma_frequency_zero]
  norm_num

end Spectrum

/-! ## Closed forms of the loops of `lin_res` and of the eigen-displacements -/

section LinearResponse

variable {R : Type} [LinearOrderedField R]

theorem forFrom_le {σ : Type} (a n : Nat) (h : n ≤ a) (body : Nat → σ → σ) (s : σ) :
    forFrom a n body s = s := by
  have e : n - a = 0 := by omega
  simp [forFrom, e]

theorem forFrom_succ {σ : Type} (a n : Nat) (h : a ≤ n) (body : Nat → σ → σ) (s : σ) :
    forFrom a (n + 1) body s = body n (forFrom a n body s) := by
  have e : n + 1 - a = (n - a) + 1 := by omega
  have e2 : a + (n - a) = n := by omega
  simp only [forFrom, e, List.range'_1_concat, List.foldl_append, List.foldl_cons,
    List.foldl_nil, e2]

/-- The rescaling loop multiplies the first `size` entries by `sqrt(amu_emass)`. -/
theorem scaleLoop_get (c : R) (n : Nat) (d0 : Vec (Cx R)) (j : Nat) :
    (forRange n (fun i d => d.set i ((d.get i).scale c)) d0).get j
      = if j < n then (d0.get j).scale c else d0.get j := by
  revert j
  induction n with
  | zero =>
    intro j
    rw [forRange_zero, if_neg (by omega)]
  | succ k ih =>
    intro j
    rw [forRange_succ, vec_get_set]
    by_cases hj : j = k
    · subst hj
      rw [if_pos rfl, ih, if_neg (lt_irrefl j), if_pos (Nat.lt_succ_self j)]
    · rw [if_neg hj, ih]
      by_cases hlt : j < k
      · rw [if_pos hlt, if_pos (by omega)]
      · rw [if_neg hlt, if_neg (by omega)]

theorem scaleDisp_get (env : Env R) (d0 : Vec (Cx R)) (j : Nat) :
    (scaleDisp env d0).get j
      = if j < d0.size then (d0.get j).scale (env.sqrt env.amu_emass) else d0.get j :=
  scaleLoop_get _ d0.size d0 j

/-- One term of the polarity of mode `m` along `alpha`. -/
theorem polStep_get (env : Env R) (natom : Nat) (zeff : Vec (Nat → R))
    (disp_gamma : Vec (Cx R)) (m alpha i gamma : Nat) (pol : Vec R) (k : Nat) :
    (polStep env natom zeff disp_gamma m alpha i gamma pol).get k
      = if k = m * 3 + alpha then
          pol.get k + (zeff.get i) (env.mat3dind (alpha + 1) (gamma + 1))
            * (disp_gamma.get (u32 (m * 3 * natom + 3 * i + gamma))).re
        else pol.get k := by
  unfold polStep
  rw [vec_get_set]
  by_cases h : k = m * 3 + alpha
  · rw [if_pos h, if_pos h, h]
  · rw [if_neg h, if_neg h]

theorem polGammaLoop_get (env : Env R) (natom : Nat) (zeff : Vec (Nat → R))
    (disp_gamma : Vec (Cx R)) (m alpha i n : Nat) (pol : Vec R) (k : Nat) :
    (forRange n (fun gamma => polStep env natom zeff disp_gamma m alpha i gamma) pol).get k
      = if k = m * 3 + alpha then
          pol.get k + ∑ gamma in Finset.range n,
            (zeff.get i) (env.mat3dind (alpha + 1) (gamma + 1))
              * (disp_gamma.get (u32 (m * 3 * natom + 3 * i + gamma))).re
        else pol.get k := by
  induction n with
  | zero => rw [forRange_zero, Finset.sum_range_zero, add_zero, ite_self]
  | succ j ih =>
    rw [forRange_succ, polStep_get, ih]
    by_cases h : k = m * 3 + alpha
    · rw [if_pos h, if_pos h, if_pos h, Finset.sum_range_succ, add_assoc]
    · rw [if_neg h, if_neg h, if_neg h]

theorem polAtomLoop_get (env : Env R) (natom : Nat) (zeff : Vec (Nat → R))
    (disp_gamma : Vec (Cx R)) (m alpha n : Nat) (pol : Vec R) (k : Nat) :
    (forRange n (fun i =>
        forRange 3 (fun gamma => polStep env natom zeff disp_gamma m alpha i gamma)) pol).get k
      = if k = m * 3 + alpha then
          pol.get k + ∑ i in Finset.range n, ∑ gamma in Finset.range 3,
            (zeff.get i) (env.mat3dind (alpha + 1) (gamma + 1))
              * (disp_gamma.get (u32 (m * 3 * natom + 3 * i + gamma))).re
        else pol.get k := by
  induction n with
  | zero => rw [forRange_zero, Finset.sum_range_zero, add_zero, ite_self]
  | succ j ih =>
    rw [forRange_succ, polGammaLoop_get, ih]
    by_cases h : k = m * 3 + alpha
    · rw [if_pos h, if_pos h, if_pos h, add_assoc]
      congr 1
      exact (Finset.sum_range_succ _ j).symm
    · rw [if_neg h, if_neg h, if_neg h]

theorem polAlphaLoop_get (env : Env R) (natom : Nat) (zeff : Vec (Nat → R))
    (disp_gamma : Vec (Cx R)) (m n : Nat) (pol : Vec R) (k : Nat) :
    (forRange n (fun alpha =>
        forRange natom (fun i =>
          forRange 3 (fun gamma => polStep env natom zeff disp_gamma m alpha i gamma))) pol).get k
      = if m * 3 ≤ k ∧ k < m * 3 + n then
          pol.get k + polTerm env natom zeff disp_gamma m (k - m * 3)
        else pol.get k := by
  induction n with
  | zero => rw [forRange_zero, if_neg (by omega)]
  | succ j ih =>
    rw [forRange_succ, polAtomLoop_get, ih]
    by_cases h : k = m * 3 + j
    · rw [if_pos h, if_neg (by omega), if_pos (by omega)]
      have e : k - m * 3 = j := by omega
      rw [e]
      rfl
    · rw [if_neg h]
      by_cases hlt : m * 3 ≤ k ∧ k < m * 3 + j
      · rw [if_pos hlt, if_pos (by omega)]
      · rw [if_neg hlt, if_neg (by omega)]

theorem polModeLoop_get (env : Env R) (natom : Nat) (zeff : Vec (Nat → R))
    (disp_gamma : Vec (Cx R)) (n : Nat) (pol : Vec R) (k : Nat) :
    (forFrom 3 n (fun m =>
        forRange 3 (fun alpha =>
          forRange natom (fun i =>
            forRange 3 (fun gamma => polStep env natom zeff disp_gamma m alpha i gamma))))
        pol).get k
      = if 9 ≤ k ∧ k < 3 * n then
          pol.get k + polTerm env natom zeff disp_gamma (k / 3) (k % 3)
        else pol.get k := by
  induction n with
  | zero => rw [forFrom_le 3 0 (by omega), if_neg (by omega)]
  | succ j ih =>
    by_cases hj : 3 ≤ j
    · rw [forFrom_succ 3 j hj, polAlphaLoop_get, ih]
      by_cases h : j * 3 ≤ k ∧ k < j * 3 + 3
      · rw [if_pos h, if_neg (by omega), if_pos (by omega)]
        have e1 : k - j * 3 = k % 3 := by omega
        have e2 : k / 3 = j := by omega
        rw [e1, e2]
      · rw [if_neg h]
        by_cases hlt : 9 ≤ k ∧ k < 3 * j
        · rw [if_pos hlt, if_pos (by omega)]
        · rw [if_neg hlt, if_neg (by omega)]
    · rw [forFrom_le 3 (j + 1) (by omega), if_neg (by omega)]

/-- Closed form of step 1 of `lin_res`: the entries of the fourth mode on hold the
polarity, the others are left as they are. -/
theorem polLoop_get (env : Env R) (natom : Nat) (zeff : Vec (Nat → R))
    (disp_gamma : Vec (Cx R)) (nfreq : Nat) (pol : Vec R) (k : Nat) :
    (polLoop env natom zeff disp_gamma nfreq pol).get k
      = if 9 ≤ k ∧ k < 3 * nfreq then
          pol.get k + polTerm env natom zeff disp_gamma (k / 3) (k % 3)
        else pol.get k :=
  polModeLoop_get env natom zeff disp_gamma nfreq pol k

theorem tauStep_get (env : Env R) (natom : Nat) (pol : Vec R) (disp_gamma : Vec (Cx R))
    (freq_gamma : Vec R) (m i a : Nat) (tau : Vec R) (k : Nat) :
    (tauStep env natom pol disp_gamma freq_gamma m i a tau).get k
      = if 9 * i + 3 * a ≤ k ∧ k < 9 * i + 3 * a + 3 then
          tau.get k + tauTerm env natom pol disp_gamma freq_gamma m i a (k - (9 * i + 3 * a))
        else tau.get k := by
  by_cases h : 9 * i + 3 * a ≤ k ∧ k < 9 * i + 3 * a + 3
  · rw [if_pos h]
    obtain ⟨x, hx, rfl⟩ : ∃ x, x < 3 ∧ k = 9 * i + 3 * a + x :=
      ⟨k - (9 * i + 3 * a), by omega, by omega⟩
    have e : 9 * i + 3 * a + x - (9 * i + 3 * a) = x := by omega
    rw [e]
    interval_cases x <;> simp [tauStep, tauTerm, vec_get_set]
  · rw [if_neg h]
    simp only [tauStep, vec_get_set]
    rw [if_neg (by omega), if_neg (by omega), if_neg (by omega)]

theorem tauFieldLoop_get (env : Env R) (natom : Nat) (pol : Vec R) (disp_gamma : Vec (Cx R))
    (freq_gamma : Vec R) (m i n : Nat) (tau : Vec R) (k : Nat) :
    (forRange n (fun E_al => tauStep env natom pol disp_gamma freq_gamma m i E_al) tau).get k
      = if 9 * i ≤ k ∧ k < 9 * i + 3 * n then
          tau.get k
            + tauTerm env natom pol disp_gamma freq_gamma m i ((k - 9 * i) / 3) ((k - 9 * i) % 3)
        else tau.get k := by
  induction n with
  | zero => rw [forRange_zero, if_neg (by omega)]
  | succ j ih =>
    rw [forRange_succ, tauStep_get, ih]
    by_cases h : 9 * i + 3 * j ≤ k ∧ k < 9 * i + 3 * j + 3
    · rw [if_pos h, if_neg (by omega), if_pos (by omega)]
      have e1 : (k - 9 * i) / 3 = j := by omega
      have e2 : k - (9 * i + 3 * j) = (k - 9 * i) % 3 := by omega
      rw [e1, e2]
    · rw [if_neg h]
      by_cases hlt : 9 * i ≤ k ∧ k < 9 * i + 3 * j
      · rw [if_pos hlt, if_pos (by omega)]
      · rw [if_neg hlt, if_neg (by omega)]

theorem tauAtomLoop_get (env : Env R) (natom : Nat) (pol : Vec R) (disp_gamma : Vec (Cx R))
    (freq_gamma : Vec R) (m n : Nat) (tau : Vec R) (k : Nat) :
    (forRange n (fun i =>
        forRange 3 (fun E_al => tauStep env natom pol disp_gamma freq_gamma m i E_al)) tau).get k
      = if k < 9 * n then
          tau.get k + tauTerm env natom pol disp_gamma freq_gamma m (k / 9) (k % 9 / 3) (k % 3)
        else tau.get k := by
  induction n with
  | zero => rw [forRange_zero, if_neg (by omega)]
  | succ j ih =>
    rw [forRange_succ, tauFieldLoop_get, ih]
    by_cases h : 9 * j ≤ k ∧ k < 9 * j + 3 * 3
    · rw [if_pos h, if_neg (by omega), if_pos (by omega)]
      have e1 : (k - 9 * j) / 3 = k % 9 / 3 := by omega
      have e2 : (k - 9 * j) % 3 = k % 3 := by omega
      have e3 : k / 9 = j := by omega
      rw [e1, e2, e3]
    · rw [if_neg h]
      by_cases hlt : k < 9 * j
      · rw [if_pos hlt, if_pos (by omega)]
      · rw [if_neg hlt, if_neg (by omega)]

theorem tauModeLoop_get (env : Env R) (natom : Nat) (pol : Vec R) (disp_gamma : Vec (Cx R))
    (freq_gamma : Vec R) (n : Nat) (tau : Vec R) (k : Nat) :
    (forRange n (fun m =>
        forRange natom (fun i =>
          forRange 3 (fun E_al => tauStep env natom pol disp_gamma freq_gamma m i E_al)))
        tau).get k
      = if k < 9 * natom then
          tau.get k + ∑ m in Finset.range n,
            tauTerm env natom pol disp_gamma freq_gamma m (k / 9) (k % 9 / 3) (k % 3)
        else tau.get k := by
  induction n with
  | zero => rw [forRange_zero, Finset.sum_range_zero, add_zero, ite_self]
  | succ j ih =>
    rw [forRange_succ, tauAtomLoop_get, ih]
    by_cases h : k < 9 * natom
    · rw [if_pos h, if_pos h, if_pos h, Finset.sum_range_succ, add_assoc]
    · rw [if_neg h, if_neg h, if_neg h]

/-- Closed form of step 2 of `lin_res`: every mode of the frequency vector, the three
lowest included, adds its term to `tau`. -/
theorem tauLoop_get (env : Env R) (natom : Nat) (pol : Vec R) (disp_gamma : Vec (Cx R))
    (freq_gamma : Vec R) (tau : Vec R) (k : Nat) :
    (tauLoop env natom pol disp_gamma freq_gamma tau).get k
      = if k < 9 * natom then
          tau.get k + ∑ m in Finset.range freq_gamma.size,
            tauTerm env natom pol disp_gamma freq_gamma m (k / 9) (k % 9 / 3) (k % 3)
        else tau.get k :=
  tauModeLoop_get env natom pol disp_gamma freq_gamma freq_gamma.size tau k

theorem colSquaredNorm_eq (n : Nat) (V : Mat (Cx R)) (k : Nat) :
    colSquaredNorm n V k = ∑ i in Finset.range n, (V.get i k).normSq := by
  unfold colSquaredNorm
  induction n with
  | zero => rfl
  | succ j ih => rw [forRange_succ, ih, Finset.sum_range_succ]

theorem eigenDispStep_get (env : Env R) (s : PhononMode R) (imode iatom : Nat)
    (E : Mat (Cx R)) (r c : Nat) :
    (eigenDispStep env s imode iatom E).get r c
      = if r = imode ∧ c = iatom then
          (normalizedCol env (3 * s._natom) s._eigenVec imode iatom).scale
            (1 / env.sqrt (s._mass.get (iatom / 3)))
        else E.get r c := rfl

theorem eigenDispRow_get (env : Env R) (s : PhononMode R) (imode n : Nat)
    (E : Mat (Cx R)) (r c : Nat) :
    (forRange n (fun iatom => eigenDispStep env s imode iatom) E).get r c
      = if r = imode ∧ c < n then
          (normalizedCol env (3 * s._natom) s._eigenVec imode c).scale
            (1 / env.sqrt (s._mass.get (c / 3)))
        else E.get r c := by
  induction n with
  | zero => rw [forRange_zero, if_neg (by omega)]
  | succ j ih =>
    rw [forRange_succ, eigenDispStep_get, ih]
    by_cases h : r = imode ∧ c = j
    · rw [if_pos h, if_pos ⟨h.1, by omega⟩, h.2]
    · rw [if_neg h]
      by_cases hlt : r = imode ∧ c < j
      · rw [if_pos hlt, if_pos ⟨hlt.1, by omega⟩]
      · rw [if_neg hlt, if_neg]
        rintro ⟨h1, h2⟩
        by_cases hc : c = j
        · exact h ⟨h1, hc⟩
        · exact hlt ⟨h1, by omega⟩

theorem eigenDispRows_get (env : Env R) (s : PhononMode R) (m n : Nat)
    (E : Mat (Cx R)) (r c : Nat) :
    (forRange m (fun imode =>
        forRange n (fun iatom => eigenDispStep env s imode iatom)) E).get r c
      = if r < m ∧ c < n then
          (normalizedCol env (3 * s._natom) s._eigenVec r c).scale
            (1 / env.sqrt (s._mass.get (c / 3)))
        else E.get r c := by
  induction m with
  | zero => rw [forRange_zero, if_neg (by omega)]
  | succ j ih =>
    rw [forRange_succ, eigenDispRow_get, ih]
    by_cases h : r = j ∧ c < n
    · rw [if_pos h, if_pos ⟨by omega, h.2⟩, h.1]
    · rw [if_neg h]
      by_cases hlt : r < j ∧ c < n
      · rw [if_pos hlt, if_pos ⟨by omega, hlt.2⟩]
      · rw [if_neg hlt, if_neg]
        rintro ⟨h1, h2⟩
        by_cases hr : r = j
        · exact h ⟨hr, h2⟩
        · exact hlt ⟨by omega, h2⟩

/-- Closed form of the eigen-displacement loop nest of `computeEigen`. -/
theorem eigenDispLoop_get (env : Env R) (s : PhononMode R) (E : Mat (Cx R)) (r c : Nat) :
    (eigenDispLoop env s E).get r c
      = if r < 3 * s._natom ∧ c < 3 * s._natom then
          (normalizedCol env (3 * s._natom) s._eigenVec r c).scale
            (1 / env.sqrt (s._mass.get (c / 3)))
        else E.get r c :=
  eigenDispRows_get env s (3 * s._natom) (3 * s._natom) E r c

/-- The eigen-displacement stored by `computeEigen`, inside the dimensions: component
`c` of the normalised eigenvector `m` over `sqrt(_mass[c/3])`, each part cleaned. -/
theorem computeEigenState_eigenDisp_get (env : Env R) (s : PhononMode R) (m c : Nat)
    (hm : m < 3 * s._natom) (hc : c < 3 * s._natom) :
    (s.computeEigenState env)._eigenDisp.get m c
      = ⟨snap ((normalizedCol env (3 * s._natom)
            { rows := 3 * s._natom, cols := 3 * s._natom,
              data := (env.solver (3 * s._natom) (solverInput env s).data).2 } m c).scale
            (1 / env.sqrt (s._mass.get (c / 3)))).re,
         snap ((normalizedCol env (3 * s._natom)
            { rows := 3 * s._natom, cols := 3 * s._natom,
              data := (env.solver (3 * s._natom) (solverInput env s).data).2 } m c).scale
            (1 / env.sqrt (s._mass.get (c / 3)))).im⟩ := by
  simp only [PhononMode.computeEigenState]
  rw [cleanup_get, if_pos ⟨hm, hc⟩, eigenDispLoop_get]
  simp only []
  rw [if_pos ⟨hm, hc⟩]

/-- After the solve and the conversion, `lin_res` is its last part. -/
theorem lin_res_eq_field (env : Env R) (s : PhononMode R) (E_vec : Vec3 R) (E_Amp : R)
    (ddb : Ddb R) (g : GammaData R) (f : Vec R) (h1 : s.lin_res_solve env ddb = .ok g)
    (h2 : convertFreq env g.freq_gamma = .ok f) :
    s.lin_res env E_vec E_Amp ddb
      = PhononMode.lin_res_field env { g with freq_gamma := f } E_vec E_Amp ddb := by
  unfold PhononMode.lin_res
  rw [h1]
  simp only []
  rw [h2]

end LinearResponse

/-! ## The linear response of a stable two-atom dataset -/

section StableDataset

theorem stableGamma_natom : stableGamma._natom = 2 := rfl

theorem stableSolve_freq (m : Nat) :
    stableSolve.freq_gamma.get m
      = copyFreq (stableGamma.computeEigenState stableEnv) (fun _ => 0) m := rfl

theorem stableSolve_disp (k : Nat) :
    stableSolve.disp_gamma.get k
      = copyMode (stableGamma.computeEigenState stableEnv) (fun _ => 0) k := rfl

theorem stable_zeff (i k : Nat) (hi : i < 2) :
    (stableSolve.self._zeff.get i) k = if i = 0 ∧ k = 5 then 1 else 0 := by
  interval_cases i <;> rfl

theorem stable_sqrt_sq (q : ℚ) (hq : 0 ≤ q) : stableEnv.sqrt (q * q) = q := by
  show Rat.sqrt (q * q) = q
  rw [Rat.sqrt_eq, abs_of_nonneg hq]

/-- The frequencies of the stable dataset. -/
theorem stableSolve_freq_get (m : Nat) (hm : m < 6) :
    stableSolve.freq_gamma.get m = if m < 3 then 1 / 10 ^ 10 else 5 := by
  have hev : ∀ i, stableGamma.eigenvalue stableEnv i = if i < 3 then 1 / 10 ^ 20 else 25 :=
    fun _ => rfl
  have h1 : stableSolve.freq_gamma.get m
      = (stableGamma.computeEigen stableEnv none none).1._frequencies.get m := by
    rw [stableSolve_freq]
    unfold copyFreq
    rw [if_pos (by show m < 3 * 2; omega)]
    rfl
  rw [h1, computeEigen_frequencies_get stableEnv stableGamma none none m
    (by rw [stableGamma_natom]; omega), hev]
  by_cases h : m < 3
  · rw [if_pos h, if_pos h, signedSqrt_nonneg _ _ (by norm_num)]
    have e : (1 / 10 ^ 20 : ℚ) = (1 / 10 ^ 10) * (1 / 10 ^ 10) := by norm_num
    rw [e, stable_sqrt_sq _ (by norm_num)]
  · rw [if_neg h, if_neg h, signedSqrt_nonneg _ _ (by norm_num)]
    have e : (25 : ℚ) = 5 * 5 := by norm_num
    rw [e, stable_sqrt_sq _ (by norm_num)]

theorem stableSolve_size_freq : stableSolve.freq_gamma.size = 6 := rfl

theorem stableEnv_Ha2THz : stableEnv.Ha2THz = 1 := rfl

theorem stableFreq_good : ∀ m, m < stableSolve.freq_gamma.size →
      ¬ stableEnv.Ha2THz * stableSolve.freq_gamma.get m < -1 := by
  intro m hm
  rw [stableSolve_size_freq] at hm
  rw [stableSolve_freq_get m hm, stableEnv_Ha2THz]
  by_cases h : m < 3
  · rw [if_pos h]; norm_num
  · rw [if_neg h]; norm_num

theorem stableFreq_ok : convertFreq stableEnv stableSolve.freq_gamma = .ok stableFreq :=
  (thzLoop_spec stableEnv stableSolve.freq_gamma stableSolve.freq_gamma.size).2 stableFreq_good

theorem stableFreq_size : stableFreq.size = 6 := rfl

theorem stableFreq_get (m : Nat) (hm : m < 6) : stableFreq.get m = if m < 3 then 1 / 10 ^ 10 else 5 := by
  unfold stableFreq
  simp only [Vec.get]
  rw [stableSolve_size_freq, if_pos hm, stableEnv_Ha2THz, one_mul]
  exact stableSolve_freq_get m hm

/-- The eigenvector matrix the solver of `stableEnv` returns. -/
theorem stable_vecs (n : Nat) (M : Nat → Nat → Cx ℚ) (j k : Nat) :
    (stableEnv.solver n M).2 j k
      = if k < 3 then
          (if j = k then ⟨3 / 5, 0⟩ else if j = k + 3 then ⟨4 / 5, 0⟩ else 0)
        else
          (if j + 3 = k then ⟨4 / 5, 0⟩ else if j = k then ⟨-3 / 5, 0⟩ else 0) := rfl

theorem stable_colSquaredNorm (n : Nat) (M : Nat → Nat → Cx ℚ) (k : Nat) (hk : k < 6) :
    colSquaredNorm 6 { rows := 6, cols := 6, data := (stableEnv.solver n M).2 } k = 1 := by
  rw [colSquaredNorm_eq]
  simp only [Mat.get, stable_vecs, Finset.sum_range_succ, Finset.sum_range_zero, zero_add]
  interval_cases k <;> simp [Cx.normSq] <;> norm_num

theorem stable_normalizedCol (n : Nat) (M : Nat → Nat → Cx ℚ) (k i : Nat) (hk : k < 6) :
    normalizedCol stableEnv 6 { rows := 6, cols := 6, data := (stableEnv.solver n M).2 } k i
      = (stableEnv.solver n M).2 i k := by
  unfold normalizedCol
  simp only []
  rw [stable_colSquaredNorm n M k hk, if_pos (by norm_num)]
  have e : (1 : ℚ) = 1 * 1 := by norm_num
  rw [e, stable_sqrt_sq 1 (by norm_num)]
  simp [Cx.divReal, Mat.get]

theorem stableGamma_sqrt_mass (p : Nat) (hp : p < 2) :
    stableEnv.sqrt (stableGamma._mass.get p) = if p = 0 then 3 else 4 := by
  have h0 : stableGamma._mass.get 0 = 3 * 3 := by
    have h : stableGamma._mass.get 0 = 9 * 1 := rfl
    rw [h]; norm_num
  have h1 : stableGamma._mass.get 1 = 4 * 4 := by
    have h : stableGamma._mass.get 1 = 16 * 1 := rfl
    rw [h]; norm_num
  interval_cases p
  · rw [h0, stable_sqrt_sq 3 (by norm_num)]; rfl
  · rw [h1, stable_sqrt_sq 4 (by norm_num)]; rfl

theorem snap_of_large (x : ℚ) (h : 1 / 10 ^ 7 < |x|) : snap x = x := by
  unfold snap noiseEps
  rw [if_pos h]

theorem snap_zero : snap (0 : ℚ) = 0 := by
  unfold snap
  simp

/-- The eigen-displacements of the stable dataset: the eigenvector components over the
square roots 3 and 4 of the masses. -/
theorem stableGamma_eigenDisp (m c : Nat) (hm : m < 6) (hc : c < 6) :
    (stableGamma.computeEigenState stableEnv)._eigenDisp.get m c
      = ⟨if m < 3 then (if c = m then 1 / 5 else if c = m + 3 then 1 / 5 else 0)
          else (if c + 3 = m then 4 / 15 else if c = m then -3 / 20 else 0), 0⟩ := by
  rw [computeEigenState_eigenDisp_get stableEnv stableGamma m c
    (by rw [stableGamma_natom]; omega) (by rw [stableGamma_natom]; omega), stableGamma_natom]
  have e6 : 3 * 2 = 6 := rfl
  rw [e6, stable_normalizedCol _ _ m c hm, stableGamma_sqrt_mass (c / 3) (by omega), stable_vecs]
  have s1 : snap (1 / 5 : ℚ) = 1 / 5 := snap_of_large _ (by rw [abs_of_pos] <;> norm_num)
  have s2 : snap (4 / 15 : ℚ) = 4 / 15 := snap_of_large _ (by rw [abs_of_pos] <;> norm_num)
  have s3 : snap (-(3 / 20) : ℚ) = -(3 / 20) := snap_of_large _ (by
    rw [abs_of_neg] <;> norm_num)
  interval_cases m <;> interval_cases c <;>
    simp [Cx.scale, Cx.ext_iff', snap_zero] <;> norm_num <;>
    first | exact s1 | exact s2 | exact s3

theorem stableSolve_ok :
    (PhononMode.new0 : PhononMode ℚ).lin_res_solve stableEnv stableDdb = .ok stableSolve := rfl

theorem stableSolve_size_disp : stableSolve.disp_gamma.size = 36 := rfl

/-- The table of the real parts of the eigen-displacements of the stable dataset. -/
theorem stable_disp (m c : Nat) (hm : m < 6) (hc : c < 6) :
    ((scaleDisp stableEnv stableSolve.disp_gamma).get (u32 (m * 3 * 2 + c))).re
      = if m < 3 then (if c = m then 1 / 5 else if c = m + 3 then 1 / 5 else 0)
        else (if c + 3 = m then 4 / 15 else if c = m then -3 / 20 else 0) := by
  have hu : u32 (m * 3 * 2 + c) = m * 6 + c := by
    unfold u32
    rw [Nat.mod_eq_of_lt (by omega)]
    omega
  have h1 : (1 : ℚ) = 1 * 1 := by norm_num
  have hs : stableEnv.sqrt stableEnv.amu_emass = 1 := by
    show stableEnv.sqrt 1 = 1
    rw [h1, stable_sqrt_sq 1 (by norm_num)]
    norm_num
  rw [hu, scaleDisp_get, stableSolve_size_disp, if_pos (by omega), hs, stableSolve_disp]
  unfold copyMode
  have hn : (stableGamma.computeEigenState stableEnv)._natom = 2 := rfl
  rw [hn]
  have e1 : (m * 6 + c) / (3 * 2) = m := by omega
  have e2 : (m * 6 + c) % (3 * 2) = c := by omega
  rw [if_pos (by omega), e1, e2, stableGamma_eigenDisp m c hm hc]
  simp [Cx.scale]

theorem stable_disp_atom (m i d : Nat) (hm : m < 6) (hc : 3 * i + d < 6) :
    ((scaleDisp stableEnv stableSolve.disp_gamma).get (u32 (m * 3 * 2 + 3 * i + d))).re
      = if m < 3 then (if 3 * i + d = m then 1 / 5 else if 3 * i + d = m + 3 then 1 / 5 else 0)
        else (if 3 * i + d + 3 = m then 4 / 15 else if 3 * i + d = m then -3 / 20 else 0) := by
  rw [Nat.add_assoc]
  exact stable_disp m (3 * i + d) hm hc

theorem stable_mat3dind (a b : Nat) : stableEnv.mat3dind a b = (a - 1) * 3 + (b - 1) := rfl

/-- The polarity sums of the stable dataset: only the z mode of the upper triple has
one, along y. -/
theorem stable_polTerm (m a : Nat) (hm : 3 ≤ m) (hm6 : m < 6) (ha : a < 3) :
    polTerm stableEnv 2 stableSolve.self._zeff (scaleDisp stableEnv stableSolve.disp_gamma) m a
      = if a = 1 ∧ m = 5 then 4 / 15 else 0 := by
  unfold polTerm
  simp only [Finset.sum_range_succ, Finset.sum_range_zero, zero_add, stable_mat3dind,
    stable_zeff 0 _ (by omega), stable_zeff 1 _ (by omega),
    stable_disp_atom m 0 0 hm6 (by omega), stable_disp_atom m 0 1 hm6 (by omega),
    stable_disp_atom m 0 2 hm6 (by omega), stable_disp_atom m 1 0 hm6 (by omega),
    stable_disp_atom m 1 1 hm6 (by omega), stable_disp_atom m 1 2 hm6 (by omega)]
  interval_cases m <;> interval_cases a <;> simp

theorem stable_pol (m a : Nat) (hm6 : m < 6) (ha : a < 3) :
    (polLoop stableEnv 2 stableSolve.self._zeff (scaleDisp stableEnv stableSolve.disp_gamma) 6
        (Vec.fill (3 * 6) 0)).get (3 * m + a)
      = if a = 1 ∧ m = 5 then 4 / 15 else 0 := by
  rw [polLoop_get]
  have e1 : (3 * m + a) / 3 = m := by omega
  have e2 : (3 * m + a) % 3 = a := by omega
  have e0 : (Vec.fill (3 * 6) (0 : ℚ)).get (3 * m + a) = 0 := rfl
  rw [e0, e1, e2]
  by_cases h : 3 ≤ m
  · rw [if_pos ⟨by omega, by omega⟩, stable_polTerm m a h hm6 ha, zero_add]
  · rw [if_neg (by omega), if_neg (by omega)]

theorem stableTau_get (k : Nat) (hk : k < 18) :
    stableTau.get k
      = ∑ m in Finset.range 6,
          tauTerm stableEnv 2
            (polLoop stableEnv 2 stableSolve.self._zeff
              (scaleDisp stableEnv stableSolve.disp_gamma) 6 (Vec.fill (3 * 6) 0))
            (scaleDisp stableEnv stableSolve.disp_gamma) stableFreq m (k / 9) (k % 9 / 3) (k % 3) := by
  show (tauLoop stableEnv 2
          (polLoop stableEnv 2 stableSolve.self._zeff
            (scaleDisp stableEnv stableSolve.disp_gamma) 6 (Vec.fill (3 * 6) 0))
          (scaleDisp stableEnv stableSolve.disp_gamma) stableFreq (Vec.fill (9 * 2) 0)).get k = _
  rw [tauLoop_get, if_pos (by omega), stableFreq_size]
  have e0 : (Vec.fill (9 * 2) (0 : ℚ)).get k = 0 := rfl
  rw [e0, zero_add]

theorem stable_fac : stableEnv.fac = 1 := rfl

/-- The entry `tau[6]` of the stable dataset (atom 0, field along z, displacement
along x) is 0. -/
theorem stableTau_six : stableTau.get 6 = 0 := by
  rw [stableTau_get 6 (by omega)]
  apply Finset.sum_eq_zero
  intro m hm
  have hm6 : m < 6 := Finset.mem_range.1 hm
  unfold tauTerm
  have e : 6 % 9 / 3 = 2 := rfl
  rw [e, stable_pol m 2 hm6 (by omega), if_neg (by omega)]
  simp

/-- The entry `tau[5]` of the stable dataset (atom 0, field along y, displacement
along z). -/
theorem stableTau_five : stableTau.get 5 = 1 / 35156250 := by
  rw [stableTau_get 5 (by omega)]
  have e1 : 5 / 9 = 0 := rfl
  have e2 : 5 % 9 / 3 = 1 := rfl
  have e3 : 5 % 3 = 2 := rfl
  rw [e1, e2, e3]
  unfold tauTerm
  simp only [Finset.sum_range_succ, Finset.sum_range_zero, zero_add, stable_fac,
    stable_pol 0 1 (by omega) (by omega), stable_pol 1 1 (by omega) (by omega),
    stable_pol 2 1 (by omega) (by omega), stable_pol 3 1 (by omega) (by omega),
    stable_pol 4 1 (by omega) (by omega), stable_pol 5 1 (by omega) (by omega),
    stable_disp_atom 5 0 2 (by omega) (by omega), stableFreq_get 5 (by omega)]
  norm_num

theorem stableCorrection_ok :
    (PhononMode.new 2 : PhononMode ℚ).computeASR stableEnv stableDdb = .ok stableCorrection := rfl

theorem stableGamma_ok :
    stableCorrection.computeForceCstAt stableEnv ⟨0, 0, 0⟩ stableDdb = .ok stableGamma := rfl

theorem stableRecords_last (d1 a1 d2 a2 : Nat) (h1 : d1 < 3) (h2 : a1 < 2) (h3 : d2 < 3)
    (h4 : a2 < 2) :
    lastRecord (d1, a1, d2, a2) stableRecords
      = some (if d1 = d2 then (if a1 = a2 then 0 else ⟨-144, 0⟩) else 0) := by
  interval_cases d1 <;> interval_cases a1 <;> interval_cases d2 <;> interval_cases a2 <;> rfl

/-- With the identity as basis matrix, the cartesian matrix of the records
`stableRecords` is the matrix of the records. -/
theorem stable_cartesianEntry (r c : Nat) (hr : r < 6) (hc : c < 6) :
    cartesianEntry (fun i j => stableDdb.gprim (3 * i + j)) stableRecords r c
      = (if c % 3 = r % 3 then (if c / 3 = r / 3 then 0 else ⟨-144, 0⟩) else 0) := by
  have hg : ∀ i j, stableDdb.gprim (3 * i + j) = if (3 * i + j) % 4 = 0 then 1 else 0 :=
    fun _ _ => rfl
  have hl : ∀ c' d, c' < 3 → d < 3 →
      (lastRecord (d, c / 3, c', r / 3) stableRecords).getD 0
        = (if d = c' then (if c / 3 = r / 3 then 0 else ⟨-144, 0⟩) else 0) := by
    intro c' d hc' hd
    rw [stableRecords_last d (c / 3) c' (r / 3) hd (by omega) hc' (by omega)]
    rfl
  unfold cartesianEntry
  simp only [Finset.sum_range_succ, Finset.sum_range_zero, zero_add, hg,
    hl 0 0 (by omega) (by omega), hl 0 1 (by omega) (by omega), hl 0 2 (by omega) (by omega),
    hl 1 0 (by omega) (by omega), hl 1 1 (by omega) (by omega), hl 1 2 (by omega) (by omega),
    hl 2 0 (by omega) (by omega), hl 2 1 (by omega) (by omega), hl 2 2 (by omega) (by omega)]
  have hr3 : r % 3 < 3 := by omega
  have hc3 : c % 3 < 3 := by omega
  generalize r % 3 = a at hr3 ⊢
  generalize c % 3 = b at hc3 ⊢
  interval_cases a <;> interval_cases b <;>
    simp [Cx.ofReal_one, Cx.ofReal_zero]

/-- The corrected gamma-point matrix of the stable dataset: 144 on the diagonal,
-144 between equal directions of the two atoms, 0 elsewhere. -/
theorem stableGamma_d2cart (r c : Nat) (hr : r < 6) (hc : c < 6) :
    stableGamma._d2cart.get r c
      = (if c % 3 = r % 3 then (if c / 3 = r / 3 then ⟨144, 0⟩ else ⟨-144, 0⟩) else 0) := by
  obtain ⟨t, recs, ht, hrec, -, -, hD⟩ :=
    computeASR_then_assemble stableEnv (PhononMode.new 2) stableCorrection stableDdb
      stableCorrection_ok
  have hts : t = stableGamma := by
    rw [stableGamma_ok] at ht
    exact (Except.ok.inj ht).symm
  have hrs : recs = stableRecords := by
    have h1 : stableDdb.getDdb ⟨0, 0, 0⟩ = .ok stableRecords := rfl
    rw [h1] at hrec
    exact (Except.ok.inj hrec).symm
  subst hts
  subst hrs
  have hn : stableDdb.natom = 2 := rfl
  rw [hD r c (by rw [hn]; omega) (by rw [hn]; omega), hn, Finset.sum_range_succ,
    Finset.sum_range_one, stable_cartesianEntry r c hr hc,
    stable_cartesianEntry r (0 * 3 + c % 3) hr (by omega),
    stable_cartesianEntry r (1 * 3 + c % 3) hr (by omega)]
  have e1 : (0 * 3 + c % 3) % 3 = c % 3 := by omega
  have e2 : (1 * 3 + c % 3) % 3 = c % 3 := by omega
  have e3 : (0 * 3 + c % 3) / 3 = 0 := by omega
  have e4 : (1 * 3 + c % 3) / 3 = 1 := by omega
  rw [e1, e2, e3, e4]
  have hr2 : r / 3 < 2 := by omega
  have hc2 : c / 3 < 2 := by omega
  generalize r / 3 = p at hr2 ⊢
  generalize c / 3 = q at hc2 ⊢
  by_cases hm : c % 3 = r % 3
  · simp only [hm, if_true]
    interval_cases p <;> interval_cases q <;> simp [Cx.ext_iff']
  · simp only [hm, if_false]
    interval_cases p <;> interval_cases q <;> simp

theorem stable_sqrt_masses (p q : Nat) (hp : p < 2) (hq : q < 2) :
    stableEnv.sqrt (stableGamma._mass.get p * stableGamma._mass.get q)
      = (if p = 0 then 3 else 4) * (if q = 0 then 3 else 4) := by
  have h0 : stableGamma._mass.get 0 = 9 := by
    have h : stableGamma._mass.get 0 = 9 * 1 := rfl
    rw [h]; norm_num
  have h1 : stableGamma._mass.get 1 = 16 := by
    have h : stableGamma._mass.get 1 = 16 * 1 := rfl
    rw [h]; norm_num
  have e916 : (9 : ℚ) * 16 = 12 * 12 := by norm_num
  have e169 : (16 : ℚ) * 9 = 12 * 12 := by norm_num
  interval_cases p <;> interval_cases q
  · rw [h0, stable_sqrt_sq 9 (by norm_num)]; norm_num
  · rw [h0, h1, e916, stable_sqrt_sq 12 (by norm_num)]; norm_num
  · rw [h0, h1, e169, stable_sqrt_sq 12 (by norm_num)]; norm_num
  · rw [h1, stable_sqrt_sq 16 (by norm_num)]; norm_num

/-- The mass-weighted, symmetrised matrix of the stable dataset: blocks
`16 I, -12 I; -12 I, 9 I`. -/
theorem stableGamma_solverInput (i j : Nat) (hi : i < 6) (hj : j < 6) :
    (solverInput stableEnv stableGamma).data i j
      = (if j % 3 = i % 3 then
          (if i / 3 = 0 then (if j / 3 = 0 then ⟨16, 0⟩ else ⟨-12, 0⟩)
           else (if j / 3 = 0 then ⟨-12, 0⟩ else ⟨9, 0⟩))
         else 0) := by
  rw [solverInput_get, buildDynMat_get, buildDynMat_get, stableGamma_natom,
    if_pos ⟨by omega, by omega⟩, if_pos ⟨by omega, by omega⟩, stableGamma_d2cart i j hi hj,
    stableGamma_d2cart j i hj hi, stable_sqrt_masses (i / 3) (j / 3) (by omega) (by omega),
    stable_sqrt_masses (j / 3) (i / 3) (by omega) (by omega)]
  have hp : i / 3 < 2 := by omega
  have hq : j / 3 < 2 := by omega
  generalize i / 3 = p at hp ⊢
  generalize j / 3 = q at hq ⊢
  by_cases hm : j % 3 = i % 3
  · simp only [hm, if_true]
    interval_cases p <;> interval_cases q <;>
      simp [Cx.scale, Cx.conj, Cx.ext_iff'] <;> norm_num
  · have hm' : ¬ i % 3 = j % 3 := fun h => hm h.symm
    simp only [hm, hm', if_false]
    apply Cx.ext_iff'.2
    constructor
    · simp [Cx.scale, Cx.conj]
    · simp [Cx.scale, Cx.conj]

set_option maxHeartbeats 1600000 in
/-- The vectors the solver of `stableEnv` returns are an exact orthonormal
eigen-decomposition of the matrix of the stable dataset for the eigenvalues
(0, 0, 0, 25, 25, 25). -/
theorem stableGamma_decomposition :
    IsEigenDecomposition (3 * stableGamma._natom) (solverInput stableEnv stableGamma).data
      (fun k => if k < 3 then 0 else 25)
      (stableEnv.solver (3 * stableGamma._natom) (solverInput stableEnv stableGamma).data).2 := by
  have hs : ∀ n M, (stableEnv.solver n M).2 = fun j k =>
        if k < 3 then
          (if j = k then (⟨3 / 5, 0⟩ : Cx ℚ) else if j = k + 3 then ⟨4 / 5, 0⟩ else 0)
        else
          (if j + 3 = k then ⟨4 / 5, 0⟩ else if j = k then ⟨-3 / 5, 0⟩ else 0) :=
    fun _ _ => rfl
  rw [stableGamma_natom, hs]
  refine ⟨?_, ?_, ?_⟩
  · intro k l hkl hl
    simp only []
    by_cases h1 : k < 3
    · by_cases h2 : l < 3
      · rw [if_pos h1, if_pos h2]
      · rw [if_pos h1, if_neg h2]
        norm_num
    · rw [if_neg h1, if_neg (by omega)]
  · intro k i hk hi
    have hk' : k < 6 := hk
    have hi' : i < 6 := hi
    simp only []
    have hsum : ∀ (v : Nat → Cx ℚ),
        ∑ j in Finset.range (3 * 2), (solverInput stableEnv stableGamma).data i j * v j
          = ∑ j in Finset.range (3 * 2),
              (if j % 3 = i % 3 then
                (if i / 3 = 0 then (if j / 3 = 0 then (⟨16, 0⟩ : Cx ℚ) else ⟨-12, 0⟩)
                 else (if j / 3 = 0 then ⟨-12, 0⟩ else ⟨9, 0⟩))
               else 0) * v j := by
      intro v
      apply Finset.sum_congr rfl
      intro j hj
      rw [stableGamma_solverInput i j hi' (Finset.mem_range.1 hj)]
    rw [hsum]
    interval_cases k <;> interval_cases i <;>
      simp [Finset.sum_range_succ, Cx.ext_iff', Cx.ofReal] <;> norm_num
  · intro k l hk hl
    have hk' : k < 6 := hk
    have hl' : l < 6 := hl
    simp only []
    interval_cases k <;> interval_cases l <;>
      simp [Finset.sum_range_succ, Cx.conj, Cx.ext_iff'] <;> norm_num

/-- The eigenvalues the solver of `stableEnv` returns are within `10^-20` of the exact
ones. -/
theorem stable_eigenvalues (n : Nat) (M : Nat → Nat → Cx ℚ) (k : Nat) :
    |(stableEnv.solver n M).1 k - (if k < 3 then 0 else 25)| ≤ 1 / 10 ^ 20 := by
  have h : (stableEnv.solver n M).1 k = if k < 3 then 1 / 10 ^ 20 else 25 := rfl
  rw [h]
  by_cases hk : k < 3
  · rw [if_pos hk, if_pos hk, sub_zero, abs_of_pos (by norm_num)]
  · rw [if_neg hk, if_neg hk, sub_self, abs_zero]
    norm_num

theorem stable_field : ∃ s', PhononMode.lin_res_field stableEnv
    { stableSolve with freq_gamma := stableFreq } ⟨0, 1, 0⟩ 1 stableDdb
      = .ok (dispLoop stableEnv 2 ⟨0, 1, 0⟩ 1 stableTau, s') :=
  ⟨_, rfl⟩

/-- C1 (evaluation at a failing input): `lin_res` on the stable two-atom dataset
`stableDdb` with a unit field along y and amplitude 1.  The solver of `stableEnv`
answers with an exact orthonormal eigenvector basis of the matrix it is given and with
eigenvalues within `10^-20` of the exact ones; the call succeeds and returns the
result of the displacement loop on the local `tau` (`stableTau`); `tau[5]`, the
response of atom 0 along z to a field along y, is `1/35156250` and `tau[6]` is 0; the
returned `disp_E[2]` is 0, while the contraction of `tau` with the field,
`A2b * E_Amp * (E_vec[0]*tau[2] + E_vec[1]*tau[5] + E_vec[2]*tau[8])`, is
`1/35156250`. -/
theorem lin_res_third_component_reads_tau6 :
    IsEigenDecomposition (3 * stableGamma._natom) (solverInput stableEnv stableGamma).data
        (fun k => if k < 3 then 0 else 25)
        (stableEnv.solver (3 * stableGamma._natom) (solverInput stableEnv stableGamma).data).2
      ∧ (∀ k, |(stableEnv.solver (3 * stableGamma._natom)
            (solverInput stableEnv stableGamma).data).1 k - (if k < 3 then 0 else 25)|
          ≤ 1 / 10 ^ 20)
      ∧ ∃ disp_E s', (PhononMode.new0 : PhononMode ℚ).lin_res stableEnv ⟨0, 1, 0⟩ 1 stableDdb
            = .ok (disp_E, s')
          ∧ disp_E = dispLoop stableEnv 2 ⟨0, 1, 0⟩ 1 stableTau
          ∧ stableTau.get 5 = 1 / 35156250
          ∧ stableTau.get 6 = 0
          ∧ disp_E.get (3 * 0 + 2) = 0
          ∧ stableEnv.A2b * 1 * ((⟨0, 1, 0⟩ : Vec3 ℚ).get 0 * stableTau.get (9 * 0 + 0 + 2)
              + (⟨0, 1, 0⟩ : Vec3 ℚ).get 1 * stableTau.get (9 * 0 + 3 + 2)
              + (⟨0, 1, 0⟩ : Vec3 ℚ).get 2 * stableTau.get (9 * 0 + 6 + 2)) = 1 / 35156250 := by
  refine ⟨stableGamma_decomposition, fun k => stable_eigenvalues _ _ k, ?_⟩
  have hcall : ∃ s', (PhononMode.new0 : PhononMode ℚ).lin_res stableEnv ⟨0, 1, 0⟩ 1 stableDdb
      = .ok (dispLoop stableEnv 2 ⟨0, 1, 0⟩ 1 stableTau, s') := by
    rw [lin_res_eq_field stableEnv PhononMode.new0 ⟨0, 1, 0⟩ 1 stableDdb stableSolve stableFreq
      stableSolve_ok stableFreq_ok]
    exact stable_field
  obtain ⟨s', hs'⟩ := hcall
  refine ⟨_, s', hs', rfl, stableTau_five, stableTau_six, ?_, ?_⟩
  · rw [(dispLoop_get stableEnv ⟨0, 1, 0⟩ 1 stableTau 2 0 (by decide)).2.2, stableTau_six]
    simp [Vec3.get]
  · have e : stableEnv.A2b = 1 := rfl
    rw [e, stableTau_five]
    simp [Vec3.get]

end StableDataset

/-! ## Automatic application of the ASR correction -/

section AutomaticASR

variable {R : Type} [LinearOrderedField R]

/-- C11: automatic ASR application.  On a state whose ASR flag is set, with a
correction `asr` of shape `3N x 3`, `computeForceCst(records)` succeeds whenever the
same call succeeds on the state without the flag, and its matrix `D` is the matrix `U`
of that call with `asr(3i+a, b)` subtracted once at every entry `(3i+a, 3i+b)` of the
diagonal blocks, every other entry being the entry of `U`. -/
theorem computeForceCst_applies_asr (s u : PhononMode R) (ddb : List (D2der R))
    (hasr : s._hasASR = true) (hshape : s._asr.rows = 3 * s._natom ∧ s._asr.cols = 3)
    (hu : ({ s with _hasASR := false } : PhononMode R).computeForceCst ddb = .ok u) :
    ∃ t, s.computeForceCst ddb = .ok t
      ∧ (∀ i a b, i < s._natom → a < 3 → b < 3 →
          t._d2cart.get (3 * i + a) (3 * i + b)
            = u._d2cart.get (3 * i + a) (3 * i + b) - s._asr.get (3 * i + a) b)
      ∧ (∀ r c, r / 3 ≠ c / 3 → t._d2cart.get r c = u._d2cart.get r c) := by
  obtain ⟨h0, h1, hany, hD, -⟩ := computeForceCst_ok_cases _ u ddb hu
  simp only [Bool.false_eq_true, if_false] at hD
  obtain ⟨t, ht⟩ := computeForceCst_of_checks s ddb h0 h1 hany
  obtain ⟨-, -, -, hT, -⟩ := computeForceCst_ok_cases s t ddb ht
  rw [if_pos hasr] at hT
  refine ⟨t, ht, ?_, ?_⟩
  · intro i a b hi ha hb
    rw [hT, hD, applyLoop_get, if_pos ⟨by omega, by omega⟩]
    have e : (3 * i + b) % 3 = b := by omega
    rw [e]
  · intro r c hrc
    rw [hT, hD, applyLoop_get, if_neg (fun hh => hrc hh.2)]

/-- Witness of C11: the object that holds the correction of the one-atom dataset
`exDdb`, assembling the records of that dataset. -/
theorem computeForceCst_applies_asr_witness :
    ∃ u, ({ exCorrection with _hasASR := false } : PhononMode ℚ).computeForceCst exRecords = .ok u
      ∧ ∃ t, exCorrection.computeForceCst exRecords = .ok t
        ∧ (∀ i a b, i < exCorrection._natom → a < 3 → b < 3 →
            t._d2cart.get (3 * i + a) (3 * i + b)
              = u._d2cart.get (3 * i + a) (3 * i + b) - exCorrection._asr.get (3 * i + a) b)
        ∧ (∀ r c, r / 3 ≠ c / 3 → t._d2cart.get r c = u._d2cart.get r c) :=
  ⟨_, rfl, computeForceCst_applies_asr exCorrection _ exRecords rfl ⟨rfl, rfl⟩ rfl⟩

/-- After a successful `computeASR(ddb)` the flag is set, the atom count is the
dataset's, and the correction holds the block row sums of the cartesian matrix of the
gamma-point records. -/
theorem computeASR_asr_get (env : Env R) (s s' : PhononMode R) (ddb : Ddb R)
    (h : s.computeASR env ddb = .ok s') :
    ∃ recs, ddb.getDdb ⟨0, 0, 0⟩ = .ok recs ∧ s'._hasASR = true ∧ s'._natom = ddb.natom
      ∧ s'._d2cart = s._d2cart.resize (3 * ddb.natom) (3 * ddb.natom)
      ∧ ∀ r k, r < 3 * ddb.natom → k < 3 →
          s'._asr.get r k = ∑ j in Finset.range ddb.natom,
            cartesianEntry (fun i j => ddb.gprim (3 * i + j)) recs r (j * 3 + k) := by
  obtain ⟨pg, hpg, hs'⟩ := computeASR_ok_cases env s s' ddb h
  obtain ⟨s3, recs, hm, hrec, hc⟩ := computeForceCstAt_ok_cases env _ pg _ ddb hpg
  obtain ⟨hn3, hasr3, -, hg3, -⟩ := massLoop_fields env ddb _ _ _ _ hm
  obtain ⟨h0, hsz, hany, hd, -, -, -, -, -⟩ := computeForceCst_ok_cases s3 pg recs hc
  have hn3' : s3._natom = ddb.natom := hn3
  have hasr3' : s3._hasASR = false := hasr3
  have hg3' : s3._gprim = fun r c => ddb.gprim (3 * r + c) := hg3
  rw [hasr3', hn3', hg3'] at hd
  simp only [Bool.false_eq_true, if_false] at hd
  rw [hn3'] at hany
  refine ⟨recs, hrec, by rw [hs'], by rw [hs']; rfl, by rw [hs']; rfl, ?_⟩
  intro r k hr hk
  rw [hs']
  show (forRange ddb.natom (fun ipert1 =>
      forRange ddb.natom (fun ipert2 => computeASRStep pg._d2cart ipert1 ipert2))
        (Mat.fill (3 * ddb.natom) 3 0)).get r k = _
  rw [asrOuter_get, if_pos (And.intro hr hk), mat_get_fill, zero_add]
  apply Finset.sum_congr rfl
  intro j hj
  have hj' : j < ddb.natom := Finset.mem_range.1 hj
  rw [hd]
  exact assembled_eq_cartesianEntry _ ddb.natom recs s3._d2cart hany r _ hr (by omega)

/-- C12 (amended): `applyASR` fails with the "ASR Can not been applied" exception
exactly when the flag `_hasASR` is not set, and with no other exception; the
constructors leave the flag unset and only a successful `computeASR` sets it; on a
state without the flag `computeForceCst(records)` subtracts nothing; and neither
`resize` nor an assembly `computeForceCst(qpt, ddb)` (whatever the atom count of the
dataset) changes the flag. -/
theorem applyASR_notComputed_iff_flag (env : Env R) (s : PhononMode R) :
    (s.applyASR = .error (EXCEPTION .asrNotComputed) ↔ s._hasASR = false)
      ∧ (∀ e, s.applyASR = .error e → e = EXCEPTION .asrNotComputed)
      ∧ (PhononMode.new0 : PhononMode R)._hasASR = false
      ∧ (∀ n, (PhononMode.new n : PhononMode R)._hasASR = false)
      ∧ (∀ ddb t, s.computeASR env ddb = .ok t → t._hasASR = true)
      ∧ (s._hasASR = false → ∀ recs t, s.computeForceCst recs = .ok t →
          t._hasASR = false
            ∧ t._d2cart = basisColumns s._gprim s._natom (basisLines s._gprim s._natom
                (recs.foldl (ingest s._natom)
                  (s._d2cart, (Mat.fill (3 * s._natom) (3 * s._natom) true : Mat Bool))).1))
      ∧ (∀ n, (s.resize n)._hasASR = s._hasASR)
      ∧ (∀ qpt ddb t, s.computeForceCstAt env qpt ddb = .ok t → t._hasASR = s._hasASR) := by
  refine ⟨⟨fun h => (applyASR_error s _ h).2, fun h => ?_⟩,
    fun e h => (applyASR_error s e h).1, rfl, fun _ => rfl, ?_, ?_, fun _ => rfl, ?_⟩
  · simp [PhononMode.applyASR, h]
  · intro ddb t h
    obtain ⟨-, -, hf, -⟩ := computeASR_asr_get env s t ddb h
    exact hf
  · intro hf recs t h
    obtain ⟨-, -, -, hD, -, hasr, -⟩ := computeForceCst_ok_cases s t recs h
    rw [hf] at hD hasr
    simp only [Bool.false_eq_true, if_false] at hD
    exact ⟨hasr, hD⟩
  · intro qpt ddb t h
    obtain ⟨s3, recs, hm, -, hc⟩ := computeForceCstAt_ok_cases env s t qpt ddb h
    obtain ⟨-, hasr3, -⟩ := massLoop_fields env ddb _ _ _ _ hm
    obtain ⟨-, -, -, -, -, hasr, -⟩ := computeForceCst_ok_cases s3 t recs hc
    rw [hasr, hasr3]
    rfl

end AutomaticASR

section StaleCorrection

theorem stableCorrection_asr : stableCorrection._asr.get 0 0 = ⟨-144, 0⟩ := by
  obtain ⟨recs, hrec, -, -, -, hA⟩ :=
    computeASR_asr_get stableEnv (PhononMode.new 2) stableCorrection stableDdb stableCorrection_ok
  have hrs : recs = stableRecords := by
    have h1 : stableDdb.getDdb ⟨0, 0, 0⟩ = .ok stableRecords := rfl
    rw [h1] at hrec
    exact (Except.ok.inj hrec).symm
  subst hrs
  have hn : stableDdb.natom = 2 := rfl
  rw [hA 0 0 (by rw [hn]; omega) (by omega), hn, Finset.sum_range_succ, Finset.sum_range_one,
    stable_cartesianEntry 0 (0 * 3 + 0) (by omega) (by omega),
    stable_cartesianEntry 0 (1 * 3 + 0) (by omega) (by omega)]
  simp

/-- C12 (counterexample): a correction computed for the two atoms of `stableDdb`, on
an object then resized to one atom.  `applyASR` does not fail: it returns the object
with the stale entry `asr(0,0) = -144` subtracted from entry (0,0) of the matrix. -/
theorem applyASR_after_resize_succeeds :
    (PhononMode.new 2 : PhononMode ℚ).computeASR stableEnv stableDdb = .ok stableCorrection
      ∧ stableCorrection._natom = 2
      ∧ (stableCorrection.resize 1)._natom = 1
      ∧ (stableCorrection.resize 1).applyASR ≠ .error (EXCEPTION .asrNotComputed)
      ∧ ∃ t, (stableCorrection.resize 1).applyASR = .ok t
          ∧ t._d2cart.get 0 0 = (stableCorrection.resize 1)._d2cart.get 0 0 - ⟨-144, 0⟩
          ∧ t._d2cart.get 0 0 ≠ (stableCorrection.resize 1)._d2cart.get 0 0 := by
  have hcall : (stableCorrection.resize 1).applyASR
      = .ok { stableCorrection.resize 1 with
          _d2cart := forRange 1 (applyASRStep stableCorrection._asr)
            (stableCorrection.resize 1)._d2cart } := rfl
  have hval : (forRange 1 (applyASRStep stableCorrection._asr)
      (stableCorrection.resize 1)._d2cart).get 0 0
        = (stableCorrection.resize 1)._d2cart.get 0 0 - ⟨-144, 0⟩ := by
    rw [applyLoop_get, if_pos ⟨by omega, rfl⟩, stableCorrection_asr]
  refine ⟨stableCorrection_ok, rfl, rfl, ?_, _, hcall, hval, ?_⟩
  · rw [hcall]
    exact fun h => by cases h
  · show (forRange 1 (applyASRStep stableCorrection._asr)
      (stableCorrection.resize 1)._d2cart).get 0 0 ≠ _
    rw [hval]
    intro h
    have h2 := congrArg Cx.re h
    simp at h2

/-- Witness of C12 (amended), on the object that holds the correction of the one-atom
dataset `exDdb`. -/
theorem applyASR_notComputed_iff_flag_witness :
    (exCorrection.applyASR = .error (EXCEPTION .asrNotComputed) ↔ exCorrection._hasASR = false)
      ∧ exCorrection._hasASR = true :=
  ⟨(applyASR_notComputed_iff_flag exEnv exCorrection).1, rfl⟩

end StaleCorrection

/-! ## The matrix handed to the eigen-solver -/

section Hermitian

variable {R : Type} [LinearOrderedField R]

theorem Cx.conj_conj (z : Cx R) : z.conj.conj = z := by
  apply Cx.ext_iff'.2
  simp [Cx.conj]

theorem Cx.conj_eq_self_im (z : Cx R) (h : z.conj = z) : z.im = 0 := by
  have h2 : (z.conj).im = z.im := by rw [h]
  simp only [Cx.conj] at h2
  linarith

/-- The matrix the solver decomposes equals its conjugate transpose. -/
theorem solverInput_conj (env : Env R) (s : PhononMode R) (i j : Nat) :
    (solverInput env s).data i j = ((solverInput env s).data j i).conj := by
  rw [solverInput_get, solverInput_get]
  apply Cx.ext_iff'.2
  constructor
  · simp [Cx.scale, Cx.conj]
    ring
  · simp [Cx.scale, Cx.conj]
    ring

/-- For a matrix equal to its conjugate transpose, the quadratic form of any vector
is real. -/
theorem hermitian_form_real (n : Nat) (H : Nat → Nat → Cx R)
    (hH : ∀ i j, H i j = (H j i).conj) (v : Nat → Cx R) :
    (∑ i in Finset.range n, (v i).conj * ∑ j in Finset.range n, H i j * v j).im = 0 := by
  apply Cx.conj_eq_self_im
  rw [← Cx.star_def, star_sum]
  have h1 : ∀ i, star ((v i).conj * ∑ j in Finset.range n, H i j * v j)
      = ∑ j in Finset.range n, (v j).conj * (H j i * v i) := by
    intro i
    rw [star_mul', star_sum, Cx.star_def, Cx.conj_conj, Finset.mul_sum]
    apply Finset.sum_congr rfl
    intro j _
    rw [star_mul', Cx.star_def, Cx.star_def, ← hH j i]
    ring
  simp only [h1]
  rw [Finset.sum_comm]
  apply Finset.sum_congr rfl
  intro i _
  rw [Finset.mul_sum]

/-- An eigenvalue of a matrix equal to its conjugate transpose is real. -/
theorem hermitian_eigenvalue_real (n : Nat) (H : Nat → Nat → Cx R)
    (hH : ∀ i j, H i j = (H j i).conj) (lam : Cx R) (v : Nat → Cx R)
    (hv : ∃ i, i < n ∧ v i ≠ 0)
    (he : ∀ i, i < n → ∑ j in Finset.range n, H i j * v j = lam * v i) : lam.im = 0 := by
  have hq := hermitian_form_real n H hH v
  have h1 : ∑ i in Finset.range n, (v i).conj * ∑ j in Finset.range n, H i j * v j
      = lam * Cx.ofReal (∑ i in Finset.range n, (v i).normSq) := by
    have h2 : ∀ i ∈ Finset.range n, (v i).conj * ∑ j in Finset.range n, H i j * v j
        = lam * Cx.ofReal ((v i).normSq) := by
      intro i hi
      rw [he i (Finset.mem_range.1 hi)]
      apply Cx.ext_iff'.2
      constructor
      · simp [Cx.conj, Cx.ofReal, Cx.normSq]
        ring
      · simp [Cx.conj, Cx.ofReal, Cx.normSq]
        ring
    rw [Finset.sum_congr rfl h2, ← Finset.mul_sum]
    congr 1
    apply Cx.ext_iff'.2
    constructor
    · rw [Cx.re_sum]
      rfl
    · have him : ∀ (t : Finset Nat), (∑ i in t, Cx.ofReal ((v i).normSq)).im = 0 := by
        intro t
        classical
        induction t using Finset.induction_on with
        | empty => rfl
        | insert hx ih => rw [Finset.sum_insert hx, Cx.add_im, ih]; simp [Cx.ofReal]
      rw [him]
      rfl
  rw [h1] at hq
  simp only [Cx.mul_im, Cx.ofReal, mul_zero, zero_add] at hq
  obtain ⟨i, hi, hvi⟩ := hv
  have hpos : 0 < ∑ i in Finset.range n, (v i).normSq := by
    apply Finset.sum_pos'
    · intro k _
      exact Cx.normSq_nonneg _
    · refine ⟨i, Finset.mem_range.2 hi, ?_⟩
      rcases lt_or_eq_of_le (Cx.normSq_nonneg (v i)) with h | h
      · exact h
      · exact absurd (Cx.normSq_eq_zero _ h.symm) hvi
  rcases mul_eq_zero.1 hq with h | h
  · exact h
  · exact absurd h (ne_of_gt hpos)

theorem symmetrize_dims (M : Mat (Cx R)) :
    (symmetrize M).rows = M.rows ∧ (symmetrize M).cols = M.cols := by
  unfold symmetrize
  apply forRange_mat_dims
  intro j M1
  apply forRange_mat_dims
  intro i M2
  exact ⟨rfl, rfl⟩

/-- The matrix the eigen-solver of `computeEigen` decomposes (the lower triangle of
`dynMat`, completed by conjugate transposition), for any cartesian matrix `D = _d2cart`
and masses `_mass`.  It equals its conjugate transpose; its entry `(i, j)` inside the
dimensions is `(D(i,j) + conj(D(j,i))) / (2 sqrt(mass[i/3] mass[j/3]))`; when `D` equals
its conjugate transpose it is the mass-weighted matrix; and every eigenvalue of it is
real. -/
theorem solverInput_hermitian (env : Env R) (s : PhononMode R) :
    (∀ i j, (solverInput env s).data i j = ((solverInput env s).data j i).conj)
      ∧ (∀ i j, i < 3 * s._natom → j < 3 * s._natom →
          (solverInput env s).data i j
            = (s._d2cart.get i j + (s._d2cart.get j i).conj).divReal
                (2 * env.sqrt (s._mass.get (i / 3) * s._mass.get (j / 3))))
      ∧ ((∀ i j, i < 3 * s._natom → j < 3 * s._natom →
            s._d2cart.get i j = (s._d2cart.get j i).conj) →
          solverInput env s = buildDynMat env s)
      ∧ (∀ (lam : Cx R) (v : Nat → Cx R), (∃ i, i < 3 * s._natom ∧ v i ≠ 0) →
          (∀ i, i < 3 * s._natom →
            ∑ j in Finset.range (3 * s._natom), (solverInput env s).data i j * v j = lam * v i) →
          lam.im = 0) := by
  refine ⟨solverInput_conj env s, ?_, ?_, ?_⟩
  · intro i j hi hj
    rw [solverInput_get, buildDynMat_get, buildDynMat_get, if_pos ⟨hi, hj⟩, if_pos ⟨hj, hi⟩,
      mul_comm (s._mass.get (j / 3)) (s._mass.get (i / 3))]
    apply Cx.ext_iff'.2
    constructor
    · simp [Cx.scale, Cx.conj, Cx.divReal]
      ring
    · simp [Cx.scale, Cx.conj, Cx.divReal]
      ring
  · intro hD
    apply mat_ext_get
    · exact (symmetrize_dims (buildDynMat env s)).1
    · exact (symmetrize_dims (buildDynMat env s)).2
    · intro i j
      show (solverInput env s).data i j = _
      rw [solverInput_get, buildDynMat_get, buildDynMat_get]
      by_cases h : i < 3 * s._natom ∧ j < 3 * s._natom
      · rw [if_pos h, if_pos ⟨h.2, h.1⟩, hD i j h.1 h.2,
          mul_comm (s._mass.get (j / 3)) (s._mass.get (i / 3))]
        apply Cx.ext_iff'.2
        constructor
        · simp [Cx.scale, Cx.conj]
          ring
        · simp [Cx.scale, Cx.conj]
          ring
      · rw [if_neg h, if_neg (fun hh => h ⟨hh.2, hh.1⟩)]
        apply Cx.ext_iff'.2
        constructor <;> simp [Cx.scale, Cx.conj]
  · intro lam v hv he
    exact hermitian_eigenvalue_real (3 * s._natom) (solverInput env s).data
      (solverInput_conj env s) lam v hv he

end Hermitian

section HermitianExample

/-- C17, refuted on the code: the local `dynMat` of `computeEigen` after the statement
`dynMat = (dynMat + dynMat.adjoint())*0.5`, on the one-atom object `skewState` of unit
mass whose cartesian matrix has the single non-zero entry `D(0, 1) = 4`.  The matrix
handed to the solver has 3 at `(0, 1)` and 2 at `(1, 0)`: it is not equal to its
conjugate transpose, and its entry `(0, 1)` is not the value
`(D(0,1) + conj(D(1,0))) / (2 sqrt(mass[0] mass[0])) = 2` of the Hermitian average. -/
theorem symmetrize_in_place_not_hermitian :
    0 < skewState._mass.get 0
      ∧ (symmetrize (buildDynMat exEnv skewState)).get 0 1 = ⟨3, 0⟩
      ∧ (symmetrize (buildDynMat exEnv skewState)).get 1 0 = ⟨2, 0⟩
      ∧ (symmetrize (buildDynMat exEnv skewState)).get 0 1
          ≠ ((symmetrize (buildDynMat exEnv skewState)).get 1 0).conj
      ∧ (skewState._d2cart.get 0 1 + (skewState._d2cart.get 1 0).conj).divReal
            (2 * exEnv.sqrt (skewState._mass.get (0 / 3) * skewState._mass.get (1 / 3)))
          = ⟨2, 0⟩ := by
  have hs1 : exEnv.sqrt (1 * 1) = 1 := exEnv_sqrt_one
  have hm : skewState._mass.get 0 = 1 := rfl
  have hn : skewState._natom = 1 := rfl
  have hd01 : skewState._d2cart.get 0 1 = ⟨4, 0⟩ := rfl
  have hd10 : skewState._d2cart.get 1 0 = 0 := rfl
  obtain ⟨hr, hc⟩ := buildDynMat_dims exEnv skewState
  have hb01 : (buildDynMat exEnv skewState).get 0 1 = ⟨4, 0⟩ := by
    rw [buildDynMat_get, hn, if_pos (by decide), hd01]
    show (⟨4, 0⟩ : Cx ℚ).scale (1 / exEnv.sqrt (skewState._mass.get 0 * skewState._mass.get 0)) = _
    rw [hm, hs1]
    apply Cx.ext_iff'.2
    constructor <;> simp [Cx.scale]
  have hb10 : (buildDynMat exEnv skewState).get 1 0 = 0 := by
    rw [buildDynMat_get, hn, if_pos (by decide), hd10]
    apply Cx.ext_iff'.2
    constructor <;> simp [Cx.scale]
  have h01 : (symmetrize (buildDynMat exEnv skewState)).get 0 1 = ⟨3, 0⟩ := by
    rw [symmetrize_get _ (hc.trans hr.symm), hr, hn, if_pos (by decide)]
    unfold symVal
    rw [if_pos (by decide), hb01, hb10]
    apply Cx.ext_iff'.2
    constructor
    · simp [Cx.scale, Cx.conj]
      norm_num
    · simp [Cx.scale, Cx.conj]
  have h10 : (symmetrize (buildDynMat exEnv skewState)).get 1 0 = ⟨2, 0⟩ := by
    rw [symmetrize_get _ (hc.trans hr.symm), hr, hn, if_pos (by decide)]
    unfold symVal
    rw [if_neg (by decide), hb01, hb10]
    apply Cx.ext_iff'.2
    constructor
    · simp [Cx.scale, Cx.conj]
      norm_num
    · simp [Cx.scale, Cx.conj]
  refine ⟨by rw [hm]; norm_num, h01, h10, ?_, ?_⟩
  · rw [h01, h10]
    intro h
    have h2 := congrArg Cx.re h
    simp [Cx.conj] at h2
  · rw [hd01, hd10]
    show ((⟨4, 0⟩ : Cx ℚ) + (0 : Cx ℚ).conj).divReal
      (2 * exEnv.sqrt (skewState._mass.get 0 * skewState._mass.get 0)) = _
    rw [hm, hs1]
    apply Cx.ext_iff'.2
    constructor
    · simp [Cx.divReal, Cx.conj]
      norm_num
    · simp [Cx.divReal, Cx.conj]

end HermitianExample

/-! ## Eigen-displacements before the cleanup -/

section Recovery

variable {R : Type} [LinearOrderedField R]

/-- The cleanup of `computeEigen` runs on the matrix the eigen-displacement loop nest
leaves. -/
theorem computeEigenState_eigenDisp (env : Env R) (s : PhononMode R) :
    (s.computeEigenState env)._eigenDisp
      = cleanup (3 * s._natom) (s.eigenDispBeforeCleanup env) := rfl

theorem eigenDispBeforeCleanup_get (env : Env R) (s : PhononMode R) (m c : Nat)
    (hm : m < 3 * s._natom) (hc : c < 3 * s._natom) :
    (s.eigenDispBeforeCleanup env).get m c
      = (normalizedCol env (3 * s._natom) (s.solvedEigenVec env) m c).scale
          (1 / env.sqrt (s._mass.get (c / 3))) := by
  unfold PhononMode.eigenDispBeforeCleanup
  simp only []
  rw [eigenDispLoop_get]
  simp only []
  rw [if_pos ⟨hm, hc⟩]
  rfl

theorem Cx.normSq_divReal (z : Cx R) (r : R) : (z.divReal r).normSq = z.normSq / (r * r) := by
  simp only [Cx.normSq, Cx.divReal]
  by_cases h : r = 0
  · simp [h]
  · field_simp

/-- C18: eigen-displacement recovery.  With `V` the matrix of eigenvector columns the
solver returns and `u_m = V.col(m).normalized()`, the entry `(m, c)` of `_eigenDisp`
before the cleanup is `u_m(c) / sqrt(_mass[c/3])` for every mode `m < 3N` and component
`c < 3N`; when column `m` is not zero and `sqrt` is exact at its squared norm, `u_m` is
the column over its norm and has unit length; and when `sqrt(_mass[c/3])` is not zero,
the entry times `sqrt(_mass[c/3])` is `u_m(c)`. -/
theorem computeEigen_eigenDisp_recovery (env : Env R) (s : PhononMode R) (m : Nat)
    (hm : m < 3 * s._natom)
    (hz : 0 < colSquaredNorm (3 * s._natom) (s.solvedEigenVec env) m)
    (hs : env.sqrt (colSquaredNorm (3 * s._natom) (s.solvedEigenVec env) m)
        * env.sqrt (colSquaredNorm (3 * s._natom) (s.solvedEigenVec env) m)
      = colSquaredNorm (3 * s._natom) (s.solvedEigenVec env) m) :
    (s.computeEigenState env)._eigenVec = s.solvedEigenVec env
      ∧ (s.computeEigenState env)._eigenDisp
          = cleanup (3 * s._natom) (s.eigenDispBeforeCleanup env)
      ∧ (∀ c, c < 3 * s._natom →
          (s.eigenDispBeforeCleanup env).get m c
            = (normalizedCol env (3 * s._natom) (s.solvedEigenVec env) m c).divReal
                (env.sqrt (s._mass.get (c / 3))))
      ∧ (∀ c, normalizedCol env (3 * s._natom) (s.solvedEigenVec env) m c
          = ((s.solvedEigenVec env).get c m).divReal
              (env.sqrt (colSquaredNorm (3 * s._natom) (s.solvedEigenVec env) m)))
      ∧ ∑ c in Finset.range (3 * s._natom),
          (normalizedCol env (3 * s._natom) (s.solvedEigenVec env) m c).normSq = 1
      ∧ (∀ c, c < 3 * s._natom → env.sqrt (s._mass.get (c / 3)) ≠ 0 →
          ((s.eigenDispBeforeCleanup env).get m c).scale (env.sqrt (s._mass.get (c / 3)))
            = normalizedCol env (3 * s._natom) (s.solvedEigenVec env) m c) := by
  have hcol : ∀ c, normalizedCol env (3 * s._natom) (s.solvedEigenVec env) m c
      = ((s.solvedEigenVec env).get c m).divReal
          (env.sqrt (colSquaredNorm (3 * s._natom) (s.solvedEigenVec env) m)) := by
    intro c
    unfold normalizedCol
    simp only []
    rw [if_pos hz]
  refine ⟨rfl, rfl, ?_, hcol, ?_, ?_⟩
  · intro c hc
    rw [eigenDispBeforeCleanup_get env s m c hm hc]
    apply Cx.ext_iff'.2
    constructor <;> simp [Cx.scale, Cx.divReal, div_eq_mul_inv]
  · simp only [hcol, Cx.normSq_divReal, hs]
    rw [← Finset.sum_div, div_eq_one_iff_eq (ne_of_gt hz), colSquaredNorm_eq]
  · intro c hc hne
    rw [eigenDispBeforeCleanup_get env s m c hm hc]
    apply Cx.ext_iff'.2
    constructor
    · simp only [Cx.scale]
      field_simp
    · simp only [Cx.scale]
      field_simp

end Recovery

section RecoveryExample

theorem exState_colSquaredNorm (m : Nat) (hm : m < 3) :
    colSquaredNorm (3 * exState._natom) (exState.solvedEigenVec exEnv) m = 1 := by
  rw [colSquaredNorm_eq]
  have hV : ∀ i k, (exState.solvedEigenVec exEnv).get i k = if i = k then 1 else 0 :=
    fun _ _ => rfl
  have h3 : 3 * exState._natom = 3 := rfl
  simp only [hV, h3, Finset.sum_range_succ, Finset.sum_range_zero, zero_add]
  interval_cases m <;> simp [Cx.normSq]

/-- Witness of C18: mode 0 of the one-atom object `exState`. -/
theorem computeEigen_eigenDisp_recovery_witness :
    (∀ c, c < 3 * exState._natom →
        (exState.eigenDispBeforeCleanup exEnv).get 0 c
          = (normalizedCol exEnv (3 * exState._natom) (exState.solvedEigenVec exEnv) 0 c).divReal
              (exEnv.sqrt (exState._mass.get (c / 3))))
      ∧ ∑ c in Finset.range (3 * exState._natom),
          (normalizedCol exEnv (3 * exState._natom) (exState.solvedEigenVec exEnv) 0 c).normSq
            = 1 := by
  have h := computeEigen_eigenDisp_recovery exEnv exState 0 (by decide)
    (by rw [exState_colSquaredNorm 0 (by decide)]
        norm_num)
    (by rw [exState_colSquaredNorm 0 (by decide)]
        have e : exEnv.sqrt 1 = 1 := by
          have := exEnv_sqrt_one
          rwa [one_mul] at this
        rw [e]
        norm_num)
  exact ⟨h.2.2.1, h.2.2.2.2.1⟩

end RecoveryExample

/-! ## What `lin_res` leaves in the object -/

section LinResState

variable {R : Type} [LinearOrderedField R]

/-- The Born-charge loop of `lin_res` writes `_zeff` only: entry `i < n` is the tensor
the dataset returns for atom `i`. -/
theorem zeffLoop_spec (ddb : Ddb R) (n : Nat) (s t : PhononMode R)
    (h : forRangeE n (zeffStep ddb) s = .ok t) :
    t = { s with _zeff := t._zeff } ∧ t._zeff.size = s._zeff.size
      ∧ ∀ i, i < n → ddb.getZeff i = .ok (t._zeff.get i) := by
  induction n generalizing t with
  | zero =>
    simp only [forRangeE_zero, Except.ok.injEq] at h
    subst h
    exact ⟨rfl, rfl, fun i hi => absurd hi (Nat.not_lt_zero i)⟩
  | succ k ih =>
    rw [forRangeE_succ] at h
    cases hk : forRangeE k (zeffStep ddb) s with
    | error e =>
      rw [hk] at h
      cases h
    | ok u =>
      rw [hk] at h
      obtain ⟨hu, hsz, hval⟩ := ih u hk
      simp only [zeffStep] at h
      split at h
      · cases h
      · rename_i z hz
        simp only [Except.ok.injEq] at h
        subst h
        refine ⟨?_, hsz, ?_⟩
        · conv_lhs => rw [hu]
        · intro i hi
          by_cases hik : i = k
          · subst hik
            rw [hz]
            simp [vec_get_set]
          · have hlt : i < k := by omega
            rw [hval i hlt]
            simp [vec_get_set, hik]

/-- The mass loop of `lin_res` writes `_mass` only: entry `i < n` is the table mass of
the nuclear charge of atom `i`. -/
theorem linMassLoop_spec (env : Env R) (ddb : Ddb R) (n : Nat) (s t : PhononMode R)
    (h : forRangeE n (linMassStep env ddb) s = .ok t) :
    t = { s with _mass := t._mass } ∧ t._mass.size = s._mass.size
      ∧ ∀ i, i < n → ∃ z, znuclOf ddb i = .ok z ∧ t._mass.get i = env.mass z := by
  induction n generalizing t with
  | zero =>
    simp only [forRangeE_zero, Except.ok.injEq] at h
    subst h
    exact ⟨rfl, rfl, fun i hi => absurd hi (Nat.not_lt_zero i)⟩
  | succ k ih =>
    rw [forRangeE_succ] at h
    cases hk : forRangeE k (linMassStep env ddb) s with
    | error e =>
      rw [hk] at h
      cases h
    | ok u =>
      rw [hk] at h
      obtain ⟨hu, hsz, hval⟩ := ih u hk
      simp only [linMassStep] at h
      split at h
      · cases h
      · rename_i z hz
        simp only [Except.ok.injEq] at h
        subst h
        refine ⟨?_, hsz, ?_⟩
        · conv_lhs => rw [hu]
        · intro i hi
          by_cases hik : i = k
          · subst hik
            exact ⟨z, hz, by simp [vec_get_set]⟩
          · have hlt : i < k := by omega
            obtain ⟨z', hz', hm⟩ := hval i hlt
            exact ⟨z', hz', by simp [vec_get_set, hik, hm]⟩

/-- The object `lin_res` holds when the gamma-point solve is done. -/
theorem lin_res_solve_self (env : Env R) (s : PhononMode R) (ddb : Ddb R) (g : GammaData R)
    (h : s.lin_res_solve env ddb = .ok g) :
    g.self = { s with _natom := ddb.natom, _zeff := g.self._zeff,
                      _rprim := fun r c => ddb.rprim (3 * r + c) }
      ∧ g.self._zeff.size = ddb.natom
      ∧ ∀ i, i < ddb.natom → ddb.getZeff i = .ok (g.self._zeff.get i) := by
  simp only [PhononMode.lin_res_solve] at h
  split at h
  · cases h
  · rename_i s3 hz
    obtain ⟨h3, hsz, hval⟩ := zeffLoop_spec ddb _ _ _ hz
    split at h
    · cases h
    · split at h
      · cases h
      · simp only [Except.ok.injEq] at h
        subst h
        refine ⟨?_, hsz, hval⟩
        simp only []
        conv_lhs => rw [h3]

/-- The object after a successful `lin_res`: the atom count, the Born charges, `_rprim`
and the masses are the dataset's; every other member is as it was. -/
theorem lin_res_state (env : Env R) (s s' : PhononMode R) (E_vec : Vec3 R) (E_Amp : R)
    (ddb : Ddb R) (v : Vec R) (h : s.lin_res env E_vec E_Amp ddb = .ok (v, s')) :
    (s'._d2cart = s._d2cart ∧ s'._asr = s._asr ∧ s'._hasASR = s._hasASR
        ∧ s'._eigenVec = s._eigenVec ∧ s'._eigenDisp = s._eigenDisp
        ∧ s'._frequencies = s._frequencies ∧ s'._gprim = s._gprim ∧ s'._qpt = s._qpt)
      ∧ s'._natom = ddb.natom
      ∧ s'._rprim = (fun r c => ddb.rprim (3 * r + c))
      ∧ s'._zeff.size = ddb.natom ∧ s'._mass.size = ddb.natom
      ∧ (∀ i, i < ddb.natom → ddb.getZeff i = .ok (s'._zeff.get i))
      ∧ (∀ i, i < ddb.natom → ∃ z, znuclOf ddb i = .ok z ∧ s'._mass.get i = env.mass z) := by
  simp only [PhononMode.lin_res] at h
  split at h
  · cases h
  · rename_i g hg
    obtain ⟨hself, hzs, hzv⟩ := lin_res_solve_self env s ddb g hg
    split at h
    · cases h
    · rename_i f hf
      simp only [PhononMode.lin_res_field] at h
      split at h
      · cases h
      · rename_i s6 hm
        simp only [Except.ok.injEq, Prod.mk.injEq] at h
        obtain ⟨-, h6⟩ := h
        obtain ⟨h5, hms, hmv⟩ := linMassLoop_spec env ddb _ _ _ hm
        have hn : g.self._natom = ddb.natom := by rw [hself]
        rw [hn] at hmv
        rw [← h6]
        have hz6 : s6._zeff = g.self._zeff := by rw [h5]
        refine ⟨⟨?_, ?_, ?_, ?_, ?_, ?_, ?_, ?_⟩, ?_, ?_, ?_, ?_, ?_, hmv⟩
        · exact (show s6._d2cart = g.self._d2cart by rw [h5]).trans (show g.self._d2cart = _ by rw [hself])
        · exact (show s6._asr = g.self._asr by rw [h5]).trans (show g.self._asr = _ by rw [hself])
        · exact (show s6._hasASR = g.self._hasASR by rw [h5]).trans (show g.self._hasASR = _ by rw [hself])
        · exact (show s6._eigenVec = g.self._eigenVec by rw [h5]).trans (show g.self._eigenVec = _ by rw [hself])
        · exact (show s6._eigenDisp = g.self._eigenDisp by rw [h5]).trans (show g.self._eigenDisp = _ by rw [hself])
        · exact (show s6._frequencies = g.self._frequencies by rw [h5]).trans (show g.self._frequencies = _ by rw [hself])
        · exact (show s6._gprim = g.self._gprim by rw [h5]).trans (show g.self._gprim = _ by rw [hself])
        · exact (show s6._qpt = g.self._qpt by rw [h5]).trans (show g.self._qpt = _ by rw [hself])
        · exact (show s6._natom = g.self._natom by rw [h5]).trans hn
        · exact (show s6._rprim = g.self._rprim by rw [h5]).trans (show g.self._rprim = _ by rw [hself])
        · rw [hz6]
          exact hzs
        · rw [hms]
          exact hn
        · rw [hz6]
          exact hzv

/-- What a successful gamma-point solve of `lin_res` did: the correction and the
corrected assembly on a local object for the dataset's atom count succeeded, and the
two buffers hold the copies `computeEigen` makes. -/
theorem lin_res_solve_cases (env : Env R) (s : PhononMode R) (ddb : Ddb R) (g : GammaData R)
    (h : s.lin_res_solve env ddb = .ok g) :
    ∃ c t, (PhononMode.new ddb.natom : PhononMode R).computeASR env ddb = .ok c
      ∧ c.computeForceCstAt env ⟨0, 0, 0⟩ ddb = .ok t
      ∧ g.freq_gamma.size = 3 * ddb.natom
      ∧ g.freq_gamma.data = copyFreq (t.computeEigenState env) (fun _ => 0)
      ∧ g.disp_gamma.size = u32 (3 * ddb.natom * 3 * ddb.natom)
      ∧ g.disp_gamma.data = copyMode (t.computeEigenState env) (fun _ => 0) := by
  simp only [PhononMode.lin_res_solve] at h
  split at h
  · cases h
  · rename_i s3 hz
    have hn : s3._natom = ddb.natom := zeffLoop_natom ddb _ _ _ hz
    rw [hn] at h
    split at h
    · cases h
    · rename_i c hc
      split at h
      · cases h
      · rename_i t ht
        simp only [Except.ok.injEq] at h
        subst h
        exact ⟨c, t, hc, ht, rfl, rfl, rfl, rfl⟩

/-- With one atom, the gamma-point matrix assembled after `computeASR` vanishes. -/
theorem corrected_one_atom (env : Env R) (s c t : PhononMode R) (ddb : Ddb R)
    (h1 : s.computeASR env ddb = .ok c) (h2 : c.computeForceCstAt env ⟨0, 0, 0⟩ ddb = .ok t)
    (hN : ddb.natom = 1) :
    t._natom = 1 ∧ ∀ r k, r < 3 → k < 3 → t._d2cart.get r k = 0 := by
  obtain ⟨t', recs, ht', -, hn, -, hD⟩ := computeASR_then_assemble env s c ddb h1
  have hts : t' = t := by
    rw [h2] at ht'
    exact (Except.ok.inj ht').symm
  subst hts
  refine ⟨hn.trans hN, ?_⟩
  intro r k hr hk
  have h3 := corrected_row_sum ddb.natom
    (cartesianEntry (fun i j => ddb.gprim (3 * i + j)) recs)
    (fun r c => t'._d2cart.get r c) hD r k (by rw [hN]; omega) hk
  rw [hN, Finset.sum_range_one] at h3
  have e : 3 * 0 + k = k := by omega
  simp only [e] at h3
  exact h3

/-- The mass loop of `lin_res` succeeds when every atom has a nuclear charge in the
dataset. -/
theorem linMassLoop_ok (env : Env R) (ddb : Ddb R) (n : Nat) (s : PhononMode R)
    (h : ∀ i, i < n → ∃ z, znuclOf ddb i = .ok z) :
    ∃ t, forRangeE n (linMassStep env ddb) s = .ok t := by
  induction n with
  | zero => exact ⟨s, rfl⟩
  | succ k ih =>
    obtain ⟨u, hu⟩ := ih (fun i hi => h i (by omega))
    obtain ⟨z, hz⟩ := h k (by omega)
    rw [forRangeE_succ, hu]
    simp only [linMassStep, hz]
    exact ⟨_, rfl⟩

/-- A call of `lin_res` whose solve, conversion and mass lookups succeed returns. -/
theorem lin_res_ok_of (env : Env R) (s : PhononMode R) (E_vec : Vec3 R) (E_Amp : R)
    (ddb : Ddb R) (g : GammaData R) (f : Vec R) (h1 : s.lin_res_solve env ddb = .ok g)
    (h2 : convertFreq env g.freq_gamma = .ok f)
    (h3 : ∀ i, i < ddb.natom → ∃ z, znuclOf ddb i = .ok z) :
    ∃ v s', s.lin_res env E_vec E_Amp ddb = .ok (v, s') := by
  rw [lin_res_eq_field env s E_vec E_Amp ddb g f h1 h2]
  obtain ⟨hself, -, -⟩ := lin_res_solve_self env s ddb g h1
  have hn : g.self._natom = ddb.natom := by rw [hself]
  obtain ⟨t, ht⟩ := linMassLoop_ok env ddb g.self._natom
    { g.self with _mass := g.self._mass.resizeZero g.self._natom } (by rw [hn]; exact h3)
  simp only [PhononMode.lin_res_field]
  rw [ht]
  exact ⟨_, _, rfl⟩

/-- C15 (amended): the object after a successful `lin_res` on a dataset with the
object's atom count.  The atom count, the cartesian matrix, the ASR data and flag, the
eigenvectors, eigen-displacements, frequencies, `_gprim` and the q-point are as before
the call; `_rprim`, the Born charges and the masses are overwritten with the dataset's,
the mass of atom `i` being the table mass of its nuclear charge (no `amu_emass` factor,
whatever the dataset's normalisation flag). -/
theorem lin_res_side_effects (env : Env R) (s s' : PhononMode R) (E_vec : Vec3 R) (E_Amp : R)
    (ddb : Ddb R) (v : Vec R) (h : s.lin_res env E_vec E_Amp ddb = .ok (v, s'))
    (hN : ddb.natom = s._natom) :
    (s'._natom = s._natom ∧ s'._d2cart = s._d2cart ∧ s'._asr = s._asr
        ∧ s'._hasASR = s._hasASR ∧ s'._eigenVec = s._eigenVec ∧ s'._eigenDisp = s._eigenDisp
        ∧ s'._frequencies = s._frequencies ∧ s'._gprim = s._gprim ∧ s'._qpt = s._qpt)
      ∧ s'._rprim = (fun r c => ddb.rprim (3 * r + c))
      ∧ s'._zeff.size = s._natom ∧ s'._mass.size = s._natom
      ∧ (∀ i, i < s._natom → ddb.getZeff i = .ok (s'._zeff.get i))
      ∧ (∀ i, i < s._natom → ∃ z, znuclOf ddb i = .ok z ∧ s'._mass.get i = env.mass z) := by
  obtain ⟨⟨h1, h2, h3, h4, h5, h6, h7, h8⟩, hn, hr, hzs, hms, hzv, hmv⟩ :=
    lin_res_state env s s' E_vec E_Amp ddb v h
  rw [hN] at hn hzs hms hzv hmv
  exact ⟨⟨hn, h1, h2, h3, h4, h5, h6, h7, h8⟩, hr, hzs, hms, hzv, hmv⟩

end LinResState

section SideEffectExample

theorem oneAtom_solverInput (t : PhononMode ℚ) (hn : t._natom = 1) (i : Nat) (hi : i < 3) :
    ((solverInput exEnv t).data i i).re
      = (t._d2cart.get i i).re * (1 / exEnv.sqrt (t._mass.get 0 * t._mass.get 0)) := by
  have e : i / 3 = 0 := by omega
  rw [solverInput_get, buildDynMat_get, hn, if_pos ⟨by omega, by omega⟩, e]
  simp [Cx.scale, Cx.conj]
  ring

theorem oneAtom_frequency (t : PhononMode ℚ) (hn : t._natom = 1) (i : Nat) (hi : i < 3) :
    (t.computeEigenState exEnv)._frequencies.get i
      = signedSqrt exEnv
          ((t._d2cart.get i i).re * (1 / exEnv.sqrt (t._mass.get 0 * t._mass.get 0))) := by
  have h := computeEigen_frequencies_get exEnv t none none i (by rw [hn]; omega)
  have he : t.eigenvalue exEnv i = ((solverInput exEnv t).data i i).re := rfl
  rw [he, oneAtom_solverInput t hn i hi] at h
  exact h

theorem ex_sqrt_sq (q : ℚ) (hq : 0 ≤ q) : exEnv.sqrt (q * q) = q := by
  show Rat.sqrt (q * q) = q
  rw [Rat.sqrt_eq, abs_of_nonneg hq]

/-- The call `lin_res((0,0,1), 1, exDdb)` on `heavyState` returns. -/
theorem heavy_lin_res :
    ∃ v s', heavyState.lin_res exEnv ⟨0, 0, 1⟩ 1 exDdb = .ok (v, s') := by
  have hsolve : ∃ g, heavyState.lin_res_solve exEnv exDdb = .ok g := ⟨_, rfl⟩
  obtain ⟨g, hg⟩ := hsolve
  obtain ⟨c, t, hc, ht, hsz, hfd, -, -⟩ := lin_res_solve_cases exEnv heavyState exDdb g hg
  obtain ⟨hn, hD⟩ := corrected_one_atom exEnv _ c t exDdb hc ht rfl
  have hfreq : ∀ m, g.freq_gamma.get m = 0 := by
    intro m
    show g.freq_gamma.data m = 0
    rw [hfd]
    unfold copyFreq
    have hn' : (t.computeEigenState exEnv)._natom = 1 := hn
    rw [hn']
    by_cases hm : m < 3 * 1
    · rw [if_pos hm, oneAtom_frequency t hn m (by omega), hD m m (by omega) (by omega)]
      have e : (0 : Cx ℚ).re * (1 / exEnv.sqrt (t._mass.get 0 * t._mass.get 0)) = 0 := by
        simp
      rw [e, signedSqrt_nonneg exEnv 0 (le_refl 0), exEnv_sqrt_zero]
    · rw [if_neg hm]
  have hconv := (thzLoop_spec exEnv g.freq_gamma g.freq_gamma.size).2 (by
    intro m _
    rw [hfreq m]
    show ¬ (1 : ℚ) * 0 < -1
    norm_num)
  exact lin_res_ok_of exEnv heavyState ⟨0, 0, 1⟩ 1 exDdb g _ hg hconv (by
    intro i hi
    have hi' : i < 1 := hi
    have h0 : i = 0 := by omega
    subst h0
    exact ⟨1, rfl⟩)

/-- C15 (counterexample): the one-atom object `heavyState` (mass 4, matrix four times
the identity) and the one-atom dataset `exDdb`, whose atom has table mass 1.
`computeEigen` on the object gives the frequency 1; `lin_res` succeeds and leaves the
mass 1 in the object, not 4; `computeEigen` on the object after the call gives the
frequency 2. -/
theorem lin_res_changes_masses :
    ∃ v s', heavyState.lin_res exEnv ⟨0, 0, 1⟩ 1 exDdb = .ok (v, s')
      ∧ heavyState._mass.get 0 = 4 ∧ s'._mass.get 0 = 1 ∧ s' ≠ heavyState
      ∧ (heavyState.computeEigen exEnv none none).1._frequencies.get 0 = 1
      ∧ (s'.computeEigen exEnv none none).1._frequencies.get 0 = 2 := by
  obtain ⟨v, s', h⟩ := heavy_lin_res
  obtain ⟨⟨hd, -⟩, hn, -, -, -, -, hmv⟩ :=
    lin_res_state exEnv heavyState s' ⟨0, 0, 1⟩ 1 exDdb v h
  have hn' : s'._natom = 1 := hn
  obtain ⟨z, hz, hm⟩ := hmv 0 (by decide)
  have hm1 : s'._mass.get 0 = 1 := by
    rw [hm]
    rfl
  have hm4 : heavyState._mass.get 0 = 4 := rfl
  have hd0 : heavyState._d2cart.get 0 0 = ⟨4, 0⟩ := rfl
  refine ⟨v, s', h, hm4, hm1, ?_, ?_, ?_⟩
  · intro he
    rw [he, hm4] at hm1
    norm_num at hm1
  · show (heavyState.computeEigenState exEnv)._frequencies.get 0 = 1
    rw [oneAtom_frequency heavyState rfl 0 (by decide), hd0, hm4, ex_sqrt_sq 4 (by norm_num)]
    have e : (⟨4, 0⟩ : Cx ℚ).re * (1 / 4) = 1 * 1 := by
      show (4 : ℚ) * (1 / 4) = 1 * 1
      norm_num
    rw [e, signedSqrt_nonneg exEnv _ (by norm_num), ex_sqrt_sq 1 (by norm_num)]
  · show (s'.computeEigenState exEnv)._frequencies.get 0 = 2
    rw [oneAtom_frequency s' hn' 0 (by decide), hd, hd0, hm1, ex_sqrt_sq 1 (by norm_num)]
    have e : (⟨4, 0⟩ : Cx ℚ).re * (1 / 1) = 2 * 2 := by
      show (4 : ℚ) * (1 / 1) = 2 * 2
      norm_num
    rw [e, signedSqrt_nonneg exEnv _ (by norm_num), ex_sqrt_sq 2 (by norm_num)]

/-- Witness of C15 (amended): `lin_res` on `heavyState` with the one-atom dataset
`exDdb` leaves the atom count and the cartesian matrix as they were. -/
theorem lin_res_side_effects_witness :
    ∃ v s', heavyState.lin_res exEnv ⟨0, 0, 1⟩ 1 exDdb = .ok (v, s')
      ∧ exDdb.natom = heavyState._natom
      ∧ s'._natom = heavyState._natom ∧ s'._d2cart = heavyState._d2cart := by
  obtain ⟨v, s', h⟩ := heavy_lin_res
  have h2 := lin_res_side_effects exEnv heavyState s' ⟨0, 0, 1⟩ 1 exDdb v h rfl
  exact ⟨v, s', h, rfl, h2.1.1, h2.1.2.1⟩

end SideEffectExample

section DimensionExample

/-- C16 (evaluation at the failing input): a default-constructed object (atom count 0,
matrix 0 x 0, no mass) on which `lin_res` is called with the two-atom dataset
`stableDdb`.  The call succeeds and leaves the atom count 2 and a mass vector of
length 2, with the cartesian matrix still 0 x 0, not 6 x 6. -/
theorem lin_res_breaks_dimensions :
    (PhononMode.new0 : PhononMode ℚ)._natom = 0
      ∧ (PhononMode.new0 : PhononMode ℚ)._d2cart.rows = 3 * 0
      ∧ (PhononMode.new0 : PhononMode ℚ)._d2cart.cols = 3 * 0
      ∧ (PhononMode.new0 : PhononMode ℚ)._mass.size = 0
      ∧ ∃ v s', (PhononMode.new0 : PhononMode ℚ).lin_res stableEnv ⟨0, 1, 0⟩ 1 stableDdb
            = .ok (v, s')
          ∧ s'._natom = 2 ∧ s'._mass.size = 2
          ∧ s'._d2cart.rows = 0 ∧ s'._d2cart.cols = 0
          ∧ s'._d2cart.rows ≠ 3 * s'._natom := by
  refine ⟨rfl, rfl, rfl, rfl, ?_⟩
  obtain ⟨v, s', h⟩ := lin_res_ok_of stableEnv PhononMode.new0 ⟨0, 1, 0⟩ 1 stableDdb
    stableSolve stableFreq stableSolve_ok stableFreq_ok (by
      intro i hi
      have hi' : i < 2 := hi
      interval_cases i
      · exact ⟨1, rfl⟩
      · exact ⟨2, rfl⟩)
  obtain ⟨⟨hd, -⟩, hn, -, -, hms, -, -⟩ :=
    lin_res_state stableEnv PhononMode.new0 s' ⟨0, 1, 0⟩ 1 stableDdb v h
  have hn' : s'._natom = 2 := hn
  refine ⟨v, s', h, hn', hms, by rw [hd]; rfl, by rw [hd]; rfl, ?_⟩
  rw [hd, hn']
  decide

end DimensionExample

/-! ## The modes summed in the response tensor of `lin_res` -/

section AcousticModes

variable {R : Type} [LinearOrderedField R]

theorem forRangeO_zero {σ : Type} (body : Nat → σ → Option σ) (s : σ) :
    forRangeO 0 body s = some s := rfl

theorem forRangeO_succ {σ : Type} (n : Nat) (body : Nat → σ → Option σ) (s : σ) :
    forRangeO (n + 1) body s =
      (match forRangeO n body s with
       | none => none
       | some t => body n t) := by
  simp only [forRangeO, List.range_succ, List.foldlM_append]
  cases h : List.foldlM (fun acc i => body i acc) s (List.range n) with
  | none => rfl
  | some t =>
    simp only [List.foldlM, bind, Option.bind, pure]
    cases body n t <;> rfl

/-- A watched loop none of whose steps leaves the numbers is the plain loop. -/
theorem forRangeO_some {σ : Type} (n : Nat) (body : Nat → σ → Option σ) (body' : Nat → σ → σ)
    (h : ∀ i, i < n → ∀ s, body i s = some (body' i s)) (s : σ) :
    forRangeO n body s = some (forRange n body' s) := by
  induction n with
  | zero => rfl
  | succ k ih =>
    rw [forRangeO_succ, ih (fun i hi => h i (by omega)), forRange_succ]
    exact h k (by omega) _

/-- A watched loop with a step that always leaves the numbers ends outside them. -/
theorem forRangeO_none {σ : Type} (n : Nat) (body : Nat → σ → Option σ) (k : Nat) (hk : k < n)
    (h : ∀ s, body k s = none) (s : σ) : forRangeO n body s = none := by
  induction n with
  | zero => omega
  | succ j ih =>
    rw [forRangeO_succ]
    by_cases hkj : k = j
    · subst hkj
      cases forRangeO k body s with
      | none => rfl
      | some t => exact h t
    · rw [ih (by omega)]

/-- When no frequency is zero, the watched step 2 of `lin_res` is step 2. -/
theorem tauLoopChecked_some (env : Env R) (natom : Nat) (pol : Vec R) (disp_gamma : Vec (Cx R))
    (freq_gamma : Vec R) (tau : Vec R)
    (h : ∀ m, m < freq_gamma.size → freq_gamma.get m ≠ 0) :
    tauLoopChecked env natom pol disp_gamma freq_gamma tau
      = some (tauLoop env natom pol disp_gamma freq_gamma tau) := by
  unfold tauLoopChecked tauLoop
  apply forRangeO_some
  intro m hm t
  apply forRangeO_some
  intro i _ t'
  apply forRangeO_some
  intro a _ t''
  unfold tauStepChecked
  have h5 : (10 : R) ^ 5 ≠ 0 := pow_ne_zero 5 (by norm_num)
  rw [if_neg (mul_ne_zero (mul_ne_zero h5 (h m hm)) (h m hm))]

/-- When a frequency is zero (and there is an atom), the watched step 2 of `lin_res`
ends outside the numbers: the frequency of every mode of the vector is a divisor. -/
theorem tauLoopChecked_none (env : Env R) (natom : Nat) (pol : Vec R) (disp_gamma : Vec (Cx R))
    (freq_gamma : Vec R) (tau : Vec R) (hn : 0 < natom) (m : Nat) (hm : m < freq_gamma.size)
    (h : freq_gamma.get m = 0) :
    tauLoopChecked env natom pol disp_gamma freq_gamma tau = none := by
  unfold tauLoopChecked
  apply forRangeO_none _ _ m hm
  intro t
  apply forRangeO_none _ _ 0 hn
  intro t'
  apply forRangeO_none _ _ 0 (by omega)
  intro t''
  unfold tauStepChecked
  rw [if_pos (by rw [h]; ring)]

/-- In exact arithmetic (a quotient by zero being zero) the response tensor computed by
`lin_res` is the sum over the modes from the fourth on: the terms of the three lowest
modes have the polarity 0 as a factor. -/
theorem linResTau_get (env : Env R) (natom : Nat) (zeff : Vec (Nat → R)) (g : GammaData R)
    (k : Nat) (hk : k < 9 * natom) :
    (linResTau env natom zeff g).get k
      = ∑ m in Finset.Ico 3 g.freq_gamma.size,
          tauTerm env natom
            (polLoop env natom zeff (scaleDisp env g.disp_gamma) g.freq_gamma.size
              (Vec.fill (3 * g.freq_gamma.size) 0))
            (scaleDisp env g.disp_gamma) g.freq_gamma m (k / 9) (k % 9 / 3) (k % 3) := by
  unfold linResTau
  simp only []
  rw [tauLoop_get, if_pos hk, vec_get_fill, zero_add]
  have hlow : ∀ m, m < 3 →
      tauTerm env natom
        (polLoop env natom zeff (scaleDisp env g.disp_gamma) g.freq_gamma.size
          (Vec.fill (3 * g.freq_gamma.size) 0))
        (scaleDisp env g.disp_gamma) g.freq_gamma m (k / 9) (k % 9 / 3) (k % 3) = 0 := by
    intro m hm
    unfold tauTerm
    rw [polLoop_get, if_neg (by omega), vec_get_fill]
    simp
  by_cases hs : 3 ≤ g.freq_gamma.size
  · rw [Finset.range_eq_Ico, ← Finset.sum_Ico_consecutive _ (Nat.zero_le 3) hs,
      Finset.sum_eq_zero (fun m hm => hlow m (Finset.mem_Ico.1 hm).2), zero_add]
  · rw [Finset.Ico_eq_empty (by omega), Finset.sum_empty]
    apply Finset.sum_eq_zero
    intro m hm
    exact hlow m (by have := Finset.mem_range.1 hm; omega)

end AcousticModes

section AcousticExample

/-- The gamma frequencies of the one-atom dataset `exDdb` are zero. -/
theorem ex_solve_freq (s : PhononMode ℚ) (g : GammaData ℚ)
    (hg : s.lin_res_solve exEnv exDdb = .ok g) :
    g.freq_gamma.size = 3 ∧ ∀ m, g.freq_gamma.get m = 0 := by
  obtain ⟨c, t, hc, ht, hsz, hfd, -, -⟩ := lin_res_solve_cases exEnv s exDdb g hg
  obtain ⟨hn, hD⟩ := corrected_one_atom exEnv _ c t exDdb hc ht rfl
  refine ⟨hsz, ?_⟩
  intro m
  show g.freq_gamma.data m = 0
  rw [hfd]
  unfold copyFreq
  have hn' : (t.computeEigenState exEnv)._natom = 1 := hn
  rw [hn']
  by_cases hm : m < 3 * 1
  · rw [if_pos hm, oneAtom_frequency t hn m (by omega), hD m m (by omega) (by omega)]
    have e : (0 : Cx ℚ).re * (1 / exEnv.sqrt (t._mass.get 0 * t._mass.get 0)) = 0 := by
      simp
    rw [e, signedSqrt_nonneg exEnv 0 (le_refl 0), exEnv_sqrt_zero]
  · rw [if_neg hm]

theorem ex_convertFreq (s : PhononMode ℚ) (g : GammaData ℚ)
    (hg : s.lin_res_solve exEnv exDdb = .ok g) :
    convertFreq exEnv g.freq_gamma = .ok exFreq := by
  obtain ⟨hsz, hfreq⟩ := ex_solve_freq s g hg
  have hconv := (thzLoop_spec exEnv g.freq_gamma g.freq_gamma.size).2 (by
    intro m _
    rw [hfreq m]
    show ¬ (1 : ℚ) * 0 < -1
    norm_num)
  unfold convertFreq
  rw [hconv]
  congr 1
  cases hgf : g.freq_gamma with
  | mk n d =>
    rw [hgf] at hsz hfreq
    have hn : n = 3 := hsz
    subst hn
    simp only [exFreq, Vec.fill, Vec.mk.injEq, true_and]
    funext m
    have hd : d m = 0 := hfreq m
    show (if m < 3 then exEnv.Ha2THz * d m else d m) = 0
    rw [hd]
    simp

/-- C19 (evaluation at the failing input): `lin_res((0,0,1), 1, exDdb)` on a
default-constructed object, `exDdb` being a one-atom dataset.  The solve and the
conversion succeed and the call returns; the three gamma frequencies are exactly 0;
the sum over the modes `m >= 3` that the claim gives for `tau` is empty, hence 0, for
every entry; the loop of the code has the three modes `m = 0, 1, 2` in its range and
divides by `1e05 * f_m * f_m = 0`, so that `tau` is not made of numbers. -/
theorem lin_res_divides_by_acoustic_frequency :
    ∃ g, (PhononMode.new0 : PhononMode ℚ).lin_res_solve exEnv exDdb = .ok g
      ∧ convertFreq exEnv g.freq_gamma = .ok exFreq
      ∧ (∃ v s', (PhononMode.new0 : PhononMode ℚ).lin_res exEnv ⟨0, 0, 1⟩ 1 exDdb = .ok (v, s'))
      ∧ exFreq.size = 3 ∧ (∀ m, m < 3 → exFreq.get m = 0)
      ∧ (∀ k, ∑ m in Finset.Ico 3 exFreq.size,
            tauTerm exEnv exDdb.natom
              (polLoop exEnv exDdb.natom g.self._zeff (scaleDisp exEnv g.disp_gamma) exFreq.size
                (Vec.fill (3 * exFreq.size) 0))
              (scaleDisp exEnv g.disp_gamma) exFreq m (k / 9) (k % 9 / 3) (k % 3) = 0)
      ∧ linResTauChecked exEnv exDdb.natom g.self._zeff { g with freq_gamma := exFreq }
          = none := by
  have hsolve : ∃ g, (PhononMode.new0 : PhononMode ℚ).lin_res_solve exEnv exDdb = .ok g :=
    ⟨_, rfl⟩
  obtain ⟨g, hg⟩ := hsolve
  have hconv := ex_convertFreq PhononMode.new0 g hg
  refine ⟨g, hg, hconv, ?_, rfl, fun m _ => rfl, ?_, ?_⟩
  · exact lin_res_ok_of exEnv PhononMode.new0 ⟨0, 0, 1⟩ 1 exDdb g _ hg hconv (by
      intro i hi
      have hi' : i < 1 := hi
      have h0 : i = 0 := by omega
      subst h0
      exact ⟨1, rfl⟩)
  · intro k
    have h3 : exFreq.size = 3 := rfl
    rw [h3, Finset.Ico_self, Finset.sum_empty]
  · unfold linResTauChecked
    simp only []
    exact tauLoopChecked_none exEnv exDdb.natom _ _ exFreq _ (by decide) 0 (by decide) rfl

end AcousticExample

/-! ## Bulk diagonalisation: the caller buffers -/

section Bulk

variable {R : Type} [LinearOrderedField R]

theorem allEigenLoop_nil (env : Env R) (ddb : Ddb R) (s : PhononMode R) (i : Nat)
    (freq : Option (Nat → R)) (modes : Option (Nat → Cx R)) :
    allEigenLoop env ddb [] s i freq modes = { outcome := .ok s, freq := freq, modes := modes } :=
  rfl

theorem allEigenLoop_cons (env : Env R) (ddb : Ddb R) (qpt : Vec3 R) (rest : List (Vec3 R))
    (s : PhononMode R) (i : Nat) (freq : Option (Nat → R)) (modes : Option (Nat → Cx R)) :
    allEigenLoop env ddb (qpt :: rest) s i freq modes
      = (match ddb.getDdb qpt with
        | .error e => { outcome := .error (e.ADD .abording), freq := freq, modes := modes }
        | .ok recs =>
          match ({ s with _qpt := qpt } : PhononMode R).computeForceCst recs with
          | .error e => { outcome := .error (e.ADD .abording), freq := freq, modes := modes }
          | .ok s2 =>
            allEigenLoop env ddb rest (allEigenSolve env s2 i freq modes).1 (i + 1)
              (allEigenSolve env s2 i freq modes).2.1 (allEigenSolve env s2 i freq modes).2.2) := by
  cases h : ddb.getDdb qpt with
  | error e => simp only [allEigenLoop, h]
  | ok recs =>
    cases h2 : ({ s with _qpt := qpt } : PhononMode R).computeForceCst recs <;>
      simp only [allEigenLoop, h, h2]

/-- With a null frequency pointer, `qmode` stays null: neither buffer is touched. -/
theorem allEigenSolve_null_freq (env : Env R) (s : PhononMode R) (i : Nat)
    (modes : Option (Nat → Cx R)) :
    (allEigenSolve env s i none modes).2.1 = none
      ∧ (allEigenSolve env s i none modes).2.2 = modes := by
  constructor
  · rfl
  · cases modes <;> rfl

theorem allEigenLoop_null_freq (env : Env R) (ddb : Ddb R) (qs : List (Vec3 R)) :
    ∀ (s : PhononMode R) (i : Nat) (modes : Option (Nat → Cx R)),
      (allEigenLoop env ddb qs s i none modes).freq = none
        ∧ (allEigenLoop env ddb qs s i none modes).modes = modes := by
  induction qs with
  | nil => intro s i modes; exact ⟨rfl, rfl⟩
  | cons q rest ih =>
    intro s i modes
    rw [allEigenLoop_cons]
    cases ddb.getDdb q with
    | error e => exact ⟨rfl, rfl⟩
    | ok recs =>
      simp only []
      cases ({ s with _qpt := q } : PhononMode R).computeForceCst recs with
      | error e => exact ⟨rfl, rfl⟩
      | ok s2 =>
        simp only []
        rw [(allEigenSolve_null_freq env s2 i modes).1, (allEigenSolve_null_freq env s2 i modes).2]
        exact ih _ _ _

/-- With a null frequency pointer `computeAllEigen` writes to no buffer. -/
theorem computeAllEigen_null_freq (env : Env R) (s : PhononMode R) (ddb : Ddb R)
    (modes : Option (Nat → Cx R)) :
    (s.computeAllEigen env ddb none modes).freq = none
      ∧ (s.computeAllEigen env ddb none modes).modes = modes := by
  unfold PhononMode.computeAllEigen
  split
  · exact ⟨rfl, rfl⟩
  · exact allEigenLoop_null_freq env ddb _ _ _ _

/-- The two buffers after the solve of one q-point, both pointers given. -/
theorem allEigenSolve_both (env : Env R) (s : PhononMode R) (i : Nat) (f : Nat → R)
    (md : Nat → Cx R) :
    (allEigenSolve env s i (some f) (some md)).1 = s.computeEigenState env
      ∧ (allEigenSolve env s i (some f) (some md)).2.1
          = some (fun j =>
              if u32 (i * 3 * s._natom) ≤ j ∧ j < u32 (i * 3 * s._natom) + 3 * s._natom then
                (s.computeEigenState env)._frequencies.get (j - u32 (i * 3 * s._natom))
              else f j)
      ∧ (allEigenSolve env s i (some f) (some md)).2.2
          = some (fun j =>
              if u32 (i * 3 * s._natom * 3 * s._natom) ≤ j
                  ∧ j < u32 (i * 3 * s._natom * 3 * s._natom) + 3 * s._natom * (3 * s._natom) then
                (s.computeEigenState env)._eigenDisp.get
                  ((j - u32 (i * 3 * s._natom * 3 * s._natom)) / (3 * s._natom))
                  ((j - u32 (i * 3 * s._natom * 3 * s._natom)) % (3 * s._natom))
              else md j) := by
  refine ⟨rfl, ?_, ?_⟩
  · show some (writeBack f _ (copyFreq (s.computeEigenState env) (ptrAt f _))) = _
    congr 1
    funext j
    unfold writeBack copyFreq ptrAt
    have hn : (s.computeEigenState env)._natom = s._natom := rfl
    rw [hn]
    by_cases h1 : u32 (i * 3 * s._natom) ≤ j
    · rw [if_pos h1]
      by_cases h2 : j - u32 (i * 3 * s._natom) < 3 * s._natom
      · rw [if_pos h2, if_pos ⟨h1, by omega⟩]
      · rw [if_neg h2, if_neg (by omega)]
        congr 1
        omega
    · rw [if_neg h1, if_neg (fun hh => h1 hh.1)]
  · show some (writeBack md _ (copyMode (s.computeEigenState env) (ptrAt md _))) = _
    congr 1
    funext j
    unfold writeBack copyMode ptrAt
    have hn : (s.computeEigenState env)._natom = s._natom := rfl
    rw [hn]
    by_cases h1 : u32 (i * 3 * s._natom * 3 * s._natom) ≤ j
    · rw [if_pos h1]
      by_cases h2 : j - u32 (i * 3 * s._natom * 3 * s._natom) < 3 * s._natom * (3 * s._natom)
      · rw [if_pos h2, if_pos ⟨h1, by omega⟩]
      · rw [if_neg h2, if_neg (by omega)]
        congr 1
        omega
    · rw [if_neg h1, if_neg (fun hh => h1 hh.1)]

theorem sameBase_refl (a : PhononMode R) : SameBase a a :=
  ⟨rfl, rfl, rfl, rfl, fun _ _ => rfl⟩

theorem sameBase_symm {a b : PhononMode R} (h : SameBase a b) : SameBase b a :=
  ⟨h.1.symm, h.2.1.symm, h.2.2.1.symm, h.2.2.2.1.symm,
    fun i hi => (h.2.2.2.2 i (by rw [h.1]; exact hi)).symm⟩

theorem sameBase_trans {a b c : PhononMode R} (h : SameBase a b) (h' : SameBase b c) :
    SameBase a c :=
  ⟨h.1.trans h'.1, h.2.1.trans h'.2.1, h.2.2.1.trans h'.2.2.1, h.2.2.2.1.trans h'.2.2.2.1,
    fun i hi => (h.2.2.2.2 i hi).trans (h'.2.2.2.2 i (by rw [← h.1]; exact hi))⟩

/-- The matrix the solver decomposes depends on the atom count, on the coefficients of
`_d2cart` inside the dimensions and on the masses of the atoms only. -/
theorem solverInput_congr (env : Env R) (a b : PhononMode R) (hn : a._natom = b._natom)
    (hd : ∀ r c, r < 3 * a._natom → c < 3 * a._natom → a._d2cart.get r c = b._d2cart.get r c)
    (hm : ∀ i, i < a._natom → a._mass.get i = b._mass.get i) :
    (solverInput env a).data = (solverInput env b).data := by
  funext r c
  rw [solverInput_get, solverInput_get, buildDynMat_get, buildDynMat_get, buildDynMat_get,
    buildDynMat_get, ← hn]
  by_cases h : r < 3 * a._natom ∧ c < 3 * a._natom
  · rw [if_pos h, if_pos (And.intro h.2 h.1), if_pos h, if_pos (And.intro h.2 h.1),
      hd r c h.1 h.2, hd c r h.2 h.1, hm (r / 3) (by omega), hm (c / 3) (by omega)]
  · rw [if_neg h, if_neg (fun hh : c < 3 * a._natom ∧ r < 3 * a._natom => h ⟨hh.2, hh.1⟩),
      if_neg h, if_neg (fun hh : c < 3 * a._natom ∧ r < 3 * a._natom => h ⟨hh.2, hh.1⟩)]

/-- A solve depends on the atom count, on the coefficients of `_d2cart` inside the
dimensions and on the masses of the atoms only. -/
theorem computeEigenState_congr (env : Env R) (a b : PhononMode R) (hn : a._natom = b._natom)
    (hd : ∀ r c, r < 3 * a._natom → c < 3 * a._natom → a._d2cart.get r c = b._d2cart.get r c)
    (hm : ∀ i, i < a._natom → a._mass.get i = b._mass.get i) :
    (∀ m, m < 3 * a._natom →
        (a.computeEigenState env)._frequencies.get m
          = (b.computeEigenState env)._frequencies.get m)
      ∧ (∀ m c, m < 3 * a._natom → c < 3 * a._natom →
        (a.computeEigenState env)._eigenDisp.get m c
          = (b.computeEigenState env)._eigenDisp.get m c) := by
  have hS := solverInput_congr env a b hn hd hm
  constructor
  · intro m hmm
    have h1 := computeEigen_frequencies_get env a none none m hmm
    have h2 := computeEigen_frequencies_get env b none none m (by rw [← hn]; exact hmm)
    have he : a.eigenvalue env m = b.eigenvalue env m := by
      unfold PhononMode.eigenvalue
      rw [hS, hn]
    rw [he] at h1
    exact h1.trans h2.symm
  · intro m c hmm hc
    rw [computeEigenState_eigenDisp_get env a m c hmm hc,
      computeEigenState_eigenDisp_get env b m c (by rw [← hn]; exact hmm)
        (by rw [← hn]; exact hc), hS, hn, hm (c / 3) (by omega)]

/-- An assembly depends on the object through its base only: on another object with
the same base it succeeds too, keeps the base, and gives the same coefficients inside
the dimensions. -/
theorem computeForceCst_congr (a b ta : PhononMode R) (recs : List (D2der R))
    (hab : SameBase a b) (ha : a.computeForceCst recs = .ok ta) :
    SameBase a ta
      ∧ ∃ tb, b.computeForceCst recs = .ok tb
        ∧ ∀ r c, r < 3 * a._natom → c < 3 * a._natom → ta._d2cart.get r c = tb._d2cart.get r c := by
  obtain ⟨hn, hg, hf, hasr, hmass⟩ := hab
  obtain ⟨h0, h1, hany, hD, htn, htf, htg, hta, htm⟩ := computeForceCst_ok_cases a ta recs ha
  have hanyb : (recs.foldl (ingest b._natom)
      (b._d2cart, (Mat.fill (3 * b._natom) (3 * b._natom) true : Mat Bool))).2.any = false := by
    rw [← hn, ingestFold_mask_indep a._natom recs b._d2cart a._d2cart]
    exact hany
  obtain ⟨tb, hb⟩ := computeForceCst_of_checks b recs (by rw [← hn]; exact h0)
    (by rw [← hn]; exact h1) hanyb
  obtain ⟨-, -, -, hDb, -⟩ := computeForceCst_ok_cases b tb recs hb
  refine ⟨⟨htn.symm, htg.symm, htf.symm, hta.symm, fun i _ => by rw [htm]⟩, tb, hb, ?_⟩
  intro r c hr hc
  rw [hD, hDb, ← hn, ← hg, ← hf, ← hasr]
  have hcore := assembled_indep a._gprim a._natom recs a._d2cart b._d2cart hany r c hr hc
  cases hflag : a._hasASR with
  | false =>
    simp only [Bool.false_eq_true, if_false]
    exact hcore
  | true =>
    simp only [if_true]
    rw [applyLoop_get, applyLoop_get, hcore]

/-- The mass loop of the assemblies gives the atoms the same masses whatever the object
it starts from. -/
theorem massLoop_mass_indep (env : Env R) (ddb : Ddb R) (b : Bool) (n : Nat)
    (s s' t t' : PhononMode R) (h : forRangeE n (massStep env ddb b) s = .ok t)
    (h' : forRangeE n (massStep env ddb b) s' = .ok t') :
    ∀ i, i < n → t._mass.get i = t'._mass.get i := by
  induction n generalizing t t' with
  | zero => intro i hi; omega
  | succ k ih =>
    rw [forRangeE_succ] at h h'
    cases hk : forRangeE k (massStep env ddb b) s with
    | error e => rw [hk] at h; cases h
    | ok u =>
      cases hk' : forRangeE k (massStep env ddb b) s' with
      | error e => rw [hk'] at h'; cases h'
      | ok u' =>
        rw [hk] at h
        rw [hk'] at h'
        have hih := ih u u' hk hk'
        simp only [massStep] at h h'
        intro i hi
        cases b with
        | true =>
          simp only [if_true, Except.ok.injEq] at h h'
          rw [← h, ← h']
          by_cases hik : i = k
          · simp [vec_get_set, hik]
          · simp only [vec_get_set, if_neg hik]
            exact hih i (by omega)
        | false =>
          simp only [Bool.false_eq_true, if_false] at h h'
          cases hz : znuclOf ddb k with
          | error e => rw [hz] at h; cases h
          | ok z =>
            rw [hz] at h h'
            simp only [Except.ok.injEq] at h h'
            rw [← h, ← h']
            by_cases hik : i = k
            · simp [vec_get_set, hik]
            · simp only [vec_get_set, if_neg hik]
              exact hih i (by omega)

theorem index_decode (P m c : Nat) (hm : m < P) (hc : c < P) :
    m * P + c < P * P ∧ (m * P + c) / P = m ∧ (m * P + c) % P = c := by
  have hP : 0 < P := by omega
  refine ⟨?_, ?_, ?_⟩
  · have h1 : (m + 1) * P ≤ P * P := Nat.mul_le_mul_right P hm
    have h2 : (m + 1) * P = m * P + P := by ring
    omega
  · rw [Nat.add_comm, Nat.add_mul_div_right _ _ hP, Nat.div_eq_of_lt hc, Nat.zero_add]
  · rw [Nat.add_comm, Nat.add_mul_mod_self_right, Nat.mod_eq_of_lt hc]

theorem computeEigenState_sameBase (env : Env R) (s : PhononMode R) :
    SameBase (s.computeEigenState env) s :=
  ⟨rfl, rfl, rfl, rfl, fun _ _ => rfl⟩

theorem sameBase_qpt (a b : PhononMode R) (q : Vec3 R) (h : SameBase a b) :
    SameBase ({ a with _qpt := q } : PhononMode R) ({ b with _qpt := q } : PhononMode R) := h

/-- The loop of `computeAllEigen` with both buffers given, started at q-point number
`i` on an object with the base of `ref`, when no offset wraps.  The buffers are written
inside the window of the q-points of the loop only; and when the loop returns, the
window of the `k`-th q-point of the list holds the frequencies and the
eigen-displacements of the assembly of its records on `ref` followed by a solve. -/
theorem allEigenLoop_both (env : Env R) (ddb : Ddb R) (ref : PhononMode R)
    (qs : List (Vec3 R)) :
    ∀ (s : PhononMode R) (i : Nat) (f : Nat → R) (md : Nat → Cx R),
      SameBase s ref →
      (i + qs.length) * (3 * ref._natom) < 2 ^ 32 →
      (i + qs.length) * (3 * ref._natom * (3 * ref._natom)) < 2 ^ 32 →
      ∃ f' md',
        (allEigenLoop env ddb qs s i (some f) (some md)).freq = some f'
        ∧ (allEigenLoop env ddb qs s i (some f) (some md)).modes = some md'
        ∧ (∀ j, j < i * (3 * ref._natom) ∨ (i + qs.length) * (3 * ref._natom) ≤ j →
            f' j = f j)
        ∧ (∀ j, j < i * (3 * ref._natom * (3 * ref._natom))
              ∨ (i + qs.length) * (3 * ref._natom * (3 * ref._natom)) ≤ j → md' j = md j)
        ∧ ∀ sf, (allEigenLoop env ddb qs s i (some f) (some md)).outcome = .ok sf →
            ∀ k q, qs[k]? = some q →
              ∃ recs u, ddb.getDdb q = .ok recs
                ∧ ({ ref with _qpt := q } : PhononMode R).computeForceCst recs = .ok u
                ∧ (∀ m, m < 3 * ref._natom →
                    f' ((i + k) * (3 * ref._natom) + m)
                      = (u.computeEigenState env)._frequencies.get m)
                ∧ (∀ m c, m < 3 * ref._natom → c < 3 * ref._natom →
                    md' ((i + k) * (3 * ref._natom * (3 * ref._natom))
                        + m * (3 * ref._natom) + c)
                      = (u.computeEigenState env)._eigenDisp.get m c) := by
  obtain ⟨P, hP⟩ : ∃ P, P = 3 * ref._natom := ⟨_, rfl⟩
  rw [← hP]
  induction qs with
  | nil =>
    intro s i f md _ _ _
    refine ⟨f, md, rfl, rfl, fun _ _ => rfl, fun _ _ => rfl, ?_⟩
    intro sf _ k q hk
    simp at hk
  | cons q0 rest ih =>
    intro s i f md hbase hw1 hw2
    rw [allEigenLoop_cons]
    have hlen : (q0 :: rest).length = rest.length + 1 := rfl
    rw [hlen] at hw1 hw2 ⊢
    have e1 : (i + (rest.length + 1)) * P = i * P + P + rest.length * P := by ring
    have e2 : (i + (rest.length + 1)) * (P * P) = i * (P * P) + P * P + rest.length * (P * P) := by
      ring
    have e3 : (i + 1 + rest.length) * P = i * P + P + rest.length * P := by ring
    have e4 : (i + 1 + rest.length) * (P * P) = i * (P * P) + P * P + rest.length * (P * P) := by
      ring
    have e5 : (i + 1) * P = i * P + P := by ring
    have e6 : (i + 1) * (P * P) = i * (P * P) + P * P := by ring
    cases hget : ddb.getDdb q0 with
    | error e =>
      refine ⟨f, md, rfl, rfl, fun _ _ => rfl, fun _ _ => rfl, ?_⟩
      intro sf hsf
      cases hsf
    | ok recs =>
      simp only []
      cases hcf : ({ s with _qpt := q0 } : PhononMode R).computeForceCst recs with
      | error e =>
        refine ⟨f, md, rfl, rfl, fun _ _ => rfl, fun _ _ => rfl, ?_⟩
        intro sf hsf
        cases hsf
      | ok s2 =>
        simp only []
        obtain ⟨hb2, u, hu, hdu⟩ := computeForceCst_congr _ _ s2 recs
          (sameBase_qpt s ref q0 hbase) hcf
        obtain ⟨hbu, -⟩ := computeForceCst_congr _ _ u recs
          (sameBase_refl ({ ref with _qpt := q0 } : PhononMode R)) hu
        have hs2ref : SameBase s2 ref := sameBase_trans (sameBase_symm hb2) hbase
        have hs2u : SameBase s2 u := sameBase_trans hs2ref hbu
        have hn2 : s2._natom = ref._natom := hs2ref.1
        have hsn : ({ s with _qpt := q0 } : PhononMode R)._natom = s2._natom := hb2.1
        have hP2 : 3 * s2._natom = P := by rw [hn2, hP]
        have hoff1 : u32 (i * 3 * s2._natom) = i * P := by
          rw [Nat.mul_assoc, hP2]
          exact u32_of_lt _ (by omega)
        have hoff2 : u32 (i * 3 * s2._natom * 3 * s2._natom) = i * (P * P) := by
          have e : i * 3 * s2._natom * 3 * s2._natom = i * (P * P) := by
            rw [← hP2]
            ring
          rw [e]
          exact u32_of_lt _ (by omega)
        obtain ⟨hE, hF, hM⟩ := allEigenSolve_both env s2 i f md
        rw [hE, hF, hM, hoff1, hoff2, hP2]
        obtain ⟨f', md', hf', hmd', hfr1, hfr2, hval⟩ := ih (s2.computeEigenState env) (i + 1)
          (fun j => if i * P ≤ j ∧ j < i * P + P then
              (s2.computeEigenState env)._frequencies.get (j - i * P) else f j)
          (fun j => if i * (P * P) ≤ j ∧ j < i * (P * P) + P * P then
              (s2.computeEigenState env)._eigenDisp.get ((j - i * (P * P)) / P)
                ((j - i * (P * P)) % P) else md j)
          (sameBase_trans (computeEigenState_sameBase env s2) hs2ref)
          (by omega) (by omega)
        have hcongr := computeEigenState_congr env s2 u hs2u.1
          (by
            intro r c hr hc
            exact hdu r c (by rw [hsn]; exact hr) (by rw [hsn]; exact hc))
          hs2u.2.2.2.2
        rw [hP2] at hcongr
        refine ⟨f', md', hf', hmd', ?_, ?_, ?_⟩
        · intro j hj
          rw [hfr1 j (by omega), if_neg (by omega)]
        · intro j hj
          rw [hfr2 j (by omega), if_neg (by omega)]
        · intro sf hsf k q hk
          cases k with
          | zero =>
            simp only [List.getElem?_cons_zero, Option.some.injEq] at hk
            subst hk
            simp only [Nat.add_zero]
            refine ⟨recs, u, hget, hu, ?_, ?_⟩
            · intro m hm
              rw [hfr1 _ (by omega), if_pos ⟨by omega, by omega⟩]
              have e : i * P + m - i * P = m := by omega
              rw [e]
              exact hcongr.1 m hm
            · intro m c hm hc
              obtain ⟨hd1, hd2, hd3⟩ := index_decode P m c hm hc
              rw [hfr2 _ (by omega), if_pos ⟨by omega, by omega⟩]
              have e : i * (P * P) + m * P + c - i * (P * P) = m * P + c := by omega
              rw [e, hd2, hd3]
              exact hcongr.2 m c hm hc
          | succ k' =>
            simp only [List.getElem?_cons_succ] at hk
            obtain ⟨recs', u', hg', hu', hv1, hv2⟩ := hval sf hsf k' q hk
            have e7 : i + (k' + 1) = i + 1 + k' := by omega
            refine ⟨recs', u', hg', hu', ?_, ?_⟩
            · intro m hm
              rw [e7]
              exact hv1 m hm
            · intro m c hm hc
              rw [e7]
              exact hv2 m c hm hc

theorem allEigenInit_natom (env : Env R) (s s4 : PhononMode R) (ddb : Ddb R)
    (h4 : s.allEigenInit env ddb = .ok s4) : s4._natom = ddb.natom := by
  unfold PhononMode.allEigenInit at h4
  simp only [] at h4
  obtain ⟨hn4, -⟩ := massLoop_fields env ddb _ _ _ _ h4
  exact hn4

/-- The object `computeAllEigen` enters its loop with has the base of the object a
single `computeForceCst(qpt, ddb)` assembles the records on. -/
theorem bulk_base (env : Env R) (s s4 s3 : PhononMode R) (ddb : Ddb R) (q : Vec3 R)
    (h4 : s.allEigenInit env ddb = .ok s4)
    (h3 : forRangeE ddb.natom (massStep env ddb ddb.isNormalized)
      { s.resize ddb.natom with _gprim := fun r c => ddb.gprim (3 * r + c), _qpt := q }
        = .ok s3) :
    s4._natom = ddb.natom ∧ SameBase ({ s4 with _qpt := q } : PhononMode R) s3 := by
  unfold PhononMode.allEigenInit at h4
  simp only [] at h4
  obtain ⟨hn4, hf4, -, hg4, ha4⟩ := massLoop_fields env ddb _ _ _ _ h4
  obtain ⟨hn3, hf3, -, hg3, ha3⟩ := massLoop_fields env ddb _ _ _ _ h3
  refine ⟨hn4, ?_, ?_, ?_, ?_, ?_⟩
  · exact hn4.trans hn3.symm
  · exact hg4.trans hg3.symm
  · exact hf4.trans hf3.symm
  · exact ha4.trans ha3.symm
  · intro i hi
    have hi' : i < ddb.natom := by
      have : i < s4._natom := hi
      rw [hn4] at this
      exact this
    exact massLoop_mass_indep env ddb _ _ _ _ _ _ h4 h3 i hi'

/-- The solve that follows the assembly of the records of a q-point on the object
`computeAllEigen` enters its loop with gives, inside the dimensions, what the solve that
follows the single call `computeForceCst(qpt, ddb)` gives; and that call succeeds. -/
theorem bulk_reference (env : Env R) (s s4 u : PhononMode R) (ddb : Ddb R) (q : Vec3 R)
    (recs : List (D2der R))
    (h4 : s.allEigenInit env ddb = .ok s4)
    (hget : ddb.getDdb q = .ok recs)
    (hu : ({ s4 with _qpt := q } : PhononMode R).computeForceCst recs = .ok u) :
    ∃ t, s.computeForceCstAt env q ddb = .ok t
      ∧ (∀ m, m < 3 * ddb.natom →
          (u.computeEigenState env)._frequencies.get m
            = (t.computeEigen env none none).1._frequencies.get m)
      ∧ (∀ m c, m < 3 * ddb.natom → c < 3 * ddb.natom →
          (u.computeEigenState env)._eigenDisp.get m c
            = (t.computeEigen env none none).1._eigenDisp.get m c) := by
  obtain ⟨s3, h3⟩ := massLoop_ok_indep env ddb ddb.isNormalized ddb.natom _
    ({ s.resize ddb.natom with _gprim := fun r c => ddb.gprim (3 * r + c), _qpt := q })
    s4 (by unfold PhononMode.allEigenInit at h4; exact h4)
  obtain ⟨hn4, hbase⟩ := bulk_base env s s4 s3 ddb q h4 h3
  obtain ⟨hbu, t, ht, hdt⟩ := computeForceCst_congr _ s3 u recs hbase hu
  have hut : SameBase u t := by
    obtain ⟨hbt, -⟩ := computeForceCst_congr s3 s3 t recs (sameBase_refl s3) ht
    exact sameBase_trans (sameBase_symm hbu) (sameBase_trans hbase hbt)
  have hnu : u._natom = ddb.natom := by
    rw [← hbu.1]
    exact hn4
  have hcongr := computeEigenState_congr env u t hut.1
    (by
      intro r c hr hc
      rw [hnu] at hr hc
      exact hdt r c (by show r < 3 * s4._natom; rw [hn4]; exact hr)
        (by show c < 3 * s4._natom; rw [hn4]; exact hc))
    hut.2.2.2.2
  rw [hnu] at hcongr
  exact ⟨t, computeForceCstAt_of_steps env s s3 t q ddb recs h3 hget ht, hcongr.1, hcongr.2⟩

/-- C13 (amended): bulk layout.  When `computeAllEigen` is given both buffers and
returns, on a dataset with `N` atoms and `K` q-points whose buffers have less than `2^32`
entries (`K * 9 N^2 < 2^32`, so that no `unsigned` offset wraps), then for every q-point `q_k` of
the list the single call `computeForceCst(q_k, ddb)` on the object succeeds, and with
`computeEigen` after it gives the frequencies found at `freq[k*3N + m]` and the
eigen-displacements found at `modes[k*9N^2 + m*3N + c]`, for every `m, c < 3N`; the
entries from `K*3N`, resp. `K*9N^2`, on are as before the call. -/
theorem computeAllEigen_layout (env : Env R) (s sf : PhononMode R) (ddb : Ddb R)
    (f : Nat → R) (md : Nat → Cx R)
    (hok : (s.computeAllEigen env ddb (some f) (some md)).outcome = .ok sf)
    (hsize : ddb.getQpts.length * (9 * ddb.natom * ddb.natom) < 2 ^ 32) :
    ∃ f' md',
      (s.computeAllEigen env ddb (some f) (some md)).freq = some f'
        ∧ (s.computeAllEigen env ddb (some f) (some md)).modes = some md'
        ∧ (∀ j, ddb.getQpts.length * (3 * ddb.natom) ≤ j → f' j = f j)
        ∧ (∀ j, ddb.getQpts.length * (9 * ddb.natom * ddb.natom) ≤ j → md' j = md j)
        ∧ ∀ k q, ddb.getQpts[k]? = some q →
            ∃ t, s.computeForceCstAt env q ddb = .ok t
              ∧ (∀ m, m < 3 * ddb.natom →
                  f' (k * (3 * ddb.natom) + m)
                    = (t.computeEigen env none none).1._frequencies.get m)
              ∧ (∀ m c, m < 3 * ddb.natom → c < 3 * ddb.natom →
                  md' (k * (9 * ddb.natom * ddb.natom) + m * (3 * ddb.natom) + c)
                    = (t.computeEigen env none none).1._eigenDisp.get m c) := by
  have e9 : 9 * ddb.natom * ddb.natom = 3 * ddb.natom * (3 * ddb.natom) := by ring
  rw [e9] at hsize ⊢
  unfold PhononMode.computeAllEigen at hok ⊢
  cases h4 : s.allEigenInit env ddb with
  | error e =>
    rw [h4] at hok
    cases hok
  | ok s4 =>
    rw [h4] at hok
    simp only [] at hok ⊢
    have hn4' : s4._natom = ddb.natom := allEigenInit_natom env s s4 ddb h4
    have hle : ddb.getQpts.length * (3 * ddb.natom)
        ≤ ddb.getQpts.length * (3 * ddb.natom * (3 * ddb.natom)) :=
      Nat.mul_le_mul_left _ (Nat.le_mul_self _)
    obtain ⟨f', md', hf', hmd', hfr1, hfr2, hval⟩ :=
      allEigenLoop_both env ddb s4 ddb.getQpts s4 0 f md (sameBase_refl s4)
        (by rw [hn4', Nat.zero_add]; omega) (by rw [hn4', Nat.zero_add]; omega)
    rw [hn4'] at hfr1 hfr2
    refine ⟨f', md', hf', hmd', ?_, ?_, ?_⟩
    · intro j hj
      exact hfr1 j (Or.inr (by rw [Nat.zero_add]; exact hj))
    · intro j hj
      exact hfr2 j (Or.inr (by rw [Nat.zero_add]; exact hj))
    · intro k q hk
      obtain ⟨recs, u, hget, hu, hv1, hv2⟩ := hval sf hok k q hk
      rw [hn4'] at hv1 hv2
      obtain ⟨t, ht, hc1, hc2⟩ := bulk_reference env s s4 u ddb q recs h4 hget hu
      refine ⟨t, ht, ?_, ?_⟩
      · intro m hm
        have h1 := hv1 m hm
        rw [Nat.zero_add] at h1
        rw [h1]
        exact hc1 m hm
      · intro m c hm hc
        have h2 := hv2 m c hm hc
        rw [Nat.zero_add] at h2
        rw [h2]
        exact hc2 m c hm hc

/-- A loop of `computeAllEigen` that throws has run as the loop over the q-points
before the failing one, which returns, and it leaves the buffers of that loop. -/
theorem allEigenLoop_error_prefix (env : Env R) (ddb : Ddb R) (qs : List (Vec3 R)) :
    ∀ (s : PhononMode R) (i : Nat) (freq : Option (Nat → R)) (modes : Option (Nat → Cx R))
      (e : Exception),
      (allEigenLoop env ddb qs s i freq modes).outcome = .error e →
      ∃ k, k < qs.length
        ∧ (∃ sk, (allEigenLoop env ddb (qs.take k) s i freq modes).outcome = .ok sk)
        ∧ (allEigenLoop env ddb qs s i freq modes).freq
            = (allEigenLoop env ddb (qs.take k) s i freq modes).freq
        ∧ (allEigenLoop env ddb qs s i freq modes).modes
            = (allEigenLoop env ddb (qs.take k) s i freq modes).modes := by
  induction qs with
  | nil =>
    intro s i freq modes e h
    cases h
  | cons q0 rest ih =>
    intro s i freq modes e h
    rw [allEigenLoop_cons] at h ⊢
    cases hget : ddb.getDdb q0 with
    | error e' =>
      exact ⟨0, Nat.succ_pos _, ⟨s, rfl⟩, rfl, rfl⟩
    | ok recs =>
      rw [hget] at h
      simp only [] at h ⊢
      cases hcf : ({ s with _qpt := q0 } : PhononMode R).computeForceCst recs with
      | error e' =>
        exact ⟨0, Nat.succ_pos _, ⟨s, rfl⟩, rfl, rfl⟩
      | ok s2 =>
        rw [hcf] at h
        simp only [] at h ⊢
        obtain ⟨k, hk, hok, hf, hm⟩ := ih _ _ _ _ e h
        refine ⟨k + 1, Nat.succ_lt_succ hk, ?_, ?_, ?_⟩
        · rw [List.take_succ_cons, allEigenLoop_cons, hget]
          simp only []
          rw [hcf]
          exact hok
        · rw [List.take_succ_cons, allEigenLoop_cons, hget]
          simp only []
          rw [hcf]
          exact hf
        · rw [List.take_succ_cons, allEigenLoop_cons, hget]
          simp only []
          rw [hcf]
          exact hm

/-- C14 (amended): a call of `computeAllEigen` with both buffers that throws, on a
dataset whose buffers have less than `2^32` entries.  With `k` the number of q-points
solved before the exception (`k = 0` when the mass lookup or the first q-point fails),
the windows of the q-points `q_0 .. q_(k-1)` hold the frequencies and eigen-displacements
of these q-points, and every entry from `k*3N`, resp. `k*9N^2`, on is as before the
call. -/
theorem computeAllEigen_failure_buffers (env : Env R) (s : PhononMode R) (ddb : Ddb R)
    (f : Nat → R) (md : Nat → Cx R) (e : Exception)
    (hfail : (s.computeAllEigen env ddb (some f) (some md)).outcome = .error e)
    (hsize : ddb.getQpts.length * (9 * ddb.natom * ddb.natom) < 2 ^ 32) :
    ∃ k f' md',
      (k < ddb.getQpts.length ∨ k = 0)
        ∧ (s.computeAllEigen env ddb (some f) (some md)).freq = some f'
        ∧ (s.computeAllEigen env ddb (some f) (some md)).modes = some md'
        ∧ (∀ j, k * (3 * ddb.natom) ≤ j → f' j = f j)
        ∧ (∀ j, k * (9 * ddb.natom * ddb.natom) ≤ j → md' j = md j)
        ∧ ∀ k' q, k' < k → ddb.getQpts[k']? = some q →
            ∃ t, s.computeForceCstAt env q ddb = .ok t
              ∧ (∀ m, m < 3 * ddb.natom →
                  f' (k' * (3 * ddb.natom) + m)
                    = (t.computeEigen env none none).1._frequencies.get m)
              ∧ (∀ m c, m < 3 * ddb.natom → c < 3 * ddb.natom →
                  md' (k' * (9 * ddb.natom * ddb.natom) + m * (3 * ddb.natom) + c)
                    = (t.computeEigen env none none).1._eigenDisp.get m c) := by
  have e9 : 9 * ddb.natom * ddb.natom = 3 * ddb.natom * (3 * ddb.natom) := by ring
  rw [e9] at hsize ⊢
  unfold PhononMode.computeAllEigen at hfail ⊢
  cases h4 : s.allEigenInit env ddb with
  | error e' =>
    refine ⟨0, f, md, Or.inr rfl, rfl, rfl, fun _ _ => rfl, fun _ _ => rfl, ?_⟩
    intro k' q hk'
    omega
  | ok s4 =>
    rw [h4] at hfail
    simp only [] at hfail ⊢
    have hn4' : s4._natom = ddb.natom := allEigenInit_natom env s s4 ddb h4
    obtain ⟨k, hk, ⟨sk, hsk⟩, hf, hm⟩ :=
      allEigenLoop_error_prefix env ddb ddb.getQpts s4 0 (some f) (some md) e hfail
    have hlen : (ddb.getQpts.take k).length = k := by
      rw [List.length_take]
      omega
    have hle1 : k * (3 * ddb.natom) ≤ ddb.getQpts.length * (3 * ddb.natom) :=
      Nat.mul_le_mul_right _ (Nat.le_of_lt hk)
    have hle2 : k * (3 * ddb.natom * (3 * ddb.natom))
        ≤ ddb.getQpts.length * (3 * ddb.natom * (3 * ddb.natom)) :=
      Nat.mul_le_mul_right _ (Nat.le_of_lt hk)
    have hle3 : ddb.getQpts.length * (3 * ddb.natom)
        ≤ ddb.getQpts.length * (3 * ddb.natom * (3 * ddb.natom)) :=
      Nat.mul_le_mul_left _ (Nat.le_mul_self _)
    obtain ⟨f', md', hf', hmd', hfr1, hfr2, hval⟩ :=
      allEigenLoop_both env ddb s4 (ddb.getQpts.take k) s4 0 f md (sameBase_refl s4)
        (by rw [hn4', hlen, Nat.zero_add]; omega) (by rw [hn4', hlen, Nat.zero_add]; omega)
    rw [hn4', hlen, Nat.zero_add] at hfr1 hfr2
    refine ⟨k, f', md', Or.inl hk, hf.trans hf', hm.trans hmd', ?_, ?_, ?_⟩
    · intro j hj
      exact hfr1 j (Or.inr hj)
    · intro j hj
      exact hfr2 j (Or.inr hj)
    · intro k' q hk' hq
      obtain ⟨recs, u, hget, hu, hv1, hv2⟩ := hval sk hsk k' q
        (by rw [List.getElem?_take_of_lt hk']; exact hq)
      rw [hn4'] at hv1 hv2
      obtain ⟨t, ht, hc1, hc2⟩ := bulk_reference env s s4 u ddb q recs h4 hget hu
      refine ⟨t, ht, ?_, ?_⟩
      · intro m hm'
        have h1 := hv1 m hm'
        rw [Nat.zero_add] at h1
        rw [h1]
        exact hc1 m hm'
      · intro m c hm' hc
        have h2 := hv2 m c hm' hc
        rw [Nat.zero_add] at h2
        rw [h2]
        exact hc2 m c hm' hc

end Bulk

/-! ## Bulk diagonalisation of the one-atom dataset -/

section BulkSteps

variable {R : Type} [LinearOrderedField R]

/-- One turn of the loop of `computeAllEigen` whose assembly succeeds. -/
theorem allEigenLoop_step (env : Env R) (ddb : Ddb R) (q : Vec3 R) (rest : List (Vec3 R))
    (s s2 : PhononMode R) (i : Nat) (freq : Option (Nat → R)) (modes : Option (Nat → Cx R))
    (recs : List (D2der R)) (hget : ddb.getDdb q = .ok recs)
    (hcf : ({ s with _qpt := q } : PhononMode R).computeForceCst recs = .ok s2) :
    allEigenLoop env ddb (q :: rest) s i freq modes
      = allEigenLoop env ddb rest (allEigenSolve env s2 i freq modes).1 (i + 1)
          (allEigenSolve env s2 i freq modes).2.1 (allEigenSolve env s2 i freq modes).2.2 := by
  rw [allEigenLoop_cons, hget]
  simp only []
  rw [hcf]

/-- One turn of the loop of `computeAllEigen` whose q-point has no records. -/
theorem allEigenLoop_stop (env : Env R) (ddb : Ddb R) (q : Vec3 R) (rest : List (Vec3 R))
    (s : PhononMode R) (i : Nat) (freq : Option (Nat → R)) (modes : Option (Nat → Cx R))
    (e : Exception) (hget : ddb.getDdb q = .error e) :
    allEigenLoop env ddb (q :: rest) s i freq modes
      = { outcome := .error (e.ADD .abording), freq := freq, modes := modes } := by
  rw [allEigenLoop_cons, hget]

end BulkSteps

section BulkExample

theorem exRecords_last (d1 d2 : Nat) (h1 : d1 < 3) (h2 : d2 < 3) :
    lastRecord (d1, 0, d2, 0) exRecords = some (if d1 = d2 then ⟨4, 0⟩ else 0) := by
  interval_cases d1 <;> interval_cases d2 <;> rfl

/-- With the identity as basis matrix, the cartesian matrix of the records `exRecords`
is four times the identity. -/
theorem ex_cartesianEntry (r c : Nat) (hr : r < 3) (hc : c < 3) :
    cartesianEntry (fun i j => exDdb.gprim (3 * i + j)) exRecords r c
      = (if r = c then ⟨4, 0⟩ else 0) := by
  have hg : ∀ i j, exDdb.gprim (3 * i + j) = if (3 * i + j) % 4 = 0 then 1 else 0 :=
    fun _ _ => rfl
  have e1 : r / 3 = 0 := by omega
  have e2 : c / 3 = 0 := by omega
  have e3 : r % 3 = r := by omega
  have e4 : c % 3 = c := by omega
  have hl : ∀ c' d, c' < 3 → d < 3 →
      (lastRecord (d, c / 3, c', r / 3) exRecords).getD 0
        = (if d = c' then ⟨4, 0⟩ else 0) := by
    intro c' d hc' hd
    rw [e1, e2, exRecords_last d c' hd hc']
    rfl
  unfold cartesianEntry
  simp only [Finset.sum_range_succ, Finset.sum_range_zero, zero_add, hg,
    hl 0 0 (by omega) (by omega), hl 0 1 (by omega) (by omega), hl 0 2 (by omega) (by omega),
    hl 1 0 (by omega) (by omega), hl 1 1 (by omega) (by omega), hl 1 2 (by omega) (by omega),
    hl 2 0 (by omega) (by omega), hl 2 1 (by omega) (by omega), hl 2 2 (by omega) (by omega)]
  rw [e3, e4]
  interval_cases r <;> interval_cases c <;>
    simp [Cx.ofReal_one, Cx.ofReal_zero]

/-- The solve of a one-atom object of unit mass whose matrix is four times the
identity, with the environment `exEnv`: every frequency is 2 and component (0,0) of
the eigen-displacements is 1. -/
theorem oneAtom_unit_solve (t : PhononMode ℚ) (hn : t._natom = 1) (hm : t._mass.get 0 = 1)
    (hd : ∀ r c, r < 3 → c < 3 → t._d2cart.get r c = if r = c then ⟨4, 0⟩ else 0) :
    (∀ m, m < 3 → (t.computeEigenState exEnv)._frequencies.get m = 2)
      ∧ (t.computeEigenState exEnv)._eigenDisp.get 0 0 = 1 := by
  have hs1 : exEnv.sqrt 1 = 1 := by
    have := exEnv_sqrt_one
    rwa [one_mul] at this
  constructor
  · intro m hmm
    rw [oneAtom_frequency t hn m hmm, hd m m hmm hmm, if_pos rfl, hm, exEnv_sqrt_one]
    have e : (⟨4, 0⟩ : Cx ℚ).re * (1 / 1) = 2 * 2 := by
      show (4 : ℚ) * (1 / 1) = 2 * 2
      norm_num
    rw [e, signedSqrt_nonneg exEnv _ (by norm_num), ex_sqrt_sq 2 (by norm_num)]
  · have hV : ∀ i k, (t.solvedEigenVec exEnv).get i k = if i = k then 1 else 0 :=
      fun _ _ => rfl
    have hz : colSquaredNorm (3 * t._natom) (t.solvedEigenVec exEnv) 0 = 1 := by
      rw [colSquaredNorm_eq, hn]
      simp only [hV, Finset.sum_range_succ, Finset.sum_range_zero, zero_add]
      simp [Cx.normSq]
    rw [computeEigenState_eigenDisp_get exEnv t 0 0 (by rw [hn]; omega) (by rw [hn]; omega)]
    have hcol : normalizedCol exEnv (3 * t._natom) (t.solvedEigenVec exEnv) 0 0 = 1 := by
      unfold normalizedCol
      simp only []
      rw [hz, if_pos (by norm_num), hV, if_pos rfl, hs1]
      apply Cx.ext_iff'.2
      constructor <;> simp [Cx.divReal]
    have hcol2 : normalizedCol exEnv (3 * t._natom)
        { rows := 3 * t._natom, cols := 3 * t._natom,
          data := (exEnv.solver (3 * t._natom) (solverInput exEnv t).data).2 } 0 0 = 1 := hcol
    rw [hcol2]
    have e0 : (0 : Nat) / 3 = 0 := rfl
    rw [e0, hm, hs1]
    have hsn : snap (1 : ℚ) = 1 := by
      unfold snap noiseEps
      rw [if_pos (by norm_num)]
    have hsn0 : snap (0 : ℚ) = 0 := by
      unfold snap
      simp
    apply Cx.ext_iff'.2
    constructor
    · show snap ((1 : Cx ℚ).scale (1 / 1)).re = 1
      have e : ((1 : Cx ℚ).scale (1 / 1)).re = 1 := by simp [Cx.scale]
      rw [e, hsn]
    · show snap ((1 : Cx ℚ).scale (1 / 1)).im = 0
      have e : ((1 : Cx ℚ).scale (1 / 1)).im = 0 := by simp [Cx.scale]
      rw [e, hsn0]

theorem exBulkStart_ok :
    (PhononMode.new0 : PhononMode ℚ).allEigenInit exEnv exDdb = .ok exBulkStart := rfl

theorem exBulkFirst_ok :
    ({ exBulkStart with _qpt := ⟨0, 0, 0⟩ } : PhononMode ℚ).computeForceCst exRecords
      = .ok exBulkFirst := rfl

/-- The object after the assembly of the first q-point of `exDdb`: one atom of unit
mass, matrix four times the identity. -/
theorem exBulkFirst_solve :
    (∀ m, m < 3 → (exBulkFirst.computeEigenState exEnv)._frequencies.get m = 2)
      ∧ (exBulkFirst.computeEigenState exEnv)._eigenDisp.get 0 0 = 1 := by
  apply oneAtom_unit_solve exBulkFirst rfl rfl
  intro r c hr hc
  obtain ⟨-, -, hany, hD, -⟩ := computeForceCst_ok_cases _ _ _ exBulkFirst_ok
  rw [hD, if_neg (by decide)]
  exact (assembled_eq_cartesianEntry _ 1 exRecords _ hany r c (by omega) (by omega)).trans
    (ex_cartesianEntry r c hr hc)

/-- The buffers after the first turn of the loop of `computeAllEigen` on the one-atom
dataset: the first frequency is 2 and the first eigen-displacement component is 1. -/
theorem exBulkFirst_buffers :
    ∃ f' md', (allEigenSolve exEnv exBulkFirst 0 (some zeroFreq) (some zeroModes)).2.1 = some f'
      ∧ (allEigenSolve exEnv exBulkFirst 0 (some zeroFreq) (some zeroModes)).2.2 = some md'
      ∧ f' 0 = 2 ∧ md' 0 = 1 := by
  obtain ⟨-, hf, hm⟩ := allEigenSolve_both exEnv exBulkFirst 0 zeroFreq zeroModes
  refine ⟨_, _, hf, hm, ?_, ?_⟩
  · have hn : exBulkFirst._natom = 1 := rfl
    have hu : u32 (0 * 3 * 1) = 0 := rfl
    simp only [hn, hu]
    rw [if_pos (by decide)]
    exact exBulkFirst_solve.1 0 (by decide)
  · have hn : exBulkFirst._natom = 1 := rfl
    have hu : u32 (0 * 3 * 1 * 3 * 1) = 0 := rfl
    simp only [hn, hu]
    rw [if_pos (by decide)]
    exact exBulkFirst_solve.2

/-- Counterexample of C14: `computeAllEigen` on a fresh object with the dataset
`twoQDdb`, whose second q-point has no records, and two buffers of zeros.  The call
fails, and the frequency buffer it leaves starts with the frequency 2 of the first
q-point, not with the 0 it held before the call. -/
theorem computeAllEigen_exposes_partial_result :
    ∃ e f',
      ((PhononMode.new0 : PhononMode ℚ).computeAllEigen exEnv twoQDdb
          (some zeroFreq) (some zeroModes)).outcome = .error e
      ∧ ((PhononMode.new0 : PhononMode ℚ).computeAllEigen exEnv twoQDdb
          (some zeroFreq) (some zeroModes)).freq = some f'
      ∧ f' 0 = 2 ∧ zeroFreq 0 = 0 := by
  have hinit : (PhononMode.new0 : PhononMode ℚ).allEigenInit exEnv twoQDdb = .ok exBulkStart :=
    rfl
  have hrun : (PhononMode.new0 : PhononMode ℚ).computeAllEigen exEnv twoQDdb
        (some zeroFreq) (some zeroModes)
      = allEigenLoop exEnv twoQDdb [⟨0, 0, 0⟩, ⟨1, 0, 0⟩] exBulkStart 0
          (some zeroFreq) (some zeroModes) := by
    unfold PhononMode.computeAllEigen
    rw [hinit]
    rfl
  obtain ⟨f', md', hf, hm, hf0, -⟩ := exBulkFirst_buffers
  rw [hrun, allEigenLoop_step exEnv twoQDdb ⟨0, 0, 0⟩ _ _ exBulkFirst 0 _ _ exRecords rfl
      exBulkFirst_ok,
    allEigenLoop_stop exEnv twoQDdb ⟨1, 0, 0⟩ _ _ _ _ _ (EXCEPTION (.collaborator 0)) rfl, hf]
  exact ⟨_, f', rfl, rfl, hf0, rfl⟩

/-- C20, refuted on the code: `computeAllEigen` on a fresh object with the one-atom
dataset `exDdb` (one q-point) and a mode buffer of zeros.  With a null frequency
pointer the call succeeds and the mode buffer is left as it was; with a frequency buffer
as well, entry 0 of the mode buffer receives the eigen-displacement component 1. -/
theorem computeAllEigen_null_freq_skips_modes :
    (∃ sf, ((PhononMode.new0 : PhononMode ℚ).computeAllEigen exEnv exDdb
          none (some zeroModes)).outcome = .ok sf)
      ∧ ((PhononMode.new0 : PhononMode ℚ).computeAllEigen exEnv exDdb
          none (some zeroModes)).modes = some zeroModes
      ∧ zeroModes 0 = 0
      ∧ ∃ md', ((PhononMode.new0 : PhononMode ℚ).computeAllEigen exEnv exDdb
          (some zeroFreq) (some zeroModes)).modes = some md' ∧ md' 0 = 1 := by
  refine ⟨⟨_, rfl⟩, (computeAllEigen_null_freq exEnv _ exDdb _).2, rfl, ?_⟩
  have hrun : (PhononMode.new0 : PhononMode ℚ).computeAllEigen exEnv exDdb
        (some zeroFreq) (some zeroModes)
      = allEigenLoop exEnv exDdb [⟨0, 0, 0⟩] exBulkStart 0
          (some zeroFreq) (some zeroModes) := by
    unfold PhononMode.computeAllEigen
    rw [exBulkStart_ok]
    rfl
  obtain ⟨f', md', hf, hm, -, hm0⟩ := exBulkFirst_buffers
  rw [hrun, allEigenLoop_step exEnv exDdb ⟨0, 0, 0⟩ _ _ exBulkFirst 0 _ _ exRecords rfl
      exBulkFirst_ok,
    allEigenLoop_nil, hm]
  exact ⟨md', rfl, hm0⟩

/-- Witness of C13: a fresh object, the one-atom dataset `pairDdb` with its two
q-points, and two buffers of zeros. -/
theorem computeAllEigen_layout_witness :
    ∃ sf, ((PhononMode.new0 : PhononMode ℚ).computeAllEigen exEnv pairDdb
          (some zeroFreq) (some zeroModes)).outcome = .ok sf
      ∧ pairDdb.getQpts.length * (9 * pairDdb.natom * pairDdb.natom) < 2 ^ 32
      ∧ ∃ f' md',
          ((PhononMode.new0 : PhononMode ℚ).computeAllEigen exEnv pairDdb
              (some zeroFreq) (some zeroModes)).freq = some f'
          ∧ ((PhononMode.new0 : PhononMode ℚ).computeAllEigen exEnv pairDdb
              (some zeroFreq) (some zeroModes)).modes = some md'
          ∧ (∀ j, pairDdb.getQpts.length * (3 * pairDdb.natom) ≤ j → f' j = zeroFreq j)
          ∧ (∀ j, pairDdb.getQpts.length * (9 * pairDdb.natom * pairDdb.natom) ≤ j →
              md' j = zeroModes j)
          ∧ ∀ k q, pairDdb.getQpts[k]? = some q →
              ∃ t, (PhononMode.new0 : PhononMode ℚ).computeForceCstAt exEnv q pairDdb = .ok t
                ∧ (∀ m, m < 3 * pairDdb.natom →
                    f' (k * (3 * pairDdb.natom) + m)
                      = (t.computeEigen exEnv none none).1._frequencies.get m)
                ∧ (∀ m c, m < 3 * pairDdb.natom → c < 3 * pairDdb.natom →
                    md' (k * (9 * pairDdb.natom * pairDdb.natom) + m * (3 * pairDdb.natom) + c)
                      = (t.computeEigen exEnv none none).1._eigenDisp.get m c) :=
  ⟨_, rfl, by decide,
    computeAllEigen_layout exEnv PhononMode.new0 _ pairDdb zeroFreq zeroModes rfl (by decide)⟩

/-- Witness of C14: a fresh object, the dataset `twoQDdb` whose second q-point has no
records, and two buffers of zeros. -/
theorem computeAllEigen_failure_buffers_witness :
    ∃ e, ((PhononMode.new0 : PhononMode ℚ).computeAllEigen exEnv twoQDdb
          (some zeroFreq) (some zeroModes)).outcome = .error e
      ∧ twoQDdb.getQpts.length * (9 * twoQDdb.natom * twoQDdb.natom) < 2 ^ 32
      ∧ ∃ k f' md', (k < twoQDdb.getQpts.length ∨ k = 0)
          ∧ ((PhononMode.new0 : PhononMode ℚ).computeAllEigen exEnv twoQDdb
              (some zeroFreq) (some zeroModes)).freq = some f'
          ∧ ((PhononMode.new0 : PhononMode ℚ).computeAllEigen exEnv twoQDdb
              (some zeroFreq) (some zeroModes)).modes = some md'
          ∧ (∀ j, k * (3 * twoQDdb.natom) ≤ j → f' j = zeroFreq j)
          ∧ (∀ j, k * (9 * twoQDdb.natom * twoQDdb.natom) ≤ j → md' j = zeroModes j)
          ∧ ∀ k' q, k' < k → twoQDdb.getQpts[k']? = some q →
              ∃ t, (PhononMode.new0 : PhononMode ℚ).computeForceCstAt exEnv q twoQDdb = .ok t
                ∧ (∀ m, m < 3 * twoQDdb.natom →
                    f' (k' * (3 * twoQDdb.natom) + m)
                      = (t.computeEigen exEnv none none).1._frequencies.get m)
                ∧ (∀ m c, m < 3 * twoQDdb.natom → c < 3 * twoQDdb.natom →
                    md' (k' * (9 * twoQDdb.natom * twoQDdb.natom)
                        + m * (3 * twoQDdb.natom) + c)
                      = (t.computeEigen exEnv none none).1._eigenDisp.get m c) :=
  ⟨_, rfl, by decide,
    computeAllEigen_failure_buffers exEnv PhononMode.new0 twoQDdb zeroFreq zeroModes _ rfl
      (by decide)⟩

end BulkExample

/-! ## Order of the frequencies -/

section FrequencyOrder

variable {R : Type} [LinearOrderedField R]

theorem mul_abs_mono (x y : R) (h : x ≤ y) : x * |x| ≤ y * |y| := by
  rcases le_total 0 x with hx | hx
  · have hy : 0 ≤ y := le_trans hx h
    rw [abs_of_nonneg hx, abs_of_nonneg hy]
    exact mul_le_mul h h hx hy
  · rcases le_total 0 y with hy | hy
    · rw [abs_of_nonpos hx, abs_of_nonneg hy]
      have h1 : x * -x ≤ 0 := by nlinarith
      have h2 : 0 ≤ y * y := mul_nonneg hy hy
      exact le_trans h1 h2
    · rw [abs_of_nonpos hx, abs_of_nonpos hy]
      nlinarith

/-- Where `sqrt` is exact on the two magnitudes, the map of the frequency loop of
`computeEigen` is strictly increasing. -/
theorem signedSqrt_lt (env : Env R) (a b : R) (ha0 : 0 ≤ env.sqrt |a|)
    (ha : env.sqrt |a| * env.sqrt |a| = |a|) (hb0 : 0 ≤ env.sqrt |b|)
    (hb : env.sqrt |b| * env.sqrt |b| = |b|) (hab : a < b) :
    signedSqrt env a < signedSqrt env b := by
  by_contra hcon
  have hle : signedSqrt env b ≤ signedSqrt env a := not_lt.1 hcon
  have h1 := mul_abs_mono _ _ hle
  rw [(signedSqrt_spec env a ha0 ha).2.2.2, (signedSqrt_spec env b hb0 hb).2.2.2] at h1
  exact absurd hab (not_lt.2 h1)

/-- C21: order of the frequencies.  For an object whose eigenvalues have exact square
roots of their magnitudes and are returned by the solver in non-decreasing order: the
map `v < 0 ? -sqrt(-v) : sqrt(v)` of `computeEigen` is strictly increasing wherever the
square root is exact; two frequencies compare as their eigenvalues do; the frequency
vector is non-decreasing; and each of the entries 0, 1, 2 is at most every entry from 3
on, the modes that `lin_res` keeps in its polarity sum. -/
theorem computeEigen_frequencies_sorted (env : Env R) (s : PhononMode R)
    (freq : Option (Nat → R)) (mode : Option (Nat → Cx R))
    (hs0 : ∀ i, i < 3 * s._natom → 0 ≤ env.sqrt |s.eigenvalue env i|)
    (hs : ∀ i, i < 3 * s._natom →
      env.sqrt |s.eigenvalue env i| * env.sqrt |s.eigenvalue env i| = |s.eigenvalue env i|)
    (hsort : ∀ i j, i ≤ j → j < 3 * s._natom → s.eigenvalue env i ≤ s.eigenvalue env j) :
    (∀ a b, 0 ≤ env.sqrt |a| → env.sqrt |a| * env.sqrt |a| = |a| →
        0 ≤ env.sqrt |b| → env.sqrt |b| * env.sqrt |b| = |b| →
        a < b → signedSqrt env a < signedSqrt env b)
      ∧ (∀ i j, i < 3 * s._natom → j < 3 * s._natom →
          (s.eigenvalue env i < s.eigenvalue env j
            ↔ (s.computeEigen env freq mode).1._frequencies.get i
                < (s.computeEigen env freq mode).1._frequencies.get j))
      ∧ (∀ i j, i ≤ j → j < 3 * s._natom →
          (s.computeEigen env freq mode).1._frequencies.get i
            ≤ (s.computeEigen env freq mode).1._frequencies.get j)
      ∧ (∀ k m, k < 3 → 3 ≤ m → m < 3 * s._natom →
          (s.computeEigen env freq mode).1._frequencies.get k
            ≤ (s.computeEigen env freq mode).1._frequencies.get m) := by
  have hiff : ∀ i j, i < 3 * s._natom → j < 3 * s._natom →
      (s.eigenvalue env i < s.eigenvalue env j
        ↔ (s.computeEigen env freq mode).1._frequencies.get i
            < (s.computeEigen env freq mode).1._frequencies.get j) := by
    intro i j hi hj
    rw [computeEigen_frequencies_get env s freq mode i hi,
      computeEigen_frequencies_get env s freq mode j hj]
    constructor
    · exact signedSqrt_lt env _ _ (hs0 i hi) (hs i hi) (hs0 j hj) (hs j hj)
    · intro hlt
      by_contra hcon
      rcases lt_or_eq_of_le (not_lt.1 hcon) with h1 | h1
      · exact absurd hlt (not_lt.2 (le_of_lt
          (signedSqrt_lt env _ _ (hs0 j hj) (hs j hj) (hs0 i hi) (hs i hi) h1)))
      · rw [h1] at hlt
        exact lt_irrefl _ hlt
  have hmono : ∀ i j, i ≤ j → j < 3 * s._natom →
      (s.computeEigen env freq mode).1._frequencies.get i
        ≤ (s.computeEigen env freq mode).1._frequencies.get j := by
    intro i j hij hj
    have hi : i < 3 * s._natom := lt_of_le_of_lt hij hj
    by_contra hcon
    have h1 := (hiff j i hj hi).2 (not_le.1 hcon)
    exact absurd (hsort i j hij hj) (not_le.2 h1)
  exact ⟨fun a b ha0 ha hb0 hb hab => signedSqrt_lt env a b ha0 ha hb0 hb hab, hiff, hmono,
    fun k m hk hm hm3 => hmono k m (by omega) hm3⟩

end FrequencyOrder

section FrequencyOrderExample

theorem stable_eigenvalue (i : Nat) :
    stableGamma.eigenvalue stableEnv i = if i < 3 then 1 / 10 ^ 20 else 25 := rfl

theorem stable_eigenvalue_sqrt (i : Nat) :
    stableEnv.sqrt |stableGamma.eigenvalue stableEnv i| = if i < 3 then 1 / 10 ^ 10 else 5 := by
  rw [stable_eigenvalue]
  by_cases h : i < 3
  · rw [if_pos h, if_pos h]
    have e : |(1 : ℚ) / 10 ^ 20| = (1 / 10 ^ 10) * (1 / 10 ^ 10) := by
      rw [abs_of_nonneg (by norm_num)]
      norm_num
    rw [e, stable_sqrt_sq _ (by norm_num)]
  · rw [if_neg h, if_neg h]
    have e : |(25 : ℚ)| = 5 * 5 := by
      rw [abs_of_nonneg (by norm_num)]
      norm_num
    rw [e, stable_sqrt_sq _ (by norm_num)]

/-- Witness of C21: the gamma-point object of the stable two-atom dataset, whose
eigenvalues are `10^-20` (three times) and 25 (three times). -/
theorem computeEigen_frequencies_sorted_witness :
    (∀ i j, i ≤ j → j < 3 * stableGamma._natom →
        stableGamma.eigenvalue stableEnv i ≤ stableGamma.eigenvalue stableEnv j)
      ∧ (∀ i j, i < 3 * stableGamma._natom → j < 3 * stableGamma._natom →
          (stableGamma.eigenvalue stableEnv i < stableGamma.eigenvalue stableEnv j
            ↔ (stableGamma.computeEigen stableEnv none none).1._frequencies.get i
                < (stableGamma.computeEigen stableEnv none none).1._frequencies.get j))
      ∧ (∀ i j, i ≤ j → j < 3 * stableGamma._natom →
          (stableGamma.computeEigen stableEnv none none).1._frequencies.get i
            ≤ (stableGamma.computeEigen stableEnv none none).1._frequencies.get j)
      ∧ (∀ k m, k < 3 → 3 ≤ m → m < 3 * stableGamma._natom →
          (stableGamma.computeEigen stableEnv none none).1._frequencies.get k
            ≤ (stableGamma.computeEigen stableEnv none none).1._frequencies.get m) := by
  have hsort : ∀ i j, i ≤ j → j < 3 * stableGamma._natom →
      stableGamma.eigenvalue stableEnv i ≤ stableGamma.eigenvalue stableEnv j := by
    intro i j hij hj
    rw [stable_eigenvalue, stable_eigenvalue]
    by_cases h1 : j < 3
    · rw [if_pos h1, if_pos (by omega)]
    · rw [if_neg h1]
      split <;> norm_num
  exact ⟨hsort,
    (computeEigen_frequencies_sorted stableEnv stableGamma none none
      (fun i _ => by
        rw [stable_eigenvalue_sqrt]
        split <;> norm_num)
      (fun i _ => by
        rw [stable_eigenvalue_sqrt, stable_eigenvalue]
        by_cases h : i < 3
        · rw [if_pos h, if_pos h, abs_of_nonneg (by norm_num)]
          norm_num
        · rw [if_neg h, if_neg h, abs_of_nonneg (by norm_num)]
          norm_num)
      hsort).2⟩

end FrequencyOrderExample

/-! ## Assembling the same records twice -/

section Reassembly

variable {R : Type} [LinearOrderedField R]

theorem basisLines_dims (G : Nat → Nat → R) (natom : Nat) (M : Mat (Cx R)) :
    (basisLines G natom M).rows = M.rows ∧ (basisLines G natom M).cols = M.cols := by
  unfold basisLines
  apply forRange_mat_dims
  intro i M1
  apply forRange_mat_dims
  intro j M2
  apply forRange_mat_dims
  intro k M3
  exact ⟨rfl, rfl⟩

theorem basisColumns_dims (G : Nat → Nat → R) (natom : Nat) (M : Mat (Cx R)) :
    (basisColumns G natom M).rows = M.rows ∧ (basisColumns G natom M).cols = M.cols := by
  unfold basisColumns
  apply forRange_mat_dims
  intro i M1
  apply forRange_mat_dims
  intro j M2
  apply forRange_mat_dims
  intro k M3
  exact ⟨rfl, rfl⟩

theorem applyLoop_dims (asr : Mat (Cx R)) (n : Nat) (M : Mat (Cx R)) :
    (forRange n (applyASRStep asr) M).rows = M.rows
      ∧ (forRange n (applyASRStep asr) M).cols = M.cols := by
  apply forRange_mat_dims
  intro i M1
  unfold applyASRStep subAt Mat.set
  exact ⟨rfl, rfl⟩

theorem ingestFold_matrix_dims (natom : Nat) (ddb : List (D2der R))
    (acc : Mat (Cx R) × Mat Bool) :
    (ddb.foldl (ingest natom) acc).1.rows = acc.1.rows
      ∧ (ddb.foldl (ingest natom) acc).1.cols = acc.1.cols := by
  induction ddb generalizing acc with
  | nil => exact ⟨rfl, rfl⟩
  | cons elt rest ih =>
    simp only [List.foldl_cons]
    obtain ⟨h1, h2⟩ := ih (ingest natom acc elt)
    have h3 : (ingest natom acc elt).1.rows = acc.1.rows
        ∧ (ingest natom acc elt).1.cols = acc.1.cols := by
      unfold ingest
      simp only []
      split
      · exact ⟨rfl, rfl⟩
      · exact ⟨rfl, rfl⟩
    exact ⟨h1.trans h3.1, h2.trans h3.2⟩

/-- The record loop writes to no cell outside the `3 natom × 3 natom` block. -/
theorem ingestFold_outside (natom : Nat) (ddb : List (D2der R)) (acc : Mat (Cx R) × Mat Bool)
    (r c : Nat) (hout : ¬ (r < 3 * natom ∧ c < 3 * natom)) :
    (ddb.foldl (ingest natom) acc).1.get r c = acc.1.get r c := by
  induction ddb generalizing acc with
  | nil => rfl
  | cons elt rest ih =>
    simp only [List.foldl_cons]
    rw [ih]
    unfold ingest
    simp only []
    split
    · rfl
    · rename_i hin
      simp only [not_not] at hin
      rw [mat_get_set, if_neg]
      rintro ⟨h1, h2⟩
      exact hout ⟨by omega, by omega⟩

/-- The matrix `computeForceCst` leaves: outside the block it is the matrix the call
started with, and its dimensions are those of that matrix. -/
theorem computeForceCst_frame (s t : PhononMode R) (ddb : List (D2der R))
    (h : s.computeForceCst ddb = .ok t) :
    t._d2cart.rows = s._d2cart.rows ∧ t._d2cart.cols = s._d2cart.cols
      ∧ ∀ r c, ¬ (r < 3 * s._natom ∧ c < 3 * s._natom) →
          t._d2cart.get r c = s._d2cart.get r c := by
  obtain ⟨-, -, -, hD, -⟩ := computeForceCst_ok_cases s t ddb h
  have hfold := ingestFold_matrix_dims s._natom ddb
    (s._d2cart, (Mat.fill (3 * s._natom) (3 * s._natom) true : Mat Bool))
  have hout : ∀ r c, ¬ (r < 3 * s._natom ∧ c < 3 * s._natom) →
      (basisColumns s._gprim s._natom (basisLines s._gprim s._natom
        (ddb.foldl (ingest s._natom)
          (s._d2cart, (Mat.fill (3 * s._natom) (3 * s._natom) true : Mat Bool))).1)).get r c
        = s._d2cart.get r c := by
    intro r c hrc
    rw [basisColumns_get, if_neg hrc, basisLines_get, if_neg hrc,
      ingestFold_outside s._natom ddb _ r c hrc]
  have hdim := basisColumns_dims s._gprim s._natom (basisLines s._gprim s._natom
    (ddb.foldl (ingest s._natom)
      (s._d2cart, (Mat.fill (3 * s._natom) (3 * s._natom) true : Mat Bool))).1)
  have hdim2 := basisLines_dims s._gprim s._natom
    (ddb.foldl (ingest s._natom)
      (s._d2cart, (Mat.fill (3 * s._natom) (3 * s._natom) true : Mat Bool))).1
  rw [hD]
  by_cases hasr : s._hasASR = true
  · rw [if_pos hasr]
    have hd3 := applyLoop_dims s._asr s._natom
      (basisColumns s._gprim s._natom (basisLines s._gprim s._natom
        (ddb.foldl (ingest s._natom)
          (s._d2cart, (Mat.fill (3 * s._natom) (3 * s._natom) true : Mat Bool))).1))
    refine ⟨hd3.1.trans (hdim.1.trans (hdim2.1.trans hfold.1)),
      hd3.2.trans (hdim.2.trans (hdim2.2.trans hfold.2)), ?_⟩
    intro r c hrc
    rw [applyLoop_get, if_neg, hout r c hrc]
    rintro ⟨h1, h2⟩
    exact hrc ⟨h1, by omega⟩
  · rw [if_neg hasr]
    exact ⟨hdim.1.trans (hdim2.1.trans hfold.1), hdim.2.trans (hdim2.2.trans hfold.2), hout⟩

/-- After a complete record loop the matrix does not depend on what the block held
before: two start matrices with the same dimensions that agree outside the block give
the same matrix. -/
theorem ingestFold_overwrites (natom : Nat) (ddb : List (D2der R)) (M M' : Mat (Cx R))
    (hany : (ddb.foldl (ingest natom)
      (M, (Mat.fill (3 * natom) (3 * natom) true : Mat Bool))).2.any = false)
    (hr : M'.rows = M.rows) (hc : M'.cols = M.cols)
    (hout : ∀ r c, ¬ (r < 3 * natom ∧ c < 3 * natom) → M'.get r c = M.get r c) :
    (ddb.foldl (ingest natom) (M', (Mat.fill (3 * natom) (3 * natom) true : Mat Bool))).1
      = (ddb.foldl (ingest natom) (M, (Mat.fill (3 * natom) (3 * natom) true : Mat Bool))).1 := by
  have hany' : (ddb.foldl (ingest natom)
      (M', (Mat.fill (3 * natom) (3 * natom) true : Mat Bool))).2.any = false := by
    rw [ingestFold_mask_indep natom ddb M' M]
    exact hany
  apply mat_ext_get
  · exact (ingestFold_matrix_dims natom ddb (M', _)).1.trans
      (hr.trans (ingestFold_matrix_dims natom ddb (M, _)).1.symm)
  · exact (ingestFold_matrix_dims natom ddb (M', _)).2.trans
      (hc.trans (ingestFold_matrix_dims natom ddb (M, _)).2.symm)
  · intro r c
    by_cases hrc : r < 3 * natom ∧ c < 3 * natom
    · have er : r / 3 * 3 + r % 3 = r := by omega
      have ec : c / 3 * 3 + c % 3 = c := by omega
      have h1 := ingestFold_value_complete natom ddb M hany (c % 3) (c / 3) (r % 3) (r / 3)
        (by omega) (by omega) (by omega) (by omega)
      have h2 := ingestFold_value_complete natom ddb M' hany' (c % 3) (c / 3) (r % 3) (r / 3)
        (by omega) (by omega) (by omega) (by omega)
      rw [er, ec] at h1 h2
      rw [h1, h2]
    · rw [ingestFold_outside natom ddb _ r c hrc, ingestFold_outside natom ddb _ r c hrc]
      exact hout r c hrc

/-- C22: re-assembly does not accumulate.  For every object, with or without a
computed ASR correction, and every record set on which `computeForceCst(records)`
returns, a second call of `computeForceCst(records)` on the resulting object returns
as well and leaves `_d2cart` equal to the matrix the first call left. -/
theorem computeForceCst_twice (s t : PhononMode R) (ddb : List (D2der R))
    (h : s.computeForceCst ddb = .ok t) :
    ∃ t2, t.computeForceCst ddb = .ok t2 ∧ t2._d2cart = t._d2cart := by
  obtain ⟨h0, h1, hany, hD, hn, hasr, hg, ha, -⟩ := computeForceCst_ok_cases s t ddb h
  obtain ⟨hr, hc, hout⟩ := computeForceCst_frame s t ddb h
  have hfold := ingestFold_overwrites s._natom ddb s._d2cart t._d2cart hany hr hc hout
  have hany2 : (ddb.foldl (ingest t._natom)
      (t._d2cart, (Mat.fill (3 * t._natom) (3 * t._natom) true : Mat Bool))).2.any = false := by
    rw [hn, ingestFold_mask_indep s._natom ddb t._d2cart s._d2cart]
    exact hany
  obtain ⟨t2, ht2⟩ := computeForceCst_of_checks t ddb (by rw [hn]; exact h0)
    (by rw [hn]; exact h1) hany2
  refine ⟨t2, ht2, ?_⟩
  obtain ⟨-, -, -, hD2, -⟩ := computeForceCst_ok_cases t t2 ddb ht2
  rw [hD2, hn, hasr, hg, ha, hfold]
  exact hD.symm

end Reassembly

section ReassemblyExample

/-- Witness of C22: the one-atom object with the ASR correction of `exDdb` and the nine
records `exRecords`. -/
theorem computeForceCst_twice_witness :
    exCorrection._hasASR = true
      ∧ ∃ t, exCorrection.computeForceCst exRecords = .ok t
          ∧ ∃ t2, t.computeForceCst exRecords = .ok t2 ∧ t2._d2cart = t._d2cart :=
  ⟨rfl, _, rfl, computeForceCst_twice exCorrection _ exRecords rfl⟩

end ReassemblyExample

/-! ## Bulk diagonalisation when an offset wraps -/

section BulkWrap

variable {R : Type} [LinearOrderedField R]

theorem mat_any_false_of_get (M : Mat Bool)
    (h : ∀ r c, r < M.rows → c < M.cols → M.get r c = false) : M.any = false := by
  unfold Mat.any
  rw [List.any_eq_false]
  intro r hr
  rw [Bool.not_eq_true, List.any_eq_false]
  intro c hc
  rw [Bool.not_eq_true]
  exact h r c (List.mem_range.1 hr) (List.mem_range.1 hc)

theorem ingest_check_false (natom : Nat) (acc : Mat (Cx R) × Mat Bool) (elt : D2der R)
    (r c : Nat) (h : acc.2.get r c = false) : (ingest natom acc elt).2.get r c = false := by
  unfold ingest
  simp only []
  split
  · exact h
  · rw [mat_get_set]
    split
    · rfl
    · exact h

theorem ingestFold_check_false (natom : Nat) (ddb : List (D2der R))
    (acc : Mat (Cx R) × Mat Bool) (r c : Nat) (h : acc.2.get r c = false) :
    (ddb.foldl (ingest natom) acc).2.get r c = false := by
  induction ddb generalizing acc with
  | nil => exact h
  | cons elt rest ih =>
    simp only [List.foldl_cons]
    exact ih _ (ingest_check_false natom acc elt r c h)

/-- A record of a cell inside the dimensions clears the mask at that cell. -/
theorem ingestFold_check_hit (natom : Nat) (ddb : List (D2der R))
    (acc : Mat (Cx R) × Mat Bool) (d1 a1 d2 a2 : Nat) (hd1 : d1 < 3) (hd2 : d2 < 3)
    (ha1 : a1 < natom) (ha2 : a2 < natom)
    (hin : ∃ elt, elt ∈ ddb ∧ elt.first = (d1, a1, d2, a2)) :
    (ddb.foldl (ingest natom) acc).2.get (a2 * 3 + d2) (a1 * 3 + d1) = false := by
  induction ddb generalizing acc with
  | nil =>
    obtain ⟨elt, he, -⟩ := hin
    cases he
  | cons e rest ih =>
    simp only [List.foldl_cons]
    by_cases hfirst : e.first = (d1, a1, d2, a2)
    · apply ingestFold_check_false
      unfold ingest
      simp only [hfirst]
      rw [if_neg (by simp only [not_not]; exact ⟨hd1, hd2, ha1, ha2⟩), mat_get_set,
        if_pos ⟨rfl, rfl⟩]
    · apply ih
      obtain ⟨elt, he, hf⟩ := hin
      rcases List.mem_cons.1 he with h1 | h1
      · rw [h1] at hf
        exact absurd hf hfirst
      · exact ⟨elt, h1, hf⟩

/-- A record set with a record for every cell passes the completeness check. -/
theorem ingestFold_mask_complete (natom : Nat) (ddb : List (D2der R)) (M : Mat (Cx R))
    (hcover : ∀ d1 a1 d2 a2, d1 < 3 → d2 < 3 → a1 < natom → a2 < natom →
      ∃ elt, elt ∈ ddb ∧ elt.first = (d1, a1, d2, a2)) :
    (ddb.foldl (ingest natom)
      (M, (Mat.fill (3 * natom) (3 * natom) true : Mat Bool))).2.any = false := by
  apply mat_any_false_of_get
  intro r c hr hc
  obtain ⟨h1, h2⟩ := ingestFold_dims natom ddb
    (M, (Mat.fill (3 * natom) (3 * natom) true : Mat Bool))
  rw [h1] at hr
  rw [h2] at hc
  have hr' : r < 3 * natom := hr
  have hc' : c < 3 * natom := hc
  have h := ingestFold_check_hit natom ddb
    (M, (Mat.fill (3 * natom) (3 * natom) true : Mat Bool)) (c % 3) (c / 3) (r % 3) (r / 3)
    (by omega) (by omega) (by omega) (by omega)
    (hcover (c % 3) (c / 3) (r % 3) (r / 3) (by omega) (by omega) (by omega) (by omega))
  have er : r / 3 * 3 + r % 3 = r := by omega
  have ec : c / 3 * 3 + c % 3 = c := by omega
  rw [er, ec] at h
  exact h

/-- The mass loop of a normalised dataset returns and sets every mass to 1. -/
theorem massLoop_normalized (env : Env R) (ddb : Ddb R) (n : Nat) (s : PhononMode R) :
    ∃ t, forRangeE n (massStep env ddb true) s = .ok t ∧ ∀ i, i < n → t._mass.get i = 1 := by
  induction n with
  | zero => exact ⟨s, rfl, fun i hi => by omega⟩
  | succ k ih =>
    obtain ⟨u, hu, hmu⟩ := ih
    refine ⟨{ u with _mass := u._mass.set k 1 }, ?_, ?_⟩
    · rw [forRangeE_succ, hu]
      rfl
    · intro i hi
      show (u._mass.set k 1).get i = 1
      rw [vec_get_set]
      by_cases h : i = k
      · rw [if_pos h]
      · rw [if_neg h]
        exact hmu i (by omega)

end BulkWrap

section BulkWrapExample

/-- With the solver of `exEnv`, whose eigenvectors are the identity, the
eigen-displacement matrix of an object is the identity on the atoms of unit mass. -/
theorem identity_eigenDisp (t : PhononMode ℚ) (m c : Nat) (hm : m < 3 * t._natom)
    (hc : c < 3 * t._natom) (hmass : t._mass.get (c / 3) = 1) :
    (t.computeEigenState exEnv)._eigenDisp.get m c = if c = m then 1 else 0 := by
  have hs1 : exEnv.sqrt 1 = 1 := by
    have := exEnv_sqrt_one
    rwa [one_mul] at this
  have hV : ∀ i k, (t.solvedEigenVec exEnv).get i k = if i = k then 1 else 0 :=
    fun _ _ => rfl
  have hz : colSquaredNorm (3 * t._natom) (t.solvedEigenVec exEnv) m = 1 := by
    rw [colSquaredNorm_eq, Finset.sum_eq_single m]
    · rw [hV, if_pos rfl]
      simp [Cx.normSq]
    · intro b _ hb
      rw [hV, if_neg hb]
      simp [Cx.normSq]
    · intro h
      exact absurd (Finset.mem_range.2 hm) h
  have hcol : normalizedCol exEnv (3 * t._natom) (t.solvedEigenVec exEnv) m c
      = if c = m then 1 else 0 := by
    unfold normalizedCol
    simp only []
    rw [hz, if_pos (by norm_num), hV, hs1]
    by_cases h : c = m
    · rw [if_pos h]
      apply Cx.ext_iff'.2
      constructor <;> simp [Cx.divReal]
    · rw [if_neg h]
      apply Cx.ext_iff'.2
      constructor <;> simp [Cx.divReal]
  have hcol2 : normalizedCol exEnv (3 * t._natom)
      { rows := 3 * t._natom, cols := 3 * t._natom,
        data := (exEnv.solver (3 * t._natom) (solverInput exEnv t).data).2 } m c
        = if c = m then 1 else 0 := hcol
  rw [computeEigenState_eigenDisp_get exEnv t m c hm hc, hcol2, hmass, hs1]
  have hsn : snap (1 : ℚ) = 1 := by
    unfold snap noiseEps
    rw [if_pos (by norm_num)]
  have hsn0 : snap (0 : ℚ) = 0 := by
    unfold snap
    simp
  by_cases h : c = m
  · rw [if_pos h]
    have e1 : ((1 : Cx ℚ).scale (1 / 1)).re = 1 := by simp [Cx.scale]
    have e2 : ((1 : Cx ℚ).scale (1 / 1)).im = 0 := by simp [Cx.scale]
    rw [e1, e2, hsn, hsn0]
    rfl
  · rw [if_neg h]
    have e1 : ((0 : Cx ℚ).scale (1 / 1)).re = 0 := by simp [Cx.scale]
    have e2 : ((0 : Cx ℚ).scale (1 / 1)).im = 0 := by simp [Cx.scale]
    rw [e1, e2, hsn0]
    rfl

theorem wideRecords_cover (d1 a1 d2 a2 : Nat) (hd1 : d1 < 3) (hd2 : d2 < 3)
    (ha1 : a1 < 21846) (ha2 : a2 < 21846) :
    ∃ elt, elt ∈ wideRecords ∧ elt.first = (d1, a1, d2, a2) := by
  unfold wideRecords
  refine ⟨_, List.mem_map.2 ⟨((a2 * 3 + d2) * 21846 + a1) * 3 + d1, List.mem_range.2 ?_, rfl⟩, ?_⟩
  · omega
  · show (_, _, _, _) = (d1, a1, d2, a2)
    have e1 : (((a2 * 3 + d2) * 21846 + a1) * 3 + d1) % 3 = d1 := by omega
    have e2 : (((a2 * 3 + d2) * 21846 + a1) * 3 + d1) / 3 % 21846 = a1 := by omega
    have e3 : (((a2 * 3 + d2) * 21846 + a1) * 3 + d1) / 65538 % 3 = d2 := by omega
    have e4 : (((a2 * 3 + d2) * 21846 + a1) * 3 + d1) / 196614 = a2 := by omega
    rw [e1, e2, e3, e4]

/-- The records `wideRecords` assemble on every object of 21846 atoms. -/
theorem wide_assemble (s : PhononMode ℚ) (hn : s._natom = 21846) :
    ∃ u, s.computeForceCst wideRecords = .ok u ∧ u._natom = 21846 ∧ u._mass = s._mass := by
  have hlen : wideRecords.length = 9 * 21846 * 21846 := by
    unfold wideRecords
    rw [List.length_map, List.length_range]
  obtain ⟨u, hu⟩ := computeForceCst_of_checks s wideRecords (by rw [hn]; decide)
    (by
      rw [hn, hlen]
      have : u32 (21846 * 21846 * 9) ≤ 21846 * 21846 * 9 := Nat.mod_le _ _
      omega)
    (by
      rw [hn]
      exact ingestFold_mask_complete 21846 wideRecords _ wideRecords_cover)
  obtain ⟨-, -, -, -, hnu, -, -, -, hmu⟩ := computeForceCst_ok_cases s u wideRecords hu
  exact ⟨u, hu, hnu.trans hn, hmu⟩

/-- Counterexample of C13: `computeAllEigen` on a fresh object with the dataset
`wideDdb` (21846 atoms, two q-points, so that `K * 9 N² = 2 * 4295229444` is not below
`2^32`) and two buffers of zeros.  The call returns.  The `unsigned` offset
`1*3*N*3*N` of the second q-point wraps to 262148, so component 0 of mode 0 of the
second q-point, which is 1, is written at `modes[262148]`, inside the window of the
first q-point, and `modes[1 * 9 N² + 0 * 3 N + 0]` holds the 0 of another component. -/
theorem computeAllEigen_offset_wraps :
    2 ^ 32 ≤ wideDdb.getQpts.length * (9 * wideDdb.natom * wideDdb.natom)
      ∧ wideDdb.getQpts[1]? = some ⟨1 / 2, 0, 0⟩
      ∧ ∃ sf md' t,
        ((PhononMode.new0 : PhononMode ℚ).computeAllEigen exEnv wideDdb
            (some zeroFreq) (some zeroModes)).outcome = .ok sf
        ∧ ((PhononMode.new0 : PhononMode ℚ).computeAllEigen exEnv wideDdb
            (some zeroFreq) (some zeroModes)).modes = some md'
        ∧ (PhononMode.new0 : PhononMode ℚ).computeForceCstAt exEnv ⟨1 / 2, 0, 0⟩ wideDdb = .ok t
        ∧ (t.computeEigen exEnv none none).1._eigenDisp.get 0 0 = 1
        ∧ md' (1 * (9 * wideDdb.natom * wideDdb.natom) + 0 * (3 * wideDdb.natom) + 0) = 0
        ∧ md' 262148 = 1 := by
  refine ⟨by decide, rfl, ?_⟩
  -- the head of the call
  obtain ⟨s4, h4, hm4⟩ := massLoop_normalized exEnv wideDdb 21846
    ({ ({ ({ (PhononMode.new0 : PhononMode ℚ) with _natom := 21846 } : PhononMode ℚ) with
          _d2cart := (PhononMode.new0 : PhononMode ℚ)._d2cart.resize (3 * 21846) (3 * 21846)
          _eigenVec := (PhononMode.new0 : PhononMode ℚ)._eigenVec.resize (3 * 21846) (3 * 21846)
          _eigenDisp := (PhononMode.new0 : PhononMode ℚ)._eigenDisp.resize (3 * 21846) (3 * 21846)
          _frequencies := (PhononMode.new0 : PhononMode ℚ)._frequencies.resize (3 * 21846)
          _mass := (PhononMode.new0 : PhononMode ℚ)._mass.resizeZero 21846 } : PhononMode ℚ) with
        _gprim := fun r c => wideDdb.gprim (3 * r + c) } : PhononMode ℚ)
  have hinit : (PhononMode.new0 : PhononMode ℚ).allEigenInit exEnv wideDdb = .ok s4 := h4
  have hn4 : s4._natom = 21846 := allEigenInit_natom exEnv _ s4 wideDdb hinit
  -- first q-point
  obtain ⟨u0, hu0, hnu0, hmu0⟩ := wide_assemble ({ s4 with _qpt := ⟨0, 0, 0⟩ }) hn4
  -- second q-point
  obtain ⟨u1, hu1, hnu1, hmu1⟩ := wide_assemble
    ({ (u0.computeEigenState exEnv) with _qpt := ⟨1 / 2, 0, 0⟩ }) hnu0
  have hmass1 : ∀ i, i < 21846 → u1._mass.get i = 1 := by
    intro i hi
    rw [hmu1]
    show u0._mass.get i = 1
    rw [hmu0]
    exact hm4 i hi
  -- the reference call
  obtain ⟨s3, h3, hm3⟩ := massLoop_normalized exEnv wideDdb 21846
    ({ (PhononMode.new0 : PhononMode ℚ).resize wideDdb.natom with
        _gprim := fun r c => wideDdb.gprim (3 * r + c), _qpt := ⟨1 / 2, 0, 0⟩ })
  have hn3 : s3._natom = 21846 := (massLoop_fields exEnv wideDdb true 21846 _ s3 h3).1
  obtain ⟨t, ht, hnt, hmt⟩ := wide_assemble s3 hn3
  have hat : (PhononMode.new0 : PhononMode ℚ).computeForceCstAt exEnv ⟨1 / 2, 0, 0⟩ wideDdb
      = .ok t :=
    computeForceCstAt_of_steps exEnv _ s3 t ⟨1 / 2, 0, 0⟩ wideDdb wideRecords h3 rfl ht
  have href : (t.computeEigen exEnv none none).1._eigenDisp.get 0 0 = 1 := by
    show (t.computeEigenState exEnv)._eigenDisp.get 0 0 = 1
    rw [identity_eigenDisp t 0 0 (by rw [hnt]; decide) (by rw [hnt]; decide)
      (by rw [hmt]; exact hm3 0 (by decide)), if_pos rfl]
  -- the loop
  have hrun : (PhononMode.new0 : PhononMode ℚ).computeAllEigen exEnv wideDdb
        (some zeroFreq) (some zeroModes)
      = allEigenLoop exEnv wideDdb [⟨0, 0, 0⟩, ⟨1 / 2, 0, 0⟩] s4 0
          (some zeroFreq) (some zeroModes) := by
    unfold PhononMode.computeAllEigen
    rw [hinit]
    rfl
  obtain ⟨hst0, hf0, hmd0⟩ := allEigenSolve_both exEnv u0 0 zeroFreq zeroModes
  rw [hrun, allEigenLoop_step exEnv wideDdb ⟨0, 0, 0⟩ _ s4 u0 0 _ _ wideRecords rfl hu0,
    hst0, hf0, hmd0,
    allEigenLoop_step exEnv wideDdb ⟨1 / 2, 0, 0⟩ _ _ u1 1 _ _ wideRecords rfl hu1,
    allEigenLoop_nil]
  obtain ⟨-, -, hmd1⟩ := allEigenSolve_both exEnv u1 1
    (fun j => if u32 (0 * 3 * u0._natom) ≤ j ∧ j < u32 (0 * 3 * u0._natom) + 3 * u0._natom then
        (u0.computeEigenState exEnv)._frequencies.get (j - u32 (0 * 3 * u0._natom))
      else zeroFreq j)
    (fun j => if u32 (0 * 3 * u0._natom * 3 * u0._natom) ≤ j
          ∧ j < u32 (0 * 3 * u0._natom * 3 * u0._natom) + 3 * u0._natom * (3 * u0._natom) then
        (u0.computeEigenState exEnv)._eigenDisp.get
          ((j - u32 (0 * 3 * u0._natom * 3 * u0._natom)) / (3 * u0._natom))
          ((j - u32 (0 * 3 * u0._natom * 3 * u0._natom)) % (3 * u0._natom))
      else zeroModes j)
  have hoff : u32 (1 * 3 * 21846 * 3 * 21846) = 262148 := by decide
  refine ⟨_, _, t, rfl, hmd1, hat, href, ?_, ?_⟩
  · have hN : wideDdb.natom = 21846 := rfl
    simp only [hnu1, hoff, hN]
    rw [if_pos (by decide)]
    have e1 : (1 * (9 * 21846 * 21846) + 0 * (3 * 21846) + 0 - 262148) / (3 * 21846) = 65534 := by
      decide
    have e2 : (1 * (9 * 21846 * 21846) + 0 * (3 * 21846) + 0 - 262148) % (3 * 21846) = 4 := by
      decide
    rw [e1, e2, identity_eigenDisp u1 65534 4 (by rw [hnu1]; decide) (by rw [hnu1]; decide)
      (hmass1 _ (by decide)), if_neg (by decide)]
  · simp only [hnu1, hoff]
    rw [if_pos (by decide)]
    have e1 : (262148 - 262148) / (3 * 21846) = 0 := by decide
    have e2 : (262148 - 262148) % (3 * 21846) = 0 := by decide
    rw [e1, e2, identity_eigenDisp u1 0 0 (by rw [hnu1]; decide) (by rw [hnu1]; decide)
      (hmass1 _ (by decide)), if_pos rfl]

end BulkWrapExample

/-! ## A cartesian matrix that is not Hermitian -/

section SkewExample

theorem skewRecords_last (d1 d2 : Nat) (h1 : d1 < 3) (h2 : d2 < 3) :
    lastRecord (d1, 0, d2, 0) skewRecords = some (if d1 = 1 ∧ d2 = 0 then ⟨4, 0⟩ else 0) := by
  interval_cases d1 <;> interval_cases d2 <;> rfl

/-- The cartesian matrix of `skewState` is the one `computeForceCst` assembles from the
records `skewRecords` on the one-atom object `exState`, whose basis is the identity. -/
theorem skewState_assembled :
    ∃ t, exState.computeForceCst skewRecords = .ok t
      ∧ ∀ r c, r < 3 → c < 3 → t._d2cart.get r c = skewState._d2cart.get r c := by
  have hok : ∃ t, exState.computeForceCst skewRecords = .ok t := ⟨_, rfl⟩
  obtain ⟨t, ht⟩ := hok
  refine ⟨t, ht, ?_⟩
  intro r c hr hc
  obtain ⟨-, -, hany, hD, -⟩ := computeForceCst_ok_cases _ _ _ ht
  rw [hD, if_neg (by decide)]
  rw [assembled_eq_cartesianEntry exState._gprim exState._natom skewRecords _ hany r c
    (by show r < 3 * 1; omega) (by show c < 3 * 1; omega)]
  have hg : ∀ i j, exState._gprim i j = if i = j then 1 else 0 := fun _ _ => rfl
  have e1 : r / 3 = 0 := by omega
  have e2 : c / 3 = 0 := by omega
  have e3 : r % 3 = r := by omega
  have e4 : c % 3 = c := by omega
  have hl : ∀ c' d, c' < 3 → d < 3 →
      (lastRecord (d, c / 3, c', r / 3) skewRecords).getD 0
        = (if d = 1 ∧ c' = 0 then ⟨4, 0⟩ else 0) := by
    intro c' d hc' hd
    rw [e1, e2, skewRecords_last d c' hd hc']
    rfl
  have hs : skewState._d2cart.get r c = if r = 0 ∧ c = 1 then ⟨4, 0⟩ else 0 := rfl
  rw [hs]
  unfold cartesianEntry
  simp only [Finset.sum_range_succ, Finset.sum_range_zero, zero_add, hg,
    hl 0 0 (by omega) (by omega), hl 0 1 (by omega) (by omega), hl 0 2 (by omega) (by omega),
    hl 1 0 (by omega) (by omega), hl 1 1 (by omega) (by omega), hl 1 2 (by omega) (by omega),
    hl 2 0 (by omega) (by omega), hl 2 1 (by omega) (by omega), hl 2 2 (by omega) (by omega)]
  rw [e3, e4]
  interval_cases r <;> interval_cases c <;>
    simp [Cx.ofReal_one, Cx.ofReal_zero]

end SkewExample

end Agate
